import Mathlib

/-!
# VVV::Dicom (dicom.h): a shallow embedding

The C++ class `VVV::Dicom` and its nested class `VVV::Dicom::Element` are
embedded as pure functions with explicit state passing.

* A `std::istream` over a byte sequence is the record `IStream` (the bytes, the
  get position and the two state bits the program tests).
* A member function that can throw returns the exception it leaves with next to
  the state it leaves behind.
* The host byte order, which decides the layout of the `TypeTag` / `TypeVR`
  unions and of every integer read with `ist.read`, is the explicit argument
  `host_le` (true on a little-endian machine).
* The libraries the header only calls (OpenCV matrices, `boost::lexical_cast`)
  are the fields of the record `Ext`.
-/

namespace VVV

/-! ## Bytes, integers and byte order -/

abbrev Byte := UInt8

/-- The bytes of a C string literal. -/
def bytesOf (s : String) : List Byte :=
  s.toList.map (fun c => UInt8.ofNat c.toNat)

/-- The unsigned integer whose object representation, lowest address first, is
`mem` on a little-endian machine. -/
def leNat : List Byte → Nat
  | [] => 0
  | b :: bs => b.toNat + 256 * leNat bs

/-- The unsigned integer whose object representation is `mem` on a big-endian
machine. -/
def beNat (mem : List Byte) : Nat :=
  leNat mem.reverse

/-- The unsigned integer a host with byte order `host_le` sees in the memory
`mem` (what `ist.read((char *)&x, n)` leaves in `x`). -/
def load (host_le : Bool) (mem : List Byte) : Nat :=
  if host_le then leNat mem else beNat mem

/-- The function `bswap_16` of `<byteswap.h>` on a `uint16_t`. -/
def bswap_16 (x : Nat) : Nat :=
  (x % 256) * 256 + (x / 256) % 256

/-- The function `bswap_32` of `<byteswap.h>` on a `uint32_t`. -/
def bswap_32 (x : Nat) : Nat :=
  (x % 256) * 16777216 + (x / 256 % 256) * 65536 + (x / 65536 % 256) * 256
    + (x / 16777216) % 256

/-- Conversion of a `size_t` to `int` (the low 32 bits, as two's complement). -/
def toInt32 (x : Nat) : Int :=
  if x % 4294967296 < 2147483648 then ((x % 4294967296 : Nat) : Int)
  else ((x % 4294967296 : Nat) : Int) - 4294967296

/-- Search of `std::string::find(const char *)`: the first index at which
`needle` occurs in `s`, `none` for `npos`. -/
def string_find (needle : List Byte) : List Byte → Nat → Option Nat
  | [], i => if needle.isEmpty then some i else none
  | c :: cs, i =>
    if needle.isPrefixOf (c :: cs) then some i else string_find needle cs (i + 1)

/-! ## Exceptions -/

/-- The exceptions that leave the member functions of `Dicom`:
`ParseError`, its subclasses `StreamError` and `MissingTagError` (caught apart,
hence constructors of their own), a plain `std::runtime_error`,
`boost::bad_any_cast` from `Element::as<T>` and `cv::Exception`. -/
inductive Error where
  | ParseError (what : String)
  | StreamError (what : String)
  | MissingTagError (what : String)
  | runtime_error (what : String)
  | bad_any_cast
  | cv_Exception (what : String)
deriving DecidableEq, Repr

/-! ## The input stream -/

/-- A `std::istream` over the byte sequence `data`: get position and the state
bits `eofbit` and `failbit`. -/
structure IStream where
  data : List Byte
  pos : Nat
  eofbit : Bool
  failbit : Bool
deriving DecidableEq, Repr

/-- A freshly opened stream over `bs`. -/
def IStream.ofBytes (bs : List Byte) : IStream :=
  { data := bs, pos := 0, eofbit := false, failbit := false }

/-- The test `ist.good()`. -/
def IStream.good (s : IStream) : Bool :=
  !s.eofbit && !s.failbit

/-- The bytes not yet read. -/
def IStream.rest (s : IStream) : List Byte :=
  s.data.drop s.pos

/-- What the program can see of a stream: position, state bits and the bytes
not yet read. -/
def IStream.state (s : IStream) : Nat × Bool × Bool × List Byte :=
  (s.pos, s.eofbit, s.failbit, s.rest)

/-- The call `ist.read(buf, n)`: the `n` bytes read, or `none` when the stream
was not good or holds fewer than `n` further bytes (then `eofbit` and `failbit`
are set and the buffer content is not used by any caller). -/
def IStream.read (s : IStream) (n : Nat) : Option (List Byte) × IStream :=
  if s.good then
    if n ≤ s.rest.length then
      (some (s.rest.take n), { s with pos := s.pos + n })
    else
      (none, { s with pos := s.pos + s.rest.length, eofbit := true, failbit := true })
  else
    (none, { s with failbit := true })

/-- The call `ist.seekg(p)` (C++11: clears `eofbit`, then seeks unless the
stream has failed; a file may be positioned past its end). -/
def IStream.seekg (s : IStream) (p : Nat) : IStream :=
  if s.failbit then { s with eofbit := false }
  else { s with eofbit := false, pos := p }

/-- The call `ist.seekg(off, std::ios_base::cur)`. -/
def IStream.seekg_cur (s : IStream) (off : Int) : IStream :=
  if s.failbit then { s with eofbit := false }
  else if 0 ≤ (s.pos : Int) + off then
    { s with eofbit := false, pos := ((s.pos : Int) + off).toNat }
  else { s with eofbit := false, failbit := true }

/-! ## Tags, value types and elements -/

/-- The union `TypeTag`, held as its two `uint16_t` halves `id[0]`, `id[1]`. -/
structure TypeTag where
  id0 : Nat
  id1 : Nat
deriving DecidableEq, Repr

/-- The member `number` of the union `TypeTag`: the `uint32_t` that shares its
four bytes with `id[0]`, `id[1]`. -/
def TypeTag.number (host_le : Bool) (t : TypeTag) : Nat :=
  if host_le then t.id0 + 65536 * t.id1 else 65536 * t.id0 + t.id1

/-- The C++ types `T` at which `_read_element_data<T>` is instantiated. -/
inductive DType where
  | char
  | uchar
  | int16
  | int32
  | uint16
  | uint32
  | float
  | double
deriving DecidableEq, Repr

/-- The size `sizeof(T)`. -/
def DType.sizeof : DType → Nat
  | .char => 1
  | .uchar => 1
  | .int16 => 2
  | .int32 => 4
  | .uint16 => 2
  | .uint32 => 4
  | .float => 4
  | .double => 8

/-- The value of type `T` whose object representation is `mem` on the host:
an integer for the integer types (`char` taken as signed, as OpenCV reads it),
the IEEE-754 bit pattern for `float` and `double`. -/
def DType.ofMem (host_le : Bool) (t : DType) (mem : List Byte) : Int :=
  let u := load host_le mem
  match t with
  | .char => if u < 128 then (u : Int) else (u : Int) - 256
  | .int16 => if u < 32768 then (u : Int) else (u : Int) - 65536
  | .int32 => if u < 2147483648 then (u : Int) else (u : Int) - 4294967296
  | _ => (u : Int)

/-- The content of the `boost::any` member `_value`: empty, a `T`, a
`std::vector<T>` or a `std::string`. -/
inductive Value where
  | empty
  | scalar (t : DType) (v : Int)
  | vector (t : DType) (vs : List Int)
  | string (s : List Byte)
deriving DecidableEq, Repr

/-- The data members of `Dicom::Element`. `_parent` records whether the pointer
is non-null (it then points to the `Dicom` object passed along); `_vr` is `none`
while the member has never been written. -/
structure Element where
  _parent : Bool
  _tag : TypeTag
  _vr : Option Nat
  _value : Value
  _is_vector : Bool
deriving DecidableEq, Repr

/-- The constructor `Element()`. -/
def Element.default : Element :=
  { _parent := false, _tag := ⟨0, 0⟩, _vr := some 0, _value := .empty, _is_vector := false }

/-- The constructor `Element(Dicom *parent)`. It leaves `_tag`, `_vr` and
`_is_vector` unwritten; `_tag` and `_is_vector` are written by `parse_tag` and
by every returning `parse_value` before anything reads them. -/
def Element.ofParent : Element :=
  { _parent := true, _tag := ⟨0, 0⟩, _vr := none, _value := .empty, _is_vector := false }

/-- The accessor `Element::as<std::string>()`. -/
def Element.as_string (e : Element) : Except Error (List Byte) :=
  match e._value with
  | .string s => .ok s
  | _ => .error .bad_any_cast

/-- The accessor `Element::as<T>()` at a scalar type `T`. -/
def Element.as_scalar (e : Element) (t : DType) : Except Error Int :=
  match e._value with
  | .scalar u v => if u = t then .ok v else .error .bad_any_cast
  | _ => .error .bad_any_cast

/-- The accessor `Element::as<std::vector<T> >()`. -/
def Element.as_vector (e : Element) (t : DType) : Except Error (List Int) :=
  match e._value with
  | .vector u vs => if u = t then .ok vs else .error .bad_any_cast
  | _ => .error .bad_any_cast

/-! ## The image container and the owning object -/

/-- A C `float` as far as the header handles one: a not-a-number or a number. -/
inductive CFloat where
  | nan
  | val (q : ℚ)
deriving DecidableEq, Repr

/-- A single-channel `cv::Mat`: shape, element type and the elements row by
row. -/
structure Mat where
  rows : Nat
  cols : Nat
  depth : DType
  data : List ℚ
deriving DecidableEq, Repr

/-- The constructor `cv::Mat()`. -/
def Mat.default : Mat :=
  { rows := 0, cols := 0, depth := .uchar, data := [] }

/-- The test `cv::Mat::empty()`. -/
def Mat.empty (m : Mat) : Bool :=
  m.data.isEmpty || m.rows * m.cols == 0

/-- The library functions the header calls and does not define. -/
structure Ext where
  /-- Conversion `boost::lexical_cast<float>(s)`; `none` for `bad_lexical_cast`. -/
  lexical_cast_float : List Byte → Option CFloat
  /-- Constructor `cv::Mat(const std::vector<T> &, true)`. -/
  mat_of_vector : DType → List Int → Mat
  /-- Call `m.reshape(cn, rows)`; an error message for a `cv::Exception`. -/
  mat_reshape : Mat → Int → Int → Except String Mat
  /-- Statement `m /= k` for an `int` k. -/
  mat_div : Mat → Int → Mat
  /-- Statement `m *= a` for a `float` a. -/
  mat_mul : Mat → CFloat → Mat
  /-- Statement `m += b` for a `float` b. -/
  mat_add : Mat → CFloat → Mat

/-- The data members of `Dicom`; `_element` is the `std::map`, held as the list
of its entries in increasing key order. -/
structure Dicom where
  _image : Mat
  _cols : Int
  _rows : Int
  _bits : Int
  _chs : Int
  _is_signed : Bool
  _px_spacing_row : CFloat
  _px_spacing_col : CFloat
  _image_pos_x : CFloat
  _image_pos_y : CFloat
  _image_pos_z : CFloat
  _element : List (Nat × Element)
  _architecture_as_little_endian : Bool
  _format_as_little_endian : Bool
  _format_as_explicit : Bool
  _format_as_deflate : Bool
deriving DecidableEq, Repr

/-- The member function `Dicom::_need_byte_swap`. -/
def Dicom._need_byte_swap (d : Dicom) : Bool :=
  d._architecture_as_little_endian != d._format_as_little_endian

/-- Lookup `std::map::find`. -/
def map_find : List (Nat × Element) → Nat → Option Element
  | [], _ => none
  | (k, e) :: m, n => if k = n then some e else map_find m n

/-- Assignment `m[n] = e` on a `std::map`: replaces the entry of key `n` or
inserts one at its place in key order. -/
def map_assign : List (Nat × Element) → Nat → Element → List (Nat × Element)
  | [], n, e => [(n, e)]
  | (k, x) :: m, n, e =>
    if n < k then (n, e) :: (k, x) :: m
    else if n = k then (n, e) :: m
    else (k, x) :: map_assign m n e

/-! ## Dicom::Element -/

/-- The member function `Element::_need_byte_swap`; `d` is the object `_parent`
points to. -/
def Element._need_byte_swap (d : Dicom) (e : Element) : Bool :=
  if e._parent then d._need_byte_swap else false

/-- The member function `Element::_architecture_as_little_endian`. -/
def Element._architecture_as_little_endian (d : Dicom) (e : Element) : Bool :=
  if e._parent then d._architecture_as_little_endian else true

/-- The member function `Element::_format_as_explicit`. -/
def Element._format_as_explicit (d : Dicom) (e : Element) : Bool :=
  if e._parent then d._format_as_explicit else true

/-- The member function `Element::parse_tag`: the element with `_tag` read, or
`StreamError`. -/
def Element.parse_tag (host_le : Bool) (d : Dicom) (e : Element) (ist : IStream) :
    Except Error Element × IStream :=
  match ist.read 4 with
  | (none, ist1) => (.error (.StreamError ""), ist1)
  | (some raw, ist1) =>
    let id0 := load host_le (raw.take 2)
    let id1 := load host_le (raw.drop 2)
    if e._need_byte_swap d then
      (.ok { e with _tag := ⟨bswap_16 id0, bswap_16 id1⟩ }, ist1)
    else
      (.ok { e with _tag := ⟨id0, id1⟩ }, ist1)

/-- The member function `Element::rewind_tag`. -/
def Element.rewind_tag (ist : IStream) : IStream :=
  ist.seekg_cur (-4)

/-- The member function `Element::_read_element_data_single<T>`. -/
def Element._read_element_data_single (host_le : Bool) (d : Dicom) (e : Element)
    (T : DType) (ist : IStream) (s : Nat) : Except Error Int × IStream :=
  match ist.read s with
  | (none, ist1) => (.error (.StreamError ""), ist1)
  | (some mem, ist1) =>
    if T.sizeof > 1 && e._need_byte_swap d then
      (.ok (T.ofMem host_le mem.reverse), ist1)
    else
      (.ok (T.ofMem host_le mem), ist1)

/-- The loop `for(int i=0;i<n;i++) buf.push_back(_read_element_data_single<T>(ist,s))`
of `_read_element_data<T>`, for the `k` iterations it makes. -/
def Element._read_element_data_loop (host_le : Bool) (d : Dicom) (e : Element)
    (T : DType) (s : Nat) : Nat → IStream → Except Error (List Int) × IStream
  | 0, ist => (.ok [], ist)
  | k + 1, ist =>
    match Element._read_element_data_single host_le d e T ist s with
    | (.error err, ist1) => (.error err, ist1)
    | (.ok v, ist1) =>
      match Element._read_element_data_loop host_le d e T s k ist1 with
      | (.error err, ist2) => (.error err, ist2)
      | (.ok vs, ist2) => (.ok (v :: vs), ist2)

/-- The member function `Element::_read_element_data<T>`. -/
def Element._read_element_data (host_le : Bool) (d : Dicom) (e : Element)
    (T : DType) (ist : IStream) (len : Nat) : Except Error Element × IStream :=
  let s := T.sizeof
  let n := toInt32 (len / s)
  if n = 1 then
    match Element._read_element_data_single host_le d e T ist s with
    | (.error err, ist1) => (.error err, ist1)
    | (.ok v, ist1) => (.ok { e with _value := .scalar T v, _is_vector := false }, ist1)
  else
    match Element._read_element_data_loop host_le d e T s n.toNat ist with
    | (.error err, ist1) => (.error err, ist1)
    | (.ok buf, ist1) => (.ok { e with _value := .vector T buf, _is_vector := true }, ist1)

/-- The member function `Element::_read_element_data_string`. -/
def Element._read_element_data_string (e : Element) (ist : IStream) (len : Nat) :
    Except Error Element × IStream :=
  match ist.read len with
  | (none, ist1) => (.error (.StreamError ""), ist1)
  | (some buf, ist1) => (.ok { e with _value := .string buf, _is_vector := false }, ist1)

/-- The end-of-sequence mark `0xFF FE E0 DD 00 00 00 00`. -/
def end_of_sequence : List Byte :=
  [0xFF, 0xFE, 0xE0, 0xDD, 0x00, 0x00, 0x00, 0x00]

/-- The `while(true)` loop of `_read_element_data_sequence` over the unread
bytes: each turn reads one byte `c` (no byte left: `none`, the `StreamError`),
appends it to `value`, shifts it into the window `eos` and leaves the loop when
the window is the end-of-sequence mark. Returns `value` and the bytes left
unread. -/
def Element._read_sequence_loop :
    List Byte → List Byte → List Byte → Option (List Byte × List Byte)
  | [], _, _ => none
  | c :: unread, eos, value =>
    if eos.drop 1 ++ [c] = end_of_sequence then some (value ++ [c], unread)
    else Element._read_sequence_loop unread (eos.drop 1 ++ [c]) (value ++ [c])

/-- The member function `Element::_read_element_data_sequence`. -/
def Element._read_element_data_sequence (host_le : Bool) (d : Dicom) (e : Element)
    (ist : IStream) (len : Nat) : Except Error Element × IStream :=
  if len ≠ 0xFFFFFFFF then
    Element._read_element_data host_le d e .uchar ist len
  else if ist.good then
    match Element._read_sequence_loop ist.rest [0, 0, 0, 0, 0, 0, 0, 0] [] with
    | none => (.error (.StreamError ""),
        { ist with pos := ist.pos + ist.rest.length, eofbit := true, failbit := true })
    | some (value, unread) =>
      let value1 := if value.length ≥ 8 then value.take (value.length - 8) else value
      let value2 :=
        if value1.length ≥ 4 && value1.take 4 = [0xFE, 0xFF, 0xE0, 0x00] then value1.drop 4
        else value1
      (.ok { e with _value := .vector .uchar (value2.map (fun b => (b.toNat : Int))),
                    _is_vector := true },
       { ist with pos := ist.pos + (ist.rest.length - unread.length) })
  else
    (.error (.StreamError ""), { ist with failbit := true })

/-- The member function `Element::_parse_value_implicit`. -/
def Element._parse_value_implicit (host_le : Bool) (d : Dicom) (e : Element)
    (ist : IStream) : Except Error Element × IStream :=
  match ist.read 4 with
  | (none, ist1) => (.error (.StreamError ""), ist1)
  | (some raw, ist1) =>
    let size := if e._need_byte_swap d then bswap_32 (load host_le raw) else load host_le raw
    Element._read_element_data_sequence host_le d e ist1 size

/-- The VR codes of the first `switch` of `_parse_value_explicit` (OB, OW, OF,
SQ, UT, UN): two bytes are skipped and the length is a `uint32_t`. -/
def vr_long : List Nat :=
  [0x4f42, 0x4f57, 0x4f46, 0x5351, 0x5554, 0x554e]

/-- The first `switch` of `_parse_value_explicit` with the stream test that
follows it: the data length `sz`. -/
def Element._parse_length_explicit (host_le : Bool) (d : Dicom) (e : Element)
    (vr : Nat) (ist : IStream) : Except Error Nat × IStream :=
  if vr ∈ vr_long then
    match (ist.seekg_cur 2).read 4 with
    | (none, ist1) => (.error (.StreamError ""), ist1)
    | (some raw, ist1) =>
      (.ok (if e._need_byte_swap d then bswap_32 (load host_le raw) else load host_le raw),
       ist1)
  else
    match ist.read 2 with
    | (none, ist1) => (.error (.StreamError ""), ist1)
    | (some raw, ist1) =>
      (.ok (if e._need_byte_swap d then bswap_16 (load host_le raw) else load host_le raw),
       ist1)

/-- The VR codes read as a string (CS, DA, DS, DT, IS, LO, LT, PN, SH, ST, TM,
UI, UT). -/
def vr_string : List Nat :=
  [0x4353, 0x4441, 0x4453, 0x4454, 0x4953, 0x4c4f, 0x4c54, 0x504e, 0x5348, 0x5354,
   0x544d, 0x5549, 0x5554]

/-- The VR codes of the second `switch` read with `_read_element_data<T>` at a
type `T` of more than one byte: SS, SL, US, AT, OW, UL, FL, OF, FD with their
`T`. -/
def vr_typed : List (Nat × DType) :=
  [(0x5353, .int16), (0x534c, .int32), (0x5553, .uint16), (0x4154, .uint16),
   (0x4f57, .uint16), (0x554c, .uint32), (0x464c, .float), (0x4f46, .float),
   (0x4644, .double)]

/-- The VR codes of the second `switch` read with `_read_element_data<char>`:
OB and UN. -/
def vr_bytes : List (Nat × DType) :=
  [(0x4f42, .char), (0x554e, .char)]

/-- The VR codes that have a `case` in the second `switch` of
`_parse_value_explicit`: the strings, OB and UN, the typed ones and SQ. -/
def vr_known : List Nat :=
  vr_string ++ vr_bytes.map Prod.fst ++ vr_typed.map Prod.fst ++ [0x5351]

/-- The second `switch` of `_parse_value_explicit` ("get data body") and the
`throw` behind it. -/
def Element._parse_body_explicit (host_le : Bool) (d : Dicom) (e : Element)
    (vr : Nat) (ist : IStream) (sz : Nat) : Except Error Element × IStream :=
  if vr ∈ vr_string then Element._read_element_data_string e ist sz
  else if vr = 0x4f42 ∨ vr = 0x554e then Element._read_element_data host_le d e .char ist sz
  else if vr = 0x5353 then Element._read_element_data host_le d e .int16 ist sz
  else if vr = 0x534c then Element._read_element_data host_le d e .int32 ist sz
  else if vr = 0x5553 ∨ vr = 0x4154 ∨ vr = 0x4f57 then
    Element._read_element_data host_le d e .uint16 ist sz
  else if vr = 0x554c then Element._read_element_data host_le d e .uint32 ist sz
  else if vr = 0x464c ∨ vr = 0x4f46 then Element._read_element_data host_le d e .float ist sz
  else if vr = 0x4644 then Element._read_element_data host_le d e .double ist sz
  else if vr = 0x5351 then Element._read_element_data_sequence host_le d e ist sz
  else (.error (.ParseError "Unknown VR found"), ist)

/-- The member function `Element::_parse_value_explicit`. -/
def Element._parse_value_explicit (host_le : Bool) (d : Dicom) (e : Element)
    (ist : IStream) : Except Error Element × IStream :=
  match ist.read 2 with
  | (none, ist1) => (.error (.StreamError ""), ist1)
  | (some raw, ist1) =>
    let vr :=
      if e._architecture_as_little_endian d then bswap_16 (load host_le raw)
      else load host_le raw
    let e1 := { e with _vr := some vr }
    match Element._parse_length_explicit host_le d e1 vr ist1 with
    | (.error err, ist2) => (.error err, ist2)
    | (.ok sz, ist2) => Element._parse_body_explicit host_le d e1 vr ist2 sz

/-- The member function `Element::parse_value`. -/
def Element.parse_value (host_le : Bool) (d : Dicom) (e : Element) (ist : IStream) :
    Except Error Element × IStream :=
  if e._tag.number host_le = 0 then (.error (.ParseError "No Tag Id found."), ist)
  else if e._format_as_explicit d then Element._parse_value_explicit host_le d e ist
  else Element._parse_value_implicit host_le d e ist

/-- The member function `Element::parse`. -/
def Element.parse (host_le : Bool) (d : Dicom) (e : Element) (ist : IStream) :
    Except Error Element × IStream :=
  match Element.parse_tag host_le d e ist with
  | (.error err, ist1) => (.error err, ist1)
  | (.ok e1, ist1) => Element.parse_value host_le d e1 ist1

/-! ## Dicom: constants and lookups -/

def TAG_GROUP_META : Nat := 0x0002

def TAG_GROUP_DIRECTORY : Nat := 0x0004

def TAG_TRANSFER_SYNTAX_UID : TypeTag := ⟨0x0002, 0x0010⟩

def TAG_IMG_POSITION : TypeTag := ⟨0x0020, 0x0032⟩

def TAG_PHOTO_INTERPRET : TypeTag := ⟨0x0028, 0x0004⟩

def TAG_ROWS : TypeTag := ⟨0x0028, 0x0010⟩

def TAG_COLS : TypeTag := ⟨0x0028, 0x0011⟩

def TAG_PX_SPACING : TypeTag := ⟨0x0028, 0x0030⟩

def TAG_BIT_ALLOC : TypeTag := ⟨0x0028, 0x0100⟩

def TAG_BIT_STORED : TypeTag := ⟨0x0028, 0x0101⟩

def TAG_HI_BIT : TypeTag := ⟨0x0028, 0x0102⟩

def TAG_PX_REP : TypeTag := ⟨0x0028, 0x0103⟩

def TAG_RESCALE_INT : TypeTag := ⟨0x0028, 0x1052⟩

def TAG_RESCALE_SLP : TypeTag := ⟨0x0028, 0x1053⟩

def TAG_FRAME_DATA : TypeTag := ⟨0x7fe0, 0x0010⟩

/-- The constructor `Dicom()`; the members it leaves unwritten are given the
values `parse` resets them to. -/
def Dicom.default : Dicom :=
  { _image := Mat.default, _cols := 0, _rows := 0, _bits := 0, _chs := 0,
    _is_signed := false, _px_spacing_row := .val 0, _px_spacing_col := .val 0,
    _image_pos_x := .nan, _image_pos_y := .nan, _image_pos_z := .nan,
    _element := [], _architecture_as_little_endian := true,
    _format_as_little_endian := true, _format_as_explicit := true,
    _format_as_deflate := false }

/-- The member function `Dicom::has_element(const uint32_t number)`. -/
def Dicom.has_element (d : Dicom) (number : Nat) : Bool :=
  (map_find d._element number).isSome

/-- The member function `Dicom::element(const uint32_t number)`, which is
`_element[number]`: the element of that key, after inserting an `Element()`
when the key was absent. -/
def Dicom.element (d : Dicom) (number : Nat) : Element × Dicom :=
  match map_find d._element number with
  | some e => (e, d)
  | none => (Element.default, { d with _element := map_assign d._element number Element.default })

/-! ## Dicom::parse_summary -/

/-- The predicate `std::isspace` of the classic locale, which `boost::algorithm::trim`
uses. -/
def is_space (c : Byte) : Bool :=
  c = 0x20 || (0x09 ≤ c && c ≤ 0x0d)

/-- The function `boost::algorithm::trim`. -/
def trim (s : List Byte) : List Byte :=
  ((s.dropWhile is_space).reverse.dropWhile is_space).reverse

/-- The function `boost::algorithm::split` with `boost::is_any_of("\\")`: the
tokens between the backslashes, empty ones kept. -/
def split_backslash : List Byte → List (List Byte)
  | [] => [[]]
  | c :: cs =>
    if c = 0x5c then [] :: split_backslash cs
    else
      match split_backslash cs with
      | [] => [[c]]
      | t :: ts => (c :: t) :: ts

/-- The first part of `parse_summary`: the reset of the metadata and the
required tags, up to `_rows` and `_cols`. -/
def Dicom.parse_summary_required (host_le : Bool) (d0 : Dicom) : Option Error × Dicom :=
  let d1 := { d0 with _cols := 0, _rows := 0, _bits := 0, _chs := 0, _is_signed := false,
                      _px_spacing_row := .val 0, _px_spacing_col := .val 0,
                      _image_pos_x := .nan, _image_pos_y := .nan, _image_pos_z := .nan }
  if !d1.has_element (TAG_PHOTO_INTERPRET.number host_le) then
    (some (.MissingTagError "Could not found Photometric Interpretation Tag"), d1)
  else
    let (e2, d2) := d1.element (TAG_PHOTO_INTERPRET.number host_le)
    match e2.as_string with
    | .error err => (some err, d2)
    | .ok p_int =>
      if string_find (bytesOf "MONOCHROME2") p_int 0 = none then
        (some (.runtime_error "Unsupported Photometric Interpretation"), d2)
      else
        let d3 := { d2 with _chs := 1 }
        if !d3.has_element (TAG_PX_REP.number host_le) then
          (some (.MissingTagError "Could not found Pixel Representation Tag"), d3)
        else
          let (e4, d4) := d3.element (TAG_PX_REP.number host_le)
          match e4.as_scalar .uint16 with
          | .error err => (some err, d4)
          | .ok px_rep =>
            let d5 := { d4 with _is_signed := if px_rep = 0 then false else true }
            if !d5.has_element (TAG_BIT_ALLOC.number host_le) then
              (some (.MissingTagError "Could not found Bit Allocation Tag"), d5)
            else
              let (e6, d6) := d5.element (TAG_BIT_ALLOC.number host_le)
              match e6.as_scalar .uint16 with
              | .error err => (some err, d6)
              | .ok bits =>
                let d7 := { d6 with _bits := bits }
                if !d7.has_element (TAG_ROWS.number host_le)
                    || !d7.has_element (TAG_COLS.number host_le) then
                  (some (.MissingTagError "Could not found Cols and/or Rows Tag"), d7)
                else
                  let (e8, d8) := d7.element (TAG_ROWS.number host_le)
                  match e8.as_scalar .uint16 with
                  | .error err => (some err, d8)
                  | .ok rows =>
                    let d9 := { d8 with _rows := rows }
                    let (e10, d10) := d9.element (TAG_COLS.number host_le)
                    match e10.as_scalar .uint16 with
                    | .error err => (some err, d10)
                    | .ok cols => (none, { d10 with _cols := cols })

/-- The block "pixel spacing" of `parse_summary`. -/
def Dicom.parse_summary_px_spacing (host_le : Bool) (ext : Ext) (d : Dicom) :
    Option Error × Dicom :=
  if d.has_element (TAG_PX_SPACING.number host_le) then
    let (e1, d1) := d.element (TAG_PX_SPACING.number host_le)
    match e1.as_string with
    | .error err => (some err, d1)
    | .ok str =>
      match split_backslash (trim str) with
      | t0 :: t1 :: _ =>
        match ext.lexical_cast_float t0 with
        | none => (none, d1)
        | some row =>
          let d2 := { d1 with _px_spacing_row := row }
          match ext.lexical_cast_float t1 with
          | none => (none, d2)
          | some col => (none, { d2 with _px_spacing_col := col })
      | _ => (none, d1)
  else (none, d)

/-- The block "image position" of `parse_summary`. -/
def Dicom.parse_summary_image_pos (host_le : Bool) (ext : Ext) (d : Dicom) :
    Option Error × Dicom :=
  if d.has_element (TAG_IMG_POSITION.number host_le) then
    let (e1, d1) := d.element (TAG_IMG_POSITION.number host_le)
    match e1.as_string with
    | .error err => (some err, d1)
    | .ok str =>
      match split_backslash (trim str) with
      | t0 :: t1 :: t2 :: _ =>
        match ext.lexical_cast_float t0 with
        | none => (none, d1)
        | some x =>
          let d2 := { d1 with _image_pos_x := x }
          match ext.lexical_cast_float t1 with
          | none => (none, d2)
          | some y =>
            let d3 := { d2 with _image_pos_y := y }
            match ext.lexical_cast_float t2 with
            | none => (none, d3)
            | some z => (none, { d3 with _image_pos_z := z })
      | _ => (none, d1)
  else (none, d)

/-- The member function `Dicom::parse_summary`: the exception it leaves with,
if any, and the object as it leaves it. -/
def Dicom.parse_summary (host_le : Bool) (ext : Ext) (d : Dicom) : Option Error × Dicom :=
  match Dicom.parse_summary_required host_le d with
  | (some err, d1) => (some err, d1)
  | (none, d1) =>
    match Dicom.parse_summary_px_spacing host_le ext d1 with
    | (some err, d2) => (some err, d2)
    | (none, d2) => Dicom.parse_summary_image_pos host_le ext d2

/-! ## Dicom::parse_image -/

/-- The `switch(this->_bits)` of `parse_image`: the frame data converted to a
`cv::Mat`. -/
def Dicom.parse_image_frame (host_le : Bool) (ext : Ext) (d : Dicom) : Option Error × Dicom :=
  if !d.has_element (TAG_FRAME_DATA.number host_le) then
    (some (.MissingTagError "Could not found Frame Data Tag"), d)
  else if d._bits = 8 then
    let (e1, d1) := d.element (TAG_FRAME_DATA.number host_le)
    if d1._is_signed then
      match e1.as_vector .char with
      | .error err => (some err, d1)
      | .ok vs => (none, { d1 with _image := ext.mat_of_vector .char vs })
    else
      match e1.as_vector .uchar with
      | .error err => (some err, d1)
      | .ok vs => (none, { d1 with _image := ext.mat_of_vector .uchar vs })
  else if d._bits = 16 then
    let (e1, d1) := d.element (TAG_FRAME_DATA.number host_le)
    if d1._is_signed then
      match e1.as_vector .int16 with
      | .error err => (some err, d1)
      | .ok vs => (none, { d1 with _image := ext.mat_of_vector .int16 vs })
    else
      match e1.as_vector .uint16 with
      | .error err => (some err, d1)
      | .ok vs => (none, { d1 with _image := ext.mat_of_vector .uint16 vs })
  else
    (some (.runtime_error "Unsupported Bit Allocation"), d)

/-- The type `T` of the `as<std::vector<T> >()` that the `switch(this->_bits)` of
`parse_image` makes for the values of `_bits` and `_is_signed`; `none` at the
`default` label. -/
def image_dtype (bits : Int) (is_signed : Bool) : Option DType :=
  if bits = 8 then (if is_signed then some .char else some .uchar)
  else if bits = 16 then (if is_signed then some .int16 else some .uint16)
  else none

/-- The loop `for(int i=0;i<d;i++) this->_image/=2;` for the `k` iterations it
makes. -/
def Dicom.parse_image_halve (ext : Ext) : Nat → Mat → Mat
  | 0, m => m
  | k + 1, m => Dicom.parse_image_halve ext k (ext.mat_div m 2)

/-- The block "unpadding for each pixel" of `parse_image`. -/
def Dicom.parse_image_unpad (host_le : Bool) (ext : Ext) (d : Dicom) : Option Error × Dicom :=
  if !d.has_element (TAG_BIT_STORED.number host_le) then
    (some (.MissingTagError "Could not found Bit Stored Tag"), d)
  else
    let (e1, d1) := d.element (TAG_BIT_STORED.number host_le)
    match e1.as_scalar .uint16 with
    | .error err => (some err, d1)
    | .ok bit_stored =>
      if !d1.has_element (TAG_HI_BIT.number host_le) then
        (some (.MissingTagError "Could not found Hi Bit Tag"), d1)
      else
        let (e2, d2) := d1.element (TAG_HI_BIT.number host_le)
        match e2.as_scalar .uint16 with
        | .error err => (some err, d2)
        | .ok hi_bit =>
          if d2._bits ≠ bit_stored then
            let m := Dicom.parse_image_halve ext (hi_bit - bit_stored + 1).toNat d2._image
            (none, { d2 with _image := m })
          else (none, d2)

/-- The block "rescale" of `parse_image`. -/
def Dicom.parse_image_rescale (host_le : Bool) (ext : Ext) (d : Dicom) (need_rescale : Bool) :
    Option Error × Dicom :=
  if need_rescale && d.has_element (TAG_RESCALE_INT.number host_le)
      && d.has_element (TAG_RESCALE_SLP.number host_le) then
    let (e1, d1) := d.element (TAG_RESCALE_INT.number host_le)
    match e1.as_string with
    | .error err => (some err, d1)
    | .ok str1 =>
      let rescale_interception := (ext.lexical_cast_float (trim str1)).getD (.val 0)
      let (e2, d2) := d1.element (TAG_RESCALE_SLP.number host_le)
      match e2.as_string with
      | .error err => (some err, d2)
      | .ok str2 =>
        let rescale_slope := (ext.lexical_cast_float (trim str2)).getD (.val 1)
        let m := ext.mat_add (ext.mat_mul d2._image rescale_slope) rescale_interception
        (none, { d2 with _image := m })
  else (none, d)

/-- The member function `Dicom::parse_image`. -/
def Dicom.parse_image (host_le : Bool) (ext : Ext) (d : Dicom) (need_rescale : Bool) :
    Option Error × Dicom :=
  match (if d._cols = 0 ∨ d._rows = 0 ∨ d._bits = 0 ∨ d._chs = 0 then
          Dicom.parse_summary host_le ext d else (none, d)) with
  | (some err, d1) => (some err, d1)
  | (none, d1) =>
    match Dicom.parse_image_frame host_le ext d1 with
    | (some err, d2) => (some err, d2)
    | (none, d2) =>
      match ext.mat_reshape d2._image 1 d2._rows with
      | .error what => (some (.cv_Exception what), d2)
      | .ok m =>
        match Dicom.parse_image_unpad host_le ext { d2 with _image := m } with
        | (some err, d3) => (some err, d3)
        | (none, d3) => Dicom.parse_image_rescale host_le ext d3 need_rescale

/-- The member function `Dicom::image`; the matrix returned is `_image` of the
object returned. -/
def Dicom.image (host_le : Bool) (ext : Ext) (d : Dicom) (need_rescale : Bool) :
    Option Error × Dicom :=
  if d._image.empty then Dicom.parse_image host_le ext d need_rescale else (none, d)

/-! ## Dicom::parse -/

/-- What a call of `Dicom::parse` leaves behind: the exception it left with, if
any, the object and the stream. -/
structure Outcome where
  error : Option Error
  dicom : Dicom
  ist : IStream
deriving DecidableEq, Repr

def UID_BEE : List Byte := bytesOf "1.2.840.10008.1.2.2"

def UID_DEFLATED_LEE : List Byte := bytesOf "1.2.840.10008.1.2.1.99"

def UID_LEE : List Byte := bytesOf "1.2.840.10008.1.2.1"

def UID_LEI : List Byte := bytesOf "1.2.840.10008.1.2"

/-- The chain of `if(s.find(...)!=std::string::npos)` in `parse` on the Transfer
Syntax UID string `s`. -/
def Dicom.select_format (d : Dicom) (s : List Byte) : Dicom :=
  if string_find UID_BEE s 0 ≠ none then
    { d with _format_as_little_endian := false, _format_as_explicit := true,
             _format_as_deflate := false }
  else if string_find UID_DEFLATED_LEE s 0 ≠ none then
    { d with _format_as_little_endian := true, _format_as_explicit := true,
             _format_as_deflate := true }
  else if string_find UID_LEE s 0 ≠ none then
    { d with _format_as_little_endian := true, _format_as_explicit := true,
             _format_as_deflate := false }
  else if string_find UID_LEI s 0 ≠ none then
    { d with _format_as_little_endian := true, _format_as_explicit := false,
             _format_as_deflate := false }
  else d

/-- The block "get format info." of `parse`. -/
def Dicom.parse_format_info (host_le : Bool) (d : Dicom) : Option Error × Dicom :=
  if d.has_element (TAG_TRANSFER_SYNTAX_UID.number host_le) then
    let (e1, d1) := d.element (TAG_TRANSFER_SYNTAX_UID.number host_le)
    match e1.as_string with
    | .error err => (some err, d1)
    | .ok s => (none, d1.select_format s)
  else (none, d)

/-- The first `while(true)` loop of `parse` (the meta data, group 0x0002), run
for at most `fuel` turns; `none` when the turns do not suffice. -/
def Dicom.parse_meta_loop (host_le : Bool) : Nat → Dicom → IStream → Option Outcome
  | 0, _, _ => none
  | fuel + 1, d, ist =>
    match Element.parse_tag host_le d Element.ofParent ist with
    | (.error err, ist1) => some ⟨some err, d, ist1⟩
    | (.ok e1, ist1) =>
      if e1._tag.id0 ≠ TAG_GROUP_META then some ⟨none, d, Element.rewind_tag ist1⟩
      else
        match Element.parse_value host_le d e1 ist1 with
        | (.error err, ist2) => some ⟨some err, d, ist2⟩
        | (.ok e2, ist2) =>
          Dicom.parse_meta_loop host_le fuel
            { d with _element := map_assign d._element (e2._tag.number host_le) e2 } ist2

/-- The second `while(true)` loop of `parse`, which leaves on a `StreamError`,
run for at most `fuel` turns; `none` when the turns do not suffice. -/
def Dicom.parse_main_loop (host_le : Bool) : Nat → Dicom → IStream → Option Outcome
  | 0, _, _ => none
  | fuel + 1, d, ist =>
    match Element.parse host_le d Element.ofParent ist with
    | (.error (.StreamError _), ist1) => some ⟨none, d, ist1⟩
    | (.error err, ist1) => some ⟨some err, d, ist1⟩
    | (.ok e, ist1) =>
      Dicom.parse_main_loop host_le fuel
        { d with _element := map_assign d._element (e._tag.number host_le) e } ist1

/-- The statements of `parse` up to the end of the meta data loop. -/
def Dicom.parse_meta (host_le : Bool) (d : Dicom) (ist : IStream) : Option Outcome :=
  if ist.failbit then some ⟨some (.StreamError "Bad stream gaven"), d, ist⟩
  else
    let d1 := { d with _architecture_as_little_endian := host_le,
                       _cols := 0, _rows := 0, _bits := 0, _chs := 0, _is_signed := false,
                       _px_spacing_row := .val 0, _px_spacing_col := .val 0,
                       _image_pos_x := .nan, _image_pos_y := .nan, _image_pos_z := .nan,
                       _element := [] }
    match (ist.seekg 128).read 4 with
    | (none, ist1) => some ⟨some (.ParseError "not DICOM format"), d1, ist1⟩
    | (some dicom_id_str, ist1) =>
      if dicom_id_str ≠ bytesOf "DICM" then
        some ⟨some (.ParseError "not DICOM format"), d1, ist1⟩
      else
        Dicom.parse_meta_loop host_le (ist1.data.length + 1)
          { d1 with _format_as_little_endian := true, _format_as_explicit := true,
                    _format_as_deflate := false } ist1

/-- The statements of `parse` up to the end of the second loop (all that reads
the stream). -/
def Dicom.parse_file (host_le : Bool) (d : Dicom) (ist : IStream) : Option Outcome :=
  match Dicom.parse_meta host_le d ist with
  | none => none
  | some ⟨some err, d1, ist1⟩ => some ⟨some err, d1, ist1⟩
  | some ⟨none, d1, ist1⟩ =>
    match Dicom.parse_format_info host_le d1 with
    | (some err, d2) => some ⟨some err, d2, ist1⟩
    | (none, d2) =>
      if d2._format_as_deflate then
        some ⟨some (.runtime_error "Deflated LEE has not been supported"), d2, ist1⟩
      else Dicom.parse_main_loop host_le (ist1.data.length + 1) d2 ist1

/-- The member function `Dicom::parse`; `none` only if a loop ran out of
turns. -/
def Dicom.parse (host_le : Bool) (ext : Ext) (d : Dicom) (ist : IStream)
    (parse_all need_rescale : Bool) : Option Outcome :=
  match Dicom.parse_file host_le d ist with
  | none => none
  | some ⟨some err, d1, ist1⟩ => some ⟨some err, d1, ist1⟩
  | some ⟨none, d1, ist1⟩ =>
    if parse_all then
      match Dicom.parse_image host_le ext d1 need_rescale with
      | (err, d2) => some ⟨err, d2, ist1⟩
    else
      match Dicom.parse_summary host_le ext d1 with
      | (err, d2) => some ⟨err, d2, ist1⟩

/-! ## Dicom::parse, element by element -/

/-- The store after the assignments `_element[e.tag().number] = e` of a loop of
`parse`, made for the elements of `es` in order (each is paired with the offset
at which it ends), starting from the store `m`. -/
def store_all (host_le : Bool) (m : List (Nat × Element)) (es : List (Element × Nat)) :
    List (Nat × Element) :=
  es.foldl (fun m x => map_assign m (x.1._tag.number host_le) x.1) m

/-- The elements `es` are what successive calls of `Element::parse`, for an
object with the flags of `d`, return on `data` from offset `p` on: each call
starts where the one before ended and ends, with the stream good, at the offset
paired with its element. -/
def Dicom.decodes_from (host_le : Bool) (d : Dicom) (data : List Byte) :
    Nat → List (Element × Nat) → Prop
  | _, [] => True
  | p, (e, q) :: es =>
    Element.parse host_le d Element.ofParent ⟨data, p, false, false⟩ =
        (.ok e, ⟨data, q, false, false⟩)
      ∧ Dicom.decodes_from host_le d data q es

/-- The offset at which the last element of `es` ends; `p` when there is none. -/
def end_offset (p : Nat) : List (Element × Nat) → Nat
  | [] => p
  | (_, q) :: es => end_offset q es

/-! ## Inputs of the examples -/

/-- A file whose Transfer Syntax UID is "1.2.840.10008.1.2.4.50" (JPEG
Baseline), followed by the eight-byte-header element (0008,0005) of length 2
with value "AB". -/
def file_jpeg_uid : List Byte :=
  List.replicate 128 0 ++ bytesOf "DICM"
    ++ [0x02, 0x00, 0x10, 0x00] ++ bytesOf "UI" ++ [0x16, 0x00]
    ++ bytesOf "1.2.840.10008.1.2.4.50"
    ++ [0x08, 0x00, 0x05, 0x00, 0x02, 0x00, 0x00, 0x00] ++ bytesOf "AB"

/-- A file whose Transfer Syntax UID is "1.2.3" with one NUL of padding,
followed by the Explicit-VR element (0008,0005) CS "AB". -/
def file_other_uid : List Byte :=
  List.replicate 128 0 ++ bytesOf "DICM"
    ++ [0x02, 0x00, 0x10, 0x00] ++ bytesOf "UI" ++ [0x06, 0x00]
    ++ bytesOf "1.2.3" ++ [0x00]
    ++ [0x08, 0x00, 0x05, 0x00] ++ bytesOf "CS" ++ [0x02, 0x00] ++ bytesOf "AB"

/-- A Little-Endian Implicit-VR file (UID "1.2.840.10008.1.2" and one NUL) whose
main body holds (0008,0005) of length 2, "AB", and then an element of group
0x0002, (0002,0003) of length 2, "XY". -/
def file_meta_in_body : List Byte :=
  List.replicate 128 0 ++ bytesOf "DICM"
    ++ [0x02, 0x00, 0x10, 0x00] ++ bytesOf "UI" ++ [0x12, 0x00]
    ++ bytesOf "1.2.840.10008.1.2" ++ [0x00]
    ++ [0x08, 0x00, 0x05, 0x00, 0x02, 0x00, 0x00, 0x00] ++ bytesOf "AB"
    ++ [0x02, 0x00, 0x03, 0x00, 0x02, 0x00, 0x00, 0x00] ++ bytesOf "XY"

/-- An element as `Element::parse` leaves it in Explicit-VR mode when the value
is no vector: the tag, the VR code and the value. -/
def stored_element (tag : TypeTag) (vr : Nat) (value : Value) : Element :=
  { _parent := true, _tag := tag, _vr := some vr, _value := value, _is_vector := false }

/-- The five required elements of scenario S1 as the store of a little-endian
host holds them, in key order: PhotometricInterpretation CS "MONOCHROME2 ",
Rows US 4, Cols US 4, BitsAllocated US 8, PixelRepresentation US 0. -/
def store_S1_summary : List (Nat × Element) :=
  [(TAG_PHOTO_INTERPRET.number true,
      stored_element TAG_PHOTO_INTERPRET 0x4353 (.string (bytesOf "MONOCHROME2 "))),
   (TAG_ROWS.number true, stored_element TAG_ROWS 0x5553 (.scalar .uint16 4)),
   (TAG_COLS.number true, stored_element TAG_COLS 0x5553 (.scalar .uint16 4)),
   (TAG_BIT_ALLOC.number true, stored_element TAG_BIT_ALLOC 0x5553 (.scalar .uint16 8)),
   (TAG_PX_REP.number true, stored_element TAG_PX_REP 0x5553 (.scalar .uint16 0))]

/-- Scenario S3: a Little-Endian Implicit-VR file (UID "1.2.840.10008.1.2" and
one NUL) whose main body holds the elements of scenario S1 without VR bytes and
with four-byte lengths. -/
def file_S3 : List Byte :=
  List.replicate 128 0 ++ bytesOf "DICM"
    ++ [0x02, 0x00, 0x10, 0x00] ++ bytesOf "UI" ++ [0x12, 0x00]
    ++ bytesOf "1.2.840.10008.1.2" ++ [0x00]
    ++ [0x28, 0x00, 0x10, 0x00, 0x02, 0x00, 0x00, 0x00, 0x04, 0x00]
    ++ [0x28, 0x00, 0x11, 0x00, 0x02, 0x00, 0x00, 0x00, 0x04, 0x00]
    ++ [0x28, 0x00, 0x00, 0x01, 0x02, 0x00, 0x00, 0x00, 0x08, 0x00]
    ++ [0x28, 0x00, 0x01, 0x01, 0x02, 0x00, 0x00, 0x00, 0x08, 0x00]
    ++ [0x28, 0x00, 0x02, 0x01, 0x02, 0x00, 0x00, 0x00, 0x07, 0x00]
    ++ [0x28, 0x00, 0x03, 0x01, 0x02, 0x00, 0x00, 0x00, 0x00, 0x00]
    ++ [0x28, 0x00, 0x04, 0x00, 0x0c, 0x00, 0x00, 0x00] ++ bytesOf "MONOCHROME2 "
    ++ [0xe0, 0x7f, 0x10, 0x00, 0x10, 0x00, 0x00, 0x00]
    ++ [0, 1, 2, 3, 4, 5, 6, 7, 8, 9, 10, 11, 12, 13, 14, 15]

/-- An element as `Element::parse` leaves it in Implicit-VR mode when the
length is not 1: the tag and the bytes of the value; `_vr` is never written. -/
def stored_bytes (tag : TypeTag) (bytes : List Int) : Element :=
  { _parent := true, _tag := tag, _vr := none, _value := .vector .uchar bytes,
    _is_vector := true }

/-- The store `Dicom::parse` builds from `file_S3` on a little-endian host, in
key order. -/
def store_S3 : List (Nat × Element) :=
  [(TAG_PHOTO_INTERPRET.number true,
      stored_bytes TAG_PHOTO_INTERPRET [77, 79, 78, 79, 67, 72, 82, 79, 77, 69, 50, 32]),
   (TAG_TRANSFER_SYNTAX_UID.number true,
      stored_element TAG_TRANSFER_SYNTAX_UID 0x5549 (.string (UID_LEI ++ [0x00]))),
   (TAG_ROWS.number true, stored_bytes TAG_ROWS [4, 0]),
   (TAG_FRAME_DATA.number true,
      stored_bytes TAG_FRAME_DATA [0, 1, 2, 3, 4, 5, 6, 7, 8, 9, 10, 11, 12, 13, 14, 15]),
   (TAG_COLS.number true, stored_bytes TAG_COLS [4, 0]),
   (TAG_BIT_ALLOC.number true, stored_bytes TAG_BIT_ALLOC [8, 0]),
   (TAG_BIT_STORED.number true, stored_bytes TAG_BIT_STORED [8, 0]),
   (TAG_HI_BIT.number true, stored_bytes TAG_HI_BIT [7, 0]),
   (TAG_PX_REP.number true, stored_bytes TAG_PX_REP [0, 0])]

/-- The object `Dicom::parse` has built from `file_S3` when its reading part
ends: the store, and the flags of Little-Endian Implicit VR. -/
def dicom_S3 : Dicom :=
  { Dicom.default with _element := store_S3, _format_as_explicit := false }

/-- A Little-Endian Explicit-VR file (UID "1.2.840.10008.1.2.1" and one NUL)
whose main body holds (0008,0005) CS "AB" and then (0008,0010) with the VR
bytes "ZZ", length 2 and value "XY". -/
def file_unknown_vr : List Byte :=
  List.replicate 128 0 ++ bytesOf "DICM"
    ++ [0x02, 0x00, 0x10, 0x00] ++ bytesOf "UI" ++ [0x14, 0x00]
    ++ bytesOf "1.2.840.10008.1.2.1" ++ [0x00]
    ++ [0x08, 0x00, 0x05, 0x00] ++ bytesOf "CS" ++ [0x02, 0x00] ++ bytesOf "AB"
    ++ [0x08, 0x00, 0x10, 0x00] ++ bytesOf "ZZ" ++ [0x02, 0x00] ++ bytesOf "XY"

/-- Scenario S1: a Little-Endian Explicit-VR file (UID "1.2.840.10008.1.2.1"
and one NUL) with Rows 4, Cols 4, BitsAllocated 8, BitsStored 8, HighBit 7,
PixelRepresentation 0 (all US), PhotometricInterpretation CS "MONOCHROME2 " and
PixelData OW of the 16 bytes 0..15. -/
def file_S1 : List Byte :=
  List.replicate 128 0 ++ bytesOf "DICM"
    ++ [0x02, 0x00, 0x10, 0x00] ++ bytesOf "UI" ++ [0x14, 0x00]
    ++ bytesOf "1.2.840.10008.1.2.1" ++ [0x00]
    ++ [0x28, 0x00, 0x10, 0x00] ++ bytesOf "US" ++ [0x02, 0x00, 0x04, 0x00]
    ++ [0x28, 0x00, 0x11, 0x00] ++ bytesOf "US" ++ [0x02, 0x00, 0x04, 0x00]
    ++ [0x28, 0x00, 0x00, 0x01] ++ bytesOf "US" ++ [0x02, 0x00, 0x08, 0x00]
    ++ [0x28, 0x00, 0x01, 0x01] ++ bytesOf "US" ++ [0x02, 0x00, 0x08, 0x00]
    ++ [0x28, 0x00, 0x02, 0x01] ++ bytesOf "US" ++ [0x02, 0x00, 0x07, 0x00]
    ++ [0x28, 0x00, 0x03, 0x01] ++ bytesOf "US" ++ [0x02, 0x00, 0x00, 0x00]
    ++ [0x28, 0x00, 0x04, 0x00] ++ bytesOf "CS" ++ [0x0c, 0x00] ++ bytesOf "MONOCHROME2 "
    ++ [0xe0, 0x7f, 0x10, 0x00] ++ bytesOf "OW" ++ [0x00, 0x00, 0x10, 0x00, 0x00, 0x00]
    ++ [0, 1, 2, 3, 4, 5, 6, 7, 8, 9, 10, 11, 12, 13, 14, 15]

/-- A Little-Endian Explicit-VR file (UID "1.2.840.10008.1.2.1" and one NUL)
whose main body holds (0008,0005) CS "AB", then (0008,0005) CS "CD", then
(0002,0010) UI "XY": one tag twice in the main body, and the tag of the meta
group once more. -/
def file_repeated_tag : List Byte :=
  List.replicate 128 0 ++ bytesOf "DICM"
    ++ [0x02, 0x00, 0x10, 0x00] ++ bytesOf "UI" ++ [0x14, 0x00]
    ++ bytesOf "1.2.840.10008.1.2.1" ++ [0x00]
    ++ [0x08, 0x00, 0x05, 0x00] ++ bytesOf "CS" ++ [0x02, 0x00] ++ bytesOf "AB"
    ++ [0x08, 0x00, 0x05, 0x00] ++ bytesOf "CS" ++ [0x02, 0x00] ++ bytesOf "CD"
    ++ [0x02, 0x00, 0x10, 0x00] ++ bytesOf "UI" ++ [0x02, 0x00] ++ bytesOf "XY"

/-- The object `Dicom::parse` has built from `file_repeated_tag` when its
reading part ends: under (0008,0005) the value "CD", under (0002,0010) the
value "XY". -/
def dicom_repeated_tag : Dicom :=
  { Dicom.default with
    _element := [(0x00050008, stored_element ⟨0x0008, 0x0005⟩ 0x4353 (.string (bytesOf "CD"))),
                 (TAG_TRANSFER_SYNTAX_UID.number true,
                  stored_element TAG_TRANSFER_SYNTAX_UID 0x5549 (.string (bytesOf "XY")))] }

/-- An object in the middle of `parse_image`, before the unpadding: 16 bits
allocated, the one-pixel matrix of type `CV_16U` with the pixel 0xFFFF, and a
store that holds BitsStored US 8 and HighBit US 7. -/
def dicom_16_8_7 : Dicom :=
  { Dicom.default with
    _image := { rows := 1, cols := 1, depth := .uint16, data := [65535] }
    _cols := 1
    _rows := 1
    _bits := 16
    _chs := 1
    _element :=
      [(TAG_BIT_STORED.number true, stored_element TAG_BIT_STORED 0x5553 (.scalar .uint16 8)),
       (TAG_HI_BIT.number true, stored_element TAG_HI_BIT 0x5553 (.scalar .uint16 7))] }

/-- An element as `Element::parse` leaves it in Explicit-VR mode when the value
is a vector: the tag, the VR code, the element type and the values. -/
def stored_vector (tag : TypeTag) (vr : Nat) (T : DType) (vs : List Int) : Element :=
  { _parent := true, _tag := tag, _vr := some vr, _value := .vector T vs, _is_vector := true }

/-- The store `Dicom::parse` builds from `file_S1` on a little-endian host, in
key order; the 16 bytes of the PixelData element, read with VR OW, are eight
`uint16_t`. -/
def store_S1 : List (Nat × Element) :=
  [(TAG_PHOTO_INTERPRET.number true,
      stored_element TAG_PHOTO_INTERPRET 0x4353 (.string (bytesOf "MONOCHROME2 "))),
   (TAG_TRANSFER_SYNTAX_UID.number true,
      stored_element TAG_TRANSFER_SYNTAX_UID 0x5549 (.string (UID_LEE ++ [0x00]))),
   (TAG_ROWS.number true, stored_element TAG_ROWS 0x5553 (.scalar .uint16 4)),
   (TAG_FRAME_DATA.number true,
      stored_vector TAG_FRAME_DATA 0x4f57 .uint16
        [256, 770, 1284, 1798, 2312, 2826, 3340, 3854]),
   (TAG_COLS.number true, stored_element TAG_COLS 0x5553 (.scalar .uint16 4)),
   (TAG_BIT_ALLOC.number true, stored_element TAG_BIT_ALLOC 0x5553 (.scalar .uint16 8)),
   (TAG_BIT_STORED.number true, stored_element TAG_BIT_STORED 0x5553 (.scalar .uint16 8)),
   (TAG_HI_BIT.number true, stored_element TAG_HI_BIT 0x5553 (.scalar .uint16 7)),
   (TAG_PX_REP.number true, stored_element TAG_PX_REP 0x5553 (.scalar .uint16 0))]

/-- The object `Dicom::parse` has built from `file_S1`, starting from a new
object, when its reading part ends. -/
def dicom_S1 : Dicom :=
  { Dicom.default with _element := store_S1 }

/-- A one-by-one matrix of type `CV_8U` that holds the pixel 7. -/
def mat_single : Mat :=
  { rows := 1, cols := 1, depth := .uchar, data := [7] }

/-- An object whose store holds the five required elements of scenario S1 and
PixelSpacing DS "0.5\x": a first token that is a number and a second that is
none. -/
def dicom_spacing : Dicom :=
  { Dicom.default with
    _element := map_assign store_S1_summary (TAG_PX_SPACING.number true)
      (stored_element TAG_PX_SPACING 0x4453
        (.string (bytesOf "0.5" ++ [0x5c] ++ bytesOf "x"))) }

/-- A Little-Endian Explicit-VR stream that holds the element (0028,0010) with
VR US and the declared length 3, its three value bytes, and then the element
(0028,0011) US 4. -/
def stream_odd_length : List Byte :=
  [0x28, 0x00, 0x10, 0x00] ++ bytesOf "US" ++ [0x03, 0x00, 0x04, 0x00, 0x00]
    ++ [0x28, 0x00, 0x11, 0x00] ++ bytesOf "US" ++ [0x02, 0x00, 0x04, 0x00]

/-- A Little-Endian Explicit-VR stream that holds the header of a PixelData
element with VR OB and the undefined length 0xFFFFFFFF, as encapsulated pixel
data has it, followed by four more bytes. -/
def stream_undefined_ob : List Byte :=
  [0xe0, 0x7f, 0x10, 0x00] ++ bytesOf "OB" ++ [0x00, 0x00, 0xff, 0xff, 0xff, 0xff]
    ++ [0xfe, 0xff, 0x00, 0xe0]

/-- A Little-Endian Explicit-VR file (UID "1.2.840.10008.1.2.1" and one NUL)
with Rows 2, Cols 2, BitsAllocated 16, BitsStored 16, HighBit 15,
PixelRepresentation 0 (all US), PhotometricInterpretation CS "MONOCHROME2 " and
PixelData OW of the eight bytes of the 16-bit pixels 1, 2, 3, 4. -/
def file_16bit : List Byte :=
  List.replicate 128 0 ++ bytesOf "DICM"
    ++ [0x02, 0x00, 0x10, 0x00] ++ bytesOf "UI" ++ [0x14, 0x00]
    ++ bytesOf "1.2.840.10008.1.2.1" ++ [0x00]
    ++ [0x28, 0x00, 0x10, 0x00] ++ bytesOf "US" ++ [0x02, 0x00, 0x02, 0x00]
    ++ [0x28, 0x00, 0x11, 0x00] ++ bytesOf "US" ++ [0x02, 0x00, 0x02, 0x00]
    ++ [0x28, 0x00, 0x00, 0x01] ++ bytesOf "US" ++ [0x02, 0x00, 0x10, 0x00]
    ++ [0x28, 0x00, 0x01, 0x01] ++ bytesOf "US" ++ [0x02, 0x00, 0x10, 0x00]
    ++ [0x28, 0x00, 0x02, 0x01] ++ bytesOf "US" ++ [0x02, 0x00, 0x0f, 0x00]
    ++ [0x28, 0x00, 0x03, 0x01] ++ bytesOf "US" ++ [0x02, 0x00, 0x00, 0x00]
    ++ [0x28, 0x00, 0x04, 0x00] ++ bytesOf "CS" ++ [0x0c, 0x00] ++ bytesOf "MONOCHROME2 "
    ++ [0xe0, 0x7f, 0x10, 0x00] ++ bytesOf "OW" ++ [0x00, 0x00, 0x08, 0x00, 0x00, 0x00]
    ++ [1, 0, 2, 0, 3, 0, 4, 0]

/-- The object `Dicom::parse` has built from `file_16bit`, starting from a new
object, when its reading part ends. -/
def dicom_16bit : Dicom :=
  { Dicom.default with
    _element :=
      [(TAG_PHOTO_INTERPRET.number true,
          stored_element TAG_PHOTO_INTERPRET 0x4353 (.string (bytesOf "MONOCHROME2 "))),
       (TAG_TRANSFER_SYNTAX_UID.number true,
          stored_element TAG_TRANSFER_SYNTAX_UID 0x5549 (.string (UID_LEE ++ [0x00]))),
       (TAG_ROWS.number true, stored_element TAG_ROWS 0x5553 (.scalar .uint16 2)),
       (TAG_FRAME_DATA.number true, stored_vector TAG_FRAME_DATA 0x4f57 .uint16 [1, 2, 3, 4]),
       (TAG_COLS.number true, stored_element TAG_COLS 0x5553 (.scalar .uint16 2)),
       (TAG_BIT_ALLOC.number true, stored_element TAG_BIT_ALLOC 0x5553 (.scalar .uint16 16)),
       (TAG_BIT_STORED.number true, stored_element TAG_BIT_STORED 0x5553 (.scalar .uint16 16)),
       (TAG_HI_BIT.number true, stored_element TAG_HI_BIT 0x5553 (.scalar .uint16 15)),
       (TAG_PX_REP.number true, stored_element TAG_PX_REP 0x5553 (.scalar .uint16 0))] }

/-- The object `dicom_S1` with BitsAllocated US 12 in place of US 8. -/
def dicom_12bit : Dicom :=
  { Dicom.default with
    _element := map_assign store_S1 (TAG_BIT_ALLOC.number true)
      (stored_element TAG_BIT_ALLOC 0x5553 (.scalar .uint16 12)) }

/-- The smallest input with the magic: 128 zero bytes and "DICM". -/
def file_magic_only : List Byte :=
  List.replicate 128 0 ++ bytesOf "DICM"

/-- An input with the magic and one element of group 0x0002 that ends at the end
of the input: (0002,0016) with the VR bytes "AE", length 2 and value "XY". -/
def file_meta_ae : List Byte :=
  List.replicate 128 0 ++ bytesOf "DICM"
    ++ [0x02, 0x00, 0x16, 0x00] ++ bytesOf "AE" ++ [0x02, 0x00] ++ bytesOf "XY"

/-- An input with the magic and one element of group 0x0002 that ends at the end
of the input: (0002,0001) with VR FD, the declared length 12 and twelve value
bytes, of which the last four are 08 00 05 00. -/
def file_meta_fd : List Byte :=
  List.replicate 128 0 ++ bytesOf "DICM"
    ++ [0x02, 0x00, 0x01, 0x00] ++ bytesOf "FD" ++ [0x0c, 0x00]
    ++ [0, 0, 0, 0, 0, 0, 0, 0, 0x08, 0x00, 0x05, 0x00]

/-- An input with the magic and the Transfer Syntax UID element of scenario S1,
which ends at the end of the input. -/
def file_meta_uid : List Byte :=
  List.replicate 128 0 ++ bytesOf "DICM"
    ++ [0x02, 0x00, 0x10, 0x00] ++ bytesOf "UI" ++ [0x14, 0x00]
    ++ bytesOf "1.2.840.10008.1.2.1" ++ [0x00]

/-- A Little-Endian Explicit-VR file (UID "1.2.840.10008.1.2.1" and one NUL)
with PhotometricInterpretation CS "MONOCHROME2 ", Rows 1, Cols 2,
BitsAllocated 16, BitsStored 12, HighBit 11, PixelRepresentation 0 (all US),
RescaleIntercept DS "-1.5", RescaleSlope DS "2.0 " and PixelData OW of the four
bytes of the two 16-bit pixels 0x0FFF and 0x0FFF. -/
def file_rescale : List Byte :=
  List.replicate 128 0 ++ bytesOf "DICM"
    ++ [0x02, 0x00, 0x10, 0x00] ++ bytesOf "UI" ++ [0x14, 0x00]
    ++ bytesOf "1.2.840.10008.1.2.1" ++ [0x00]
    ++ [0x28, 0x00, 0x04, 0x00] ++ bytesOf "CS" ++ [0x0c, 0x00] ++ bytesOf "MONOCHROME2 "
    ++ [0x28, 0x00, 0x10, 0x00] ++ bytesOf "US" ++ [0x02, 0x00, 0x01, 0x00]
    ++ [0x28, 0x00, 0x11, 0x00] ++ bytesOf "US" ++ [0x02, 0x00, 0x02, 0x00]
    ++ [0x28, 0x00, 0x00, 0x01] ++ bytesOf "US" ++ [0x02, 0x00, 0x10, 0x00]
    ++ [0x28, 0x00, 0x01, 0x01] ++ bytesOf "US" ++ [0x02, 0x00, 0x0c, 0x00]
    ++ [0x28, 0x00, 0x02, 0x01] ++ bytesOf "US" ++ [0x02, 0x00, 0x0b, 0x00]
    ++ [0x28, 0x00, 0x03, 0x01] ++ bytesOf "US" ++ [0x02, 0x00, 0x00, 0x00]
    ++ [0x28, 0x00, 0x52, 0x10] ++ bytesOf "DS" ++ [0x04, 0x00] ++ bytesOf "-1.5"
    ++ [0x28, 0x00, 0x53, 0x10] ++ bytesOf "DS" ++ [0x04, 0x00] ++ bytesOf "2.0 "
    ++ [0xe0, 0x7f, 0x10, 0x00] ++ bytesOf "OW" ++ [0x00, 0x00, 0x04, 0x00, 0x00, 0x00]
    ++ [0xff, 0x0f, 0xff, 0x0f]

/-- The object `Dicom::parse` has built from `file_rescale`, starting from a new
object, when its reading part ends. -/
def dicom_rescale : Dicom :=
  { Dicom.default with
    _element :=
      [(TAG_PHOTO_INTERPRET.number true,
          stored_element TAG_PHOTO_INTERPRET 0x4353 (.string (bytesOf "MONOCHROME2 "))),
       (TAG_TRANSFER_SYNTAX_UID.number true,
          stored_element TAG_TRANSFER_SYNTAX_UID 0x5549 (.string (UID_LEE ++ [0x00]))),
       (TAG_ROWS.number true, stored_element TAG_ROWS 0x5553 (.scalar .uint16 1)),
       (TAG_FRAME_DATA.number true,
          stored_vector TAG_FRAME_DATA 0x4f57 .uint16 [4095, 4095]),
       (TAG_COLS.number true, stored_element TAG_COLS 0x5553 (.scalar .uint16 2)),
       (TAG_BIT_ALLOC.number true, stored_element TAG_BIT_ALLOC 0x5553 (.scalar .uint16 16)),
       (TAG_BIT_STORED.number true, stored_element TAG_BIT_STORED 0x5553 (.scalar .uint16 12)),
       (TAG_HI_BIT.number true, stored_element TAG_HI_BIT 0x5553 (.scalar .uint16 11)),
       (TAG_PX_REP.number true, stored_element TAG_PX_REP 0x5553 (.scalar .uint16 0)),
       (TAG_RESCALE_INT.number true,
          stored_element TAG_RESCALE_INT 0x4453 (.string (bytesOf "-1.5"))),
       (TAG_RESCALE_SLP.number true,
          stored_element TAG_RESCALE_SLP 0x4453 (.string (bytesOf "2.0 ")))] }

/-! ## Encodings (the specification's side) -/

/-- The two bytes of the 16-bit integer `x` in a stream of byte order `le`. -/
def encode_u16 (le : Bool) (x : Nat) : List Byte :=
  if le then [UInt8.ofNat (x % 256), UInt8.ofNat (x / 256 % 256)]
  else [UInt8.ofNat (x / 256 % 256), UInt8.ofNat (x % 256)]

/-- The four bytes of the 32-bit integer `x` in a stream of byte order `le`. -/
def encode_u32 (le : Bool) (x : Nat) : List Byte :=
  if le then
    [UInt8.ofNat (x % 256), UInt8.ofNat (x / 256 % 256), UInt8.ofNat (x / 65536 % 256),
     UInt8.ofNat (x / 16777216 % 256)]
  else
    [UInt8.ofNat (x / 16777216 % 256), UInt8.ofNat (x / 65536 % 256),
     UInt8.ofNat (x / 256 % 256), UInt8.ofNat (x % 256)]

/-- The bytes of one value in a stream of byte order `le`; the value is given
by its bytes `v` in little-endian order. -/
def encode_value (le : Bool) (v : List Byte) : List Byte :=
  if le then v else v.reverse

/-- The Explicit-VR encoding, in byte order `le`, of the element with tag
`tag`, VR bytes `v0 v1` and the values `vs` (each given by its bytes in
little-endian order): tag, VR, the length in the form the VR asks for (two
reserved bytes and 32 bits for OB, OW, OF, SQ, UT, UN, else 16 bits), and the
values one after the other. -/
def encode_explicit (le : Bool) (tag : TypeTag) (v0 v1 : Byte) (vs : List (List Byte)) :
    List Byte :=
  encode_u16 le tag.id0 ++ encode_u16 le tag.id1 ++ [v0, v1]
    ++ (if beNat [v0, v1] ∈ vr_long then [0, 0] ++ encode_u32 le (vs.map List.length).sum
        else encode_u16 le (vs.map List.length).sum)
    ++ (vs.map (encode_value le)).flatten

/-! ## The unpadding, pixel by pixel (the specification's side) -/

/-- Modelled from the spec: the division by 2 that the statement `_image /= 2`
makes on one pixel. The operator is `cv::Mat::operator/=` of OpenCV, whose code
is not part of the source; the specification calls the step an integer division
by 2, and the integer division of C++ rounds the quotient toward zero. -/
def pixel_halve (p : Int) : Int :=
  Int.tdiv p 2

/-- The pixel `p` after `k` turns of the loop `for(int i=0;i<d;i++) this->_image/=2;`
when a turn replaces a pixel `q` by `halve q`. -/
def pixel_unpad (halve : Int → Int) : Nat → Int → Int
  | 0, p => p
  | k + 1, p => pixel_unpad halve k (halve p)

/-- The right shift of the pixel `p` by `k` bits as the specification asks for
it: a logical shift of an unsigned pixel, an arithmetic shift of a signed one. -/
def pixel_shift_right (p : Int) (k : Nat) : Int :=
  p >>> k

/-- The matrix of `rows` rows and `cols` columns with elements of type `T` that
holds the integers `ps`, row by row. -/
def Mat.of_pixels (rows cols : Nat) (T : DType) (ps : List Int) : Mat :=
  { rows := rows, cols := cols, depth := T, data := ps.map (fun p : Int => (p : ℚ)) }

/-- An object in the middle of `parse_image`, before the unpadding: 16 bits
allocated, signed, the one-by-two matrix of type `CV_16S` with the pixels -4096
and -1, and a store that holds BitsStored US 12 and HighBit US 15. -/
def dicom_16_12_15 : Dicom :=
  { Dicom.default with
    _image := Mat.of_pixels 1 2 .int16 [-4096, -1]
    _cols := 2
    _rows := 1
    _bits := 16
    _chs := 1
    _is_signed := true
    _element :=
      [(TAG_BIT_STORED.number true, stored_element TAG_BIT_STORED 0x5553 (.scalar .uint16 12)),
       (TAG_HI_BIT.number true, stored_element TAG_HI_BIT 0x5553 (.scalar .uint16 15))] }

/-! ## The matrix and the rescale (the specification's side) -/

/-- The element of row `r` and column `c` of a matrix, whose elements are held
row by row; `none` outside the matrix. -/
def Mat.entry (m : Mat) (r c : Nat) : Option ℚ :=
  if r < m.rows ∧ c < m.cols then m.data[r * m.cols + c]? else none

/-- Modelled from the spec: the matrix after the statement `_image *= a` for a
`float` number `a`. The operator is `cv::Mat::operator*=` of OpenCV, whose code
is not part of the source; the specification computes `pixel * slope` element by
element and has the rescaling promote the matrix to float. -/
def Mat.mul_float (m : Mat) (a : ℚ) : Mat :=
  { m with depth := .float, data := m.data.map (fun p => p * a) }

/-- Modelled from the spec: the matrix after the statement `_image += b` for a
`float` number `b`. The operator is `cv::Mat::operator+=` of OpenCV, whose code
is not part of the source; the specification adds the intercept element by
element and has the rescaling promote the matrix to float. -/
def Mat.add_float (m : Mat) (b : ℚ) : Mat :=
  { m with depth := .float, data := m.data.map (fun p => p + b) }

/-! ## Lemmas: streams and byte order -/

theorem IStream.good_iff (s : IStream) : s.good = true ↔ s.eofbit = false ∧ s.failbit = false := by
  cases s with
  | mk data pos e f => cases e <;> cases f <;> simp [IStream.good]

theorem IStream.rest_advance (s : IStream) (n : Nat) :
    ({ s with pos := s.pos + n } : IStream).rest = s.rest.drop n := by
  simp [IStream.rest, List.drop_drop, Nat.add_comm]

theorem IStream.read_ok (s : IStream) (n : Nat) (hg : s.good = true) (hn : n ≤ s.rest.length) :
    s.read n = (some (s.rest.take n), { s with pos := s.pos + n }) := by
  simp [IStream.read, hg, hn]

theorem IStream.read_eq_some {s s1 : IStream} {n : Nat} {bs : List Byte}
    (h : s.read n = (some bs, s1)) :
    s.good = true ∧ n ≤ s.rest.length ∧ bs = s.rest.take n ∧ s1 = { s with pos := s.pos + n } := by
  unfold IStream.read at h
  split at h
  · split at h
    · simp at h
      exact ⟨by assumption, by assumption, h.1.symm, h.2.symm⟩
    · simp at h
  · simp at h

theorem byte_add_mod (b : Byte) (y : Nat) : (b.toNat + 256 * y) % 256 = b.toNat := by
  have h0 := b.toNat_lt_size
  simp only [UInt8.size] at h0
  omega

theorem byte_add_div (b : Byte) (y : Nat) : (b.toNat + 256 * y) / 256 = y := by
  have h0 := b.toNat_lt_size
  simp only [UInt8.size] at h0
  omega

theorem bswap_32_le (b0 b1 b2 b3 : Byte) :
    bswap_32 (leNat [b0, b1, b2, b3]) = leNat [b3, b2, b1, b0] := by
  have e1 : (65536 : Nat) = 256 * 256 := by norm_num
  have e2 : (16777216 : Nat) = 256 * 256 * 256 := by norm_num
  have h3 := b3.toNat_lt_size
  simp only [UInt8.size] at h3
  simp only [bswap_32, leNat]
  rw [e1, e2, ← Nat.div_div_eq_div_mul, ← Nat.div_div_eq_div_mul, ← Nat.div_div_eq_div_mul]
  simp only [byte_add_mod, byte_add_div]
  omega

theorem bswap_16_le (b0 b1 : Byte) :
    bswap_16 (leNat [b0, b1]) = leNat [b1, b0] := by
  have h0 := b0.toNat_lt_size
  have h1 := b1.toNat_lt_size
  simp only [UInt8.size] at h0 h1
  simp only [bswap_16, leNat]
  omega

theorem load_reverse (h : Bool) (m : List Byte) : load h m.reverse = load (!h) m := by
  cases h <;> simp [load, beNat]

theorem load_single (h h2 : Bool) (b : Byte) : load h [b] = load h2 [b] := by
  cases h <;> cases h2 <;> simp [load, beNat]

/-- An integer read in host order and swapped when the orders differ is the
integer a host of the stream order reads. -/
theorem swap32_eq_load (host fmt : Bool) (b0 b1 b2 b3 : Byte) :
    (if (host != fmt) = true then bswap_32 (load host [b0, b1, b2, b3])
      else load host [b0, b1, b2, b3]) = load fmt [b0, b1, b2, b3] := by
  cases host <;> cases fmt <;> simp [load, beNat, bswap_32_le]

theorem swap16_eq_load (host fmt : Bool) (b0 b1 : Byte) :
    (if (host != fmt) = true then bswap_16 (load host [b0, b1])
      else load host [b0, b1]) = load fmt [b0, b1] := by
  cases host <;> cases fmt <;> simp [load, beNat, bswap_16_le]

theorem DType.ofMem_congr (h1 h2 : Bool) (T : DType) (m1 m2 : List Byte)
    (h : load h1 m1 = load h2 m2) : T.ofMem h1 m1 = T.ofMem h2 m2 := by
  cases T <;> simp [DType.ofMem, h]

theorem DType.ofMem_swap (host fmt : Bool) (T : DType) (m : List Byte)
    (hm : m.length = T.sizeof) :
    (if (decide (T.sizeof > 1) && (host != fmt)) = true then T.ofMem host m.reverse
      else T.ofMem host m) = T.ofMem fmt m := by
  by_cases hs : T.sizeof > 1
  · cases host <;> cases fmt <;> simp [hs] <;> apply DType.ofMem_congr <;> simp [load_reverse]
  · have h1 : m.length = 1 := by
      cases T <;> simp [DType.sizeof] at hs hm ⊢ <;> omega
    obtain ⟨b, rfl⟩ := List.length_eq_one.mp h1
    simp [hs]
    exact DType.ofMem_congr _ _ _ _ _ (load_single _ _ _)

theorem Element.need_swap_of_parent (host_le : Bool) (d : Dicom) (e : Element)
    (hp : e._parent = true) (ha : d._architecture_as_little_endian = host_le) :
    e._need_byte_swap d = (host_le != d._format_as_little_endian) := by
  simp [Element._need_byte_swap, hp, Dicom._need_byte_swap, ha]

theorem Element.single_ok (host_le : Bool) (d : Dicom) (e : Element) (T : DType)
    (ist : IStream) (hp : e._parent = true) (ha : d._architecture_as_little_endian = host_le)
    (hg : ist.good = true) (hn : T.sizeof ≤ ist.rest.length) :
    Element._read_element_data_single host_le d e T ist T.sizeof =
      (.ok (T.ofMem d._format_as_little_endian (ist.rest.take T.sizeof)),
       { ist with pos := ist.pos + T.sizeof }) := by
  have hsw := DType.ofMem_swap host_le d._format_as_little_endian T (ist.rest.take T.sizeof)
    (by simp [hn])
  simp only [Element._read_element_data_single, IStream.read_ok ist _ hg hn,
    Element.need_swap_of_parent host_le d e hp ha]
  split
  · rename_i h; rw [if_pos h] at hsw; rw [hsw]
  · rename_i h; rw [if_neg h] at hsw; rw [hsw]

theorem Element.loop_ok (host_le : Bool) (d : Dicom) (e : Element) (T : DType)
    (hp : e._parent = true) (ha : d._architecture_as_little_endian = host_le) :
    ∀ (k : Nat) (ist : IStream), ist.good = true → k * T.sizeof ≤ ist.rest.length →
    Element._read_element_data_loop host_le d e T T.sizeof k ist =
      (.ok ((List.range k).map (fun i =>
          T.ofMem d._format_as_little_endian ((ist.rest.drop (i * T.sizeof)).take T.sizeof))),
       { ist with pos := ist.pos + k * T.sizeof }) := by
  intro k
  induction k with
  | zero => intro ist _ _; simp [Element._read_element_data_loop]
  | succ k ih =>
    intro ist hg hn
    have hn1 : T.sizeof ≤ ist.rest.length := by
      have : (k + 1) * T.sizeof = k * T.sizeof + T.sizeof := by ring
      omega
    have hg1 : ({ ist with pos := ist.pos + T.sizeof } : IStream).good = true := by
      simpa [IStream.good] using hg
    have hn2 : k * T.sizeof ≤ ({ ist with pos := ist.pos + T.sizeof } : IStream).rest.length := by
      rw [IStream.rest_advance, List.length_drop]
      have : (k + 1) * T.sizeof = k * T.sizeof + T.sizeof := by ring
      omega
    simp only [Element._read_element_data_loop, Element.single_ok host_le d e T ist hp ha hg hn1,
      ih _ hg1 hn2, IStream.rest_advance]
    congr 1
    · rw [List.range_succ_eq_map]
      simp only [List.map_cons, List.map_map, Nat.zero_mul, List.drop_zero, List.drop_drop]
      congr 2
      apply List.map_congr_left
      intro i _
      simp only [Function.comp]
      have : T.sizeof + i * T.sizeof = i.succ * T.sizeof := by
        rw [Nat.succ_mul]; omega
      rw [this]
    · simp only [IStream.mk.injEq, true_and, and_true]
      ring

/-! ## Lemmas: reading one element -/

theorem toInt32_of_lt {x : Nat} (h : x < 2147483648) : toInt32 x = (x : Int) := by
  have : x % 4294967296 = x := Nat.mod_eq_of_lt (by omega)
  simp [toInt32, this, h]

theorem toInt32_eq_one {x : Nat} (h : x < 4294967296) : toInt32 x = 1 ↔ x = 1 := by
  have : x % 4294967296 = x := Nat.mod_eq_of_lt h
  simp only [toInt32, this]
  split <;> omega

theorem toInt32_toNat_le {x : Nat} (h : x < 4294967296) : (toInt32 x).toNat ≤ x := by
  have : x % 4294967296 = x := Nat.mod_eq_of_lt h
  simp only [toInt32, this]
  split <;> omega

theorem DType.sizeof_pos (T : DType) : 0 < T.sizeof := by
  cases T <;> simp [DType.sizeof]

/-- The result of `_read_element_data<T>` on a good stream that holds the
values it reads. -/
theorem Element.data_ok (host_le : Bool) (d : Dicom) (e : Element) (T : DType)
    (ist : IStream) (len : Nat)
    (hp : e._parent = true) (ha : d._architecture_as_little_endian = host_le)
    (hg : ist.good = true) (h32 : len < 4294967296) (hn : len ≤ ist.rest.length) :
    Element._read_element_data host_le d e T ist len =
      if len / T.sizeof = 1 then
        (.ok { e with _value := .scalar T
                        (T.ofMem d._format_as_little_endian (ist.rest.take T.sizeof)),
                      _is_vector := false },
         { ist with pos := ist.pos + T.sizeof })
      else
        (.ok { e with _value := .vector T
                        ((List.range (toInt32 (len / T.sizeof)).toNat).map (fun i =>
                          T.ofMem d._format_as_little_endian
                            ((ist.rest.drop (i * T.sizeof)).take T.sizeof))),
                      _is_vector := true },
         { ist with pos := ist.pos + (toInt32 (len / T.sizeof)).toNat * T.sizeof }) := by
  have hs := T.sizeof_pos
  have hq : len / T.sizeof < 4294967296 := lt_of_le_of_lt (Nat.div_le_self _ _) h32
  have hmul : len / T.sizeof * T.sizeof ≤ len := Nat.div_mul_le_self _ _
  unfold Element._read_element_data
  simp only [toInt32_eq_one hq]
  split
  · rename_i h1
    have hn1 : T.sizeof ≤ ist.rest.length := by rw [h1] at hmul; omega
    rw [Element.single_ok host_le d e T ist hp ha hg hn1]
  · have hk : (toInt32 (len / T.sizeof)).toNat * T.sizeof ≤ ist.rest.length :=
      le_trans (Nat.mul_le_mul_right _ (toInt32_toNat_le hq)) (le_trans hmul hn)
    rw [Element.loop_ok host_le d e T hp ha _ ist hg hk]

theorem Element.body_typed (host_le : Bool) (d : Dicom) (e : Element) (vr : Nat) (T : DType)
    (ist : IStream) (sz : Nat) (h : (vr, T) ∈ vr_typed ∨ (vr, T) ∈ vr_bytes) :
    Element._parse_body_explicit host_le d e vr ist sz =
      Element._read_element_data host_le d e T ist sz := by
  simp only [vr_typed, vr_bytes, List.mem_cons, Prod.mk.injEq, List.mem_singleton,
    List.not_mem_nil, or_false] at h
  rcases h with (h | h | h | h | h | h | h | h | h) | (h | h) <;> obtain ⟨rfl, rfl⟩ := h <;>
    simp [Element._parse_body_explicit, vr_string]

theorem IStream.good_advance (ist : IStream) (n : Nat) (hg : ist.good = true) :
    ({ ist with pos := ist.pos + n } : IStream).good = true := by
  simpa [IStream.good] using hg

theorem IStream.seekg_cur_nat (s : IStream) (n : Nat) (hf : s.failbit = false) :
    s.seekg_cur (n : Int) = { s with eofbit := false, pos := s.pos + n } := by
  have h0 : (0 : Int) ≤ (s.pos : Int) + (n : Int) := by omega
  have h1 : ((s.pos : Int) + (n : Int)).toNat = s.pos + n := by omega
  simp [IStream.seekg_cur, hf, h0, h1]

theorem Element.vr_of_parent (host_le : Bool) (d : Dicom) (e : Element) (v0 v1 : Byte)
    (hp : e._parent = true) (ha : d._architecture_as_little_endian = host_le) :
    (if e._architecture_as_little_endian d = true then bswap_16 (load host_le [v0, v1])
      else load host_le [v0, v1]) = beNat [v0, v1] := by
  subst ha
  cases h : d._architecture_as_little_endian <;>
    simp [Element._architecture_as_little_endian, hp, h, load, beNat, bswap_16_le]

/-- C6 (long form). -/
theorem Element.explicit_long (host_le : Bool) (d : Dicom) (e : Element) (ist : IStream)
    (v0 v1 r0 r1 b0 b1 b2 b3 : Byte) (tail : List Byte)
    (hp : e._parent = true) (ha : d._architecture_as_little_endian = host_le)
    (hg : ist.good = true)
    (hr : ist.rest = v0 :: v1 :: r0 :: r1 :: b0 :: b1 :: b2 :: b3 :: tail)
    (hv : beNat [v0, v1] ∈ vr_long) :
    Element._parse_value_explicit host_le d e ist =
      Element._parse_body_explicit host_le d { e with _vr := some (beNat [v0, v1]) }
        (beNat [v0, v1]) { ist with pos := ist.pos + 8 }
        (load d._format_as_little_endian [b0, b1, b2, b3]) := by
  have hg' := (IStream.good_iff ist).mp hg
  have h2 : 2 ≤ ist.rest.length := by simp [hr]
  have e1 : ({ e with _vr := some (beNat [v0, v1]) } : Element)._need_byte_swap d
      = (host_le != d._format_as_little_endian) :=
    Element.need_swap_of_parent host_le d _ hp ha
  have hseek : ({ ist with pos := ist.pos + 2 } : IStream).seekg_cur 2
      = { ist with pos := ist.pos + 4 } := by
    have := IStream.seekg_cur_nat { ist with pos := ist.pos + 2 } 2 hg'.2
    simp only [Nat.cast_ofNat] at this
    rw [this]
    simp [hg'.1]
  have hg4 := IStream.good_advance ist 4 hg
  have h4 : 4 ≤ ({ ist with pos := ist.pos + 4 } : IStream).rest.length := by
    rw [IStream.rest_advance, hr]; simp
  unfold Element._parse_value_explicit
  rw [IStream.read_ok ist 2 hg h2]
  simp only [hr, List.take_succ_cons, List.take_zero, Element.vr_of_parent host_le d e v0 v1 hp ha]
  unfold Element._parse_length_explicit
  rw [if_pos hv, hseek, IStream.read_ok _ 4 hg4 h4, e1]
  simp only [IStream.rest_advance, hr, List.drop_succ_cons, List.drop_zero, List.take_succ_cons,
    List.take_zero, swap32_eq_load]

/-- C6 (short form). -/
theorem Element.explicit_short (host_le : Bool) (d : Dicom) (e : Element) (ist : IStream)
    (v0 v1 b0 b1 : Byte) (tail : List Byte)
    (hp : e._parent = true) (ha : d._architecture_as_little_endian = host_le)
    (hg : ist.good = true)
    (hr : ist.rest = v0 :: v1 :: b0 :: b1 :: tail)
    (hv : beNat [v0, v1] ∉ vr_long) :
    Element._parse_value_explicit host_le d e ist =
      Element._parse_body_explicit host_le d { e with _vr := some (beNat [v0, v1]) }
        (beNat [v0, v1]) { ist with pos := ist.pos + 4 }
        (load d._format_as_little_endian [b0, b1]) := by
  have h2 : 2 ≤ ist.rest.length := by simp [hr]
  have e1 : ({ e with _vr := some (beNat [v0, v1]) } : Element)._need_byte_swap d
      = (host_le != d._format_as_little_endian) :=
    Element.need_swap_of_parent host_le d _ hp ha
  have hg2 := IStream.good_advance ist 2 hg
  have h4 : 2 ≤ ({ ist with pos := ist.pos + 2 } : IStream).rest.length := by
    rw [IStream.rest_advance, hr]; simp
  unfold Element._parse_value_explicit
  rw [IStream.read_ok ist 2 hg h2]
  simp only [hr, List.take_succ_cons, List.take_zero, Element.vr_of_parent host_le d e v0 v1 hp ha]
  unfold Element._parse_length_explicit
  rw [if_neg hv, IStream.read_ok _ 2 hg2 h4, e1]
  simp only [IStream.rest_advance, hr, List.drop_succ_cons, List.drop_zero, List.take_succ_cons,
    List.take_zero, swap16_eq_load]

theorem vr_typed_sizeof {vr : Nat} {T : DType} (h : (vr, T) ∈ vr_typed) : 2 ≤ T.sizeof := by
  simp only [vr_typed, List.mem_cons, Prod.mk.injEq, List.mem_singleton,
    List.not_mem_nil, or_false] at h
  rcases h with h | h | h | h | h | h | h | h | h <;> obtain ⟨-, rfl⟩ := h <;>
    simp [DType.sizeof]

theorem chunk_of_take (l : List Byte) (k i s : Nat) (hi : i < k) :
    ((l.take (k * s)).drop (i * s)).take s = (l.drop (i * s)).take s := by
  have h1 : s ≤ k * s - i * s := by
    have : (i + 1) * s ≤ k * s := Nat.mul_le_mul_right s hi
    rw [Nat.succ_mul] at this
    omega
  rw [List.drop_take, List.take_take, Nat.min_eq_left h1]

theorem range_map_bytes (g : List Byte → Int) :
    ∀ (L : Nat) (l : List Byte), L ≤ l.length →
      (List.range L).map (fun i => g ((l.drop (i * 1)).take 1)) = (l.take L).map (fun b => g [b]) := by
  intro L
  induction L with
  | zero => intro l _; simp
  | succ L ih =>
    intro l hl
    cases l with
    | nil => simp at hl
    | cons a l =>
      rw [List.range_succ_eq_map]
      simp only [List.map_cons, List.map_map, List.take_succ_cons]
      congr 1
      have := ih l (by simpa using hl)
      simp only [Nat.mul_one] at this ⊢
      rw [← this]
      apply List.map_congr_left
      intro i _
      simp [Function.comp]

theorem uchar_ofMem_single (h : Bool) (b : Byte) : DType.uchar.ofMem h [b] = (b.toNat : Int) := by
  cases h <;> simp [DType.ofMem, load, beNat, leNat]

/-! ## Lemmas: the Transfer Syntax UID -/

/-- A byte of NUL/space padding. -/
theorem pad_ne {x c : Byte} (hx : x ≠ 0x00 ∧ x ≠ 0x20) (hc : c = 0x00 ∨ c = 0x20) :
    (x == c) = false := by
  rcases hc with rfl | rfl
  · simpa using hx.1
  · simpa using hx.2

theorem isPrefixOf_append_pad (p : List Byte) (hp : ∀ c ∈ p, c = 0x00 ∨ c = 0x20) :
    ∀ (N t : List Byte), (∀ x ∈ N, x ≠ 0x00 ∧ x ≠ 0x20) →
      N.isPrefixOf (t ++ p) = N.isPrefixOf t := by
  intro N
  induction N with
  | nil => intro t _; simp
  | cons x xs ih =>
    intro t hN
    cases t with
    | nil =>
      cases p with
      | nil => simp
      | cons c p =>
        simp only [List.nil_append, List.isPrefixOf, Bool.and_eq_false_imp]
        have := pad_ne (hN x (List.mem_cons_self _ _)) (hp c (List.mem_cons_self _ _))
        simp [this]
    | cons a t =>
      have := ih t (fun y hy => hN y (List.mem_cons_of_mem _ hy))
      simp only [List.cons_append, List.isPrefixOf, List.append_eq, this]

theorem string_find_pad (N : List Byte) (hne : N ≠ []) (hN : ∀ x ∈ N, x ≠ 0x00 ∧ x ≠ 0x20) :
    ∀ (p : List Byte) (i : Nat), (∀ c ∈ p, c = 0x00 ∨ c = 0x20) → string_find N p i = none := by
  intro p
  induction p with
  | nil =>
    intro i _
    cases N with
    | nil => exact absurd rfl hne
    | cons x xs => simp [string_find]
  | cons c p ih =>
    intro i hp
    have h1 := isPrefixOf_append_pad (c :: p) hp N [] hN
    simp only [List.nil_append] at h1
    have h2 : N.isPrefixOf [] = false := by
      cases N with
      | nil => exact absurd rfl hne
      | cons x xs => simp [List.isPrefixOf]
    simp only [string_find, h1, h2]
    exact ih (i + 1) (fun y hy => hp y (List.mem_cons_of_mem _ hy))

/-- Searching a needle free of NUL and space in `u` followed by NUL/space
padding is searching it in `u`. -/
theorem string_find_append_pad (N : List Byte) (hne : N ≠ [])
    (hN : ∀ x ∈ N, x ≠ 0x00 ∧ x ≠ 0x20) (p : List Byte) (hp : ∀ c ∈ p, c = 0x00 ∨ c = 0x20) :
    ∀ (u : List Byte) (i : Nat), string_find N (u ++ p) i = string_find N u i := by
  intro u
  induction u with
  | nil =>
    intro i
    rw [List.nil_append, string_find_pad N hne hN p i hp]
    cases N with
    | nil => exact absurd rfl hne
    | cons x xs => simp [string_find]
  | cons a u ih =>
    intro i
    have h1 := isPrefixOf_append_pad p hp N (a :: u) hN
    simp only [List.cons_append] at h1 ⊢
    simp only [string_find, h1, ih]

theorem UID_BEE_clean : UID_BEE ≠ [] ∧ ∀ x ∈ UID_BEE, x ≠ 0x00 ∧ x ≠ 0x20 := by decide

theorem UID_DEFLATED_LEE_clean :
    UID_DEFLATED_LEE ≠ [] ∧ ∀ x ∈ UID_DEFLATED_LEE, x ≠ 0x00 ∧ x ≠ 0x20 := by decide

theorem UID_LEE_clean : UID_LEE ≠ [] ∧ ∀ x ∈ UID_LEE, x ≠ 0x00 ∧ x ≠ 0x20 := by decide

theorem UID_LEI_clean : UID_LEI ≠ [] ∧ ∀ x ∈ UID_LEI, x ≠ 0x00 ∧ x ≠ 0x20 := by decide

/-- The format chosen for a UID string with NUL/space padding is the one chosen
for the string without the padding. -/
theorem Dicom.select_format_pad (d : Dicom) (u p : List Byte)
    (hp : ∀ c ∈ p, c = 0x00 ∨ c = 0x20) :
    d.select_format (u ++ p) = d.select_format u := by
  simp only [Dicom.select_format,
    string_find_append_pad _ UID_BEE_clean.1 UID_BEE_clean.2 p hp,
    string_find_append_pad _ UID_DEFLATED_LEE_clean.1 UID_DEFLATED_LEE_clean.2 p hp,
    string_find_append_pad _ UID_LEE_clean.1 UID_LEE_clean.2 p hp,
    string_find_append_pad _ UID_LEI_clean.1 UID_LEI_clean.2 p hp]

theorem Dicom.select_format_BEE (d : Dicom) :
    d.select_format UID_BEE =
      { d with _format_as_little_endian := false, _format_as_explicit := true,
               _format_as_deflate := false } := by
  have h : string_find UID_BEE UID_BEE 0 ≠ none := by decide
  simp only [Dicom.select_format, if_pos h]

theorem Dicom.select_format_DEFLATED_LEE (d : Dicom) :
    d.select_format UID_DEFLATED_LEE =
      { d with _format_as_little_endian := true, _format_as_explicit := true,
               _format_as_deflate := true } := by
  have h1 : ¬ string_find UID_BEE UID_DEFLATED_LEE 0 ≠ none := by decide
  have h2 : string_find UID_DEFLATED_LEE UID_DEFLATED_LEE 0 ≠ none := by decide
  simp only [Dicom.select_format, if_neg h1, if_pos h2]

theorem Dicom.select_format_LEE (d : Dicom) :
    d.select_format UID_LEE =
      { d with _format_as_little_endian := true, _format_as_explicit := true,
               _format_as_deflate := false } := by
  have h1 : ¬ string_find UID_BEE UID_LEE 0 ≠ none := by decide
  have h2 : ¬ string_find UID_DEFLATED_LEE UID_LEE 0 ≠ none := by decide
  have h3 : string_find UID_LEE UID_LEE 0 ≠ none := by decide
  simp only [Dicom.select_format, if_neg h1, if_neg h2, if_pos h3]

theorem Dicom.select_format_LEI (d : Dicom) :
    d.select_format UID_LEI =
      { d with _format_as_little_endian := true, _format_as_explicit := false,
               _format_as_deflate := false } := by
  have h1 : ¬ string_find UID_BEE UID_LEI 0 ≠ none := by decide
  have h2 : ¬ string_find UID_DEFLATED_LEE UID_LEI 0 ≠ none := by decide
  have h3 : ¬ string_find UID_LEE UID_LEI 0 ≠ none := by decide
  have h4 : string_find UID_LEI UID_LEI 0 ≠ none := by decide
  simp only [Dicom.select_format, if_neg h1, if_neg h2, if_neg h3, if_pos h4]

/-- The block "get format info." on a store that holds the Transfer Syntax UID
as a string. -/
theorem Dicom.parse_format_info_string (host_le : Bool) (d : Dicom) (e : Element)
    (s : List Byte)
    (he : map_find d._element (TAG_TRANSFER_SYNTAX_UID.number host_le) = some e)
    (hs : e._value = .string s) :
    Dicom.parse_format_info host_le d = (none, d.select_format s) := by
  simp [Dicom.parse_format_info, Dicom.has_element, Dicom.element, he, Element.as_string, hs]

theorem Dicom.parse_format_info_absent (host_le : Bool) (d : Dicom)
    (he : map_find d._element (TAG_TRANSFER_SYNTAX_UID.number host_le) = none) :
    Dicom.parse_format_info host_le d = (none, d) := by
  simp [Dicom.parse_format_info, Dicom.has_element, he]

/-! ## Lemmas: what the element parsers leave behind -/

theorem IStream.read_rest_le {s s1 : IStream} {n : Nat} {r : Option (List Byte)}
    (h : s.read n = (r, s1)) : s1.rest.length ≤ s.rest.length := by
  unfold IStream.read at h
  split at h
  · split at h
    · simp only [Prod.mk.injEq] at h
      rw [← h.2, IStream.rest_advance, List.length_drop]
      omega
    · simp only [Prod.mk.injEq] at h
      rw [← h.2]
      simp only [IStream.rest, List.length_drop]
      omega
  · simp only [Prod.mk.injEq] at h
    rw [← h.2]
    simp [IStream.rest]

theorem IStream.read_some_rest {s s1 : IStream} {n : Nat} {bs : List Byte}
    (h : s.read n = (some bs, s1)) : s1.rest.length + n = s.rest.length := by
  obtain ⟨_, hn, _, rfl⟩ := IStream.read_eq_some h
  rw [IStream.rest_advance, List.length_drop]
  omega

theorem IStream.seekg_cur_rest_le (s : IStream) (n : Nat) :
    (s.seekg_cur (n : Int)).rest.length ≤ s.rest.length := by
  unfold IStream.seekg_cur
  have h0 : (0 : Int) ≤ (s.pos : Int) + (n : Int) := by omega
  have h1 : ((s.pos : Int) + (n : Int)).toNat = s.pos + n := by omega
  split
  · simp [IStream.rest]
  · simp only [h0, if_true, h1]
    simp only [IStream.rest, List.length_drop]
    omega

/-- An exception of `Element::parse_tag` is the `StreamError`. -/
theorem Element.parse_tag_spec {host_le : Bool} {d : Dicom} {e : Element} {ist ist1 : IStream}
    {r : Except Error Element} (h : Element.parse_tag host_le d e ist = (r, ist1)) :
    ist1.rest.length ≤ ist.rest.length ∧
    (∀ err, r = .error err → err = .StreamError "") ∧
    (∀ e1, r = .ok e1 → ist1.rest.length + 4 = ist.rest.length) := by
  unfold Element.parse_tag at h
  split at h
  · rename_i hr
    simp only [Prod.mk.injEq] at h
    obtain ⟨rfl, rfl⟩ := h
    exact ⟨IStream.read_rest_le hr, by simp, by simp⟩
  · rename_i raw ist2 hr
    have h4 := IStream.read_some_rest hr
    split at h <;> simp only [Prod.mk.injEq] at h <;> obtain ⟨rfl, rfl⟩ := h <;>
      exact ⟨by omega, by simp, fun _ _ => h4⟩

theorem Element.single_spec {host_le : Bool} {d : Dicom} {e : Element} {T : DType} {s : Nat}
    {ist ist1 : IStream} {r : Except Error Int}
    (h : Element._read_element_data_single host_le d e T ist s = (r, ist1)) :
    ist1.rest.length ≤ ist.rest.length ∧ (∀ err, r = .error err → err = .StreamError "") := by
  unfold Element._read_element_data_single at h
  split at h
  · rename_i hr
    simp only [Prod.mk.injEq] at h
    obtain ⟨rfl, rfl⟩ := h
    exact ⟨IStream.read_rest_le hr, by simp⟩
  · rename_i raw ist2 hr
    have h4 := IStream.read_rest_le hr
    split at h <;> simp only [Prod.mk.injEq] at h <;> obtain ⟨rfl, rfl⟩ := h <;>
      exact ⟨h4, by simp⟩

theorem Element.loop_spec {host_le : Bool} {d : Dicom} {e : Element} {T : DType} {s : Nat} :
    ∀ (k : Nat) {ist ist1 : IStream} {r : Except Error (List Int)},
      Element._read_element_data_loop host_le d e T s k ist = (r, ist1) →
      ist1.rest.length ≤ ist.rest.length ∧ (∀ err, r = .error err → err = .StreamError "") := by
  intro k
  induction k with
  | zero =>
    intro ist ist1 r h
    simp only [Element._read_element_data_loop, Prod.mk.injEq] at h
    obtain ⟨rfl, rfl⟩ := h
    exact ⟨le_refl _, by simp⟩
  | succ k ih =>
    intro ist ist1 r h
    unfold Element._read_element_data_loop at h
    split at h
    · rename_i err ist2 hs
      simp only [Prod.mk.injEq] at h
      obtain ⟨rfl, rfl⟩ := h
      have := Element.single_spec hs
      exact ⟨this.1, fun err2 h2 => by cases h2; exact this.2 _ rfl⟩
    · rename_i v ist2 hs
      have h1 := (Element.single_spec hs).1
      split at h
      · rename_i err ist3 hl
        simp only [Prod.mk.injEq] at h
        obtain ⟨rfl, rfl⟩ := h
        have := ih hl
        exact ⟨by omega, fun err2 h2 => by cases h2; exact this.2 _ rfl⟩
      · rename_i vs ist3 hl
        simp only [Prod.mk.injEq] at h
        obtain ⟨rfl, rfl⟩ := h
        have := ih hl
        exact ⟨by omega, by simp⟩

theorem Element.data_spec {host_le : Bool} {d : Dicom} {e : Element} {T : DType} {len : Nat}
    {ist ist1 : IStream} {r : Except Error Element}
    (h : Element._read_element_data host_le d e T ist len = (r, ist1)) :
    ist1.rest.length ≤ ist.rest.length ∧ (∀ err, r = .error err → err = .StreamError "") := by
  unfold Element._read_element_data at h
  simp only at h
  split at h
  · split at h
    · rename_i err ist2 hs
      simp only [Prod.mk.injEq] at h
      obtain ⟨rfl, rfl⟩ := h
      have := Element.single_spec hs
      exact ⟨this.1, fun err2 h2 => by cases h2; exact this.2 _ rfl⟩
    · rename_i v ist2 hs
      simp only [Prod.mk.injEq] at h
      obtain ⟨rfl, rfl⟩ := h
      exact ⟨(Element.single_spec hs).1, by simp⟩
  · split at h
    · rename_i err ist2 hs
      simp only [Prod.mk.injEq] at h
      obtain ⟨rfl, rfl⟩ := h
      have := Element.loop_spec _ hs
      exact ⟨this.1, fun err2 h2 => by cases h2; exact this.2 _ rfl⟩
    · rename_i v ist2 hs
      simp only [Prod.mk.injEq] at h
      obtain ⟨rfl, rfl⟩ := h
      exact ⟨(Element.loop_spec _ hs).1, by simp⟩

theorem Element.string_spec {e : Element} {len : Nat}
    {ist ist1 : IStream} {r : Except Error Element}
    (h : Element._read_element_data_string e ist len = (r, ist1)) :
    ist1.rest.length ≤ ist.rest.length ∧ (∀ err, r = .error err → err = .StreamError "") := by
  unfold Element._read_element_data_string at h
  split at h <;> rename_i hr <;> simp only [Prod.mk.injEq] at h <;> obtain ⟨rfl, rfl⟩ := h <;>
    exact ⟨IStream.read_rest_le hr, by simp⟩

theorem Element.sequence_loop_length :
    ∀ (unread eos value value1 unread1 : List Byte),
      Element._read_sequence_loop unread eos value = some (value1, unread1) →
      unread1.length ≤ unread.length := by
  intro unread
  induction unread with
  | nil => intro eos value value1 unread1 h; simp [Element._read_sequence_loop] at h
  | cons c unread ih =>
    intro eos value value1 unread1 h
    unfold Element._read_sequence_loop at h
    split at h
    · simp only [Option.some.injEq, Prod.mk.injEq] at h
      rw [← h.2]
      simp
    · have := ih _ _ _ _ h
      simp only [List.length_cons]
      omega

theorem Element.sequence_spec {host_le : Bool} {d : Dicom} {e : Element} {len : Nat}
    {ist ist1 : IStream} {r : Except Error Element}
    (h : Element._read_element_data_sequence host_le d e ist len = (r, ist1)) :
    ist1.rest.length ≤ ist.rest.length ∧ (∀ err, r = .error err → err = .StreamError "") := by
  unfold Element._read_element_data_sequence at h
  split at h
  · exact Element.data_spec h
  · split at h
    · split at h
      · simp only [Prod.mk.injEq] at h
        obtain ⟨rfl, rfl⟩ := h
        exact ⟨by simp only [IStream.rest, List.length_drop]; omega, by simp⟩
      · rename_i value unread hl
        simp only [Prod.mk.injEq] at h
        obtain ⟨rfl, rfl⟩ := h
        refine ⟨?_, by simp⟩
        rw [IStream.rest_advance, List.length_drop]
        omega
    · simp only [Prod.mk.injEq] at h
      obtain ⟨rfl, rfl⟩ := h
      exact ⟨by simp [IStream.rest], by simp⟩

theorem Element.implicit_spec {host_le : Bool} {d : Dicom} {e : Element}
    {ist ist1 : IStream} {r : Except Error Element}
    (h : Element._parse_value_implicit host_le d e ist = (r, ist1)) :
    ist1.rest.length ≤ ist.rest.length ∧ (∀ err, r = .error err → err = .StreamError "") := by
  unfold Element._parse_value_implicit at h
  split at h
  · rename_i hr
    simp only [Prod.mk.injEq] at h
    obtain ⟨rfl, rfl⟩ := h
    exact ⟨IStream.read_rest_le hr, by simp⟩
  · rename_i raw ist2 hr
    have h1 := IStream.read_rest_le hr
    have := Element.sequence_spec h
    exact ⟨by omega, this.2⟩

theorem Element.length_explicit_spec {host_le : Bool} {d : Dicom} {e : Element} {vr : Nat}
    {ist ist1 : IStream} {r : Except Error Nat}
    (h : Element._parse_length_explicit host_le d e vr ist = (r, ist1)) :
    ist1.rest.length ≤ ist.rest.length ∧ (∀ err, r = .error err → err = .StreamError "") := by
  unfold Element._parse_length_explicit at h
  split at h
  · have hk := IStream.seekg_cur_rest_le ist 2
    simp only [Nat.cast_ofNat] at hk
    split at h <;> rename_i hr <;> simp only [Prod.mk.injEq] at h <;> obtain ⟨rfl, rfl⟩ := h <;>
      exact ⟨le_trans (IStream.read_rest_le hr) hk, by simp⟩
  · split at h <;> rename_i hr <;> simp only [Prod.mk.injEq] at h <;> obtain ⟨rfl, rfl⟩ := h <;>
      exact ⟨IStream.read_rest_le hr, by simp⟩

theorem Element.body_explicit_spec {host_le : Bool} {d : Dicom} {e : Element} {vr sz : Nat}
    {ist ist1 : IStream} {r : Except Error Element}
    (h : Element._parse_body_explicit host_le d e vr ist sz = (r, ist1)) :
    ist1.rest.length ≤ ist.rest.length ∧
    (∀ err, r = .error err → err = .StreamError "" ∨ err = .ParseError "Unknown VR found") := by
  unfold Element._parse_body_explicit at h
  have weaken : ∀ {r : Except Error Element},
      (∀ err, r = .error err → err = .StreamError "") →
      (∀ err, r = .error err → err = .StreamError "" ∨ err = .ParseError "Unknown VR found") :=
    fun h1 err h2 => Or.inl (h1 err h2)
  split at h
  · exact ⟨(Element.string_spec h).1, weaken (Element.string_spec h).2⟩
  split at h
  · exact ⟨(Element.data_spec h).1, weaken (Element.data_spec h).2⟩
  split at h
  · exact ⟨(Element.data_spec h).1, weaken (Element.data_spec h).2⟩
  split at h
  · exact ⟨(Element.data_spec h).1, weaken (Element.data_spec h).2⟩
  split at h
  · exact ⟨(Element.data_spec h).1, weaken (Element.data_spec h).2⟩
  split at h
  · exact ⟨(Element.data_spec h).1, weaken (Element.data_spec h).2⟩
  split at h
  · exact ⟨(Element.data_spec h).1, weaken (Element.data_spec h).2⟩
  split at h
  · exact ⟨(Element.data_spec h).1, weaken (Element.data_spec h).2⟩
  split at h
  · exact ⟨(Element.sequence_spec h).1, weaken (Element.sequence_spec h).2⟩
  · simp only [Prod.mk.injEq] at h
    obtain ⟨rfl, rfl⟩ := h
    exact ⟨le_refl _, by simp⟩

theorem Element.value_explicit_spec {host_le : Bool} {d : Dicom} {e : Element}
    {ist ist1 : IStream} {r : Except Error Element}
    (h : Element._parse_value_explicit host_le d e ist = (r, ist1)) :
    ist1.rest.length ≤ ist.rest.length ∧
    (∀ err, r = .error err → err = .StreamError "" ∨ err = .ParseError "Unknown VR found") := by
  unfold Element._parse_value_explicit at h
  split at h
  · rename_i hr
    simp only [Prod.mk.injEq] at h
    obtain ⟨rfl, rfl⟩ := h
    exact ⟨IStream.read_rest_le hr, by simp⟩
  · rename_i raw ist2 hr
    have h1 := IStream.read_rest_le hr
    simp only at h
    split at h
    · rename_i err ist3 hl
      simp only [Prod.mk.injEq] at h
      obtain ⟨rfl, rfl⟩ := h
      have := Element.length_explicit_spec hl
      exact ⟨by omega, fun err2 h2 => by cases h2; exact Or.inl (this.2 _ rfl)⟩
    · rename_i sz ist3 hl
      have h2 := (Element.length_explicit_spec hl).1
      have := Element.body_explicit_spec h
      exact ⟨by omega, this.2⟩

/-- The stream never moves back in `Element::parse_value`, and the exceptions
it leaves with are the `StreamError` and the two `ParseError`s of the class. -/
theorem Element.parse_value_spec {host_le : Bool} {d : Dicom} {e : Element}
    {ist ist1 : IStream} {r : Except Error Element}
    (h : Element.parse_value host_le d e ist = (r, ist1)) :
    ist1.rest.length ≤ ist.rest.length ∧
    (∀ err, r = .error err → err = .StreamError "" ∨ err = .ParseError "Unknown VR found"
      ∨ err = .ParseError "No Tag Id found.") := by
  unfold Element.parse_value at h
  split at h
  · simp only [Prod.mk.injEq] at h
    obtain ⟨rfl, rfl⟩ := h
    exact ⟨le_refl _, by simp⟩
  split at h
  · have := Element.value_explicit_spec h
    exact ⟨this.1, fun err h2 => (this.2 err h2).elim Or.inl (fun h3 => Or.inr (Or.inl h3))⟩
  · have := Element.implicit_spec h
    exact ⟨this.1, fun err h2 => Or.inl (this.2 err h2)⟩

/-- A returning `Element::parse` has taken at least the four bytes of the tag,
and the exceptions it leaves with are those of `parse_tag` and
`parse_value`. -/
theorem Element.parse_spec {host_le : Bool} {d : Dicom} {e : Element}
    {ist ist1 : IStream} {r : Except Error Element}
    (h : Element.parse host_le d e ist = (r, ist1)) :
    ist1.rest.length ≤ ist.rest.length ∧
    (∀ err, r = .error err → err = .StreamError "" ∨ err = .ParseError "Unknown VR found"
      ∨ err = .ParseError "No Tag Id found.") ∧
    (∀ e1, r = .ok e1 → ist1.rest.length + 4 ≤ ist.rest.length) := by
  unfold Element.parse at h
  split at h
  · rename_i err ist2 ht
    simp only [Prod.mk.injEq] at h
    obtain ⟨rfl, rfl⟩ := h
    have := Element.parse_tag_spec ht
    exact ⟨this.1, fun err2 h2 => by cases h2; exact Or.inl (this.2.1 _ rfl), by simp⟩
  · rename_i e1 ist2 ht
    have h1 := Element.parse_tag_spec ht
    have h2 := Element.parse_value_spec h
    have h4 := h1.2.2 e1 rfl
    exact ⟨by omega, h2.2, fun _ _ => by omega⟩

theorem Element.data_tag {host_le : Bool} {d : Dicom} {e e1 : Element} {T : DType} {len : Nat}
    {ist ist1 : IStream}
    (h : Element._read_element_data host_le d e T ist len = (.ok e1, ist1)) :
    e1._tag = e._tag ∧ e1._parent = e._parent ∧ e1._vr = e._vr := by
  unfold Element._read_element_data at h
  simp only at h
  split at h <;> split at h <;> simp only [Prod.mk.injEq, Except.ok.injEq] at h
  all_goals first
    | (obtain ⟨rfl, -⟩ := h; exact ⟨rfl, rfl, rfl⟩)
    | exact absurd h.1 (by simp)

theorem Element.string_tag {e e1 : Element} {len : Nat} {ist ist1 : IStream}
    (h : Element._read_element_data_string e ist len = (.ok e1, ist1)) :
    e1._tag = e._tag ∧ e1._parent = e._parent ∧ e1._vr = e._vr := by
  unfold Element._read_element_data_string at h
  split at h <;> simp only [Prod.mk.injEq, Except.ok.injEq] at h
  all_goals first
    | (obtain ⟨rfl, -⟩ := h; exact ⟨rfl, rfl, rfl⟩)
    | exact absurd h.1 (by simp)

theorem Element.sequence_tag {host_le : Bool} {d : Dicom} {e e1 : Element} {len : Nat}
    {ist ist1 : IStream}
    (h : Element._read_element_data_sequence host_le d e ist len = (.ok e1, ist1)) :
    e1._tag = e._tag ∧ e1._parent = e._parent ∧ e1._vr = e._vr := by
  unfold Element._read_element_data_sequence at h
  split at h
  · exact Element.data_tag h
  · split at h
    · split at h <;> simp only [Prod.mk.injEq, Except.ok.injEq] at h
      all_goals first
        | (obtain ⟨rfl, -⟩ := h; exact ⟨rfl, rfl, rfl⟩)
        | exact absurd h.1 (by simp)
    · simp only [Prod.mk.injEq] at h
      exact absurd h.1 (by simp)

theorem Element.implicit_tag {host_le : Bool} {d : Dicom} {e e1 : Element}
    {ist ist1 : IStream}
    (h : Element._parse_value_implicit host_le d e ist = (.ok e1, ist1)) :
    e1._tag = e._tag ∧ e1._parent = e._parent ∧ e1._vr = e._vr := by
  unfold Element._parse_value_implicit at h
  split at h
  · simp only [Prod.mk.injEq] at h
    exact absurd h.1 (by simp)
  · exact Element.sequence_tag h

theorem Element.body_explicit_tag {host_le : Bool} {d : Dicom} {e e1 : Element} {vr sz : Nat}
    {ist ist1 : IStream}
    (h : Element._parse_body_explicit host_le d e vr ist sz = (.ok e1, ist1)) :
    e1._tag = e._tag ∧ e1._parent = e._parent ∧ e1._vr = e._vr := by
  unfold Element._parse_body_explicit at h
  split at h
  · exact Element.string_tag h
  split at h
  · exact Element.data_tag h
  split at h
  · exact Element.data_tag h
  split at h
  · exact Element.data_tag h
  split at h
  · exact Element.data_tag h
  split at h
  · exact Element.data_tag h
  split at h
  · exact Element.data_tag h
  split at h
  · exact Element.data_tag h
  split at h
  · exact Element.sequence_tag h
  · simp only [Prod.mk.injEq] at h
    exact absurd h.1 (by simp)

theorem Element.value_explicit_tag {host_le : Bool} {d : Dicom} {e e1 : Element}
    {ist ist1 : IStream}
    (h : Element._parse_value_explicit host_le d e ist = (.ok e1, ist1)) :
    e1._tag = e._tag ∧ e1._parent = e._parent ∧ e1._vr ≠ none := by
  unfold Element._parse_value_explicit at h
  split at h
  · simp only [Prod.mk.injEq] at h
    exact absurd h.1 (by simp)
  · simp only at h
    split at h
    · simp only [Prod.mk.injEq] at h
      exact absurd h.1 (by simp)
    · have := Element.body_explicit_tag h
      exact ⟨this.1, this.2.1, by rw [this.2.2]; simp⟩

theorem Element.parse_value_tag {host_le : Bool} {d : Dicom} {e e1 : Element}
    {ist ist1 : IStream}
    (h : Element.parse_value host_le d e ist = (.ok e1, ist1)) :
    e1._tag = e._tag ∧ e1._parent = e._parent := by
  unfold Element.parse_value at h
  split at h
  · simp only [Prod.mk.injEq] at h
    exact absurd h.1 (by simp)
  split at h
  · exact ⟨(Element.value_explicit_tag h).1, (Element.value_explicit_tag h).2.1⟩
  · exact ⟨(Element.implicit_tag h).1, (Element.implicit_tag h).2.1⟩

theorem Element.parse_tag_parent {host_le : Bool} {d : Dicom} {e e1 : Element}
    {ist ist1 : IStream}
    (h : Element.parse_tag host_le d e ist = (.ok e1, ist1)) :
    e1._parent = e._parent ∧ e1._vr = e._vr := by
  unfold Element.parse_tag at h
  split at h
  · simp only [Prod.mk.injEq] at h
    exact absurd h.1 (by simp)
  · split at h <;> simp only [Prod.mk.injEq, Except.ok.injEq] at h <;> obtain ⟨rfl, -⟩ := h <;>
      exact ⟨rfl, rfl⟩

/-- After a returning `parse_tag` the call `rewind_tag` puts the stream back
where it was. -/
theorem Element.rewind_after_parse_tag {host_le : Bool} {d : Dicom} {e e1 : Element}
    {ist ist1 : IStream}
    (h : Element.parse_tag host_le d e ist = (.ok e1, ist1)) :
    Element.rewind_tag ist1 = ist := by
  unfold Element.parse_tag at h
  split at h
  · simp only [Prod.mk.injEq] at h
    exact absurd h.1 (by simp)
  · rename_i raw ist2 hr
    obtain ⟨hg, -, -, rfl⟩ := IStream.read_eq_some hr
    have hg' := (IStream.good_iff ist).mp hg
    have hist : ist1 = { ist with pos := ist.pos + 4 } := by
      split at h <;> simp only [Prod.mk.injEq] at h <;> exact h.2.symm
    subst hist
    have h0 : (0 : Int) ≤ ((ist.pos + 4 : Nat) : Int) + (-4) := by omega
    have h1 : (((ist.pos + 4 : Nat) : Int) + (-4)).toNat = ist.pos := by omega
    cases ist with
    | mk data pos eofbit failbit =>
      simp only at hg' h0 h1
      simp [Element.rewind_tag, IStream.seekg_cur, hg'.1, hg'.2, h0, h1]

theorem map_assign_mem {m : List (Nat × Element)} {n : Nat} {e : Element} {p : Nat × Element}
    (h : p ∈ map_assign m n e) : p = (n, e) ∨ p ∈ m := by
  induction m with
  | nil => simp [map_assign] at h; exact Or.inl h
  | cons q m ih =>
    obtain ⟨k, x⟩ := q
    unfold map_assign at h
    split at h
    · simp only [List.mem_cons] at h ⊢
      tauto
    · split at h
      · simp only [List.mem_cons] at h ⊢
        tauto
      · simp only [List.mem_cons] at h ⊢
        rcases h with h | h
        · exact Or.inr (Or.inl h)
        · rcases ih h with h | h
          · exact Or.inl h
          · exact Or.inr (Or.inr h)

theorem IStream.read_data {s s1 : IStream} {n : Nat} {r : Option (List Byte)}
    (h : s.read n = (r, s1)) : s1.data = s.data := by
  unfold IStream.read at h
  split at h
  · split at h <;> simp only [Prod.mk.injEq] at h <;> rw [← h.2]
  · simp only [Prod.mk.injEq] at h
    rw [← h.2]

theorem IStream.seekg_cur_data (s : IStream) (off : Int) : (s.seekg_cur off).data = s.data := by
  unfold IStream.seekg_cur
  split
  · rfl
  · split <;> rfl

theorem Element.parse_tag_data {host_le : Bool} {d : Dicom} {e : Element} {ist ist1 : IStream}
    {r : Except Error Element} (h : Element.parse_tag host_le d e ist = (r, ist1)) :
    ist1.data = ist.data := by
  unfold Element.parse_tag at h
  split at h
  · rename_i hr
    simp only [Prod.mk.injEq] at h
    rw [← h.2]; exact IStream.read_data hr
  · rename_i hr
    split at h <;> simp only [Prod.mk.injEq] at h <;> rw [← h.2] <;> exact IStream.read_data hr

theorem Element.single_data {host_le : Bool} {d : Dicom} {e : Element} {T : DType} {s : Nat}
    {ist ist1 : IStream} {r : Except Error Int}
    (h : Element._read_element_data_single host_le d e T ist s = (r, ist1)) :
    ist1.data = ist.data := by
  unfold Element._read_element_data_single at h
  split at h
  · rename_i hr
    simp only [Prod.mk.injEq] at h
    rw [← h.2]; exact IStream.read_data hr
  · rename_i hr
    split at h <;> simp only [Prod.mk.injEq] at h <;> rw [← h.2] <;> exact IStream.read_data hr

theorem Element.loop_data {host_le : Bool} {d : Dicom} {e : Element} {T : DType} {s : Nat} :
    ∀ (k : Nat) {ist ist1 : IStream} {r : Except Error (List Int)},
      Element._read_element_data_loop host_le d e T s k ist = (r, ist1) →
      ist1.data = ist.data := by
  intro k
  induction k with
  | zero =>
    intro ist ist1 r h
    simp only [Element._read_element_data_loop, Prod.mk.injEq] at h
    rw [← h.2]
  | succ k ih =>
    intro ist ist1 r h
    unfold Element._read_element_data_loop at h
    split at h
    · rename_i hs
      simp only [Prod.mk.injEq] at h
      rw [← h.2]; exact Element.single_data hs
    · rename_i hs
      have h1 := Element.single_data hs
      split at h <;> rename_i hl <;> simp only [Prod.mk.injEq] at h <;> rw [← h.2, ih hl, h1]

theorem Element.data_data {host_le : Bool} {d : Dicom} {e : Element} {T : DType} {len : Nat}
    {ist ist1 : IStream} {r : Except Error Element}
    (h : Element._read_element_data host_le d e T ist len = (r, ist1)) :
    ist1.data = ist.data := by
  unfold Element._read_element_data at h
  simp only at h
  split at h
  · split at h <;> rename_i hs <;> simp only [Prod.mk.injEq] at h <;> rw [← h.2] <;>
      exact Element.single_data hs
  · split at h <;> rename_i hs <;> simp only [Prod.mk.injEq] at h <;> rw [← h.2] <;>
      exact Element.loop_data _ hs

theorem Element.string_data {e : Element} {len : Nat}
    {ist ist1 : IStream} {r : Except Error Element}
    (h : Element._read_element_data_string e ist len = (r, ist1)) :
    ist1.data = ist.data := by
  unfold Element._read_element_data_string at h
  split at h <;> rename_i hr <;> simp only [Prod.mk.injEq] at h <;> rw [← h.2] <;>
    exact IStream.read_data hr

theorem Element.sequence_data {host_le : Bool} {d : Dicom} {e : Element} {len : Nat}
    {ist ist1 : IStream} {r : Except Error Element}
    (h : Element._read_element_data_sequence host_le d e ist len = (r, ist1)) :
    ist1.data = ist.data := by
  unfold Element._read_element_data_sequence at h
  split at h
  · exact Element.data_data h
  · split at h
    · split at h <;> simp only [Prod.mk.injEq] at h <;> rw [← h.2]
    · simp only [Prod.mk.injEq] at h
      rw [← h.2]

theorem Element.length_explicit_data {host_le : Bool} {d : Dicom} {e : Element} {vr : Nat}
    {ist ist1 : IStream} {r : Except Error Nat}
    (h : Element._parse_length_explicit host_le d e vr ist = (r, ist1)) :
    ist1.data = ist.data := by
  unfold Element._parse_length_explicit at h
  split at h
  · split at h <;> rename_i hr2 <;> simp only [Prod.mk.injEq] at h <;>
      rw [← h.2, IStream.read_data hr2, IStream.seekg_cur_data]
  · split at h <;> rename_i hr2 <;> simp only [Prod.mk.injEq] at h <;>
      rw [← h.2, IStream.read_data hr2]

theorem Element.body_explicit_data {host_le : Bool} {d : Dicom} {e : Element} {vr sz : Nat}
    {ist ist1 : IStream} {r : Except Error Element}
    (h : Element._parse_body_explicit host_le d e vr ist sz = (r, ist1)) :
    ist1.data = ist.data := by
  unfold Element._parse_body_explicit at h
  repeat' split at h
  all_goals first
    | exact Element.string_data h
    | exact Element.data_data h
    | exact Element.sequence_data h
    | (simp only [Prod.mk.injEq] at h; rw [← h.2])

theorem Element.value_explicit_data {host_le : Bool} {d : Dicom} {e : Element}
    {ist ist1 : IStream} {r : Except Error Element}
    (h : Element._parse_value_explicit host_le d e ist = (r, ist1)) :
    ist1.data = ist.data := by
  unfold Element._parse_value_explicit at h
  split at h
  · rename_i hr
    simp only [Prod.mk.injEq] at h
    rw [← h.2]; exact IStream.read_data hr
  · rename_i hr
    have h1 := IStream.read_data hr
    simp only at h
    split at h
    · rename_i hl
      simp only [Prod.mk.injEq] at h
      rw [← h.2, Element.length_explicit_data hl, h1]
    · rename_i hl
      rw [Element.body_explicit_data h, Element.length_explicit_data hl, h1]

theorem Element.implicit_data {host_le : Bool} {d : Dicom} {e : Element}
    {ist ist1 : IStream} {r : Except Error Element}
    (h : Element._parse_value_implicit host_le d e ist = (r, ist1)) :
    ist1.data = ist.data := by
  unfold Element._parse_value_implicit at h
  split at h
  · rename_i hr
    simp only [Prod.mk.injEq] at h
    rw [← h.2]; exact IStream.read_data hr
  · rename_i hr
    rw [Element.sequence_data h, IStream.read_data hr]

theorem Element.parse_value_data {host_le : Bool} {d : Dicom} {e : Element}
    {ist ist1 : IStream} {r : Except Error Element}
    (h : Element.parse_value host_le d e ist = (r, ist1)) :
    ist1.data = ist.data := by
  unfold Element.parse_value at h
  split at h
  · simp only [Prod.mk.injEq] at h
    rw [← h.2]
  split at h
  · exact Element.value_explicit_data h
  · exact Element.implicit_data h

theorem Element.parse_tag_good {host_le : Bool} {d : Dicom} {e e1 : Element}
    {ist ist1 : IStream} (h : Element.parse_tag host_le d e ist = (.ok e1, ist1)) :
    ist.good = true := by
  unfold Element.parse_tag at h
  split at h
  · simp only [Prod.mk.injEq] at h
    exact absurd h.1 (by simp)
  · rename_i hr
    exact (IStream.read_eq_some hr).1

/-! ## Lemmas: the two loops of parse -/

theorem IStream.eq_of_good {ist : IStream} (hg : ist.good = true) :
    ist = ⟨ist.data, ist.pos, false, false⟩ := by
  have hg' := (IStream.good_iff ist).mp hg
  cases ist with
  | mk data pos eofbit failbit =>
    simp only at hg'
    simp [hg'.1, hg'.2]

/-- The meta data loop: with more turns than unread bytes it ends; it changes
nothing of the object but the store; each element it stores has group 0x0002,
sits under the number of its tag and is what `Element::parse` returns, in the
mode the loop runs in, at some position of the same input. -/
theorem Dicom.parse_meta_loop_spec (host_le : Bool) :
    ∀ (fuel : Nat) (d : Dicom) (ist : IStream), ist.rest.length < fuel →
    ∃ o, Dicom.parse_meta_loop host_le fuel d ist = some o
      ∧ o.dicom = { d with _element := o.dicom._element }
      ∧ o.ist.data = ist.data
      ∧ (∀ err, o.error = some err → err = .StreamError "" ∨ err = .ParseError "Unknown VR found"
          ∨ err = .ParseError "No Tag Id found.")
      ∧ (o.error = none → o.ist.good = true)
      ∧ (∀ p ∈ o.dicom._element, p ∈ d._element ∨
          (p.2._tag.id0 = TAG_GROUP_META ∧ p.1 = p.2._tag.number host_le ∧ p.2._parent = true ∧
            ∃ (m : List (Nat × Element)) (pos : Nat) (ist1 : IStream),
              Element.parse host_le { d with _element := m } Element.ofParent
                ⟨ist.data, pos, false, false⟩ = (.ok p.2, ist1))) := by
  intro fuel
  induction fuel with
  | zero => intro d ist h; omega
  | succ fuel ih =>
    intro d ist hf
    unfold Dicom.parse_meta_loop
    split
    · rename_i err ist1 ht
      refine ⟨_, rfl, rfl, Element.parse_tag_data ht, ?_, by simp, fun p hp => Or.inl hp⟩
      intro err2 h2
      simp only [Option.some.injEq] at h2
      subst h2
      exact Or.inl ((Element.parse_tag_spec ht).2.1 _ rfl)
    · rename_i e1 ist1 ht
      have hgood := Element.parse_tag_good ht
      split
      · refine ⟨_, rfl, rfl, ?_, by simp, ?_, fun p hp => Or.inl hp⟩
        · rw [Element.rewind_after_parse_tag ht]
        · intro _
          rw [Element.rewind_after_parse_tag ht]
          exact hgood
      · rename_i hgrp
        have hgrp : e1._tag.id0 = TAG_GROUP_META := by simpa using hgrp
        split
        · rename_i err ist2 hv
          refine ⟨_, rfl, rfl, ?_, ?_, by simp, fun p hp => Or.inl hp⟩
          · rw [Element.parse_value_data hv, Element.parse_tag_data ht]
          · intro err2 h2
            simp only [Option.some.injEq] at h2
            subst h2
            exact (Element.parse_value_spec hv).2 _ rfl
        · rename_i e2 ist2 hv
          have hd2 : ist2.data = ist.data := by
            rw [Element.parse_value_data hv, Element.parse_tag_data ht]
          have hlt : ist2.rest.length < fuel := by
            have h1 := (Element.parse_tag_spec ht).2.2 e1 rfl
            have h2 := (Element.parse_value_spec hv).1
            omega
          obtain ⟨o, ho, hframe, hdata, herr, hok, hmem⟩ :=
            ih { d with _element := map_assign d._element (e2._tag.number host_le) e2 } ist2 hlt
          refine ⟨o, ho, ?_, by rw [hdata, hd2], herr, hok, ?_⟩
          · rw [hframe]
          · intro p hp
            rcases hmem p hp with h | h
            · rcases map_assign_mem h with h | h
              · right
                subst h
                have hp1 := Element.parse_tag_parent ht
                have hp2 := Element.parse_value_tag hv
                refine ⟨by rw [hp2.1]; exact hgrp, rfl, by rw [hp2.2, hp1.1]; rfl, ?_⟩
                refine ⟨d._element, ist.pos, ist2, ?_⟩
                rw [← IStream.eq_of_good hgood]
                show Element.parse host_le d Element.ofParent ist = _
                unfold Element.parse
                rw [ht]
                exact hv
              · exact Or.inl h
            · right
              obtain ⟨h1, h2, h3, m, pos, ist3, h4⟩ := h
              refine ⟨h1, h2, h3, m, pos, ist3, ?_⟩
              rw [hd2] at h4
              exact h4

/-- The second loop: with more turns than unread bytes it ends; it changes
nothing of the object but the store; it leaves with no `StreamError`. -/
theorem Dicom.parse_main_loop_spec (host_le : Bool) :
    ∀ (fuel : Nat) (d : Dicom) (ist : IStream), ist.rest.length < fuel →
    ∃ o, Dicom.parse_main_loop host_le fuel d ist = some o
      ∧ o.dicom = { d with _element := o.dicom._element }
      ∧ (∀ err, o.error = some err → err = .ParseError "Unknown VR found"
          ∨ err = .ParseError "No Tag Id found.") := by
  intro fuel
  induction fuel with
  | zero => intro d ist h; omega
  | succ fuel ih =>
    intro d ist hf
    unfold Dicom.parse_main_loop
    split
    · exact ⟨_, rfl, rfl, by simp⟩
    · rename_i err ist1 hne hp
      refine ⟨_, rfl, rfl, ?_⟩
      intro err2 h2
      simp only [Option.some.injEq] at h2
      subst h2
      rcases (Element.parse_spec hp).2.1 _ rfl with h | h | h
      · exact absurd h (hne "")
      · exact Or.inl h
      · exact Or.inr h
    · rename_i e ist1 hp
      have hlt : ist1.rest.length < fuel := by
        have := (Element.parse_spec hp).2.2 e rfl
        omega
      obtain ⟨o, ho, hframe, herr⟩ :=
        ih { d with _element := map_assign d._element (e._tag.number host_le) e } ist1 hlt
      exact ⟨o, ho, by rw [hframe], herr⟩

/-! ## Lemmas: exceptions of the summary and image stages -/

theorem Dicom.parse_format_info_error {host_le : Bool} {d d1 : Dicom} {err : Error}
    (h : Dicom.parse_format_info host_le d = (some err, d1)) : err = .bad_any_cast := by
  unfold Dicom.parse_format_info at h
  split at h
  · simp only at h
    split at h
    · rename_i e1 hs
      simp only [Prod.mk.injEq, Option.some.injEq] at h
      rw [← h.1]
      unfold Element.as_string at hs
      split at hs <;> simp at hs
      exact hs.symm
    · simp at h
  · simp at h

theorem Element.as_string_error {e : Element} {err : Error}
    (h : e.as_string = .error err) : err = .bad_any_cast := by
  unfold Element.as_string at h
  split at h <;> simp at h
  exact h.symm

theorem Element.as_scalar_error {e : Element} {t : DType} {err : Error}
    (h : e.as_scalar t = .error err) : err = .bad_any_cast := by
  unfold Element.as_scalar at h
  split at h
  · split at h <;> simp at h
    exact h.symm
  · simp at h
    exact h.symm

theorem Element.as_vector_error {e : Element} {t : DType} {err : Error}
    (h : e.as_vector t = .error err) : err = .bad_any_cast := by
  unfold Element.as_vector at h
  split at h
  · split at h <;> simp at h
    exact h.symm
  · simp at h
    exact h.symm

theorem Dicom.parse_summary_required_error {host_le : Bool} {d d1 : Dicom} {err : Error}
    (h : Dicom.parse_summary_required host_le d = (some err, d1)) :
    err ≠ .ParseError "not DICOM format" := by
  unfold Dicom.parse_summary_required at h
  simp only at h
  repeat' split at h
  all_goals simp only [Prod.mk.injEq, Option.some.injEq] at h
  all_goals first
    | (obtain ⟨rfl, -⟩ := h; rename_i hs; rw [Element.as_string_error hs]; decide)
    | (obtain ⟨rfl, -⟩ := h; rename_i hs; rw [Element.as_scalar_error hs]; decide)
    | (obtain ⟨rfl, -⟩ := h; decide)
    | exact absurd h.1 (by simp)

theorem Dicom.parse_summary_px_spacing_error {host_le : Bool} {ext : Ext} {d d1 : Dicom}
    {err : Error}
    (h : Dicom.parse_summary_px_spacing host_le ext d = (some err, d1)) :
    err ≠ .ParseError "not DICOM format" := by
  unfold Dicom.parse_summary_px_spacing at h
  simp only at h
  repeat' split at h
  all_goals simp only [Prod.mk.injEq, Option.some.injEq] at h
  all_goals first
    | (obtain ⟨rfl, -⟩ := h; rename_i hs; rw [Element.as_string_error hs]; decide)
    | exact absurd h.1 (by simp)

theorem Dicom.parse_summary_image_pos_error {host_le : Bool} {ext : Ext} {d d1 : Dicom}
    {err : Error}
    (h : Dicom.parse_summary_image_pos host_le ext d = (some err, d1)) :
    err ≠ .ParseError "not DICOM format" := by
  unfold Dicom.parse_summary_image_pos at h
  simp only at h
  repeat' split at h
  all_goals simp only [Prod.mk.injEq, Option.some.injEq] at h
  all_goals first
    | (obtain ⟨rfl, -⟩ := h; rename_i hs; rw [Element.as_string_error hs]; decide)
    | exact absurd h.1 (by simp)

theorem Dicom.parse_summary_error {host_le : Bool} {ext : Ext} {d d1 : Dicom} {err : Error}
    (h : Dicom.parse_summary host_le ext d = (some err, d1)) :
    err ≠ .ParseError "not DICOM format" := by
  unfold Dicom.parse_summary at h
  split at h
  · rename_i h1
    simp only [Prod.mk.injEq, Option.some.injEq] at h
    rw [← h.1]
    exact Dicom.parse_summary_required_error h1
  · split at h
    · rename_i h1
      simp only [Prod.mk.injEq, Option.some.injEq] at h
      rw [← h.1]
      exact Dicom.parse_summary_px_spacing_error h1
    · exact Dicom.parse_summary_image_pos_error h

theorem Dicom.parse_image_frame_error {host_le : Bool} {ext : Ext} {d d1 : Dicom} {err : Error}
    (h : Dicom.parse_image_frame host_le ext d = (some err, d1)) :
    err ≠ .ParseError "not DICOM format" := by
  unfold Dicom.parse_image_frame at h
  simp only at h
  repeat' split at h
  all_goals simp only [Prod.mk.injEq, Option.some.injEq] at h
  all_goals first
    | (obtain ⟨rfl, -⟩ := h; rename_i hs; rw [Element.as_vector_error hs]; decide)
    | (obtain ⟨rfl, -⟩ := h; decide)
    | exact absurd h.1 (by simp)

theorem Dicom.parse_image_unpad_error {host_le : Bool} {ext : Ext} {d d1 : Dicom} {err : Error}
    (h : Dicom.parse_image_unpad host_le ext d = (some err, d1)) :
    err ≠ .ParseError "not DICOM format" := by
  unfold Dicom.parse_image_unpad at h
  simp only at h
  repeat' split at h
  all_goals simp only [Prod.mk.injEq, Option.some.injEq] at h
  all_goals first
    | (obtain ⟨rfl, -⟩ := h; rename_i hs; rw [Element.as_scalar_error hs]; decide)
    | (obtain ⟨rfl, -⟩ := h; decide)
    | exact absurd h.1 (by simp)

theorem Dicom.parse_image_rescale_error {host_le : Bool} {ext : Ext} {d d1 : Dicom}
    {need_rescale : Bool} {err : Error}
    (h : Dicom.parse_image_rescale host_le ext d need_rescale = (some err, d1)) :
    err ≠ .ParseError "not DICOM format" := by
  unfold Dicom.parse_image_rescale at h
  simp only at h
  repeat' split at h
  all_goals simp only [Prod.mk.injEq, Option.some.injEq] at h
  all_goals first
    | (obtain ⟨rfl, -⟩ := h; rename_i hs; rw [Element.as_string_error hs]; decide)
    | exact absurd h.1 (by simp)

theorem Dicom.parse_image_error {host_le : Bool} {ext : Ext} {d d1 : Dicom}
    {need_rescale : Bool} {err : Error}
    (h : Dicom.parse_image host_le ext d need_rescale = (some err, d1)) :
    err ≠ .ParseError "not DICOM format" := by
  unfold Dicom.parse_image at h
  split at h
  · rename_i err1 d2 h1
    simp only [Prod.mk.injEq, Option.some.injEq] at h
    rw [← h.1]
    split at h1
    · exact Dicom.parse_summary_error h1
    · simp at h1
  · split at h
    · rename_i h1
      simp only [Prod.mk.injEq, Option.some.injEq] at h
      rw [← h.1]
      exact Dicom.parse_image_frame_error h1
    · split at h
      · simp only [Prod.mk.injEq, Option.some.injEq] at h
        rw [← h.1]
        simp
      · split at h
        · rename_i h1
          simp only [Prod.mk.injEq, Option.some.injEq] at h
          rw [← h.1]
          exact Dicom.parse_image_unpad_error h1
        · exact Dicom.parse_image_rescale_error h

/-- The statements of `parse` before the first loop on a stream without the
magic: the `ParseError`, the store emptied. -/
theorem Dicom.parse_meta_bad_magic (host_le : Bool) (d : Dicom) (bs : List Byte)
    (h : ¬ (132 ≤ bs.length ∧ (bs.drop 128).take 4 = bytesOf "DICM")) :
    ∃ o, Dicom.parse_meta host_le d (IStream.ofBytes bs) = some o
      ∧ o.error = some (.ParseError "not DICOM format") ∧ o.dicom._element = [] := by
  unfold Dicom.parse_meta
  simp only [IStream.ofBytes, Bool.false_eq_true, if_false]
  split
  · exact ⟨_, rfl, rfl, rfl⟩
  · rename_i dicom_id_str ist1 hr
    split
    · exact ⟨_, rfl, rfl, rfl⟩
    · rename_i hid
      exfalso
      apply h
      obtain ⟨-, hn, hb, -⟩ := IStream.read_eq_some hr
      simp only [IStream.seekg, IStream.rest, Bool.false_eq_true, if_false, List.length_drop] at hn hb
      simp only [ne_eq, not_not] at hid
      exact ⟨by omega, by rw [← hb, hid]⟩

/-- The statements of `parse` before the first loop on a stream with the
magic: the loop starts behind it, in mode Little-Endian Explicit-VR. -/
theorem Dicom.parse_meta_magic (host_le : Bool) (d : Dicom) (bs : List Byte)
    (h : 132 ≤ bs.length ∧ (bs.drop 128).take 4 = bytesOf "DICM") :
    Dicom.parse_meta host_le d (IStream.ofBytes bs) =
      Dicom.parse_meta_loop host_le (bs.length + 1)
        { d with _architecture_as_little_endian := host_le,
                 _cols := 0, _rows := 0, _bits := 0, _chs := 0, _is_signed := false,
                 _px_spacing_row := .val 0, _px_spacing_col := .val 0,
                 _image_pos_x := .nan, _image_pos_y := .nan, _image_pos_z := .nan,
                 _element := [],
                 _format_as_little_endian := true, _format_as_explicit := true,
                 _format_as_deflate := false }
        ⟨bs, 132, false, false⟩ := by
  have hr : (IStream.seekg (IStream.ofBytes bs) 128).read 4
      = (some (bytesOf "DICM"), ⟨bs, 132, false, false⟩) := by
    have hg : (IStream.seekg (IStream.ofBytes bs) 128).good = true := by
      simp [IStream.seekg, IStream.ofBytes, IStream.good]
    have hn : 4 ≤ (IStream.seekg (IStream.ofBytes bs) 128).rest.length := by
      simp only [IStream.seekg, IStream.ofBytes, IStream.rest, Bool.false_eq_true, if_false,
        List.length_drop]
      omega
    rw [IStream.read_ok _ 4 hg hn]
    simp only [IStream.seekg, IStream.ofBytes, IStream.rest, Bool.false_eq_true, if_false, h.2]
  unfold Dicom.parse_meta
  simp only [hr]
  simp [IStream.ofBytes]

/-! ## Lemmas: the parsers see a stream only through its state -/

theorem drop_add_congr {da db : List Byte} {p : Nat} (h : da.drop p = db.drop p) (n : Nat) :
    da.drop (p + n) = db.drop (p + n) := by
  rw [← List.drop_drop, ← List.drop_drop, h]

theorem IStream.state_eq_iff {a b : IStream} :
    a.state = b.state ↔
      a.pos = b.pos ∧ a.eofbit = b.eofbit ∧ a.failbit = b.failbit ∧ a.rest = b.rest := by
  simp [IStream.state]

theorem IStream.read_sim {a b : IStream} (h : a.state = b.state) (n : Nat) :
    (a.read n).1 = (b.read n).1 ∧ (a.read n).2.state = (b.read n).2.state := by
  cases a with
  | mk da pa ea fa =>
    cases b with
    | mk db pb eb fb =>
      simp only [IStream.state, IStream.rest, Prod.mk.injEq] at h
      obtain ⟨rfl, rfl, rfl, h4⟩ := h
      simp only [IStream.read, IStream.good, IStream.rest, h4]
      split
      · split
        · simp [IStream.state, IStream.rest, drop_add_congr h4]
        · simp [IStream.state, IStream.rest, drop_add_congr h4]
      · simp [IStream.state, IStream.rest, h4]

theorem IStream.seekg_cur_sim {a b : IStream} (h : a.state = b.state) (n : Nat) :
    (a.seekg_cur (n : Int)).state = (b.seekg_cur (n : Int)).state := by
  cases a with
  | mk da pa ea fa =>
    cases b with
    | mk db pb eb fb =>
      simp only [IStream.state, IStream.rest, Prod.mk.injEq] at h
      obtain ⟨rfl, rfl, rfl, h4⟩ := h
      have h0 : (0 : Int) ≤ (pa : Int) + (n : Int) := by omega
      have h5 : ((pa : Int) + (n : Int)).toNat = pa + n := by omega
      simp only [IStream.seekg_cur, h0, h5, if_true]
      split
      · simp [IStream.state, IStream.rest, h4]
      · simp [IStream.state, IStream.rest, drop_add_congr h4]

theorem IStream.good_sim {a b : IStream} (h : a.state = b.state) : a.good = b.good := by
  obtain ⟨-, h2, h3, -⟩ := IStream.state_eq_iff.mp h
  simp [IStream.good, h2, h3]

theorem Element.parse_tag_sim (host_le : Bool) (d : Dicom) (e : Element) {a b : IStream}
    (h : a.state = b.state) :
    (Element.parse_tag host_le d e a).1 = (Element.parse_tag host_le d e b).1 ∧
    (Element.parse_tag host_le d e a).2.state = (Element.parse_tag host_le d e b).2.state := by
  obtain ⟨h1, h2⟩ := IStream.read_sim h 4
  unfold Element.parse_tag
  rcases ha : a.read 4 with ⟨ra, a1⟩
  rcases hb : b.read 4 with ⟨rb, b1⟩
  rw [ha, hb] at h1 h2
  simp only at h1 h2
  subst h1
  cases ra with
  | none => exact ⟨rfl, h2⟩
  | some raw =>
    simp only
    split <;> exact ⟨rfl, h2⟩

theorem Element.single_sim (host_le : Bool) (d : Dicom) (e : Element) (T : DType) (s : Nat)
    {a b : IStream} (h : a.state = b.state) :
    (Element._read_element_data_single host_le d e T a s).1 =
      (Element._read_element_data_single host_le d e T b s).1 ∧
    (Element._read_element_data_single host_le d e T a s).2.state =
      (Element._read_element_data_single host_le d e T b s).2.state := by
  obtain ⟨h1, h2⟩ := IStream.read_sim h s
  unfold Element._read_element_data_single
  rcases ha : a.read s with ⟨ra, a1⟩
  rcases hb : b.read s with ⟨rb, b1⟩
  rw [ha, hb] at h1 h2
  simp only at h1 h2
  subst h1
  cases ra with
  | none => exact ⟨rfl, h2⟩
  | some raw =>
    simp only
    split <;> exact ⟨rfl, h2⟩

theorem Element.loop_sim (host_le : Bool) (d : Dicom) (e : Element) (T : DType) (s : Nat) :
    ∀ (k : Nat) {a b : IStream}, a.state = b.state →
    (Element._read_element_data_loop host_le d e T s k a).1 =
      (Element._read_element_data_loop host_le d e T s k b).1 ∧
    (Element._read_element_data_loop host_le d e T s k a).2.state =
      (Element._read_element_data_loop host_le d e T s k b).2.state := by
  intro k
  induction k with
  | zero => intro a b h; exact ⟨rfl, h⟩
  | succ k ih =>
    intro a b h
    obtain ⟨h1, h2⟩ := Element.single_sim host_le d e T s h
    unfold Element._read_element_data_loop
    rcases ha : Element._read_element_data_single host_le d e T a s with ⟨ra, a1⟩
    rcases hb : Element._read_element_data_single host_le d e T b s with ⟨rb, b1⟩
    rw [ha, hb] at h1 h2
    simp only at h1 h2
    subst h1
    cases ra with
    | error err => exact ⟨rfl, h2⟩
    | ok v =>
      simp only
      obtain ⟨h3, h4⟩ := ih h2
      rcases ha2 : Element._read_element_data_loop host_le d e T s k a1 with ⟨ra2, a2⟩
      rcases hb2 : Element._read_element_data_loop host_le d e T s k b1 with ⟨rb2, b2⟩
      rw [ha2, hb2] at h3 h4
      simp only at h3 h4
      subst h3
      cases ra2 with
      | error err => exact ⟨rfl, h4⟩
      | ok vs => exact ⟨rfl, h4⟩

theorem Element.data_sim (host_le : Bool) (d : Dicom) (e : Element) (T : DType) (len : Nat)
    {a b : IStream} (h : a.state = b.state) :
    (Element._read_element_data host_le d e T a len).1 =
      (Element._read_element_data host_le d e T b len).1 ∧
    (Element._read_element_data host_le d e T a len).2.state =
      (Element._read_element_data host_le d e T b len).2.state := by
  unfold Element._read_element_data
  simp only
  split
  · obtain ⟨h1, h2⟩ := Element.single_sim host_le d e T T.sizeof h
    rcases ha : Element._read_element_data_single host_le d e T a T.sizeof with ⟨ra, a1⟩
    rcases hb : Element._read_element_data_single host_le d e T b T.sizeof with ⟨rb, b1⟩
    rw [ha, hb] at h1 h2
    simp only at h1 h2
    subst h1
    cases ra <;> exact ⟨rfl, h2⟩
  · obtain ⟨h1, h2⟩ := Element.loop_sim host_le d e T T.sizeof
      (toInt32 (len / T.sizeof)).toNat h
    rcases ha : Element._read_element_data_loop host_le d e T T.sizeof
      (toInt32 (len / T.sizeof)).toNat a with ⟨ra, a1⟩
    rcases hb : Element._read_element_data_loop host_le d e T T.sizeof
      (toInt32 (len / T.sizeof)).toNat b with ⟨rb, b1⟩
    rw [ha, hb] at h1 h2
    simp only at h1 h2
    subst h1
    cases ra <;> exact ⟨rfl, h2⟩

theorem Element.string_sim (e : Element) (len : Nat) {a b : IStream} (h : a.state = b.state) :
    (Element._read_element_data_string e a len).1 =
      (Element._read_element_data_string e b len).1 ∧
    (Element._read_element_data_string e a len).2.state =
      (Element._read_element_data_string e b len).2.state := by
  obtain ⟨h1, h2⟩ := IStream.read_sim h len
  unfold Element._read_element_data_string
  rcases ha : a.read len with ⟨ra, a1⟩
  rcases hb : b.read len with ⟨rb, b1⟩
  rw [ha, hb] at h1 h2
  simp only at h1 h2
  subst h1
  cases ra <;> exact ⟨rfl, h2⟩

theorem Element.sequence_sim (host_le : Bool) (d : Dicom) (e : Element) (len : Nat)
    {a b : IStream} (h : a.state = b.state) :
    (Element._read_element_data_sequence host_le d e a len).1 =
      (Element._read_element_data_sequence host_le d e b len).1 ∧
    (Element._read_element_data_sequence host_le d e a len).2.state =
      (Element._read_element_data_sequence host_le d e b len).2.state := by
  unfold Element._read_element_data_sequence
  split
  · exact Element.data_sim host_le d e .uchar len h
  · rw [IStream.good_sim h]
    cases a with
    | mk da pa ea fa =>
      cases b with
      | mk db pb eb fb =>
        simp only [IStream.state, IStream.rest, Prod.mk.injEq] at h
        obtain ⟨rfl, rfl, rfl, h4⟩ := h
        simp only [IStream.rest, h4]
        split
        · split
          · simp [IStream.state, IStream.rest, drop_add_congr h4]
          · simp [IStream.state, IStream.rest, drop_add_congr h4]
        · simp [IStream.state, IStream.rest, h4]

theorem Element.implicit_sim (host_le : Bool) (d : Dicom) (e : Element)
    {a b : IStream} (h : a.state = b.state) :
    (Element._parse_value_implicit host_le d e a).1 =
      (Element._parse_value_implicit host_le d e b).1 ∧
    (Element._parse_value_implicit host_le d e a).2.state =
      (Element._parse_value_implicit host_le d e b).2.state := by
  obtain ⟨h1, h2⟩ := IStream.read_sim h 4
  unfold Element._parse_value_implicit
  rcases ha : a.read 4 with ⟨ra, a1⟩
  rcases hb : b.read 4 with ⟨rb, b1⟩
  rw [ha, hb] at h1 h2
  simp only at h1 h2
  subst h1
  cases ra with
  | none => exact ⟨rfl, h2⟩
  | some raw => exact Element.sequence_sim host_le d e _ h2

theorem Element.length_explicit_sim (host_le : Bool) (d : Dicom) (e : Element) (vr : Nat)
    {a b : IStream} (h : a.state = b.state) :
    (Element._parse_length_explicit host_le d e vr a).1 =
      (Element._parse_length_explicit host_le d e vr b).1 ∧
    (Element._parse_length_explicit host_le d e vr a).2.state =
      (Element._parse_length_explicit host_le d e vr b).2.state := by
  unfold Element._parse_length_explicit
  split
  · have hk := IStream.seekg_cur_sim h 2
    simp only [Nat.cast_ofNat] at hk
    obtain ⟨h1, h2⟩ := IStream.read_sim hk 4
    rcases ha : (a.seekg_cur 2).read 4 with ⟨ra, a1⟩
    rcases hb : (b.seekg_cur 2).read 4 with ⟨rb, b1⟩
    rw [ha, hb] at h1 h2
    simp only at h1 h2
    subst h1
    cases ra <;> exact ⟨rfl, h2⟩
  · obtain ⟨h1, h2⟩ := IStream.read_sim h 2
    rcases ha : a.read 2 with ⟨ra, a1⟩
    rcases hb : b.read 2 with ⟨rb, b1⟩
    rw [ha, hb] at h1 h2
    simp only at h1 h2
    subst h1
    cases ra <;> exact ⟨rfl, h2⟩

theorem Element.body_explicit_sim (host_le : Bool) (d : Dicom) (e : Element) (vr sz : Nat)
    {a b : IStream} (h : a.state = b.state) :
    (Element._parse_body_explicit host_le d e vr a sz).1 =
      (Element._parse_body_explicit host_le d e vr b sz).1 ∧
    (Element._parse_body_explicit host_le d e vr a sz).2.state =
      (Element._parse_body_explicit host_le d e vr b sz).2.state := by
  unfold Element._parse_body_explicit
  repeat' split
  all_goals first
    | exact Element.string_sim e sz h
    | exact Element.data_sim host_le d e _ sz h
    | exact Element.sequence_sim host_le d e sz h
    | exact ⟨rfl, h⟩

theorem Element.value_explicit_sim (host_le : Bool) (d : Dicom) (e : Element)
    {a b : IStream} (h : a.state = b.state) :
    (Element._parse_value_explicit host_le d e a).1 =
      (Element._parse_value_explicit host_le d e b).1 ∧
    (Element._parse_value_explicit host_le d e a).2.state =
      (Element._parse_value_explicit host_le d e b).2.state := by
  obtain ⟨h1, h2⟩ := IStream.read_sim h 2
  unfold Element._parse_value_explicit
  rcases ha : a.read 2 with ⟨ra, a1⟩
  rcases hb : b.read 2 with ⟨rb, b1⟩
  rw [ha, hb] at h1 h2
  simp only at h1 h2
  subst h1
  cases ra with
  | none => exact ⟨rfl, h2⟩
  | some raw =>
    simp only
    generalize (if e._architecture_as_little_endian d = true then bswap_16 (load host_le raw)
      else load host_le raw) = vr
    obtain ⟨h3, h4⟩ := Element.length_explicit_sim host_le d { e with _vr := some vr } vr h2
    rcases ha2 : Element._parse_length_explicit host_le d { e with _vr := some vr } vr a1
      with ⟨ra2, a2⟩
    rcases hb2 : Element._parse_length_explicit host_le d { e with _vr := some vr } vr b1
      with ⟨rb2, b2⟩
    rw [ha2, hb2] at h3 h4
    simp only at h3 h4
    subst h3
    cases ra2 with
    | error err => exact ⟨rfl, h4⟩
    | ok sz => exact Element.body_explicit_sim host_le d _ vr sz h4

theorem Element.parse_value_sim (host_le : Bool) (d : Dicom) (e : Element)
    {a b : IStream} (h : a.state = b.state) :
    (Element.parse_value host_le d e a).1 = (Element.parse_value host_le d e b).1 ∧
    (Element.parse_value host_le d e a).2.state =
      (Element.parse_value host_le d e b).2.state := by
  unfold Element.parse_value
  split
  · exact ⟨rfl, h⟩
  · split
    · exact Element.value_explicit_sim host_le d e h
    · exact Element.implicit_sim host_le d e h

theorem Element.parse_element_sim (host_le : Bool) (d : Dicom) (e : Element)
    {a b : IStream} (h : a.state = b.state) :
    (Element.parse host_le d e a).1 = (Element.parse host_le d e b).1 ∧
    (Element.parse host_le d e a).2.state = (Element.parse host_le d e b).2.state := by
  obtain ⟨h1, h2⟩ := Element.parse_tag_sim host_le d e h
  unfold Element.parse
  rcases ha : Element.parse_tag host_le d e a with ⟨ra, a1⟩
  rcases hb : Element.parse_tag host_le d e b with ⟨rb, b1⟩
  rw [ha, hb] at h1 h2
  simp only at h1 h2
  subst h1
  cases ra with
  | error err => exact ⟨rfl, h2⟩
  | ok e1 => exact Element.parse_value_sim host_le d e1 h2

theorem Element.parse_data {host_le : Bool} {d : Dicom} {e : Element}
    {ist ist1 : IStream} {r : Except Error Element}
    (h : Element.parse host_le d e ist = (r, ist1)) : ist1.data = ist.data := by
  unfold Element.parse at h
  split at h
  · rename_i ht
    simp only [Prod.mk.injEq] at h
    rw [← h.2]; exact Element.parse_tag_data ht
  · rename_i ht
    rw [Element.parse_value_data h, Element.parse_tag_data ht]

theorem Dicom.parse_meta_loop_data (host_le : Bool) :
    ∀ (fuel : Nat) (d : Dicom) (ist : IStream) (o : Outcome),
      Dicom.parse_meta_loop host_le fuel d ist = some o → o.ist.data = ist.data := by
  intro fuel
  induction fuel with
  | zero => intro d ist o h; simp [Dicom.parse_meta_loop] at h
  | succ fuel ih =>
    intro d ist o h
    unfold Dicom.parse_meta_loop at h
    split at h
    · rename_i ht
      simp only [Option.some.injEq] at h
      rw [← h]; exact Element.parse_tag_data ht
    · rename_i ht
      split at h
      · simp only [Option.some.injEq] at h
        rw [← h, Element.rewind_after_parse_tag ht]
      · split at h
        · rename_i hv
          simp only [Option.some.injEq] at h
          rw [← h]
          show _ = ist.data
          rw [← Element.parse_tag_data ht]
          exact Element.parse_value_data hv
        · rename_i hv
          rw [ih _ _ _ h, Element.parse_value_data hv, Element.parse_tag_data ht]

theorem Dicom.parse_main_loop_data (host_le : Bool) :
    ∀ (fuel : Nat) (d : Dicom) (ist : IStream) (o : Outcome),
      Dicom.parse_main_loop host_le fuel d ist = some o → o.ist.data = ist.data := by
  intro fuel
  induction fuel with
  | zero => intro d ist o h; simp [Dicom.parse_main_loop] at h
  | succ fuel ih =>
    intro d ist o h
    unfold Dicom.parse_main_loop at h
    split at h
    · rename_i hp
      simp only [Option.some.injEq] at h
      rw [← h]; exact Element.parse_data hp
    · rename_i hp
      simp only [Option.some.injEq] at h
      rw [← h]; exact Element.parse_data hp
    · rename_i hp
      rw [ih _ _ _ h, Element.parse_data hp]

theorem Dicom.parse_meta_loop_sim (host_le : Bool) :
    ∀ (fuel : Nat) (d : Dicom) {a b : IStream}, a.state = b.state →
      (Dicom.parse_meta_loop host_le fuel d a).map (fun o => (o.error, o.dicom, o.ist.state)) =
      (Dicom.parse_meta_loop host_le fuel d b).map (fun o => (o.error, o.dicom, o.ist.state)) := by
  intro fuel
  induction fuel with
  | zero => intro d a b h; rfl
  | succ fuel ih =>
    intro d a b h
    obtain ⟨h1, h2⟩ := Element.parse_tag_sim host_le d Element.ofParent h
    unfold Dicom.parse_meta_loop
    rcases ha : Element.parse_tag host_le d Element.ofParent a with ⟨ra, a1⟩
    rcases hb : Element.parse_tag host_le d Element.ofParent b with ⟨rb, b1⟩
    rw [ha, hb] at h1 h2
    simp only at h1 h2
    subst h1
    cases ra with
    | error err => simp [h2]
    | ok e1 =>
      simp only
      split
      · simp [Element.rewind_after_parse_tag ha, Element.rewind_after_parse_tag hb, h]
      · obtain ⟨h3, h4⟩ := Element.parse_value_sim host_le d e1 h2
        rcases ha2 : Element.parse_value host_le d e1 a1 with ⟨ra2, a2⟩
        rcases hb2 : Element.parse_value host_le d e1 b1 with ⟨rb2, b2⟩
        rw [ha2, hb2] at h3 h4
        simp only at h3 h4
        subst h3
        cases ra2 with
        | error err => simp [h4]
        | ok e2 => exact ih _ h4

theorem Dicom.parse_main_loop_sim (host_le : Bool) :
    ∀ (fuel : Nat) (d : Dicom) {a b : IStream}, a.state = b.state →
      (Dicom.parse_main_loop host_le fuel d a).map (fun o => (o.error, o.dicom, o.ist.state)) =
      (Dicom.parse_main_loop host_le fuel d b).map (fun o => (o.error, o.dicom, o.ist.state)) := by
  intro fuel
  induction fuel with
  | zero => intro d a b h; rfl
  | succ fuel ih =>
    intro d a b h
    obtain ⟨h1, h2⟩ := Element.parse_element_sim host_le d Element.ofParent h
    unfold Dicom.parse_main_loop
    rcases ha : Element.parse host_le d Element.ofParent a with ⟨ra, a1⟩
    rcases hb : Element.parse host_le d Element.ofParent b with ⟨rb, b1⟩
    rw [ha, hb] at h1 h2
    simp only at h1 h2
    subst h1
    cases ra with
    | error err =>
      cases err <;> simp [h2]
    | ok e1 => exact ih _ h2

/-! ## Lemmas: parse with and without the magic -/

/-- With the magic in place the reading part of `parse` ends, and it does not
leave with the "not DICOM format" error. -/
theorem Dicom.parse_file_magic (host_le : Bool) (d : Dicom) (bs : List Byte)
    (h : 132 ≤ bs.length ∧ (bs.drop 128).take 4 = bytesOf "DICM") :
    ∃ o, Dicom.parse_file host_le d (IStream.ofBytes bs) = some o
      ∧ o.error ≠ some (.ParseError "not DICOM format") := by
  have hlen : (⟨bs, 132, false, false⟩ : IStream).rest.length < bs.length + 1 := by
    simp only [IStream.rest, List.length_drop]
    omega
  obtain ⟨o1, ho1, -, hdata, herr, -, -⟩ :=
    Dicom.parse_meta_loop_spec host_le (bs.length + 1) _ ⟨bs, 132, false, false⟩ hlen
  rw [← Dicom.parse_meta_magic host_le d bs h] at ho1
  unfold Dicom.parse_file
  rw [ho1]
  obtain ⟨e1, d1, ist1⟩ := o1
  cases e1 with
  | some err =>
    refine ⟨_, rfl, ?_⟩
    simp only [ne_eq, Option.some.injEq]
    rcases herr err rfl with h1 | h1 | h1 <;> rw [h1] <;> decide
  | none =>
    simp only
    rcases hf : Dicom.parse_format_info host_le d1 with ⟨e2, d2⟩
    cases e2 with
    | some err =>
      refine ⟨_, rfl, ?_⟩
      simp only [ne_eq, Option.some.injEq]
      rw [Dicom.parse_format_info_error hf]
      decide
    | none =>
      simp only
      split
      · exact ⟨_, rfl, by simp⟩
      · have hlen2 : ist1.rest.length < ist1.data.length + 1 := by
          simp only [IStream.rest, List.length_drop]
          omega
        obtain ⟨o2, ho2, -, herr2⟩ :=
          Dicom.parse_main_loop_spec host_le (ist1.data.length + 1) d2 ist1 hlen2
        refine ⟨o2, ho2, ?_⟩
        intro hc
        rcases herr2 _ hc with h1 | h1 <;> exact absurd h1 (by decide)

/-- With the magic in place `parse` ends, and it does not leave with the "not
DICOM format" error. -/
theorem Dicom.parse_magic (host_le : Bool) (ext : Ext) (d : Dicom) (bs : List Byte)
    (parse_all need_rescale : Bool)
    (h : 132 ≤ bs.length ∧ (bs.drop 128).take 4 = bytesOf "DICM") :
    ∃ o, Dicom.parse host_le ext d (IStream.ofBytes bs) parse_all need_rescale = some o
      ∧ o.error ≠ some (.ParseError "not DICOM format") := by
  obtain ⟨o1, ho1, herr⟩ := Dicom.parse_file_magic host_le d bs h
  unfold Dicom.parse
  rw [ho1]
  obtain ⟨e1, d1, ist1⟩ := o1
  cases e1 with
  | some err => exact ⟨_, rfl, herr⟩
  | none =>
    simp only
    split
    · rcases hi : Dicom.parse_image host_le ext d1 need_rescale with ⟨e2, d2⟩
      refine ⟨_, rfl, ?_⟩
      cases e2 with
      | none => simp
      | some err =>
        simp only [ne_eq, Option.some.injEq]
        exact Dicom.parse_image_error hi
    · rcases hi : Dicom.parse_summary host_le ext d1 with ⟨e2, d2⟩
      refine ⟨_, rfl, ?_⟩
      cases e2 with
      | none => simp
      | some err =>
        simp only [ne_eq, Option.some.injEq]
        exact Dicom.parse_summary_error hi

/-- Without the magic `parse` leaves with the "not DICOM format" error and an
empty store. -/
theorem Dicom.parse_bad_magic (host_le : Bool) (ext : Ext) (d : Dicom) (bs : List Byte)
    (parse_all need_rescale : Bool)
    (h : ¬ (132 ≤ bs.length ∧ (bs.drop 128).take 4 = bytesOf "DICM")) :
    ∃ o, Dicom.parse host_le ext d (IStream.ofBytes bs) parse_all need_rescale = some o
      ∧ o.error = some (.ParseError "not DICOM format") ∧ o.dicom._element = [] := by
  obtain ⟨o1, ho1, herr, hel⟩ := Dicom.parse_meta_bad_magic host_le d bs h
  obtain ⟨e1, d1, ist1⟩ := o1
  simp only at herr hel
  subst herr
  refine ⟨⟨_, d1, ist1⟩, ?_, rfl, hel⟩
  simp only [Dicom.parse, Dicom.parse_file, ho1]

/-! ## Lemmas: the preamble -/

theorem Outcome.view_cases {x y : Option Outcome}
    (h : x.map (fun o => (o.error, o.dicom, o.ist.state)) =
         y.map (fun o => (o.error, o.dicom, o.ist.state))) :
    (x = none ∧ y = none) ∨
    ∃ oa ob, x = some oa ∧ y = some ob ∧ oa.error = ob.error ∧ oa.dicom = ob.dicom
      ∧ oa.ist.state = ob.ist.state := by
  cases x with
  | none =>
    cases y with
    | none => exact Or.inl ⟨rfl, rfl⟩
    | some ob => simp at h
  | some oa =>
    cases y with
    | none => simp at h
    | some ob =>
      simp only [Option.map_some', Option.some.injEq, Prod.mk.injEq] at h
      exact Or.inr ⟨oa, ob, rfl, rfl, h.1, h.2.1, h.2.2⟩

theorem IStream.seekg_data (s : IStream) (p : Nat) : (s.seekg p).data = s.data := by
  unfold IStream.seekg
  split <;> rfl

theorem Dicom.parse_meta_sim (host_le : Bool) (d : Dicom) {a b : IStream}
    (hfa : a.failbit = false) (hfb : b.failbit = false)
    (hs : (a.seekg 128).state = (b.seekg 128).state) (hl : a.data.length = b.data.length) :
    (Dicom.parse_meta host_le d a).map (fun o => (o.error, o.dicom, o.ist.state)) =
    (Dicom.parse_meta host_le d b).map (fun o => (o.error, o.dicom, o.ist.state)) := by
  obtain ⟨h1, h2⟩ := IStream.read_sim hs 4
  unfold Dicom.parse_meta
  simp only [hfa, hfb, Bool.false_eq_true, if_false]
  rcases ha : (a.seekg 128).read 4 with ⟨ra, a1⟩
  rcases hb : (b.seekg 128).read 4 with ⟨rb, b1⟩
  rw [ha, hb] at h1 h2
  simp only at h1 h2
  subst h1
  have hda : a1.data.length = b1.data.length := by
    rw [IStream.read_data ha, IStream.read_data hb, IStream.seekg_data, IStream.seekg_data, hl]
  cases ra with
  | none => simp [h2]
  | some id =>
    simp only
    split
    · simp [h2]
    · rw [hda]
      exact Dicom.parse_meta_loop_sim host_le _ _ h2

theorem Dicom.parse_meta_data {host_le : Bool} {d : Dicom} {ist : IStream} {o : Outcome}
    (h : Dicom.parse_meta host_le d ist = some o) : o.ist.data = ist.data := by
  unfold Dicom.parse_meta at h
  split at h
  · simp only [Option.some.injEq] at h
    rw [← h]
  · split at h
    · rename_i hr
      simp only [Option.some.injEq] at h
      rw [← h]
      show _ = ist.data
      rw [← IStream.seekg_data ist 128]
      exact IStream.read_data hr
    · rename_i hr
      split at h
      · simp only [Option.some.injEq] at h
        rw [← h]
        show _ = ist.data
        rw [← IStream.seekg_data ist 128]
        exact IStream.read_data hr
      · rw [Dicom.parse_meta_loop_data host_le _ _ _ _ h, IStream.read_data hr,
          IStream.seekg_data]

theorem Dicom.parse_file_sim (host_le : Bool) (d : Dicom) {a b : IStream}
    (hfa : a.failbit = false) (hfb : b.failbit = false)
    (hs : (a.seekg 128).state = (b.seekg 128).state) (hl : a.data.length = b.data.length) :
    (Dicom.parse_file host_le d a).map (fun o => (o.error, o.dicom, o.ist.state)) =
    (Dicom.parse_file host_le d b).map (fun o => (o.error, o.dicom, o.ist.state)) := by
  have hm := Dicom.parse_meta_sim host_le d hfa hfb hs hl
  unfold Dicom.parse_file
  rcases Outcome.view_cases hm with ⟨h1, h2⟩ | ⟨oa, ob, h1, h2, he, hd, hst⟩
  · rw [h1, h2]
  · rw [h1, h2]
    have hda : oa.ist.data.length = ob.ist.data.length := by
      rw [Dicom.parse_meta_data h1, Dicom.parse_meta_data h2, hl]
    obtain ⟨ea, da, ia⟩ := oa
    obtain ⟨eb, db, ib⟩ := ob
    simp only at he hd hst hda
    subst he hd
    cases ea with
    | some err => simp [hst]
    | none =>
      simp only
      rcases Dicom.parse_format_info host_le da with ⟨e2, d2⟩
      cases e2 with
      | some err => simp [hst]
      | none =>
        simp only
        split
        · simp [hst]
        · rw [hda]
          exact Dicom.parse_main_loop_sim host_le _ _ hst

theorem Dicom.parse_sim (host_le : Bool) (ext : Ext) (d : Dicom) (parse_all need_rescale : Bool)
    {a b : IStream}
    (hfa : a.failbit = false) (hfb : b.failbit = false)
    (hs : (a.seekg 128).state = (b.seekg 128).state) (hl : a.data.length = b.data.length) :
    (Dicom.parse host_le ext d a parse_all need_rescale).map
        (fun o => (o.error, o.dicom, o.ist.state)) =
    (Dicom.parse host_le ext d b parse_all need_rescale).map
        (fun o => (o.error, o.dicom, o.ist.state)) := by
  have hm := Dicom.parse_file_sim host_le d hfa hfb hs hl
  unfold Dicom.parse
  rcases Outcome.view_cases hm with ⟨h1, h2⟩ | ⟨oa, ob, h1, h2, he, hd, hst⟩
  · rw [h1, h2]
  · rw [h1, h2]
    obtain ⟨ea, da, ia⟩ := oa
    obtain ⟨eb, db, ib⟩ := ob
    simp only at he hd hst
    subst he hd
    cases ea with
    | some err => simp [hst]
    | none =>
      simp only
      split <;> simp [hst]

/-- Two inputs that differ in their first 128 bytes only are the same input to
`parse`. -/
theorem Dicom.parse_preamble (host_le : Bool) (ext : Ext) (d : Dicom)
    (parse_all need_rescale : Bool) (pre1 pre2 : Fin 128 → Byte) (rest : List Byte) :
    (Dicom.parse host_le ext d (IStream.ofBytes (List.ofFn pre1 ++ rest))
        parse_all need_rescale).map (fun o => (o.error, o.dicom, o.ist.state)) =
    (Dicom.parse host_le ext d (IStream.ofBytes (List.ofFn pre2 ++ rest))
        parse_all need_rescale).map (fun o => (o.error, o.dicom, o.ist.state)) := by
  have e1 : (List.ofFn pre1 ++ rest).drop 128 = rest :=
    List.drop_left' (List.length_ofFn pre1)
  have e2 : (List.ofFn pre2 ++ rest).drop 128 = rest :=
    List.drop_left' (List.length_ofFn pre2)
  apply Dicom.parse_sim host_le ext d parse_all need_rescale rfl rfl
  · simp only [IStream.seekg, IStream.ofBytes, IStream.state, IStream.rest, Bool.false_eq_true,
      if_false, e1, e2]
  · simp only [IStream.ofBytes, List.length_append, List.length_ofFn]

/-! ## Lemmas: what the store holds -/

theorem IStream.rest_length_lt (s : IStream) : s.rest.length < s.data.length + 1 := by
  simp only [IStream.rest, List.length_drop]
  omega

/-- The statements of `parse` up to the end of the first loop always end. On a
stream that has not failed: when they end without an exception the object is
in mode Little-Endian Explicit-VR and the stream is good; and each element in
the store has group 0x0002, sits under the number of its tag and is what
`Element::parse` returns in that mode at some position of the input. -/
theorem Dicom.parse_meta_spec (host_le : Bool) (d : Dicom) (ist : IStream)
    (hf : ist.failbit = false) :
    ∃ o, Dicom.parse_meta host_le d ist = some o
      ∧ o.ist.data = ist.data
      ∧ (o.error = none →
          o.dicom._architecture_as_little_endian = host_le
          ∧ o.dicom._format_as_little_endian = true
          ∧ o.dicom._format_as_explicit = true
          ∧ o.dicom._format_as_deflate = false
          ∧ o.ist.good = true)
      ∧ (∀ p ∈ o.dicom._element,
          p.2._tag.id0 = TAG_GROUP_META ∧ p.1 = p.2._tag.number host_le ∧ p.2._parent = true ∧
            ∃ (d1 : Dicom) (pos : Nat) (ist1 : IStream),
              d1._architecture_as_little_endian = host_le
              ∧ d1._format_as_little_endian = true ∧ d1._format_as_explicit = true
              ∧ Element.parse host_le d1 Element.ofParent ⟨ist.data, pos, false, false⟩
                  = (.ok p.2, ist1)) := by
  unfold Dicom.parse_meta
  simp only [hf, Bool.false_eq_true, if_false]
  split
  · rename_i hr
    refine ⟨_, rfl, ?_, by simp, by simp⟩
    show _ = ist.data
    rw [IStream.read_data hr, IStream.seekg_data]
  · rename_i id ist1 hr
    have hd1 : ist1.data = ist.data := by rw [IStream.read_data hr, IStream.seekg_data]
    split
    · exact ⟨_, rfl, hd1, by simp, by simp⟩
    · obtain ⟨o, ho, hframe, hdata, -, hok, hmem⟩ :=
        Dicom.parse_meta_loop_spec host_le (ist1.data.length + 1)
          { d with _architecture_as_little_endian := host_le,
                   _cols := 0, _rows := 0, _bits := 0, _chs := 0, _is_signed := false,
                   _px_spacing_row := .val 0, _px_spacing_col := .val 0,
                   _image_pos_x := .nan, _image_pos_y := .nan, _image_pos_z := .nan,
                   _element := [],
                   _format_as_little_endian := true, _format_as_explicit := true,
                   _format_as_deflate := false }
          ist1 ist1.rest_length_lt
      refine ⟨o, ho, by rw [hdata, hd1], ?_, ?_⟩
      · intro hn
        rw [hframe]
        exact ⟨rfl, rfl, rfl, rfl, hok hn⟩
      · intro p hp
        rcases hmem p hp with h | h
        · simp at h
        · obtain ⟨h1, h2, h3, m, pos, ist2, h4⟩ := h
          rw [hd1] at h4
          exact ⟨h1, h2, h3, _, pos, ist2, rfl, rfl, rfl, h4⟩

/-- The second loop: each element in the store when it ends was there before or
sits under the number of its tag and is what `Element::parse` returns, in the
mode the loop runs in, at some position of the same input. -/
theorem Dicom.parse_main_loop_mem (host_le : Bool) :
    ∀ (fuel : Nat) (d : Dicom) (ist : IStream) (o : Outcome),
    Dicom.parse_main_loop host_le fuel d ist = some o →
    ∀ p ∈ o.dicom._element, p ∈ d._element ∨
      (p.1 = p.2._tag.number host_le ∧
        ∃ (m : List (Nat × Element)) (pos : Nat) (ist1 : IStream),
          Element.parse host_le { d with _element := m } Element.ofParent
            ⟨ist.data, pos, false, false⟩ = (.ok p.2, ist1)) := by
  intro fuel
  induction fuel with
  | zero => intro d ist o h; simp [Dicom.parse_main_loop] at h
  | succ fuel ih =>
    intro d ist o h
    unfold Dicom.parse_main_loop at h
    split at h
    · simp only [Option.some.injEq] at h
      subst h
      exact fun p hp => Or.inl hp
    · simp only [Option.some.injEq] at h
      subst h
      exact fun p hp => Or.inl hp
    · rename_i e ist1 hp
      have hgood : ist.good = true := by
        unfold Element.parse at hp
        split at hp
        · simp only [Prod.mk.injEq] at hp
          exact absurd hp.1 (by simp)
        · rename_i ht
          exact Element.parse_tag_good ht
      intro p hpm
      rcases ih _ _ _ h p hpm with h1 | h1
      · rcases map_assign_mem h1 with h2 | h2
        · right
          subst h2
          refine ⟨rfl, d._element, ist.pos, ist1, ?_⟩
          rw [← IStream.eq_of_good hgood]
          exact hp
        · exact Or.inl h2
      · right
        obtain ⟨h2, m, pos, ist2, h3⟩ := h1
        rw [Element.parse_data hp] at h3
        exact ⟨h2, m, pos, ist2, h3⟩

/-- The reading part of `parse` always ends. -/
theorem Dicom.parse_file_total (host_le : Bool) (d : Dicom) (ist : IStream) :
    ∃ o, Dicom.parse_file host_le d ist = some o := by
  have hm : ∃ o, Dicom.parse_meta host_le d ist = some o := by
    by_cases hf : ist.failbit = false
    · obtain ⟨o, ho, -⟩ := Dicom.parse_meta_spec host_le d ist hf
      exact ⟨o, ho⟩
    · simp only [Bool.not_eq_false] at hf
      exact ⟨⟨some (.StreamError "Bad stream gaven"), d, ist⟩, by simp [Dicom.parse_meta, hf]⟩
  obtain ⟨o1, ho1⟩ := hm
  unfold Dicom.parse_file
  rw [ho1]
  obtain ⟨e1, d1, ist1⟩ := o1
  cases e1 with
  | some err => exact ⟨_, rfl⟩
  | none =>
    simp only
    rcases Dicom.parse_format_info host_le d1 with ⟨e2, d2⟩
    cases e2 with
    | some err => exact ⟨_, rfl⟩
    | none =>
      simp only
      split
      · exact ⟨_, rfl⟩
      · obtain ⟨o2, ho2, -⟩ :=
          Dicom.parse_main_loop_spec host_le (ist1.data.length + 1) d2 ist1 ist1.rest_length_lt
        exact ⟨o2, ho2⟩

/-- An element returned by `Element::parse` for an object in Explicit-VR mode
carries a VR. -/
theorem Element.parse_explicit_vr {host_le : Bool} {d : Dicom} {e1 : Element}
    {ist ist1 : IStream} (hx : d._format_as_explicit = true)
    (h : Element.parse host_le d Element.ofParent ist = (.ok e1, ist1)) : e1._vr ≠ none := by
  unfold Element.parse at h
  split at h
  · simp only [Prod.mk.injEq] at h
    exact absurd h.1 (by simp)
  · rename_i e0 ist0 ht
    have hp := (Element.parse_tag_parent ht).1
    unfold Element.parse_value at h
    split at h
    · simp only [Prod.mk.injEq] at h
      exact absurd h.1 (by simp)
    · have hfe : e0._format_as_explicit d = true := by
        simp [Element._format_as_explicit, hp, Element.ofParent, hx]
      rw [if_pos hfe] at h
      exact (Element.value_explicit_tag h).2.2

theorem Dicom.select_format_store (d : Dicom) (s : List Byte) :
    (d.select_format s)._element = d._element
    ∧ (d.select_format s)._architecture_as_little_endian = d._architecture_as_little_endian := by
  unfold Dicom.select_format
  repeat' split
  all_goals exact ⟨rfl, rfl⟩

/-- The block "get format info." leaves the store and the recorded host order
as they are. -/
theorem Dicom.parse_format_info_store (host_le : Bool) (d : Dicom) :
    (Dicom.parse_format_info host_le d).2._element = d._element
    ∧ (Dicom.parse_format_info host_le d).2._architecture_as_little_endian
        = d._architecture_as_little_endian := by
  unfold Dicom.parse_format_info
  split
  · rename_i h
    simp only [Dicom.has_element, Option.isSome_iff_exists] at h
    obtain ⟨e, he⟩ := h
    simp only [Dicom.element, he]
    split
    · exact ⟨rfl, rfl⟩
    · exact Dicom.select_format_store d _
  · exact ⟨rfl, rfl⟩

/-- The reading part of `parse` on a byte sequence, as its two loops: the
first loop's outcome `o1` and the final outcome `o`. Each element of the final
store is one the first loop stored or is what `Element::parse` returns at some
position of the input for an object in the final mode. -/
theorem Dicom.parse_file_store (host_le : Bool) (d : Dicom) (ist : IStream)
    (hf : ist.failbit = false) :
    ∃ o1 o, Dicom.parse_meta host_le d ist = some o1
      ∧ Dicom.parse_file host_le d ist = some o
      ∧ ∀ p ∈ o.dicom._element, p ∈ o1.dicom._element ∨
          (p.1 = p.2._tag.number host_le ∧
            ∃ (d1 : Dicom) (pos : Nat) (ist1 : IStream),
              d1._architecture_as_little_endian = o.dicom._architecture_as_little_endian
              ∧ d1._format_as_little_endian = o.dicom._format_as_little_endian
              ∧ d1._format_as_explicit = o.dicom._format_as_explicit
              ∧ Element.parse host_le d1 Element.ofParent ⟨ist.data, pos, false, false⟩
                  = (.ok p.2, ist1)) := by
  obtain ⟨o1, ho1, hdata, -, -⟩ := Dicom.parse_meta_spec host_le d ist hf
  refine ⟨o1, ?_⟩
  unfold Dicom.parse_file
  rw [ho1]
  obtain ⟨e1, d1, ist1⟩ := o1
  simp only at hdata
  cases e1 with
  | some err => exact ⟨_, rfl, rfl, fun p hp => Or.inl hp⟩
  | none =>
    simp only
    have hst := (Dicom.parse_format_info_store host_le d1).1
    rcases hfi : Dicom.parse_format_info host_le d1 with ⟨e2, d2⟩
    rw [hfi] at hst
    simp only at hst
    cases e2 with
    | some err => exact ⟨_, trivial, rfl, fun p hp => Or.inl (hst ▸ hp)⟩
    | none =>
      simp only
      split
      · exact ⟨_, trivial, rfl, fun p hp => Or.inl (hst ▸ hp)⟩
      · obtain ⟨o2, ho2, hframe, -⟩ :=
          Dicom.parse_main_loop_spec host_le (ist1.data.length + 1) d2 ist1 ist1.rest_length_lt
        refine ⟨o2, trivial, ho2, ?_⟩
        intro p hp
        rcases Dicom.parse_main_loop_mem host_le _ _ _ _ ho2 p hp with h | ⟨h1, m, pos, ist2, h2⟩
        · exact Or.inl (hst ▸ h)
        · right
          refine ⟨h1, { d2 with _element := m }, pos, ist2, ?_, ?_, ?_, ?_⟩
          · rw [hframe]
          · rw [hframe]
          · rw [hframe]
          · rw [hdata] at h2
            exact h2

/-! ## Lemmas: the summary of a store -/

/-- The first check of `parse_summary`, on the element of `TAG_PHOTO_INTERPRET`:
what the function does when the element is absent, is no string, or is a string
without `MONOCHROME2`. -/
theorem Dicom.parse_summary_required_photo (host_le : Bool) (d : Dicom) :
    (map_find d._element (TAG_PHOTO_INTERPRET.number host_le) = none →
      (Dicom.parse_summary_required host_le d).1 =
        some (.MissingTagError "Could not found Photometric Interpretation Tag")) ∧
    (∀ e, map_find d._element (TAG_PHOTO_INTERPRET.number host_le) = some e →
      (∀ s, e._value ≠ .string s) →
      (Dicom.parse_summary_required host_le d).1 = some .bad_any_cast) ∧
    (∀ e s, map_find d._element (TAG_PHOTO_INTERPRET.number host_le) = some e →
      e._value = .string s → string_find (bytesOf "MONOCHROME2") s 0 = none →
      (Dicom.parse_summary_required host_le d).1 =
        some (.runtime_error "Unsupported Photometric Interpretation")) := by
  refine ⟨fun h => ?_, fun e h hs => ?_, fun e s h hs hf => ?_⟩
  · simp [Dicom.parse_summary_required, Dicom.has_element, h]
  · have : e.as_string = .error .bad_any_cast := by
      unfold Element.as_string
      split
      · rename_i s hv; exact absurd hv (hs s)
      · rfl
    simp [Dicom.parse_summary_required, Dicom.has_element, Dicom.element, h, this]
  · have : e.as_string = .ok s := by simp [Element.as_string, hs]
    simp [Dicom.parse_summary_required, Dicom.has_element, Dicom.element, h, this, hf]

theorem Dicom.parse_summary_px_spacing_cast {host_le : Bool} {ext : Ext} {d d1 : Dicom}
    {err : Error}
    (h : Dicom.parse_summary_px_spacing host_le ext d = (some err, d1)) :
    err = .bad_any_cast := by
  unfold Dicom.parse_summary_px_spacing at h
  simp only at h
  repeat' split at h
  all_goals simp only [Prod.mk.injEq, Option.some.injEq] at h
  all_goals first
    | (obtain ⟨rfl, -⟩ := h; rename_i hs; exact Element.as_string_error hs)
    | exact absurd h.1 (by simp)

theorem Dicom.parse_summary_image_pos_cast {host_le : Bool} {ext : Ext} {d d1 : Dicom}
    {err : Error}
    (h : Dicom.parse_summary_image_pos host_le ext d = (some err, d1)) :
    err = .bad_any_cast := by
  unfold Dicom.parse_summary_image_pos at h
  simp only at h
  repeat' split at h
  all_goals simp only [Prod.mk.injEq, Option.some.injEq] at h
  all_goals first
    | (obtain ⟨rfl, -⟩ := h; rename_i hs; exact Element.as_string_error hs)
    | exact absurd h.1 (by simp)

theorem Dicom.element_of_has {d : Dicom} {n : Nat}
    (hh : ¬ (!d.has_element n) = true) :
    map_find d._element n = some (d.element n).1 := by
  simp only [Dicom.has_element, Bool.not_eq_true', Bool.not_eq_false'] at hh
  cases hm : map_find d._element n with
  | none => rw [hm] at hh; simp at hh
  | some x => simp only [Dicom.element, hm]

theorem Element.as_string_ok {e : Element} {s : List Byte}
    (h : e.as_string = .ok s) : e._value = .string s := by
  unfold Element.as_string at h
  split at h
  · rename_i t ht
    simp only [Except.ok.injEq] at h
    rw [ht, h]
  · simp at h

/-- A `std::runtime_error` leaves `parse_summary_required` only from the test of
the photometric interpretation. -/
theorem Dicom.parse_summary_required_runtime {host_le : Bool} {d d1 : Dicom} {w : String}
    (h : Dicom.parse_summary_required host_le d = (some (.runtime_error w), d1)) :
    w = "Unsupported Photometric Interpretation" ∧
    ∃ e s, map_find d._element (TAG_PHOTO_INTERPRET.number host_le) = some e ∧
      e._value = .string s ∧ string_find (bytesOf "MONOCHROME2") s 0 = none := by
  unfold Dicom.parse_summary_required at h
  simp only at h
  repeat' split at h
  all_goals simp only [Prod.mk.injEq, Option.some.injEq] at h
  all_goals first
    | (rename_i hs; have := Element.as_string_error hs; rw [this] at h
       exact Error.noConfusion h.1)
    | (rename_i hs; have := Element.as_scalar_error hs; rw [this] at h
       exact Error.noConfusion h.1)
    | exact Error.noConfusion h.1
    | exact Option.noConfusion h.1
    | (rename_i hh _ p hs hf
       obtain ⟨h1, -⟩ := h
       injection h1 with h1
       refine ⟨h1.symm, _, p, ?_, Element.as_string_ok hs, hf⟩
       exact Dicom.element_of_has hh)

theorem Element.as_string_cases (e : Element) :
    (∃ s, e._value = .string s ∧ e.as_string = .ok s) ∨
    ((∀ s, e._value ≠ .string s) ∧ e.as_string = .error .bad_any_cast) := by
  unfold Element.as_string
  cases e._value <;> simp

theorem Element.as_scalar_cases (e : Element) (t : DType) :
    (∃ v, e._value = .scalar t v ∧ e.as_scalar t = .ok v) ∨
    ((∀ v, e._value ≠ .scalar t v) ∧ e.as_scalar t = .error .bad_any_cast) := by
  unfold Element.as_scalar
  cases e._value with
  | scalar u v =>
    by_cases h : u = t
    · subst h; simp
    · right
      simp [h]
  | _ => simp

theorem Dicom.parse_summary_of_required {host_le : Bool} {ext : Ext} {d : Dicom} {err : Error}
    (h : (Dicom.parse_summary_required host_le d).1 = some err) :
    (Dicom.parse_summary host_le ext d).1 = some err := by
  unfold Dicom.parse_summary
  split
  · rename_i e1 d1 h1
    rw [h1] at h
    exact h
  · rename_i d1 h1
    rw [h1] at h
    simp at h

/-- The required part of `parse_summary`, check by check: the exception it
leaves with, from what the store holds under the five required tags. -/
theorem Dicom.parse_summary_required_stages (host_le : Bool) (d : Dicom) :
    (map_find d._element (TAG_PHOTO_INTERPRET.number host_le) = none →
      (Dicom.parse_summary_required host_le d).1 =
        some (.MissingTagError "Could not found Photometric Interpretation Tag")) ∧
    (∀ e1 s, map_find d._element (TAG_PHOTO_INTERPRET.number host_le) = some e1 →
      e1._value = .string s → string_find (bytesOf "MONOCHROME2") s 0 ≠ none →
      (map_find d._element (TAG_PX_REP.number host_le) = none →
        (Dicom.parse_summary_required host_le d).1 =
          some (.MissingTagError "Could not found Pixel Representation Tag")) ∧
      (∀ e2, map_find d._element (TAG_PX_REP.number host_le) = some e2 →
        ((∀ v, e2._value ≠ .scalar .uint16 v) →
          (Dicom.parse_summary_required host_le d).1 = some .bad_any_cast) ∧
        (∀ v2, e2._value = .scalar .uint16 v2 →
          (map_find d._element (TAG_BIT_ALLOC.number host_le) = none →
            (Dicom.parse_summary_required host_le d).1 =
              some (.MissingTagError "Could not found Bit Allocation Tag")) ∧
          (∀ e3, map_find d._element (TAG_BIT_ALLOC.number host_le) = some e3 →
            ((∀ v, e3._value ≠ .scalar .uint16 v) →
              (Dicom.parse_summary_required host_le d).1 = some .bad_any_cast) ∧
            (∀ v3, e3._value = .scalar .uint16 v3 →
              (map_find d._element (TAG_ROWS.number host_le) = none ∨
                map_find d._element (TAG_COLS.number host_le) = none →
                (Dicom.parse_summary_required host_le d).1 =
                  some (.MissingTagError "Could not found Cols and/or Rows Tag"))))))) := by
  refine ⟨fun h1 => ?_, fun e1 s h1 hs hf => ⟨fun h2 => ?_, fun e2 h2 => ⟨fun hn2 => ?_,
    fun v2 hv2 => ⟨fun h3 => ?_, fun e3 h3 => ⟨fun hn3 => ?_, fun v3 hv3 h45 => ?_⟩⟩⟩⟩⟩
  · simp [Dicom.parse_summary_required, Dicom.has_element, h1]
  · simp [Dicom.parse_summary_required, Dicom.has_element, Dicom.element, h1, h2,
      Element.as_string, hs, hf]
  · have : e2.as_scalar .uint16 = .error .bad_any_cast := by
      rcases Element.as_scalar_cases e2 .uint16 with ⟨v, hv, -⟩ | ⟨-, h⟩
      · exact absurd hv (hn2 v)
      · exact h
    simp [Dicom.parse_summary_required, Dicom.has_element, Dicom.element, h1, h2,
      Element.as_string, hs, hf, this]
  · simp [Dicom.parse_summary_required, Dicom.has_element, Dicom.element, h1, h2, h3,
      Element.as_string, Element.as_scalar, hs, hf, hv2]
  · have : e3.as_scalar .uint16 = .error .bad_any_cast := by
      rcases Element.as_scalar_cases e3 .uint16 with ⟨v, hv, -⟩ | ⟨-, h⟩
      · exact absurd hv (hn3 v)
      · exact h
    have h2s : e2.as_scalar .uint16 = .ok v2 := by simp [Element.as_scalar, hv2]
    simp [Dicom.parse_summary_required, Dicom.has_element, Dicom.element, h1, h2, h3,
      Element.as_string, hs, hf, this, h2s]
  · have h2s : e2.as_scalar .uint16 = .ok v2 := by simp [Element.as_scalar, hv2]
    have h3s : e3.as_scalar .uint16 = .ok v3 := by simp [Element.as_scalar, hv3]
    rcases h45 with h4 | h5
    · simp [Dicom.parse_summary_required, Dicom.has_element, Dicom.element, h1, h2, h3, h4,
        Element.as_string, hs, hf, h2s, h3s]
    · simp [Dicom.parse_summary_required, Dicom.has_element, Dicom.element, h1, h2, h3, h5,
        Element.as_string, hs, hf, h2s, h3s]

/-- The required part of `parse_summary` on a store that holds the five
required elements with the types the function asks for. -/
theorem Dicom.parse_summary_required_ok {host_le : Bool} {d : Dicom}
    {e1 e2 e3 e4 e5 : Element} {s : List Byte} {v2 v3 v4 v5 : Int}
    (h1 : map_find d._element (TAG_PHOTO_INTERPRET.number host_le) = some e1)
    (hs : e1._value = .string s) (hf : string_find (bytesOf "MONOCHROME2") s 0 ≠ none)
    (h2 : map_find d._element (TAG_PX_REP.number host_le) = some e2)
    (hv2 : e2._value = .scalar .uint16 v2)
    (h3 : map_find d._element (TAG_BIT_ALLOC.number host_le) = some e3)
    (hv3 : e3._value = .scalar .uint16 v3)
    (h4 : map_find d._element (TAG_ROWS.number host_le) = some e4)
    (hv4 : e4._value = .scalar .uint16 v4)
    (h5 : map_find d._element (TAG_COLS.number host_le) = some e5)
    (hv5 : e5._value = .scalar .uint16 v5) :
    Dicom.parse_summary_required host_le d =
      (none, { d with _cols := v5, _rows := v4, _bits := v3, _chs := 1,
                      _is_signed := if v2 = 0 then false else true,
                      _px_spacing_row := .val 0, _px_spacing_col := .val 0,
                      _image_pos_x := .nan, _image_pos_y := .nan, _image_pos_z := .nan }) := by
  simp [Dicom.parse_summary_required, Dicom.has_element, Dicom.element, h1, h2, h3, h4, h5,
    Element.as_string, Element.as_scalar, hs, hv2, hv3, hv4, hv5, hf]

/-- The block "pixel spacing" on a store whose PixelSpacing element, if any, is a
string: no exception, and only the two spacing members are written. -/
theorem Dicom.parse_summary_px_spacing_ok (host_le : Bool) (ext : Ext) (d : Dicom)
    (h : ∀ e, map_find d._element (TAG_PX_SPACING.number host_le) = some e →
      ∃ s, e._value = .string s) :
    ∃ r c, Dicom.parse_summary_px_spacing host_le ext d =
      (none, { d with _px_spacing_row := r, _px_spacing_col := c }) := by
  unfold Dicom.parse_summary_px_spacing
  cases hm : map_find d._element (TAG_PX_SPACING.number host_le) with
  | none => exact ⟨d._px_spacing_row, d._px_spacing_col, by simp [Dicom.has_element, hm]⟩
  | some e =>
    obtain ⟨s, hs⟩ := h e hm
    simp only [Dicom.has_element, Dicom.element, hm, Element.as_string, hs, Option.isSome_some,
      ↓reduceIte]
    repeat' split
    all_goals first
      | exact ⟨d._px_spacing_row, d._px_spacing_col, rfl⟩
      | exact ⟨_, d._px_spacing_col, rfl⟩
      | exact ⟨_, _, rfl⟩

/-- The block "image position" on a store whose ImagePositionPatient element,
if any, is a string: no exception, and only the three position members are
written. -/
theorem Dicom.parse_summary_image_pos_ok (host_le : Bool) (ext : Ext) (d : Dicom)
    (h : ∀ e, map_find d._element (TAG_IMG_POSITION.number host_le) = some e →
      ∃ s, e._value = .string s) :
    ∃ x y z, Dicom.parse_summary_image_pos host_le ext d =
      (none, { d with _image_pos_x := x, _image_pos_y := y, _image_pos_z := z }) := by
  unfold Dicom.parse_summary_image_pos
  cases hm : map_find d._element (TAG_IMG_POSITION.number host_le) with
  | none =>
    exact ⟨d._image_pos_x, d._image_pos_y, d._image_pos_z, by simp [Dicom.has_element, hm]⟩
  | some e =>
    obtain ⟨s, hs⟩ := h e hm
    simp only [Dicom.has_element, Dicom.element, hm, Element.as_string, hs, Option.isSome_some,
      ↓reduceIte]
    repeat' split
    all_goals first
      | exact ⟨d._image_pos_x, d._image_pos_y, d._image_pos_z, rfl⟩
      | exact ⟨_, d._image_pos_y, d._image_pos_z, rfl⟩
      | exact ⟨_, _, d._image_pos_z, rfl⟩
      | exact ⟨_, _, _, rfl⟩

/-! ## Lemmas: unknown VR codes and zero tags -/

theorem vr_long_known {vr : Nat} (h : vr ∉ vr_known) : vr ∉ vr_long := by
  intro hl
  apply h
  simp only [vr_long, List.mem_cons, List.mem_singleton, List.not_mem_nil, or_false] at hl
  rcases hl with rfl | rfl | rfl | rfl | rfl | rfl <;> decide

/-- The second `switch` on a VR code without a `case`: the `throw` behind it. -/
theorem Element.body_unknown (host_le : Bool) (d : Dicom) (e : Element) (vr : Nat)
    (ist : IStream) (sz : Nat) (h : vr ∉ vr_known) :
    Element._parse_body_explicit host_le d e vr ist sz =
      (.error (.ParseError "Unknown VR found"), ist) := by
  have hs : vr ∉ vr_string := fun hm => h (by simp [vr_known, hm])
  simp only [vr_known, vr_string, vr_bytes, vr_typed, List.map, List.mem_append, List.mem_cons,
    List.mem_singleton, List.not_mem_nil, or_false, not_or] at h
  unfold Element._parse_body_explicit
  rw [if_neg hs]
  simp only [h, false_or, or_self, ↓reduceIte]

/-- An element that `Element::parse` returns has a tag other than zero. -/
theorem Element.parse_tag_ne_zero {host_le : Bool} {d : Dicom} {e e1 : Element}
    {ist ist1 : IStream}
    (h : Element.parse host_le d e ist = (.ok e1, ist1)) : e1._tag.number host_le ≠ 0 := by
  unfold Element.parse at h
  split at h
  · simp only [Prod.mk.injEq] at h
    exact absurd h.1 (by simp)
  · rename_i e2 ist2 htag
    have ht := (Element.parse_value_tag h).1
    unfold Element.parse_value at h
    split at h
    · simp only [Prod.mk.injEq] at h
      exact absurd h.1 (by simp)
    · rename_i hne
      rw [ht]
      exact hne

/-- After the reading part of `parse` every element of the store has a tag
other than zero. -/
theorem Dicom.parse_file_tag_ne_zero (host_le : Bool) (d : Dicom) (ist : IStream) (o : Outcome)
    (hf : ist.failbit = false) (h : Dicom.parse_file host_le d ist = some o) :
    ∀ p ∈ o.dicom._element, p.2._tag.number host_le ≠ 0 := by
  obtain ⟨o1, o2, hm, hp, hs⟩ := Dicom.parse_file_store host_le d ist hf
  rw [h] at hp
  simp only [Option.some.injEq] at hp
  subst hp
  obtain ⟨o3, hm3, -, -, hmeta⟩ := Dicom.parse_meta_spec host_le d ist hf
  rw [hm] at hm3
  simp only [Option.some.injEq] at hm3
  subst hm3
  intro p hp
  rcases hs p hp with h1 | ⟨-, d1, pos, ist1, -, -, -, h2⟩
  · obtain ⟨-, -, -, d1, pos, ist1, -, -, -, h2⟩ := hmeta p h1
    exact Element.parse_tag_ne_zero h2
  · exact Element.parse_tag_ne_zero h2

/-! ## Lemmas: the scan for the end-of-sequence mark -/

/-- The scan of `_read_element_data_sequence` leaves at the first position at
which the window holds the end-of-sequence mark: if that is after the bytes
`pre`, the scan returns them appended to `value` and leaves the rest unread. -/
theorem Element.sequence_loop_first_match :
    ∀ (pre U eos value : List Byte), eos.length = 8 → pre ≠ [] →
    (∀ n, 1 ≤ n → n < pre.length → (eos ++ pre.take n).drop n ≠ end_of_sequence) →
    (eos ++ pre).drop pre.length = end_of_sequence →
    Element._read_sequence_loop (pre ++ U) eos value = some (value ++ pre, U) := by
  intro pre
  induction pre with
  | nil => intro U eos value _ h; exact absurd rfl h
  | cons c pre ih =>
    intro U eos value he _ hno hlast
    have hw : eos.drop 1 ++ [c] = (eos ++ [c]).drop 1 := by
      rw [List.drop_append_of_le_length (by omega)]
    simp only [List.cons_append, Element._read_sequence_loop]
    by_cases hp : pre = []
    · subst hp
      simp only [List.length_singleton] at hlast
      rw [hw, if_pos hlast]
      simp
    · have hlen : 1 < (c :: pre).length := by
        cases pre with
        | nil => exact absurd rfl hp
        | cons _ _ => simp
      have h1 := hno 1 (le_refl 1) hlen
      simp only [List.take_succ_cons, List.take_zero] at h1
      rw [← hw] at h1
      have hih := ih U (eos.drop 1 ++ [c]) (value ++ [c]) (by simp [he]) hp (by
        intro n hn1 hn2
        have := hno (n + 1) (by omega) (by simp; omega)
        simp only [List.take_succ_cons] at this
        rw [hw, ← List.drop_append_of_le_length (by simp), List.drop_drop]
        simpa [Nat.add_comm] using this) (by
        rw [hw, ← List.drop_append_of_le_length (by simp), List.drop_drop]
        simpa [Nat.add_comm] using hlast)
      rw [if_neg h1]
      simp only [List.append_eq]
      rw [hih]
      simp

theorem end_of_sequence_border (k : Nat) (h1 : 1 ≤ k) (h7 : k < 8) :
    end_of_sequence.take k ≠ end_of_sequence.drop (8 - k) := by
  interval_cases k <;> decide

/-- In `B ++ end_of_sequence`, read into a window of eight zero bytes, the
window holds the mark for the first time after the last byte, when `B` does
not contain the mark. -/
theorem end_of_sequence_first (B : List Byte) (hB : ¬ List.IsInfix end_of_sequence B) :
    ∀ n, 1 ≤ n → n < (B ++ end_of_sequence).length →
      (([0, 0, 0, 0, 0, 0, 0, 0] : List Byte) ++ (B ++ end_of_sequence).take n).drop n
        ≠ end_of_sequence := by
  intro n hn1 hn2 heq
  have hlen : end_of_sequence.length = 8 := rfl
  simp only [List.length_append, hlen] at hn2
  by_cases hnB : n ≤ B.length
  · rw [List.take_append_of_le_length hnB] at heq
    by_cases hn8 : n < 8
    · rw [List.drop_append_of_le_length (by simp; omega)] at heq
      have h0 : (([0, 0, 0, 0, 0, 0, 0, 0] : List Byte).drop n ++ B.take n).head? = some 0 := by
        interval_cases n <;> rfl
      rw [heq] at h0
      exact absurd h0 (by decide)
    · rw [List.drop_append_eq_append_drop] at heq
      have hz : ([0, 0, 0, 0, 0, 0, 0, 0] : List Byte).drop n = [] := by
        apply List.drop_eq_nil_of_le
        simp; omega
      rw [hz, List.nil_append] at heq
      simp only [List.length_cons, List.length_nil] at heq
      apply hB
      refine ⟨B.take (n - 8), B.drop n, ?_⟩
      rw [← heq]
      have : B.take (n - 8) = (B.take n).take (n - 8) := by
        rw [List.take_take]
        congr 1
        omega
      rw [this, List.take_append_drop, List.take_append_drop]
  · have hk : n = B.length + (n - B.length) := by omega
    rw [hk, List.take_append, ← List.append_assoc,
      List.drop_append_of_le_length (by simp; omega)] at heq
    have := congrArg (List.drop (8 - (n - B.length))) heq
    rw [List.drop_append_of_le_length (by simp; omega), List.drop_eq_nil_of_le (by simp; omega),
      List.nil_append] at this
    exact end_of_sequence_border (n - B.length) (by omega) (by omega) this

/-! ## Lemmas: the encodings -/

theorem byte_ofNat_toNat (n : Nat) : (UInt8.ofNat n).toNat = n % 256 := by
  simp [UInt8.ofNat, UInt8.toNat, Fin.ofNat]

theorem load_encode_u16 (le : Bool) (x : Nat) (h : x < 65536) :
    load le (encode_u16 le x) = x := by
  cases le <;> simp [load, beNat, encode_u16, leNat, byte_ofNat_toNat] <;> omega

theorem load_encode_u32 (le : Bool) (x : Nat) (h : x < 4294967296) :
    load le (encode_u32 le x) = x := by
  cases le <;> simp [load, beNat, encode_u32, leNat, byte_ofNat_toNat] <;> omega

theorem encode_value_length (le : Bool) (v : List Byte) : (encode_value le v).length = v.length := by
  cases le <;> simp [encode_value]

theorem DType.ofMem_encode_value (le : Bool) (T : DType) (v : List Byte) :
    T.ofMem le (encode_value le v) = T.ofMem true v := by
  cases le
  · apply DType.ofMem_congr
    simp [encode_value, load_reverse]
  · rfl

theorem encode_u16_eq (le : Bool) (x : Nat) : ∃ a b, encode_u16 le x = [a, b] := by
  cases le <;> exact ⟨_, _, rfl⟩

theorem encode_u32_eq (le : Bool) (x : Nat) : ∃ a b c d, encode_u32 le x = [a, b, c, d] := by
  cases le <;> exact ⟨_, _, _, _, rfl⟩

/-- The tag read by `parse_tag` for an element of a `Dicom` whose recorded host
order is the host's: the two integers a machine of the stream's byte order
reads. -/
theorem Element.parse_tag_ok (host_le : Bool) (d : Dicom) (e : Element) (ist : IStream)
    (a0 a1 a2 a3 : Byte) (tl : List Byte)
    (hp : e._parent = true) (ha : d._architecture_as_little_endian = host_le)
    (hg : ist.good = true) (hr : ist.rest = a0 :: a1 :: a2 :: a3 :: tl) :
    Element.parse_tag host_le d e ist =
      (.ok { e with _tag := ⟨load d._format_as_little_endian [a0, a1],
                             load d._format_as_little_endian [a2, a3]⟩ },
       { ist with pos := ist.pos + 4 }) := by
  unfold Element.parse_tag
  rw [IStream.read_ok ist 4 hg (by simp [hr]), Element.need_swap_of_parent host_le d e hp ha]
  simp only [hr, List.take_succ_cons, List.take_zero, List.drop_succ_cons, List.drop_zero]
  rw [← swap16_eq_load host_le d._format_as_little_endian a0 a1,
    ← swap16_eq_load host_le d._format_as_little_endian a2 a3]
  split <;> rfl

/-- The values of a run of chunks of `s` bytes each, read chunk by chunk. -/
theorem join_chunks (g : List Byte → Int) (s : Nat) (tl : List Byte) :
    ∀ (cs : List (List Byte)), (∀ c ∈ cs, c.length = s) →
      (List.range cs.length).map (fun i => g (((cs.flatten ++ tl).drop (i * s)).take s))
        = cs.map g := by
  intro cs
  induction cs with
  | nil => intro _; rfl
  | cons c cs ih =>
    intro h
    have hc : c.length = s := h c (List.mem_cons_self _ _)
    rw [List.length_cons, List.range_succ_eq_map]
    simp only [List.map_cons, List.map_map, List.flatten_cons, Nat.zero_mul, List.drop_zero,
      List.append_assoc]
    congr 1
    · rw [List.take_append_of_le_length (by omega), ← hc, List.take_length]
    · rw [← ih (fun x hx => h x (List.mem_cons_of_mem _ hx))]
      apply List.map_congr_left
      intro i _
      simp only [Function.comp]
      have : (i + 1) * s = c.length + i * s := by rw [hc, Nat.succ_mul]; omega
      rw [this, ← List.drop_drop, List.drop_left]

theorem sum_length_chunks (s : Nat) :
    ∀ (cs : List (List Byte)), (∀ c ∈ cs, c.length = s) →
      (cs.map List.length).sum = cs.length * s := by
  intro cs
  induction cs with
  | nil => intro _; simp
  | cons c cs ih =>
    intro h
    rw [List.map_cons, List.sum_cons, ih (fun x hx => h x (List.mem_cons_of_mem _ hx)),
      h c (List.mem_cons_self _ _), List.length_cons, Nat.succ_mul]
    omega

theorem TypeTag.number_ne_zero (host_le : Bool) (t : TypeTag) (h : t ≠ ⟨0, 0⟩) :
    t.number host_le ≠ 0 := by
  intro hn
  apply h
  cases t with
  | mk a b =>
    unfold TypeTag.number at hn
    cases host_le <;> simp at hn <;> simp [hn.1, hn.2]

theorem Element.parse_value_explicit_of (host_le : Bool) (d : Dicom) (e : Element)
    (ist : IStream) (hz : e._tag.number host_le ≠ 0) (hx : e._format_as_explicit d = true) :
    Element.parse_value host_le d e ist = Element._parse_value_explicit host_le d e ist := by
  unfold Element.parse_value
  rw [if_neg hz, if_pos hx]

/-! ## Lemmas: the element parsers use of the owning object only its flags -/

theorem Element.need_byte_swap_flags {d1 d2 : Dicom} (e : Element)
    (ha : d1._architecture_as_little_endian = d2._architecture_as_little_endian)
    (hf : d1._format_as_little_endian = d2._format_as_little_endian) :
    e._need_byte_swap d1 = e._need_byte_swap d2 := by
  simp [Element._need_byte_swap, Dicom._need_byte_swap, ha, hf]

theorem Element.parse_tag_flags (host_le : Bool) {d1 d2 : Dicom} (e : Element) (ist : IStream)
    (ha : d1._architecture_as_little_endian = d2._architecture_as_little_endian)
    (hf : d1._format_as_little_endian = d2._format_as_little_endian) :
    Element.parse_tag host_le d1 e ist = Element.parse_tag host_le d2 e ist := by
  unfold Element.parse_tag
  rw [Element.need_byte_swap_flags e ha hf]

theorem Element.single_flags (host_le : Bool) {d1 d2 : Dicom} (e : Element) (T : DType)
    (ist : IStream) (s : Nat)
    (ha : d1._architecture_as_little_endian = d2._architecture_as_little_endian)
    (hf : d1._format_as_little_endian = d2._format_as_little_endian) :
    Element._read_element_data_single host_le d1 e T ist s =
      Element._read_element_data_single host_le d2 e T ist s := by
  unfold Element._read_element_data_single
  rw [Element.need_byte_swap_flags e ha hf]

theorem Element.loop_flags (host_le : Bool) {d1 d2 : Dicom} (e : Element) (T : DType) (s : Nat)
    (ha : d1._architecture_as_little_endian = d2._architecture_as_little_endian)
    (hf : d1._format_as_little_endian = d2._format_as_little_endian) :
    ∀ (k : Nat) (ist : IStream),
    Element._read_element_data_loop host_le d1 e T s k ist =
      Element._read_element_data_loop host_le d2 e T s k ist := by
  intro k
  induction k with
  | zero => intro ist; rfl
  | succ k ih =>
    intro ist
    unfold Element._read_element_data_loop
    rw [Element.single_flags host_le e T ist s ha hf]
    split
    · rfl
    · rw [ih]

theorem Element.data_flags (host_le : Bool) {d1 d2 : Dicom} (e : Element) (T : DType)
    (ist : IStream) (len : Nat)
    (ha : d1._architecture_as_little_endian = d2._architecture_as_little_endian)
    (hf : d1._format_as_little_endian = d2._format_as_little_endian) :
    Element._read_element_data host_le d1 e T ist len =
      Element._read_element_data host_le d2 e T ist len := by
  unfold Element._read_element_data
  simp only [Element.single_flags host_le e T ist _ ha hf, Element.loop_flags host_le e T _ ha hf]

theorem Element.sequence_flags (host_le : Bool) {d1 d2 : Dicom} (e : Element)
    (ist : IStream) (len : Nat)
    (ha : d1._architecture_as_little_endian = d2._architecture_as_little_endian)
    (hf : d1._format_as_little_endian = d2._format_as_little_endian) :
    Element._read_element_data_sequence host_le d1 e ist len =
      Element._read_element_data_sequence host_le d2 e ist len := by
  unfold Element._read_element_data_sequence
  rw [Element.data_flags host_le e .uchar ist len ha hf]

theorem Element.implicit_flags (host_le : Bool) {d1 d2 : Dicom} (e : Element) (ist : IStream)
    (ha : d1._architecture_as_little_endian = d2._architecture_as_little_endian)
    (hf : d1._format_as_little_endian = d2._format_as_little_endian) :
    Element._parse_value_implicit host_le d1 e ist =
      Element._parse_value_implicit host_le d2 e ist := by
  unfold Element._parse_value_implicit
  split
  · rfl
  · rw [Element.need_byte_swap_flags e ha hf, Element.sequence_flags host_le e _ _ ha hf]

theorem Element.length_explicit_flags (host_le : Bool) {d1 d2 : Dicom} (e : Element) (vr : Nat)
    (ist : IStream)
    (ha : d1._architecture_as_little_endian = d2._architecture_as_little_endian)
    (hf : d1._format_as_little_endian = d2._format_as_little_endian) :
    Element._parse_length_explicit host_le d1 e vr ist =
      Element._parse_length_explicit host_le d2 e vr ist := by
  unfold Element._parse_length_explicit
  rw [Element.need_byte_swap_flags e ha hf]

theorem Element.body_explicit_flags (host_le : Bool) {d1 d2 : Dicom} (e : Element) (vr : Nat)
    (ist : IStream) (sz : Nat)
    (ha : d1._architecture_as_little_endian = d2._architecture_as_little_endian)
    (hf : d1._format_as_little_endian = d2._format_as_little_endian) :
    Element._parse_body_explicit host_le d1 e vr ist sz =
      Element._parse_body_explicit host_le d2 e vr ist sz := by
  unfold Element._parse_body_explicit
  simp only [Element.data_flags host_le e _ ist sz ha hf,
    Element.sequence_flags host_le e ist sz ha hf]

theorem Element.value_explicit_flags (host_le : Bool) {d1 d2 : Dicom} (e : Element)
    (ist : IStream)
    (ha : d1._architecture_as_little_endian = d2._architecture_as_little_endian)
    (hf : d1._format_as_little_endian = d2._format_as_little_endian) :
    Element._parse_value_explicit host_le d1 e ist =
      Element._parse_value_explicit host_le d2 e ist := by
  unfold Element._parse_value_explicit
  split
  · rfl
  · have h1 : e._architecture_as_little_endian d1 = e._architecture_as_little_endian d2 := by
      simp [Element._architecture_as_little_endian, ha]
    simp only [h1, Element.length_explicit_flags host_le _ _ _ ha hf]
    split
    · rfl
    · exact Element.body_explicit_flags host_le _ _ _ _ ha hf

theorem Element.parse_value_flags (host_le : Bool) {d1 d2 : Dicom} (e : Element)
    (ist : IStream)
    (ha : d1._architecture_as_little_endian = d2._architecture_as_little_endian)
    (hf : d1._format_as_little_endian = d2._format_as_little_endian)
    (hx : d1._format_as_explicit = d2._format_as_explicit) :
    Element.parse_value host_le d1 e ist = Element.parse_value host_le d2 e ist := by
  unfold Element.parse_value
  have h1 : e._format_as_explicit d1 = e._format_as_explicit d2 := by
    simp [Element._format_as_explicit, hx]
  rw [h1, Element.value_explicit_flags host_le e ist ha hf,
    Element.implicit_flags host_le e ist ha hf]

/-- The result of `Element::parse` depends on the owning object only through
the flags for the byte orders and for Explicit VR. -/
theorem Element.parse_flags (host_le : Bool) {d1 d2 : Dicom} (e : Element) (ist : IStream)
    (ha : d1._architecture_as_little_endian = d2._architecture_as_little_endian)
    (hf : d1._format_as_little_endian = d2._format_as_little_endian)
    (hx : d1._format_as_explicit = d2._format_as_explicit) :
    Element.parse host_le d1 e ist = Element.parse host_le d2 e ist := by
  unfold Element.parse
  rw [Element.parse_tag_flags host_le e ist ha hf]
  split
  · rfl
  · exact Element.parse_value_flags host_le _ _ ha hf hx

/-! ## Lemmas: reading a prefix of the input -/

theorem IStream.read_trunc {bs : List Byte} {p n : Nat} {r : List Byte} {a1 : IStream} (t : Nat)
    (h : IStream.read ⟨bs, p, false, false⟩ n = (some r, a1)) :
    a1 = ⟨bs, p + n, false, false⟩ ∧
    (p + n ≤ t → IStream.read ⟨bs.take t, p, false, false⟩ n =
        (some r, ⟨bs.take t, p + n, false, false⟩)) ∧
    (t < p + n → p ≤ t ∨ 0 < n →
      ∃ b1, IStream.read ⟨bs.take t, p, false, false⟩ n = (none, b1)) := by
  obtain ⟨-, hn, hr, ha⟩ := IStream.read_eq_some h
  simp only [IStream.rest, List.length_drop] at hn
  simp only [IStream.rest] at hr
  refine ⟨ha, ?_, ?_⟩
  · intro hq
    rw [IStream.read_ok ⟨bs.take t, p, false, false⟩ n rfl (by simp [IStream.rest]; omega)]
    simp only [IStream.rest, Prod.mk.injEq, Option.some.injEq, and_true]
    rw [hr, List.drop_take, List.take_take, Nat.min_eq_left (by omega)]
  · intro hq hor
    have : ¬ n ≤ (⟨bs.take t, p, false, false⟩ : IStream).rest.length := by
      simp [IStream.rest]; omega
    refine ⟨(IStream.read ⟨bs.take t, p, false, false⟩ n).2, ?_⟩
    simp only [IStream.read, IStream.good, Bool.not_false, Bool.and_self, if_true, if_neg this]

theorem Element.parse_tag_trunc {host_le : Bool} {d : Dicom} {e e1 : Element} {bs : List Byte}
    {p : Nat} {a1 : IStream} (t : Nat)
    (h : Element.parse_tag host_le d e ⟨bs, p, false, false⟩ = (.ok e1, a1)) :
    a1 = ⟨bs, p + 4, false, false⟩ ∧
    (p + 4 ≤ t → Element.parse_tag host_le d e ⟨bs.take t, p, false, false⟩ =
        (.ok e1, ⟨bs.take t, p + 4, false, false⟩)) ∧
    (t < p + 4 → ∃ b1, Element.parse_tag host_le d e ⟨bs.take t, p, false, false⟩ =
        (.error (.StreamError ""), b1)) := by
  unfold Element.parse_tag at h
  split at h
  · simp only [Prod.mk.injEq] at h
    exact absurd h.1 (by simp)
  · rename_i raw ist1 hr
    obtain ⟨h1, h2, h3⟩ := IStream.read_trunc t hr
    have ha : a1 = ist1 := by split at h <;> simp only [Prod.mk.injEq] at h <;> exact h.2.symm
    refine ⟨by rw [ha, h1], ?_, ?_⟩
    · intro hq
      unfold Element.parse_tag
      rw [h2 hq]
      simp only
      split at h <;> rename_i hc <;> simp only [Prod.mk.injEq, Except.ok.injEq] at h
      · rw [if_pos hc, h.1]
      · rw [if_neg hc, h.1]
    · intro hq
      obtain ⟨b1, hb⟩ := h3 hq (Or.inr (by omega))
      exact ⟨b1, by unfold Element.parse_tag; rw [hb]⟩

theorem Element.single_trunc {host_le : Bool} {d : Dicom} {e : Element} {T : DType} {s : Nat}
    {bs : List Byte} {p : Nat} {v : Int} {a1 : IStream} (t : Nat)
    (h : Element._read_element_data_single host_le d e T ⟨bs, p, false, false⟩ s = (.ok v, a1)) :
    a1 = ⟨bs, p + s, false, false⟩ ∧
    (p + s ≤ t → Element._read_element_data_single host_le d e T ⟨bs.take t, p, false, false⟩ s =
        (.ok v, ⟨bs.take t, p + s, false, false⟩)) ∧
    (p ≤ t → t < p + s →
      ∃ b1, Element._read_element_data_single host_le d e T ⟨bs.take t, p, false, false⟩ s =
        (.error (.StreamError ""), b1)) := by
  unfold Element._read_element_data_single at h
  split at h
  · simp only [Prod.mk.injEq] at h
    exact absurd h.1 (by simp)
  · rename_i raw ist1 hr
    obtain ⟨h1, h2, h3⟩ := IStream.read_trunc t hr
    have ha : a1 = ist1 := by split at h <;> simp only [Prod.mk.injEq] at h <;> exact h.2.symm
    refine ⟨by rw [ha, h1], ?_, ?_⟩
    · intro hq
      unfold Element._read_element_data_single
      rw [h2 hq]
      simp only
      split at h <;> rename_i hc <;> simp only [Prod.mk.injEq, Except.ok.injEq] at h
      · rw [if_pos hc, h.1]
      · rw [if_neg hc, h.1]
    · intro hp hq
      obtain ⟨b1, hb⟩ := h3 hq (Or.inl hp)
      exact ⟨b1, by unfold Element._read_element_data_single; rw [hb]⟩

theorem Element.loop_trunc {host_le : Bool} {d : Dicom} {e : Element} {T : DType} {s : Nat}
    {bs : List Byte} (t : Nat) :
    ∀ (k p : Nat) (vs : List Int) (a1 : IStream),
    Element._read_element_data_loop host_le d e T s k ⟨bs, p, false, false⟩ = (.ok vs, a1) →
    a1 = ⟨bs, p + k * s, false, false⟩ ∧
    (p + k * s ≤ t →
      Element._read_element_data_loop host_le d e T s k ⟨bs.take t, p, false, false⟩ =
        (.ok vs, ⟨bs.take t, p + k * s, false, false⟩)) ∧
    (p ≤ t → t < p + k * s →
      ∃ b1, Element._read_element_data_loop host_le d e T s k ⟨bs.take t, p, false, false⟩ =
        (.error (.StreamError ""), b1)) := by
  intro k
  induction k with
  | zero =>
    intro p vs a1 h
    simp only [Element._read_element_data_loop, Prod.mk.injEq, Except.ok.injEq] at h
    obtain ⟨rfl, rfl⟩ := h
    refine ⟨by simp, fun _ => by simp [Element._read_element_data_loop], fun h1 h2 => ?_⟩
    omega
  | succ k ih =>
    intro p vs a1 h
    unfold Element._read_element_data_loop at h
    split at h
    · simp only [Prod.mk.injEq] at h
      exact absurd h.1 (by simp)
    · rename_i v ist1 hs
      obtain ⟨h1, h2, h3⟩ := Element.single_trunc t hs
      subst h1
      split at h
      · simp only [Prod.mk.injEq] at h
        exact absurd h.1 (by simp)
      · rename_i vs1 ist2 hl
        simp only [Prod.mk.injEq, Except.ok.injEq] at h
        obtain ⟨rfl, rfl⟩ := h
        obtain ⟨h4, h5, h6⟩ := ih _ _ _ hl
        have harith : p + s + k * s = p + (k + 1) * s := by rw [Nat.succ_mul]; omega
        rw [harith] at h4 h5 h6
        refine ⟨h4, ?_, ?_⟩
        · intro hq
          have hps : p + s ≤ t := by
            have : p + s ≤ p + (k + 1) * s := by rw [Nat.succ_mul]; omega
            omega
          unfold Element._read_element_data_loop
          rw [h2 hps]
          simp only
          rw [h5 hq]
        · intro hp hq
          unfold Element._read_element_data_loop
          by_cases hps : p + s ≤ t
          · rw [h2 hps]
            simp only
            obtain ⟨b1, hb⟩ := h6 (by omega) hq
            exact ⟨b1, by rw [hb]⟩
          · obtain ⟨b1, hb⟩ := h3 hp (by omega)
            exact ⟨b1, by rw [hb]⟩

theorem Element.data_trunc {host_le : Bool} {d : Dicom} {e e1 : Element} {T : DType} {len : Nat}
    {bs : List Byte} {p : Nat} {a1 : IStream} (t : Nat)
    (h : Element._read_element_data host_le d e T ⟨bs, p, false, false⟩ len = (.ok e1, a1)) :
    ∃ q, a1 = ⟨bs, q, false, false⟩ ∧ p ≤ q ∧
    (q ≤ t → Element._read_element_data host_le d e T ⟨bs.take t, p, false, false⟩ len =
        (.ok e1, ⟨bs.take t, q, false, false⟩)) ∧
    (p ≤ t → t < q →
      ∃ b1, Element._read_element_data host_le d e T ⟨bs.take t, p, false, false⟩ len =
        (.error (.StreamError ""), b1)) := by
  unfold Element._read_element_data at h
  simp only at h
  split at h
  · rename_i hn
    split at h
    · simp only [Prod.mk.injEq] at h
      exact absurd h.1 (by simp)
    · rename_i v ist1 hs
      simp only [Prod.mk.injEq, Except.ok.injEq] at h
      obtain ⟨rfl, rfl⟩ := h
      obtain ⟨h1, h2, h3⟩ := Element.single_trunc t hs
      refine ⟨_, h1, by omega, ?_, ?_⟩
      · intro hq
        unfold Element._read_element_data
        simp only [hn, if_true]
        rw [h2 hq]
      · intro hp hq
        obtain ⟨b1, hb⟩ := h3 hp hq
        refine ⟨b1, ?_⟩
        unfold Element._read_element_data
        simp only [hn, if_true]
        rw [hb]
  · rename_i hn
    split at h
    · simp only [Prod.mk.injEq] at h
      exact absurd h.1 (by simp)
    · rename_i vs ist1 hs
      simp only [Prod.mk.injEq, Except.ok.injEq] at h
      obtain ⟨rfl, rfl⟩ := h
      obtain ⟨h1, h2, h3⟩ := Element.loop_trunc t _ _ _ _ hs
      refine ⟨_, h1, by omega, ?_, ?_⟩
      · intro hq
        unfold Element._read_element_data
        simp only [hn, if_false]
        rw [h2 hq]
      · intro hp hq
        obtain ⟨b1, hb⟩ := h3 hp hq
        refine ⟨b1, ?_⟩
        unfold Element._read_element_data
        simp only [hn, if_false]
        rw [hb]

theorem Element.string_trunc {e e1 : Element} {len : Nat}
    {bs : List Byte} {p : Nat} {a1 : IStream} (t : Nat)
    (h : Element._read_element_data_string e ⟨bs, p, false, false⟩ len = (.ok e1, a1)) :
    ∃ q, a1 = ⟨bs, q, false, false⟩ ∧ p ≤ q ∧
    (q ≤ t → Element._read_element_data_string e ⟨bs.take t, p, false, false⟩ len =
        (.ok e1, ⟨bs.take t, q, false, false⟩)) ∧
    (p ≤ t → t < q →
      ∃ b1, Element._read_element_data_string e ⟨bs.take t, p, false, false⟩ len =
        (.error (.StreamError ""), b1)) := by
  unfold Element._read_element_data_string at h
  split at h
  · simp only [Prod.mk.injEq] at h
    exact absurd h.1 (by simp)
  · rename_i buf ist1 hr
    simp only [Prod.mk.injEq, Except.ok.injEq] at h
    obtain ⟨rfl, rfl⟩ := h
    obtain ⟨h1, h2, h3⟩ := IStream.read_trunc t hr
    refine ⟨_, h1, by omega, ?_, ?_⟩
    · intro hq
      unfold Element._read_element_data_string
      rw [h2 hq]
    · intro hp hq
      obtain ⟨b1, hb⟩ := h3 hq (Or.inl hp)
      exact ⟨b1, by unfold Element._read_element_data_string; rw [hb]⟩

/-- The scan for the end-of-sequence mark on a prefix of the unread bytes: the
same result when the prefix holds the `c` bytes the scan reads, no result when
it is shorter. -/
theorem Element.sequence_loop_trunc :
    ∀ (U eos v v1 U1 : List Byte), Element._read_sequence_loop U eos v = some (v1, U1) →
    ∃ c, c ≤ U.length ∧ U1 = U.drop c ∧
      (∀ m, c ≤ m → Element._read_sequence_loop (U.take m) eos v = some (v1, (U.take m).drop c)) ∧
      (∀ m, m < c → Element._read_sequence_loop (U.take m) eos v = none) := by
  intro U
  induction U with
  | nil => intro eos v v1 U1 h; simp [Element._read_sequence_loop] at h
  | cons x U ih =>
    intro eos v v1 U1 h
    unfold Element._read_sequence_loop at h
    split at h
    · rename_i hw
      simp only [Option.some.injEq, Prod.mk.injEq] at h
      obtain ⟨rfl, rfl⟩ := h
      refine ⟨1, by simp, rfl, ?_, ?_⟩
      · intro m hm
        obtain ⟨m, rfl⟩ : ∃ k, m = k + 1 := ⟨m - 1, by omega⟩
        simp only [List.take_succ_cons, Element._read_sequence_loop, if_pos hw, List.drop_succ_cons,
          List.drop_zero]
      · intro m hm
        have : m = 0 := by omega
        subst this
        rfl
    · rename_i hw
      obtain ⟨c, hc, hU, h1, h2⟩ := ih _ _ _ _ h
      refine ⟨c + 1, by simp; omega, by simpa using hU, ?_, ?_⟩
      · intro m hm
        obtain ⟨m, rfl⟩ : ∃ k, m = k + 1 := ⟨m - 1, by omega⟩
        simp only [List.take_succ_cons, Element._read_sequence_loop, if_neg hw, List.drop_succ_cons]
        exact h1 m (by omega)
      · intro m hm
        cases m with
        | zero => rfl
        | succ m =>
          simp only [List.take_succ_cons, Element._read_sequence_loop, if_neg hw]
          exact h2 m (by omega)

theorem Element.sequence_trunc {host_le : Bool} {d : Dicom} {e e1 : Element} {len : Nat}
    {bs : List Byte} {p : Nat} {a1 : IStream} (t : Nat)
    (h : Element._read_element_data_sequence host_le d e ⟨bs, p, false, false⟩ len = (.ok e1, a1)) :
    ∃ q, a1 = ⟨bs, q, false, false⟩ ∧ p ≤ q ∧
    (q ≤ t → Element._read_element_data_sequence host_le d e ⟨bs.take t, p, false, false⟩ len =
        (.ok e1, ⟨bs.take t, q, false, false⟩)) ∧
    (p ≤ t → t < q →
      ∃ b1, Element._read_element_data_sequence host_le d e ⟨bs.take t, p, false, false⟩ len =
        (.error (.StreamError ""), b1)) := by
  unfold Element._read_element_data_sequence at h
  split at h
  · rename_i hl
    obtain ⟨q, h1, h2, h3, h4⟩ := Element.data_trunc t h
    refine ⟨q, h1, h2, ?_, ?_⟩
    · intro hq
      unfold Element._read_element_data_sequence
      rw [if_pos hl, h3 hq]
    · intro hp hq
      obtain ⟨b1, hb⟩ := h4 hp hq
      exact ⟨b1, by unfold Element._read_element_data_sequence; rw [if_pos hl, hb]⟩
  · rename_i hl
    have hgood : ∀ (l : List Byte), (⟨l, p, false, false⟩ : IStream).good = true := fun _ => rfl
    rw [if_pos (hgood bs)] at h
    split at h
    · simp only [Prod.mk.injEq] at h
      exact absurd h.1 (by simp)
    · rename_i value unread hs
      simp only [Prod.mk.injEq, Except.ok.injEq] at h
      obtain ⟨rfl, rfl⟩ := h
      simp only [IStream.rest] at hs
      obtain ⟨c, hc, hU, h1, h2⟩ := Element.sequence_loop_trunc _ _ _ _ _ hs
      have hlen : (⟨bs, p, false, false⟩ : IStream).rest.length - unread.length = c := by
        rw [hU]
        simp only [IStream.rest, List.length_drop] at hc ⊢
        omega
      have hrest : (⟨bs.take t, p, false, false⟩ : IStream).rest = (bs.drop p).take (t - p) := by
        simp only [IStream.rest, List.drop_take]
      refine ⟨p + c, by rw [hlen], by omega, ?_, ?_⟩
      · intro hq
        unfold Element._read_element_data_sequence
        rw [if_neg hl, if_pos (hgood _), hrest, h1 (t - p) (by omega)]
        simp only
        have : ((bs.drop p).take (t - p)).length - (((bs.drop p).take (t - p)).drop c).length = c := by
          simp only [List.length_drop, List.length_take] at hc ⊢
          omega
        rw [this]
      · intro hp hq
        refine ⟨(Element._read_element_data_sequence host_le d e
          ⟨bs.take t, p, false, false⟩ len).2, ?_⟩
        unfold Element._read_element_data_sequence
        rw [if_neg hl, if_pos (hgood _), hrest, h2 (t - p) (by omega)]

theorem Element.implicit_trunc {host_le : Bool} {d : Dicom} {e e1 : Element}
    {bs : List Byte} {p : Nat} {a1 : IStream} (t : Nat)
    (h : Element._parse_value_implicit host_le d e ⟨bs, p, false, false⟩ = (.ok e1, a1)) :
    ∃ q, a1 = ⟨bs, q, false, false⟩ ∧ p ≤ q ∧
    (q ≤ t → Element._parse_value_implicit host_le d e ⟨bs.take t, p, false, false⟩ =
        (.ok e1, ⟨bs.take t, q, false, false⟩)) ∧
    (p ≤ t → t < q →
      ∃ b1, Element._parse_value_implicit host_le d e ⟨bs.take t, p, false, false⟩ =
        (.error (.StreamError ""), b1)) := by
  unfold Element._parse_value_implicit at h
  split at h
  · simp only [Prod.mk.injEq] at h
    exact absurd h.1 (by simp)
  · rename_i raw ist1 hr
    obtain ⟨h1, h2, h3⟩ := IStream.read_trunc t hr
    subst h1
    simp only at h
    obtain ⟨q, h4, h5, h6, h7⟩ := Element.sequence_trunc t h
    refine ⟨q, h4, by omega, ?_, ?_⟩
    · intro hq
      unfold Element._parse_value_implicit
      rw [h2 (by omega)]
      exact h6 hq
    · intro hp hq
      unfold Element._parse_value_implicit
      by_cases h4t : p + 4 ≤ t
      · rw [h2 h4t]
        exact h7 h4t hq
      · obtain ⟨b1, hb⟩ := h3 (by omega) (Or.inr (by omega))
        exact ⟨b1, by rw [hb]⟩

theorem Element.length_explicit_trunc {host_le : Bool} {d : Dicom} {e : Element} {vr sz : Nat}
    {bs : List Byte} {p : Nat} {a1 : IStream} (t : Nat)
    (h : Element._parse_length_explicit host_le d e vr ⟨bs, p, false, false⟩ = (.ok sz, a1)) :
    ∃ q, a1 = ⟨bs, q, false, false⟩ ∧ p ≤ q ∧
    (q ≤ t → Element._parse_length_explicit host_le d e vr ⟨bs.take t, p, false, false⟩ =
        (.ok sz, ⟨bs.take t, q, false, false⟩)) ∧
    (p ≤ t → t < q →
      ∃ b1, Element._parse_length_explicit host_le d e vr ⟨bs.take t, p, false, false⟩ =
        (.error (.StreamError ""), b1)) := by
  have hseek : ∀ (l : List Byte), (⟨l, p, false, false⟩ : IStream).seekg_cur 2 =
      ⟨l, p + 2, false, false⟩ := by
    intro l
    have := IStream.seekg_cur_nat ⟨l, p, false, false⟩ 2 rfl
    simpa using this
  unfold Element._parse_length_explicit at h
  split at h
  · rename_i hv
    rw [hseek] at h
    split at h
    · simp only [Prod.mk.injEq] at h
      exact absurd h.1 (by simp)
    · rename_i raw ist1 hr
      simp only [Prod.mk.injEq, Except.ok.injEq] at h
      obtain ⟨rfl, rfl⟩ := h
      obtain ⟨h1, h2, h3⟩ := IStream.read_trunc t hr
      refine ⟨_, h1, by omega, ?_, ?_⟩
      · intro hq
        unfold Element._parse_length_explicit
        rw [if_pos hv, hseek, h2 hq]
      · intro hp hq
        obtain ⟨b1, hb⟩ := h3 hq (Or.inr (by omega))
        exact ⟨b1, by unfold Element._parse_length_explicit; rw [if_pos hv, hseek, hb]⟩
  · rename_i hv
    split at h
    · simp only [Prod.mk.injEq] at h
      exact absurd h.1 (by simp)
    · rename_i raw ist1 hr
      simp only [Prod.mk.injEq, Except.ok.injEq] at h
      obtain ⟨rfl, rfl⟩ := h
      obtain ⟨h1, h2, h3⟩ := IStream.read_trunc t hr
      refine ⟨_, h1, by omega, ?_, ?_⟩
      · intro hq
        unfold Element._parse_length_explicit
        rw [if_neg hv, h2 hq]
      · intro hp hq
        obtain ⟨b1, hb⟩ := h3 hq (Or.inr (by omega))
        exact ⟨b1, by unfold Element._parse_length_explicit; rw [if_neg hv, hb]⟩

/-- The second `switch` of `_parse_value_explicit` calls one reader, chosen by
the VR code alone, or throws. -/
theorem Element.body_explicit_cases (host_le : Bool) (d : Dicom) (e : Element) (vr sz : Nat) :
    (∀ ist, Element._parse_body_explicit host_le d e vr ist sz =
        Element._read_element_data_string e ist sz) ∨
    (∃ T, ∀ ist, Element._parse_body_explicit host_le d e vr ist sz =
        Element._read_element_data host_le d e T ist sz) ∨
    (∀ ist, Element._parse_body_explicit host_le d e vr ist sz =
        Element._read_element_data_sequence host_le d e ist sz) ∨
    (∀ ist, Element._parse_body_explicit host_le d e vr ist sz =
        (.error (.ParseError "Unknown VR found"), ist)) := by
  unfold Element._parse_body_explicit
  by_cases h1 : vr ∈ vr_string
  · left; intro ist; rw [if_pos h1]
  by_cases h2 : vr = 0x4f42 ∨ vr = 0x554e
  · right; left; exact ⟨.char, fun ist => by rw [if_neg h1, if_pos h2]⟩
  by_cases h3 : vr = 0x5353
  · right; left; exact ⟨.int16, fun ist => by rw [if_neg h1, if_neg h2, if_pos h3]⟩
  by_cases h4 : vr = 0x534c
  · right; left; exact ⟨.int32, fun ist => by rw [if_neg h1, if_neg h2, if_neg h3, if_pos h4]⟩
  by_cases h5 : vr = 0x5553 ∨ vr = 0x4154 ∨ vr = 0x4f57
  · right; left
    exact ⟨.uint16, fun ist => by rw [if_neg h1, if_neg h2, if_neg h3, if_neg h4, if_pos h5]⟩
  by_cases h6 : vr = 0x554c
  · right; left
    exact ⟨.uint32, fun ist => by
      rw [if_neg h1, if_neg h2, if_neg h3, if_neg h4, if_neg h5, if_pos h6]⟩
  by_cases h7 : vr = 0x464c ∨ vr = 0x4f46
  · right; left
    exact ⟨.float, fun ist => by
      rw [if_neg h1, if_neg h2, if_neg h3, if_neg h4, if_neg h5, if_neg h6, if_pos h7]⟩
  by_cases h8 : vr = 0x4644
  · right; left
    exact ⟨.double, fun ist => by
      rw [if_neg h1, if_neg h2, if_neg h3, if_neg h4, if_neg h5, if_neg h6, if_neg h7,
        if_pos h8]⟩
  by_cases h9 : vr = 0x5351
  · right; right; left
    intro ist
    rw [if_neg h1, if_neg h2, if_neg h3, if_neg h4, if_neg h5, if_neg h6, if_neg h7, if_neg h8,
      if_pos h9]
  · right; right; right
    intro ist
    rw [if_neg h1, if_neg h2, if_neg h3, if_neg h4, if_neg h5, if_neg h6, if_neg h7, if_neg h8,
      if_neg h9]

theorem Element.body_explicit_trunc {host_le : Bool} {d : Dicom} {e e1 : Element} {vr sz : Nat}
    {bs : List Byte} {p : Nat} {a1 : IStream} (t : Nat)
    (h : Element._parse_body_explicit host_le d e vr ⟨bs, p, false, false⟩ sz = (.ok e1, a1)) :
    ∃ q, a1 = ⟨bs, q, false, false⟩ ∧ p ≤ q ∧
    (q ≤ t → Element._parse_body_explicit host_le d e vr ⟨bs.take t, p, false, false⟩ sz =
        (.ok e1, ⟨bs.take t, q, false, false⟩)) ∧
    (p ≤ t → t < q →
      ∃ b1, Element._parse_body_explicit host_le d e vr ⟨bs.take t, p, false, false⟩ sz =
        (.error (.StreamError ""), b1)) := by
  rcases Element.body_explicit_cases host_le d e vr sz with hc | ⟨T, hc⟩ | hc | hc
  · rw [hc] at h
    rw [hc]
    exact Element.string_trunc t h
  · rw [hc] at h
    rw [hc]
    exact Element.data_trunc t h
  · rw [hc] at h
    rw [hc]
    exact Element.sequence_trunc t h
  · rw [hc] at h
    simp only [Prod.mk.injEq] at h
    exact absurd h.1 (by simp)

theorem Element.value_explicit_trunc {host_le : Bool} {d : Dicom} {e e1 : Element}
    {bs : List Byte} {p : Nat} {a1 : IStream} (t : Nat)
    (h : Element._parse_value_explicit host_le d e ⟨bs, p, false, false⟩ = (.ok e1, a1)) :
    ∃ q, a1 = ⟨bs, q, false, false⟩ ∧ p ≤ q ∧
    (q ≤ t → Element._parse_value_explicit host_le d e ⟨bs.take t, p, false, false⟩ =
        (.ok e1, ⟨bs.take t, q, false, false⟩)) ∧
    (p ≤ t → t < q →
      ∃ b1, Element._parse_value_explicit host_le d e ⟨bs.take t, p, false, false⟩ =
        (.error (.StreamError ""), b1)) := by
  unfold Element._parse_value_explicit at h
  split at h
  · simp only [Prod.mk.injEq] at h
    exact absurd h.1 (by simp)
  · rename_i raw ist1 hr
    obtain ⟨h1, h2, h3⟩ := IStream.read_trunc t hr
    subst h1
    simp only at h
    split at h
    · simp only [Prod.mk.injEq] at h
      exact absurd h.1 (by simp)
    · rename_i sz ist2 hlen
      obtain ⟨q1, h4, h5, h6, h7⟩ := Element.length_explicit_trunc t hlen
      subst h4
      obtain ⟨q, h8, h9, h10, h11⟩ := Element.body_explicit_trunc t h
      refine ⟨q, h8, by omega, ?_, ?_⟩
      · intro hq
        unfold Element._parse_value_explicit
        rw [h2 (by omega)]
        simp only
        rw [h6 (by omega)]
        exact h10 hq
      · intro hp hq
        unfold Element._parse_value_explicit
        by_cases h2t : p + 2 ≤ t
        · rw [h2 h2t]
          simp only
          by_cases h1t : q1 ≤ t
          · rw [h6 h1t]
            exact h11 h1t hq
          · obtain ⟨b1, hb⟩ := h7 h2t (by omega)
            exact ⟨b1, by rw [hb]⟩
        · obtain ⟨b1, hb⟩ := h3 (by omega) (Or.inr (by omega))
          exact ⟨b1, by rw [hb]⟩

theorem Element.parse_value_trunc {host_le : Bool} {d : Dicom} {e e1 : Element}
    {bs : List Byte} {p : Nat} {a1 : IStream} (t : Nat)
    (h : Element.parse_value host_le d e ⟨bs, p, false, false⟩ = (.ok e1, a1)) :
    ∃ q, a1 = ⟨bs, q, false, false⟩ ∧ p ≤ q ∧
    (q ≤ t → Element.parse_value host_le d e ⟨bs.take t, p, false, false⟩ =
        (.ok e1, ⟨bs.take t, q, false, false⟩)) ∧
    (p ≤ t → t < q →
      ∃ b1, Element.parse_value host_le d e ⟨bs.take t, p, false, false⟩ =
        (.error (.StreamError ""), b1)) := by
  unfold Element.parse_value at h
  split at h
  · simp only [Prod.mk.injEq] at h
    exact absurd h.1 (by simp)
  · rename_i hz
    split at h
    · rename_i hx
      obtain ⟨q, h1, h2, h3, h4⟩ := Element.value_explicit_trunc t h
      refine ⟨q, h1, h2, ?_, ?_⟩
      · intro hq
        unfold Element.parse_value
        rw [if_neg hz, if_pos hx]
        exact h3 hq
      · intro hp hq
        unfold Element.parse_value
        rw [if_neg hz, if_pos hx]
        exact h4 hp hq
    · rename_i hx
      obtain ⟨q, h1, h2, h3, h4⟩ := Element.implicit_trunc t h
      refine ⟨q, h1, h2, ?_, ?_⟩
      · intro hq
        unfold Element.parse_value
        rw [if_neg hz, if_neg hx]
        exact h3 hq
      · intro hp hq
        unfold Element.parse_value
        rw [if_neg hz, if_neg hx]
        exact h4 hp hq

/-- `Element::parse` on a prefix of the input. When the call on the whole input
returns an element and ends at offset `q`: the stream is still good there, at
least the four bytes of the tag have been read, the call on a prefix of at
least `q` bytes gives the same, and the call on a shorter prefix throws
`StreamError`. -/
theorem Element.parse_trunc {host_le : Bool} {d : Dicom} {e e1 : Element}
    {bs : List Byte} {p : Nat} {a1 : IStream} (t : Nat)
    (h : Element.parse host_le d e ⟨bs, p, false, false⟩ = (.ok e1, a1)) :
    ∃ q, a1 = ⟨bs, q, false, false⟩ ∧ p + 4 ≤ q ∧
    (q ≤ t → Element.parse host_le d e ⟨bs.take t, p, false, false⟩ =
        (.ok e1, ⟨bs.take t, q, false, false⟩)) ∧
    (t < q → ∃ b1, Element.parse host_le d e ⟨bs.take t, p, false, false⟩ =
        (.error (.StreamError ""), b1)) := by
  unfold Element.parse at h
  split at h
  · simp only [Prod.mk.injEq] at h
    exact absurd h.1 (by simp)
  · rename_i e2 ist1 ht
    obtain ⟨h1, h2, h3⟩ := Element.parse_tag_trunc t ht
    subst h1
    obtain ⟨q, h4, h5, h6, h7⟩ := Element.parse_value_trunc t h
    refine ⟨q, h4, h5, ?_, ?_⟩
    · intro hq
      unfold Element.parse
      rw [h2 (by omega)]
      exact h6 hq
    · intro hq
      unfold Element.parse
      by_cases h4t : p + 4 ≤ t
      · rw [h2 h4t]
        exact h7 h4t hq
      · obtain ⟨b1, hb⟩ := h3 (by omega)
        exact ⟨b1, by rw [hb]⟩

/-! ## Lemmas: parse, element by element -/

theorem end_offset_append (p : Nat) (es es2 : List (Element × Nat)) :
    end_offset p (es ++ es2) = end_offset (end_offset p es) es2 := by
  induction es generalizing p with
  | nil => rfl
  | cons x es ih => obtain ⟨e, q⟩ := x; exact ih q

theorem store_all_append (host_le : Bool) (m : List (Nat × Element))
    (es es2 : List (Element × Nat)) :
    store_all host_le m (es ++ es2) = store_all host_le (store_all host_le m es) es2 := by
  simp [store_all, List.foldl_append]

theorem Dicom.decodes_from_flags (host_le : Bool) (d1 d2 : Dicom) (data : List Byte)
    (ha : d1._architecture_as_little_endian = d2._architecture_as_little_endian)
    (hf : d1._format_as_little_endian = d2._format_as_little_endian)
    (hx : d1._format_as_explicit = d2._format_as_explicit) :
    ∀ (es : List (Element × Nat)) (p : Nat),
      Dicom.decodes_from host_le d1 data p es → Dicom.decodes_from host_le d2 data p es := by
  intro es
  induction es with
  | nil => intro p _; trivial
  | cons x es ih =>
    intro p h
    obtain ⟨e, q⟩ := x
    exact ⟨by rw [← Element.parse_flags host_le _ _ ha hf hx]; exact h.1, ih q h.2⟩

theorem Dicom.decodes_from_append (host_le : Bool) (d : Dicom) (data : List Byte)
    (es2 : List (Element × Nat)) :
    ∀ (es : List (Element × Nat)) (p : Nat),
      Dicom.decodes_from host_le d data p (es ++ es2) ↔
        Dicom.decodes_from host_le d data p es ∧
          Dicom.decodes_from host_le d data (end_offset p es) es2 := by
  intro es
  induction es with
  | nil => intro p; simp [Dicom.decodes_from, end_offset]
  | cons x es ih =>
    intro p
    obtain ⟨e, q⟩ := x
    show (_ ∧ Dicom.decodes_from host_le d data q (es ++ es2)) ↔ _
    rw [ih q]
    simp only [Dicom.decodes_from, end_offset, and_assoc]

theorem Dicom.decodes_from_le (host_le : Bool) (d : Dicom) (data : List Byte) :
    ∀ (es : List (Element × Nat)) (p : Nat),
      Dicom.decodes_from host_le d data p es → p ≤ end_offset p es := by
  intro es
  induction es with
  | nil => intro p _; exact le_refl _
  | cons x es ih =>
    intro p h
    obtain ⟨e, q⟩ := x
    obtain ⟨q1, h1, h2, -⟩ := Element.parse_trunc 0 h.1
    have hq : q = q1 := by injection h1
    have := ih q h.2
    simp only [end_offset]
    omega

/-- Elements decoded one after the other are decoded alike from a prefix of the
input that holds them all. -/
theorem Dicom.decodes_from_take (host_le : Bool) (d : Dicom) (bs : List Byte) (t : Nat) :
    ∀ (es : List (Element × Nat)) (p : Nat),
      Dicom.decodes_from host_le d bs p es → end_offset p es ≤ t →
      Dicom.decodes_from host_le d (bs.take t) p es := by
  intro es
  induction es with
  | nil => intro p _ _; trivial
  | cons x es ih =>
    intro p h ht
    obtain ⟨e, q⟩ := x
    obtain ⟨q1, h1, h2, h3, -⟩ := Element.parse_trunc t h.1
    have hq : q = q1 := by injection h1
    subst hq
    have hle := Dicom.decodes_from_le host_le d bs es q h.2
    simp only [end_offset] at ht
    exact ⟨h3 (by omega), ih q h.2 ht⟩

/-- The second loop of `parse` on a stream from which the elements `es` are
decoded one after the other and the next call of `Element::parse` throws
`StreamError`: the loop ends without an exception and has stored `es`. -/
theorem Dicom.parse_main_loop_of_decodes (host_le : Bool) (data : List Byte) :
    ∀ (es : List (Element × Nat)) (fuel : Nat) (d : Dicom) (p : Nat) (o : Outcome),
      Dicom.decodes_from host_le d data p es →
      (∃ msg b1, Element.parse host_le d Element.ofParent
          ⟨data, end_offset p es, false, false⟩ = (.error (.StreamError msg), b1)) →
      Dicom.parse_main_loop host_le fuel d ⟨data, p, false, false⟩ = some o →
      o.error = none ∧ o.dicom = { d with _element := store_all host_le d._element es } := by
  intro es
  induction es with
  | nil =>
    intro fuel d p o _ hend h
    obtain ⟨msg, b1, hb⟩ := hend
    cases fuel with
    | zero => simp [Dicom.parse_main_loop] at h
    | succ fuel =>
      simp only [end_offset] at hb
      simp only [Dicom.parse_main_loop, hb, Option.some.injEq] at h
      subst h
      exact ⟨rfl, rfl⟩
  | cons x es ih =>
    intro fuel d p o hdec hend h
    obtain ⟨e, q⟩ := x
    obtain ⟨msg, b1, hb⟩ := hend
    cases fuel with
    | zero => simp [Dicom.parse_main_loop] at h
    | succ fuel =>
      simp only [Dicom.parse_main_loop, hdec.1] at h
      have := ih fuel { d with _element := map_assign d._element (e._tag.number host_le) e } q o
        (Dicom.decodes_from_flags host_le d
          { d with _element := map_assign d._element (e._tag.number host_le) e } data rfl rfl rfl
          es q hdec.2)
        ⟨msg, b1, by rw [← hb]; exact Element.parse_flags host_le _ _ rfl rfl rfl⟩ h
      exact ⟨this.1, this.2⟩

/-- The second loop of `parse`, when it ends without an exception, has decoded
a run of elements one after the other, up to a call of `Element::parse` that
threw `StreamError`, and has stored them in this order. -/
theorem Dicom.decodes_of_parse_main_loop (host_le : Bool) (data : List Byte) :
    ∀ (fuel : Nat) (d : Dicom) (p : Nat) (o : Outcome),
      Dicom.parse_main_loop host_le fuel d ⟨data, p, false, false⟩ = some o → o.error = none →
      ∃ es, Dicom.decodes_from host_le d data p es ∧
        (∃ msg b1, Element.parse host_le d Element.ofParent
          ⟨data, end_offset p es, false, false⟩ = (.error (.StreamError msg), b1)) ∧
        o.dicom = { d with _element := store_all host_le d._element es } := by
  intro fuel
  induction fuel with
  | zero => intro d p o h; simp [Dicom.parse_main_loop] at h
  | succ fuel ih =>
    intro d p o h hn
    unfold Dicom.parse_main_loop at h
    split at h
    · rename_i msg ist1 hp
      simp only [Option.some.injEq] at h
      subst h
      exact ⟨[], trivial, ⟨msg, ist1, hp⟩, rfl⟩
    · simp only [Option.some.injEq] at h
      subst h
      simp at hn
    · rename_i e ist1 hp
      obtain ⟨q, h1, -, -, -⟩ := Element.parse_trunc 0 hp
      subst h1
      obtain ⟨es, hdec, ⟨msg, b1, hb⟩, hst⟩ := ih _ q o h hn
      refine ⟨(e, q) :: es, ⟨hp, Dicom.decodes_from_flags host_le
        { d with _element := map_assign d._element (e._tag.number host_le) e } d data rfl rfl rfl
        es q hdec⟩, ⟨msg, b1, ?_⟩, ?_⟩
      · rw [← hb]
        exact Element.parse_flags host_le _ _ rfl rfl rfl
      · rw [hst]
        rfl

theorem Element.rewind_tag_at (l : List Byte) (p : Nat) :
    Element.rewind_tag ⟨l, p + 4, false, false⟩ = ⟨l, p, false, false⟩ := by
  have h0 : (0 : Int) ≤ ((p + 4 : Nat) : Int) + (-4) := by omega
  have h1 : (((p + 4 : Nat) : Int) + (-4)).toNat = p := by omega
  simp only [Element.rewind_tag, IStream.seekg_cur, Bool.false_eq_true, if_false, h0, if_true, h1]

/-- The first loop of `parse`, when it ends without an exception, has decoded
a run of elements of group 0x0002 one after the other, up to a tag of another
group, has stored them in this order and has put the stream back before that
tag. -/
theorem Dicom.decodes_of_parse_meta_loop (host_le : Bool) (data : List Byte) :
    ∀ (fuel : Nat) (d : Dicom) (p : Nat) (d1 : Dicom) (ist1 : IStream),
      Dicom.parse_meta_loop host_le fuel d ⟨data, p, false, false⟩ = some ⟨none, d1, ist1⟩ →
      ∃ es, Dicom.decodes_from host_le d data p es ∧
        (∀ x ∈ es, x.1._tag.id0 = TAG_GROUP_META) ∧
        d1 = { d with _element := store_all host_le d._element es } ∧
        ist1 = ⟨data, end_offset p es, false, false⟩ ∧
        (∃ e1, Element.parse_tag host_le d Element.ofParent
            ⟨data, end_offset p es, false, false⟩ =
              (.ok e1, ⟨data, end_offset p es + 4, false, false⟩) ∧
          e1._tag.id0 ≠ TAG_GROUP_META) := by
  intro fuel
  induction fuel with
  | zero => intro d p d1 ist1 h; simp [Dicom.parse_meta_loop] at h
  | succ fuel ih =>
    intro d p d1 ist1 h
    unfold Dicom.parse_meta_loop at h
    split at h
    · simp at h
    · rename_i e1 a1 ht
      obtain ⟨ha, -, -⟩ := Element.parse_tag_trunc 0 ht
      subst ha
      split at h
      · rename_i hg
        simp only [Option.some.injEq, Outcome.mk.injEq, true_and] at h
        obtain ⟨rfl, rfl⟩ := h
        exact ⟨[], trivial, by simp, rfl, Element.rewind_tag_at data p, e1, ht, hg⟩
      · rename_i hg
        simp only [ne_eq, not_not] at hg
        split at h
        · simp at h
        · rename_i e2 a2 hv
          obtain ⟨q, hq, -, -, -⟩ := Element.parse_value_trunc 0 hv
          subst hq
          obtain ⟨es, hdec, hall, hst, hist, e3, he3, hg3⟩ := ih _ q d1 ist1 h
          have hp : Element.parse host_le d Element.ofParent ⟨data, p, false, false⟩ =
              (.ok e2, ⟨data, q, false, false⟩) := by
            unfold Element.parse
            rw [ht]
            exact hv
          refine ⟨(e2, q) :: es, ⟨hp, Dicom.decodes_from_flags host_le
            { d with _element := map_assign d._element (e2._tag.number host_le) e2 } d data
            rfl rfl rfl es q hdec⟩, ?_, ?_, hist, e3, ?_, hg3⟩
          · intro x hx
            rcases List.mem_cons.mp hx with rfl | hx
            · show e2._tag.id0 = TAG_GROUP_META
              rw [(Element.parse_value_tag hv).1]
              exact hg
            · exact hall x hx
          · rw [hst]
            rfl
          · have hfl := @Element.parse_tag_flags host_le
              { d with _element := map_assign d._element (e2._tag.number host_le) e2 } d
              Element.ofParent ⟨data, end_offset q es, false, false⟩ rfl rfl
            rw [hfl] at he3
            exact he3

/-- The first loop of `parse` on a prefix of the input that holds the elements
of group 0x0002 and the four bytes of the tag behind them: the same outcome. -/
theorem Dicom.parse_meta_loop_trunc (host_le : Bool) (bs : List Byte) (t : Nat) :
    ∀ (fuel : Nat) (d : Dicom) (p : Nat) (d1 : Dicom) (p0 : Nat),
      Dicom.parse_meta_loop host_le fuel d ⟨bs, p, false, false⟩ =
        some ⟨none, d1, ⟨bs, p0, false, false⟩⟩ →
      p0 + 4 ≤ t →
      ∀ (fuel2 : Nat) (o : Outcome),
        Dicom.parse_meta_loop host_le fuel2 d ⟨bs.take t, p, false, false⟩ = some o →
        o = ⟨none, d1, ⟨bs.take t, p0, false, false⟩⟩ := by
  intro fuel
  induction fuel with
  | zero => intro d p d1 p0 h; simp [Dicom.parse_meta_loop] at h
  | succ fuel ih =>
    intro d p d1 p0 h ht fuel2 o h2
    obtain ⟨es, hdec, -, -, hist, -⟩ := Dicom.decodes_of_parse_meta_loop host_le bs _ _ _ _ _ h
    have hp0 : p0 = end_offset p es := by injection hist
    have hle := Dicom.decodes_from_le host_le d bs es p hdec
    cases fuel2 with
    | zero => simp [Dicom.parse_meta_loop] at h2
    | succ fuel2 =>
      unfold Dicom.parse_meta_loop at h h2
      split at h
      · simp at h
      · rename_i e1 a1 htag
        obtain ⟨ha, htr, -⟩ := Element.parse_tag_trunc t htag
        subst ha
        rw [htr (by omega)] at h2
        simp only at h2
        split at h
        · rename_i hg
          simp only [Option.some.injEq, Outcome.mk.injEq, true_and] at h
          rw [Element.rewind_tag_at] at h
          obtain ⟨rfl, hpos⟩ := h
          have : p = p0 := by injection hpos
          subst this
          rw [if_pos hg, Element.rewind_tag_at] at h2
          simp only [Option.some.injEq] at h2
          exact h2.symm
        · rename_i hg
          rw [if_neg hg] at h2
          split at h
          · simp at h
          · rename_i e2 a2 hv
            obtain ⟨q, hq, -, hvt, -⟩ := Element.parse_value_trunc t hv
            subst hq
            obtain ⟨es2, hdec2, -, -, hist2, -⟩ :=
              Dicom.decodes_of_parse_meta_loop host_le bs _ _ _ _ _ h
            have hq0 : p0 = end_offset q es2 := by injection hist2
            have hle2 := Dicom.decodes_from_le host_le _ bs es2 q hdec2
            rw [hvt (by omega)] at h2
            simp only at h2
            exact ih _ q d1 p0 h ht fuel2 o h2

/-- The statements of `parse` up to the end of the first loop, on a prefix of
the input that holds the elements of group 0x0002 and the four bytes of the tag
behind them: the same outcome as on the whole input. -/
theorem Dicom.parse_meta_trunc (host_le : Bool) (d : Dicom) (bs : List Byte) (d1 : Dicom)
    (p0 t : Nat)
    (h : Dicom.parse_meta host_le d (IStream.ofBytes bs) = some ⟨none, d1, ⟨bs, p0, false, false⟩⟩)
    (ht : p0 + 4 ≤ t) :
    Dicom.parse_meta host_le d (IStream.ofBytes (bs.take t)) =
      some ⟨none, d1, ⟨bs.take t, p0, false, false⟩⟩ := by
  have hseek : ∀ l : List Byte, (IStream.ofBytes l).seekg 128 = ⟨l, 128, false, false⟩ := by
    intro l; rfl
  unfold Dicom.parse_meta at h ⊢
  simp only [IStream.ofBytes, Bool.false_eq_true, if_false] at h ⊢
  simp only [IStream.ofBytes] at hseek
  rw [hseek] at h ⊢
  split at h
  · simp at h
  · rename_i id a1 hr
    obtain ⟨ha, htr, -⟩ := IStream.read_trunc t hr
    subst ha
    split at h
    · simp at h
    · rename_i hid
      obtain ⟨es, hdec, -, -, hist, -⟩ := Dicom.decodes_of_parse_meta_loop host_le bs _ _ _ _ _ h
      have hp0 : p0 = end_offset (128 + 4) es := by injection hist
      have hle := Dicom.decodes_from_le host_le _ bs es (128 + 4) hdec
      rw [htr (by omega)]
      simp only [if_neg hid]
      obtain ⟨o, ho, -⟩ := Dicom.parse_meta_loop_spec host_le ((bs.take t).length + 1)
        { d with _architecture_as_little_endian := host_le, _cols := 0, _rows := 0, _bits := 0,
                 _chs := 0, _is_signed := false, _px_spacing_row := .val 0,
                 _px_spacing_col := .val 0, _image_pos_x := .nan, _image_pos_y := .nan,
                 _image_pos_z := .nan, _element := [], _format_as_little_endian := true,
                 _format_as_explicit := true, _format_as_deflate := false }
        ⟨bs.take t, 128 + 4, false, false⟩ (IStream.rest_length_lt _)
      rw [ho, Dicom.parse_meta_loop_trunc host_le bs t _ _ _ _ _ h ht _ _ ho]

/-! ## Lemmas: the store as a std::map -/

/-- An assignment `m[k] = e` makes `e` the element found under `k` and leaves
what is found under every other key. -/
theorem map_find_assign (m : List (Nat × Element)) (k : Nat) (e : Element) (n : Nat) :
    map_find (map_assign m k e) n = if n = k then some e else map_find m n := by
  induction m with
  | nil =>
    simp only [map_assign, map_find]
    by_cases h : n = k
    · simp [h]
    · have : ¬ k = n := fun h2 => h h2.symm
      simp [h, this]
  | cons x m ih =>
    obtain ⟨j, y⟩ := x
    simp only [map_assign]
    by_cases h1 : k < j
    · simp only [h1, if_true, map_find]
      by_cases h : n = k
      · simp [h]
      · have : ¬ k = n := fun h2 => h h2.symm
        simp [h, this]
    · simp only [h1, if_false]
      by_cases h2 : k = j
      · subst h2
        simp only [if_true, map_find]
        by_cases h : n = k
        · simp [h]
        · have : ¬ k = n := fun h2 => h h2.symm
          simp [h, this]
      · simp only [h2, if_false, map_find, ih]
        by_cases h : n = k
        · subst h
          have : ¬ j = n := fun h3 => h2 h3.symm
          simp [this]
        · simp [h]

theorem map_assign_keys (m : List (Nat × Element)) (k : Nat) (e : Element) (n : Nat) :
    n ∈ (map_assign m k e).map Prod.fst ↔ n = k ∨ n ∈ m.map Prod.fst := by
  induction m with
  | nil => simp [map_assign]
  | cons x m ih =>
    obtain ⟨j, y⟩ := x
    simp only [map_assign]
    by_cases h1 : k < j
    · simp [h1]
    · simp only [h1, if_false]
      by_cases h2 : k = j
      · subst h2
        simp
      · simp only [h2, if_false, List.map_cons, List.mem_cons, ih]
        tauto

/-- The keys of a `std::map` stay in strictly increasing order under an
assignment. -/
theorem map_assign_sorted (m : List (Nat × Element)) (k : Nat) (e : Element)
    (h : List.Pairwise (· < ·) (m.map Prod.fst)) :
    List.Pairwise (· < ·) ((map_assign m k e).map Prod.fst) := by
  induction m with
  | nil => simp [map_assign]
  | cons x m ih =>
    obtain ⟨j, y⟩ := x
    simp only [List.map_cons, List.pairwise_cons] at h
    simp only [map_assign]
    by_cases h1 : k < j
    · simp only [h1, if_true, List.map_cons, List.pairwise_cons]
      refine ⟨?_, h.1, h.2⟩
      intro a ha
      rcases List.mem_cons.mp ha with rfl | ha
      · exact h1
      · exact lt_trans h1 (h.1 a ha)
    · simp only [h1, if_false]
      by_cases h2 : k = j
      · subst h2
        simp only [if_true, List.map_cons, List.pairwise_cons]
        exact h
      · simp only [h2, if_false, List.map_cons, List.pairwise_cons]
        refine ⟨?_, ih h.2⟩
        intro a ha
        rcases (map_assign_keys m k e a).mp ha with rfl | ha
        · omega
        · exact h.1 a ha

theorem store_all_sorted (host_le : Bool) (es : List (Element × Nat)) :
    ∀ (m : List (Nat × Element)), List.Pairwise (· < ·) (m.map Prod.fst) →
      List.Pairwise (· < ·) ((store_all host_le m es).map Prod.fst) := by
  induction es with
  | nil => intro m h; exact h
  | cons x es ih =>
    intro m h
    exact ih _ (map_assign_sorted m _ _ h)

/-- Under each key the store holds the last of the elements stored with that
tag: what is found under `k` after the assignments for `es` is the last element
of `es` whose tag is `k`, or what was found before when there is none. -/
theorem map_find_store_all (host_le : Bool) (k : Nat) (es : List (Element × Nat)) :
    ∀ (m : List (Nat × Element)),
      map_find (store_all host_le m es) k =
        match es.reverse.find? (fun x => decide (x.1._tag.number host_le = k)) with
        | some x => some x.1
        | none => map_find m k := by
  induction es with
  | nil => intro m; rfl
  | cons x es ih =>
    intro m
    show map_find (store_all host_le (map_assign m (x.1._tag.number host_le) x.1) es) k = _
    rw [ih, List.reverse_cons, List.find?_append]
    cases hf : es.reverse.find? (fun x => decide (x.1._tag.number host_le = k)) with
    | some y => rfl
    | none =>
      simp only [Option.none_or, List.find?_cons, List.find?_nil, map_find_assign]
      by_cases hk : x.1._tag.number host_le = k
      · simp [hk]
      · have : ¬ k = x.1._tag.number host_le := fun h => hk h.symm
        simp [hk, this]

theorem mem_keys_iff_find (m : List (Nat × Element)) (k : Nat) :
    k ∈ m.map Prod.fst ↔ (map_find m k).isSome = true := by
  induction m with
  | nil => simp [map_find]
  | cons x m ih =>
    obtain ⟨j, y⟩ := x
    simp only [List.map_cons, List.mem_cons, map_find]
    by_cases h : j = k
    · simp [h]
    · have : ¬ k = j := fun h2 => h h2.symm
      simp [h, this, ih]

/-- The statements of `parse` up to the end of the first loop, when they end
without an exception: from offset 132 on, a run of elements of group 0x0002 has
been decoded in Little-Endian Explicit VR and stored in an empty store, the
stream is good and stands behind them. -/
theorem Dicom.decodes_of_parse_meta (host_le : Bool) (d : Dicom) (bs : List Byte) (d1 : Dicom)
    (ist1 : IStream)
    (h : Dicom.parse_meta host_le d (IStream.ofBytes bs) = some ⟨none, d1, ist1⟩) :
    ∃ es, Dicom.decodes_from host_le d1 bs 132 es ∧
      (∀ x ∈ es, x.1._tag.id0 = TAG_GROUP_META) ∧
      d1._element = store_all host_le [] es ∧
      d1._architecture_as_little_endian = host_le ∧ d1._format_as_little_endian = true ∧
      d1._format_as_explicit = true ∧
      ist1 = ⟨bs, end_offset 132 es, false, false⟩ := by
  have hseek : ∀ l : List Byte,
      (⟨l, 0, false, false⟩ : IStream).seekg 128 = ⟨l, 128, false, false⟩ := by
    intro l; rfl
  unfold Dicom.parse_meta at h
  simp only [IStream.ofBytes, Bool.false_eq_true, if_false] at h
  rw [hseek] at h
  split at h
  · simp at h
  · rename_i id a1 hr
    obtain ⟨ha, -, -⟩ := IStream.read_trunc 0 hr
    subst ha
    split at h
    · simp at h
    · obtain ⟨es, hdec, hall, hst, hist, -⟩ :=
        Dicom.decodes_of_parse_meta_loop host_le bs _ _ _ _ _ h
      exact ⟨es, Dicom.decodes_from_flags host_le _ d1 bs (by rw [hst]) (by rw [hst])
        (by rw [hst]) es _ hdec, hall, by rw [hst], by rw [hst], by rw [hst], by rw [hst], hist⟩

/-! ## Lemmas: the stages of parse_image -/

/-- The `switch(this->_bits)` of `parse_image` when `_bits` is neither 8 nor 16
and the frame data is present: the `default` label. -/
theorem Dicom.parse_image_frame_default {host_le : Bool} {ext : Ext} {d : Dicom}
    (hf : d.has_element (TAG_FRAME_DATA.number host_le) = true)
    (h8 : d._bits ≠ 8) (h16 : d._bits ≠ 16) :
    Dicom.parse_image_frame host_le ext d =
      (some (.runtime_error "Unsupported Bit Allocation"), d) := by
  simp [Dicom.parse_image_frame, hf, h8, h16]

/-- The `switch(this->_bits)` of `parse_image` when `_bits` is 8 or 16: the only
exception is the `bad_any_cast` of `as`. -/
theorem Dicom.parse_image_frame_cast {host_le : Bool} {ext : Ext} {d d1 : Dicom} {err : Error}
    (hf : d.has_element (TAG_FRAME_DATA.number host_le) = true)
    (hb : d._bits = 8 ∨ d._bits = 16)
    (h : Dicom.parse_image_frame host_le ext d = (some err, d1)) : err = .bad_any_cast := by
  unfold Dicom.parse_image_frame at h
  simp only [hf, Bool.not_true, Bool.false_eq_true, ↓reduceIte] at h
  repeat' split at h
  all_goals simp only [Prod.mk.injEq, Option.some.injEq] at h
  all_goals first
    | (obtain ⟨rfl, -⟩ := h; rename_i hs; exact Element.as_vector_error hs)
    | exact Option.noConfusion h.1
    | (rename_i h8 h16; rcases hb with hb | hb
       · exact absurd hb h8
       · exact absurd hb h16)

/-- The exceptions of the block "unpadding for each pixel". -/
theorem Dicom.parse_image_unpad_cases {host_le : Bool} {ext : Ext} {d d1 : Dicom} {err : Error}
    (h : Dicom.parse_image_unpad host_le ext d = (some err, d1)) :
    err = .bad_any_cast ∨ err = .MissingTagError "Could not found Bit Stored Tag" ∨
      err = .MissingTagError "Could not found Hi Bit Tag" := by
  unfold Dicom.parse_image_unpad at h
  simp only at h
  repeat' split at h
  all_goals simp only [Prod.mk.injEq, Option.some.injEq] at h
  all_goals first
    | (obtain ⟨rfl, -⟩ := h; rename_i hs; exact Or.inl (Element.as_scalar_error hs))
    | (obtain ⟨rfl, -⟩ := h; exact Or.inr (Or.inl rfl))
    | (obtain ⟨rfl, -⟩ := h; exact Or.inr (Or.inr rfl))
    | exact Option.noConfusion h.1

/-- The exceptions of the block "rescale". -/
theorem Dicom.parse_image_rescale_cast {host_le : Bool} {ext : Ext} {d d1 : Dicom}
    {need_rescale : Bool} {err : Error}
    (h : Dicom.parse_image_rescale host_le ext d need_rescale = (some err, d1)) :
    err = .bad_any_cast := by
  unfold Dicom.parse_image_rescale at h
  simp only at h
  repeat' split at h
  all_goals simp only [Prod.mk.injEq, Option.some.injEq] at h
  all_goals first
    | (obtain ⟨rfl, -⟩ := h; rename_i hs; exact Element.as_string_error hs)
    | exact Option.noConfusion h.1

/-- What `parse_image` does after its summary step has left the object `d1`
without an exception. -/
theorem Dicom.parse_image_after_summary {host_le : Bool} {ext : Ext} {d d1 : Dicom}
    (need_rescale : Bool)
    (hs : (if d._cols = 0 ∨ d._rows = 0 ∨ d._bits = 0 ∨ d._chs = 0 then
            Dicom.parse_summary host_le ext d else (none, d)) = (none, d1)) :
    Dicom.parse_image host_le ext d need_rescale =
      match Dicom.parse_image_frame host_le ext d1 with
      | (some err, d2) => (some err, d2)
      | (none, d2) =>
        match ext.mat_reshape d2._image 1 d2._rows with
        | .error what => (some (.cv_Exception what), d2)
        | .ok m =>
          match Dicom.parse_image_unpad host_le ext { d2 with _image := m } with
          | (some err, d3) => (some err, d3)
          | (none, d3) => Dicom.parse_image_rescale host_le ext d3 need_rescale := by
  unfold Dicom.parse_image
  rw [hs]

/-! ## Lemmas: the unpadding -/

/-- The block "unpadding for each pixel" on a store that holds BitsStored and
HighBit as `uint16_t`: the statement `_image /= 2` is made `hi_bit - bit_stored + 1`
times, when that is positive and `_bits` differs from BitsStored, and else not
at all. -/
theorem Dicom.parse_image_unpad_ok {host_le : Bool} {ext : Ext} {d : Dicom}
    {e1 e2 : Element} {bit_stored hi_bit : Int}
    (h1 : map_find d._element (TAG_BIT_STORED.number host_le) = some e1)
    (hv1 : e1._value = .scalar .uint16 bit_stored)
    (h2 : map_find d._element (TAG_HI_BIT.number host_le) = some e2)
    (hv2 : e2._value = .scalar .uint16 hi_bit) :
    Dicom.parse_image_unpad host_le ext d =
      (none, if d._bits ≠ bit_stored then
          { d with _image :=
              Dicom.parse_image_halve ext (hi_bit - bit_stored + 1).toNat d._image }
        else d) := by
  simp only [Dicom.parse_image_unpad, Dicom.has_element, Dicom.element, h1, h2,
    Element.as_scalar, hv1, hv2, Option.isSome_some, Bool.not_true, Bool.false_eq_true,
    ↓reduceIte]
  split <;> rfl

/-! ## Lemmas: the member _image -/

theorem Dicom.element_image (d : Dicom) (n : Nat) : (d.element n).2._image = d._image := by
  unfold Dicom.element
  split <;> rfl

theorem Dicom.select_format_image (d : Dicom) (s : List Byte) :
    (d.select_format s)._image = d._image := by
  unfold Dicom.select_format
  repeat' split
  all_goals rfl

theorem Dicom.parse_format_info_image (host_le : Bool) (d : Dicom) :
    (Dicom.parse_format_info host_le d).2._image = d._image := by
  unfold Dicom.parse_format_info
  split
  · simp only
    split
    · exact Dicom.element_image d _
    · rw [Dicom.select_format_image]
      exact Dicom.element_image d _
  · rfl

theorem Dicom.parse_meta_image {host_le : Bool} {d : Dicom} {ist : IStream} {o : Outcome}
    (h : Dicom.parse_meta host_le d ist = some o) : o.dicom._image = d._image := by
  unfold Dicom.parse_meta at h
  split at h
  · simp only [Option.some.injEq] at h
    rw [← h]
  · simp only at h
    split at h
    · simp only [Option.some.injEq] at h
      rw [← h]
    · split at h
      · simp only [Option.some.injEq] at h
        rw [← h]
      · rename_i id ist1 hr hne
        obtain ⟨o2, ho2, hframe, -⟩ := Dicom.parse_meta_loop_spec host_le (ist1.data.length + 1)
          { d with _architecture_as_little_endian := host_le,
                   _cols := 0, _rows := 0, _bits := 0, _chs := 0, _is_signed := false,
                   _px_spacing_row := .val 0, _px_spacing_col := .val 0,
                   _image_pos_x := .nan, _image_pos_y := .nan, _image_pos_z := .nan,
                   _element := [],
                   _format_as_little_endian := true, _format_as_explicit := true,
                   _format_as_deflate := false }
          ist1 ist1.rest_length_lt
        rw [ho2] at h
        simp only [Option.some.injEq] at h
        rw [← h, hframe]

/-- The reading part of `parse` never writes the member `_image`. -/
theorem Dicom.parse_file_image {host_le : Bool} {d : Dicom} {ist : IStream} {o : Outcome}
    (h : Dicom.parse_file host_le d ist = some o) : o.dicom._image = d._image := by
  unfold Dicom.parse_file at h
  split at h
  · exact Option.noConfusion h
  · rename_i err d1 ist1 hm
    simp only [Option.some.injEq] at h
    rw [← h]
    exact Dicom.parse_meta_image hm
  · rename_i d1 ist1 hm
    have h1 := Dicom.parse_meta_image hm
    simp only at h1
    have h2 := Dicom.parse_format_info_image host_le d1
    split at h
    · rename_i err d2 hfi
      simp only [Option.some.injEq] at h
      rw [hfi] at h2
      rw [← h]
      exact h2.trans h1
    · rename_i d2 hfi
      rw [hfi] at h2
      split at h
      · simp only [Option.some.injEq] at h
        rw [← h]
        exact h2.trans h1
      · obtain ⟨o2, ho2, hframe, -⟩ :=
          Dicom.parse_main_loop_spec host_le (ist1.data.length + 1) d2 ist1 ist1.rest_length_lt
        rw [ho2] at h
        simp only [Option.some.injEq] at h
        rw [← h, hframe]
        exact h2.trans h1

theorem Dicom.parse_summary_required_image (host_le : Bool) (d : Dicom) :
    (Dicom.parse_summary_required host_le d).2._image = d._image := by
  unfold Dicom.parse_summary_required
  simp only
  repeat' split
  all_goals simp only [Dicom.element_image]

theorem Dicom.parse_summary_px_spacing_image (host_le : Bool) (ext : Ext) (d : Dicom) :
    (Dicom.parse_summary_px_spacing host_le ext d).2._image = d._image := by
  unfold Dicom.parse_summary_px_spacing
  simp only
  repeat' split
  all_goals simp only [Dicom.element_image]

theorem Dicom.parse_summary_image_pos_image (host_le : Bool) (ext : Ext) (d : Dicom) :
    (Dicom.parse_summary_image_pos host_le ext d).2._image = d._image := by
  unfold Dicom.parse_summary_image_pos
  simp only
  repeat' split
  all_goals simp only [Dicom.element_image]

/-- The member function `parse_summary` never writes the member `_image`. -/
theorem Dicom.parse_summary_image (host_le : Bool) (ext : Ext) (d : Dicom) :
    (Dicom.parse_summary host_le ext d).2._image = d._image := by
  unfold Dicom.parse_summary
  split
  · rename_i err d1 h1
    have := Dicom.parse_summary_required_image host_le d
    rw [h1] at this
    exact this
  · rename_i d1 h1
    have r1 := Dicom.parse_summary_required_image host_le d
    rw [h1] at r1
    split
    · rename_i err d2 h2
      have r2 := Dicom.parse_summary_px_spacing_image host_le ext d1
      rw [h2] at r2
      exact r2.trans r1
    · rename_i d2 h2
      have r2 := Dicom.parse_summary_px_spacing_image host_le ext d1
      rw [h2] at r2
      rw [Dicom.parse_summary_image_pos_image]
      exact r2.trans r1

/-! ## Lemmas: pixel spacing and image position -/

/-- When the required part of `parse_summary` ends without an exception, the
store holds the five required elements with the types the function asks for,
and the object differs from the one found only in the metadata members. -/
theorem Dicom.parse_summary_required_inv {host_le : Bool} {d d1 : Dicom}
    (h : Dicom.parse_summary_required host_le d = (none, d1)) :
    ∃ (e1 e2 e3 e4 e5 : Element) (s : List Byte) (v2 v3 v4 v5 : Int),
      map_find d._element (TAG_PHOTO_INTERPRET.number host_le) = some e1 ∧
      e1._value = .string s ∧ string_find (bytesOf "MONOCHROME2") s 0 ≠ none ∧
      map_find d._element (TAG_PX_REP.number host_le) = some e2 ∧
      e2._value = .scalar .uint16 v2 ∧
      map_find d._element (TAG_BIT_ALLOC.number host_le) = some e3 ∧
      e3._value = .scalar .uint16 v3 ∧
      map_find d._element (TAG_ROWS.number host_le) = some e4 ∧
      e4._value = .scalar .uint16 v4 ∧
      map_find d._element (TAG_COLS.number host_le) = some e5 ∧
      e5._value = .scalar .uint16 v5 ∧
      d1 = { d with _cols := v5, _rows := v4, _bits := v3, _chs := 1,
                    _is_signed := if v2 = 0 then false else true,
                    _px_spacing_row := .val 0, _px_spacing_col := .val 0,
                    _image_pos_x := .nan, _image_pos_y := .nan, _image_pos_z := .nan } := by
  have hn : (Dicom.parse_summary_required host_le d).1 = none := by rw [h]
  obtain ⟨s1, s2, s3⟩ := Dicom.parse_summary_required_photo host_le d
  cases m1 : map_find d._element (TAG_PHOTO_INTERPRET.number host_le) with
  | none => rw [s1 m1] at hn; exact Option.noConfusion hn
  | some e1 =>
    rcases Element.as_string_cases e1 with ⟨s, hs, -⟩ | ⟨hns, -⟩
    swap
    · rw [s2 e1 m1 hns] at hn; exact Option.noConfusion hn
    by_cases hf : string_find (bytesOf "MONOCHROME2") s 0 = none
    · rw [s3 e1 s m1 hs hf] at hn; exact Option.noConfusion hn
    obtain ⟨t2, t3⟩ := (Dicom.parse_summary_required_stages host_le d).2 e1 s m1 hs hf
    cases m2 : map_find d._element (TAG_PX_REP.number host_le) with
    | none => rw [t2 m2] at hn; exact Option.noConfusion hn
    | some e2 =>
      obtain ⟨u1, u2⟩ := t3 e2 m2
      rcases Element.as_scalar_cases e2 .uint16 with ⟨v2, hv2, h2s⟩ | ⟨hn2, -⟩
      swap
      · rw [u1 hn2] at hn; exact Option.noConfusion hn
      obtain ⟨w1, w2⟩ := u2 v2 hv2
      cases m3 : map_find d._element (TAG_BIT_ALLOC.number host_le) with
      | none => rw [w1 m3] at hn; exact Option.noConfusion hn
      | some e3 =>
        obtain ⟨x1, x2⟩ := w2 e3 m3
        rcases Element.as_scalar_cases e3 .uint16 with ⟨v3, hv3, h3s⟩ | ⟨hn3, -⟩
        swap
        · rw [x1 hn3] at hn; exact Option.noConfusion hn
        have y := x2 v3 hv3
        cases m4 : map_find d._element (TAG_ROWS.number host_le) with
        | none => rw [y (Or.inl m4)] at hn; exact Option.noConfusion hn
        | some e4 =>
          cases m5 : map_find d._element (TAG_COLS.number host_le) with
          | none => rw [y (Or.inr m5)] at hn; exact Option.noConfusion hn
          | some e5 =>
            have h1s : e1.as_string = .ok s := by simp [Element.as_string, hs]
            rcases Element.as_scalar_cases e4 .uint16 with ⟨v4, hv4, h4s⟩ | ⟨-, h4e⟩
            swap
            · simp [Dicom.parse_summary_required, Dicom.has_element, Dicom.element, m1, m2, m3,
                m4, m5, h1s, hf, h2s, h3s, h4e] at hn
            rcases Element.as_scalar_cases e5 .uint16 with ⟨v5, hv5, h5s⟩ | ⟨-, h5e⟩
            swap
            · simp [Dicom.parse_summary_required, Dicom.has_element, Dicom.element, m1, m2, m3,
                m4, m5, h1s, hf, h2s, h3s, h4s, h5e] at hn
            refine ⟨e1, e2, e3, e4, e5, s, v2, v3, v4, v5, rfl, hs, hf, rfl, hv2, rfl, hv3, rfl,
              hv4, rfl, hv5, ?_⟩
            rw [Dicom.parse_summary_required_ok m1 hs hf m2 hv2 m3 hv3 m4 hv4 m5 hv5] at h
            simp only [Prod.mk.injEq, true_and] at h
            exact h.symm

/-- The block "pixel spacing" on a PixelSpacing string of at least two tokens:
the tokens are converted in order, and each value is assigned before the next
token is tried. -/
theorem Dicom.parse_summary_px_spacing_tokens {host_le : Bool} {ext : Ext} {d : Dicom}
    {e : Element} {s t0 t1 : List Byte} {ts : List (List Byte)}
    (hm : map_find d._element (TAG_PX_SPACING.number host_le) = some e)
    (hs : e._value = .string s) (ht : split_backslash (trim s) = t0 :: t1 :: ts) :
    Dicom.parse_summary_px_spacing host_le ext d =
      (none,
        match ext.lexical_cast_float t0 with
        | none => d
        | some row =>
          match ext.lexical_cast_float t1 with
          | none => { d with _px_spacing_row := row }
          | some col => { d with _px_spacing_row := row, _px_spacing_col := col }) := by
  simp only [Dicom.parse_summary_px_spacing, Dicom.has_element, hm, Option.isSome_some,
    ↓reduceIte, Dicom.element, Element.as_string, hs, ht]
  cases ext.lexical_cast_float t0 with
  | none => rfl
  | some row =>
    cases ext.lexical_cast_float t1 with
    | none => rfl
    | some col => rfl

/-- The block "image position" on an ImagePositionPatient string of at least
three tokens: the tokens are converted in order, and each value is assigned
before the next token is tried. -/
theorem Dicom.parse_summary_image_pos_tokens {host_le : Bool} {ext : Ext} {d : Dicom}
    {e : Element} {s t0 t1 t2 : List Byte} {ts : List (List Byte)}
    (hm : map_find d._element (TAG_IMG_POSITION.number host_le) = some e)
    (hs : e._value = .string s) (ht : split_backslash (trim s) = t0 :: t1 :: t2 :: ts) :
    Dicom.parse_summary_image_pos host_le ext d =
      (none,
        match ext.lexical_cast_float t0 with
        | none => d
        | some x =>
          match ext.lexical_cast_float t1 with
          | none => { d with _image_pos_x := x }
          | some y =>
            match ext.lexical_cast_float t2 with
            | none => { d with _image_pos_x := x, _image_pos_y := y }
            | some z => { d with _image_pos_x := x, _image_pos_y := y, _image_pos_z := z }) := by
  simp only [Dicom.parse_summary_image_pos, Dicom.has_element, hm, Option.isSome_some,
    ↓reduceIte, Dicom.element, Element.as_string, hs, ht]
  cases ext.lexical_cast_float t0 with
  | none => rfl
  | some x =>
    cases ext.lexical_cast_float t1 with
    | none => rfl
    | some y =>
      cases ext.lexical_cast_float t2 with
      | none => rfl
      | some z => rfl

/-! ## Lemmas: the short form of an element -/

/-- `Element::parse` on the header of an Explicit-VR element in short form
(tag, VR, 16-bit length): what is left to do is the second `switch` of
`_parse_value_explicit`, eight bytes further on. -/
theorem Element.parse_short_header (host_le le : Bool) (d : Dicom) (ist : IStream)
    (tag : TypeTag) (v0 v1 : Byte) (L : Nat) (tail : List Byte)
    (ha : d._architecture_as_little_endian = host_le) (hl : d._format_as_little_endian = le)
    (hx : d._format_as_explicit = true)
    (hshort : beNat [v0, v1] ∉ vr_long)
    (h0 : tag.id0 < 65536) (h1 : tag.id1 < 65536) (hz : tag ≠ ⟨0, 0⟩) (hL : L < 65536)
    (hg : ist.good = true)
    (hr : ist.rest = encode_u16 le tag.id0 ++ encode_u16 le tag.id1 ++ [v0, v1]
      ++ encode_u16 le L ++ tail) :
    Element.parse host_le d Element.ofParent ist =
      Element._parse_body_explicit host_le d
        { Element.ofParent with _tag := tag, _vr := some (beNat [v0, v1]) }
        (beNat [v0, v1]) { ist with pos := ist.pos + 8 } L := by
  have hnz := TypeTag.number_ne_zero host_le tag hz
  obtain ⟨t0, t1⟩ := tag
  simp only at h0 h1
  obtain ⟨a0, a1, hA⟩ := encode_u16_eq le t0
  obtain ⟨a2, a3, hB⟩ := encode_u16_eq le t1
  obtain ⟨b0, b1, hC⟩ := encode_u16_eq le L
  have hlA : load le [a0, a1] = t0 := by rw [← hA]; exact load_encode_u16 le _ h0
  have hlB : load le [a2, a3] = t1 := by rw [← hB]; exact load_encode_u16 le _ h1
  have hlC : load le [b0, b1] = L := by rw [← hC]; exact load_encode_u16 le _ hL
  have hr0 : ist.rest = a0 :: a1 :: a2 :: a3 :: (v0 :: v1 :: b0 :: b1 :: tail) := by
    rw [hr]; simp only [hA, hB, hC]; simp
  have hg4 := IStream.good_advance ist 4 hg
  have e1 : Element.parse_tag host_le d Element.ofParent ist =
      (.ok { Element.ofParent with _tag := ⟨t0, t1⟩ }, { ist with pos := ist.pos + 4 }) := by
    rw [Element.parse_tag_ok host_le d _ ist a0 a1 a2 a3 _ rfl ha hg hr0, hl, hlA, hlB]
  have e2 := Element.parse_value_explicit_of host_le d { Element.ofParent with _tag := ⟨t0, t1⟩ }
    { ist with pos := ist.pos + 4 } hnz (by simp [Element._format_as_explicit, hx])
  have e3 := Element.explicit_short host_le d { Element.ofParent with _tag := ⟨t0, t1⟩ }
    { ist with pos := ist.pos + 4 } v0 v1 b0 b1 tail rfl ha hg4
    (by rw [IStream.rest_advance, hr0]; rfl) hshort
  rw [hl, hlC] at e3
  unfold Element.parse
  rw [e1]
  simp only
  rw [e2, e3]

/-! ## Lemmas: termination -/

/-- A loop of `_read_element_data<T>` that ends without an exception has pushed
one value per turn. -/
theorem Element.loop_length {host_le : Bool} {d : Dicom} {e : Element} {T : DType} {s : Nat} :
    ∀ (k : Nat) {ist ist1 : IStream} {vs : List Int},
      Element._read_element_data_loop host_le d e T s k ist = (.ok vs, ist1) →
      vs.length = k := by
  intro k
  induction k with
  | zero =>
    intro ist ist1 vs h
    simp only [Element._read_element_data_loop, Prod.mk.injEq, Except.ok.injEq] at h
    rw [← h.1]
    rfl
  | succ k ih =>
    intro ist ist1 vs h
    unfold Element._read_element_data_loop at h
    split at h
    · simp only [Prod.mk.injEq] at h
      exact Except.noConfusion h.1
    · split at h
      · simp only [Prod.mk.injEq] at h
        exact Except.noConfusion h.1
      · rename_i v ist2 hs ws ist3 hl
        simp only [Prod.mk.injEq, Except.ok.injEq] at h
        rw [← h.1, List.length_cons, ih hl]

/-- The number of values `_read_element_data<T>` has read when it returns a
vector: the `int` that `len / sizeof(T)` converts to, when that is not
negative, and else none. -/
theorem Element.data_length {host_le : Bool} {d : Dicom} {e e1 : Element} {T : DType}
    {len : Nat} {ist ist1 : IStream} {vs : List Int}
    (h : Element._read_element_data host_le d e T ist len = (.ok e1, ist1))
    (hv : e1._value = .vector T vs) :
    vs.length = (toInt32 (len / T.sizeof)).toNat := by
  unfold Element._read_element_data at h
  simp only at h
  split at h
  · split at h
    · simp only [Prod.mk.injEq] at h
      exact Except.noConfusion h.1
    · simp only [Prod.mk.injEq, Except.ok.injEq] at h
      rw [← h.1] at hv
      simp at hv
  · split at h
    · simp only [Prod.mk.injEq] at h
      exact Except.noConfusion h.1
    · rename_i buf ist2 hl
      simp only [Prod.mk.injEq, Except.ok.injEq] at h
      rw [← h.1] at hv
      simp only [Value.vector.injEq, true_and] at hv
      rw [← hv]
      exact Element.loop_length _ hl

/-- The scan of `_read_element_data_sequence` runs to the end of the unread
bytes when the window never holds the end-of-sequence mark. -/
theorem Element.sequence_loop_none :
    ∀ (unread eos value : List Byte), eos.length = 8 →
    (∀ n, 1 ≤ n → n ≤ unread.length → (eos ++ unread.take n).drop n ≠ end_of_sequence) →
    Element._read_sequence_loop unread eos value = none := by
  intro unread
  induction unread with
  | nil => intro eos value _ _; rfl
  | cons c unread ih =>
    intro eos value he hno
    have hw : eos.drop 1 ++ [c] = (eos ++ [c]).drop 1 := by
      rw [List.drop_append_of_le_length (by omega)]
    unfold Element._read_sequence_loop
    have h1 := hno 1 (le_refl 1) (by simp)
    simp only [List.take_succ_cons, List.take_zero] at h1
    rw [← hw] at h1
    rw [if_neg h1]
    apply ih _ _ (by simp [he])
    intro n hn1 hn2
    have := hno (n + 1) (by omega) (by simp; omega)
    simp only [List.take_succ_cons] at this
    rw [hw, ← List.drop_append_of_le_length (by simp), List.drop_drop]
    simpa [Nat.add_comm] using this

/-- In bytes `B` that do not contain the end-of-sequence mark, read into a
window of eight zero bytes, the window never holds the mark. -/
theorem end_of_sequence_absent (B : List Byte) (hB : ¬ List.IsInfix end_of_sequence B) :
    ∀ n, 1 ≤ n → n ≤ B.length →
      (([0, 0, 0, 0, 0, 0, 0, 0] : List Byte) ++ B.take n).drop n ≠ end_of_sequence := by
  intro n hn1 hnB heq
  by_cases hn8 : n < 8
  · rw [List.drop_append_of_le_length (by simp; omega)] at heq
    have h0 : (([0, 0, 0, 0, 0, 0, 0, 0] : List Byte).drop n ++ B.take n).head? = some 0 := by
      interval_cases n <;> rfl
    rw [heq] at h0
    exact absurd h0 (by decide)
  · rw [List.drop_append_eq_append_drop] at heq
    have hz : ([0, 0, 0, 0, 0, 0, 0, 0] : List Byte).drop n = [] := by
      apply List.drop_eq_nil_of_le
      simp; omega
    rw [hz, List.nil_append] at heq
    simp only [List.length_cons, List.length_nil] at heq
    apply hB
    refine ⟨B.take (n - 8), B.drop n, ?_⟩
    rw [← heq]
    have : B.take (n - 8) = (B.take n).take (n - 8) := by
      rw [List.take_take]
      congr 1
      omega
    rw [this, List.take_append_drop, List.take_append_drop]

/-- The member function `Dicom::parse` always ends. -/
theorem Dicom.parse_total (host_le : Bool) (ext : Ext) (d : Dicom) (ist : IStream)
    (parse_all need_rescale : Bool) :
    ∃ o, Dicom.parse host_le ext d ist parse_all need_rescale = some o := by
  obtain ⟨o1, h1⟩ := Dicom.parse_file_total host_le d ist
  unfold Dicom.parse
  rw [h1]
  obtain ⟨e1, d1, ist1⟩ := o1
  cases e1 with
  | some err => exact ⟨_, rfl⟩
  | none =>
    simp only
    split
    · exact ⟨_, rfl⟩
    · exact ⟨_, rfl⟩

/-! ## Lemmas: the frame data and the image builder -/

/-- The value `_read_element_data<T>` returns is a `T` or a vector of `T`. -/
theorem Element.data_value {host_le : Bool} {d : Dicom} {e e1 : Element} {T : DType}
    {len : Nat} {ist ist1 : IStream}
    (h : Element._read_element_data host_le d e T ist len = (.ok e1, ist1)) :
    (∃ v, e1._value = .scalar T v) ∨ (∃ vs, e1._value = .vector T vs) := by
  unfold Element._read_element_data at h
  simp only at h
  split at h <;> split at h <;> simp only [Prod.mk.injEq, Except.ok.injEq] at h
  all_goals first
    | (obtain ⟨rfl, -⟩ := h; exact Or.inl ⟨_, rfl⟩)
    | (obtain ⟨rfl, -⟩ := h; exact Or.inr ⟨_, rfl⟩)
    | exact absurd h.1 (by simp)

/-- In Explicit-VR mode the element type of a decoded value is fixed by the VR
code alone: an element that `Element::parse` returns with a VR of the second
`switch` that is read with `_read_element_data<T>` holds a `T` or a vector of
`T`. -/
theorem Element.parse_explicit_dtype {host_le : Bool} {d : Dicom} {e : Element}
    {ist ist1 : IStream} {vr : Nat} {T : DType} (hx : d._format_as_explicit = true)
    (h : Element.parse host_le d Element.ofParent ist = (.ok e, ist1))
    (hvr : e._vr = some vr) (hT : (vr, T) ∈ vr_typed ∨ (vr, T) ∈ vr_bytes) :
    (∃ v, e._value = .scalar T v) ∨ (∃ vs, e._value = .vector T vs) := by
  unfold Element.parse at h
  split at h
  · simp only [Prod.mk.injEq] at h
    exact absurd h.1 (by simp)
  · rename_i e0 ist0 ht
    have hp := (Element.parse_tag_parent ht).1
    unfold Element.parse_value at h
    split at h
    · simp only [Prod.mk.injEq] at h
      exact absurd h.1 (by simp)
    · have hfe : e0._format_as_explicit d = true := by
        simp [Element._format_as_explicit, hp, Element.ofParent, hx]
      rw [if_pos hfe] at h
      unfold Element._parse_value_explicit at h
      split at h
      · simp only [Prod.mk.injEq] at h
        exact absurd h.1 (by simp)
      · simp only at h
        split at h
        · simp only [Prod.mk.injEq] at h
          exact absurd h.1 (by simp)
        · have hk := (Element.body_explicit_tag h).2.2
          rw [hvr] at hk
          simp only [Option.some.injEq] at hk
          rw [← hk, Element.body_typed host_le d _ vr T _ _ hT] at h
          exact Element.data_value h

/-- The `switch(this->_bits)` of `parse_image` on a store that holds the frame
data, for `_bits` 8 or 16: the frame data is asked for as a vector of the type
`image_dtype` gives. -/
theorem Dicom.parse_image_frame_of {host_le : Bool} {ext : Ext} {d : Dicom} {e : Element}
    {T : DType}
    (hf : map_find d._element (TAG_FRAME_DATA.number host_le) = some e)
    (hT : image_dtype d._bits d._is_signed = some T) :
    Dicom.parse_image_frame host_le ext d =
      match e.as_vector T with
      | .error err => (some err, d)
      | .ok vs => (none, { d with _image := ext.mat_of_vector T vs }) := by
  unfold image_dtype at hT
  simp only [Dicom.parse_image_frame, Dicom.has_element, hf, Option.isSome_some, Bool.not_true,
    Bool.false_eq_true, ↓reduceIte, Dicom.element]
  split at hT
  · rename_i h8
    simp only [h8, ↓reduceIte]
    split at hT <;> rename_i hsg <;> simp only [Option.some.injEq] at hT <;> subst hT <;>
      simp only [hsg, ↓reduceIte, Bool.false_eq_true]
  · rename_i h8
    split at hT
    · rename_i h16
      simp only [h8, h16, ↓reduceIte]
      split at hT <;> rename_i hsg <;> simp only [Option.some.injEq] at hT <;> subst hT <;>
        simp only [hsg, ↓reduceIte, Bool.false_eq_true] <;> rfl
    · exact Option.noConfusion hT

/-- The block "rescale" when no rescaling is asked for. -/
theorem Dicom.parse_image_rescale_off (host_le : Bool) (ext : Ext) (d : Dicom) :
    Dicom.parse_image_rescale host_le ext d false = (none, d) := by
  simp [Dicom.parse_image_rescale]

/-! ## Lemmas: divisions by 2 and shifts -/

theorem tdiv_tdiv_pos (p : Int) (a b : Nat) :
    Int.tdiv (Int.tdiv p a) b = Int.tdiv p ((a * b : Nat) : Int) := by
  rcases Int.le_total 0 p with hp | hp
  · obtain ⟨n, rfl⟩ := Int.eq_ofNat_of_zero_le hp
    rw [← Int.ofNat_tdiv, ← Int.ofNat_tdiv, ← Int.ofNat_tdiv, Nat.div_div_eq_div_mul]
  · obtain ⟨n, hn⟩ := Int.eq_ofNat_of_zero_le (Int.neg_nonneg_of_nonpos hp)
    have : p = -(n : Int) := by omega
    subst this
    rw [Int.neg_tdiv, Int.neg_tdiv, Int.neg_tdiv, ← Int.ofNat_tdiv, ← Int.ofNat_tdiv,
      ← Int.ofNat_tdiv, Nat.div_div_eq_div_mul]

/-- `k` successive integer divisions by 2 are one integer division by `2^k`. -/
theorem pixel_unpad_halve (k : Nat) : ∀ p : Int,
    pixel_unpad pixel_halve k p = Int.tdiv p ((2 ^ k : Nat) : Int) := by
  induction k with
  | zero => intro p; simp [pixel_unpad]
  | succ k ih =>
    intro p
    have h2 : ((2 : Nat) : Int) = 2 := rfl
    rw [pixel_unpad, ih, pixel_halve, ← h2, tdiv_tdiv_pos, pow_succ, Nat.mul_comm]

theorem tdiv_eq_ediv_iff (p n : Int) (hn : 0 < n) :
    Int.tdiv p n = p / n ↔ (0 ≤ p ∨ n ∣ p) := by
  constructor
  · intro h
    by_cases hp : 0 ≤ p
    · exact Or.inl hp
    · right
      have hp' : 0 ≤ -p := by omega
      have h1 := Int.ediv_add_emod p n
      have h2 := Int.emod_nonneg p (ne_of_gt hn)
      have h3 := Int.tdiv_add_tmod p n
      have h4 : Int.tmod p n = -(Int.tmod (-p) n) := by
        rw [Int.tmod_def, Int.tmod_def, Int.neg_tdiv]
        ring
      have h5 := Int.tmod_nonneg n hp'
      rw [h] at h3
      have h6 : p % n = 0 := by omega
      exact Int.dvd_of_emod_eq_zero h6
  · rintro (h | h)
    · exact Int.tdiv_eq_ediv h (le_of_lt hn)
    · exact Int.tdiv_eq_ediv_of_dvd h

/-- The loop of the unpadding on a matrix of integer pixels, for a library that
divides each pixel with `halve`. -/
theorem Dicom.parse_image_halve_pixels (ext : Ext) (halve : Int → Int) (rows cols : Nat)
    (T : DType)
    (hdiv : ∀ ps : List Int, ext.mat_div (Mat.of_pixels rows cols T ps) 2 =
      Mat.of_pixels rows cols T (ps.map halve)) :
    ∀ (k : Nat) (ps : List Int),
      Dicom.parse_image_halve ext k (Mat.of_pixels rows cols T ps) =
        Mat.of_pixels rows cols T (ps.map (pixel_unpad halve k)) := by
  intro k
  induction k with
  | zero => intro ps; simp [Dicom.parse_image_halve, pixel_unpad]
  | succ k ih =>
    intro ps
    rw [Dicom.parse_image_halve, hdiv, ih, List.map_map]
    rfl

/-- Divisions that are exact on even numbers agree with the shift on the pixels
whose `k` low bits are zero. -/
theorem pixel_unpad_of_dvd (halve : Int → Int) (hex : ∀ q : Int, halve (2 * q) = q) :
    ∀ (k : Nat) (p : Int), (2 : Int) ^ k ∣ p → pixel_unpad halve k p = pixel_shift_right p k := by
  intro k
  induction k with
  | zero => intro p _; simp [pixel_unpad, pixel_shift_right, Int.shiftRight_eq_div_pow]
  | succ k ih =>
    intro p hp
    obtain ⟨c, hc⟩ := hp
    have hq : p = 2 * ((2 : Int) ^ k * c) := by rw [hc, pow_succ]; ring
    rw [pixel_unpad, hq, hex, ih _ (Dvd.intro _ rfl)]
    simp only [pixel_shift_right, Int.shiftRight_eq_div_pow, Nat.cast_pow, Nat.cast_ofNat]
    have h2 : (0 : Int) < 2 ^ k := by positivity
    rw [Int.mul_ediv_cancel_left _ (ne_of_gt h2)]
    have : 2 * ((2 : Int) ^ k * c) = 2 ^ (k + 1) * c := by rw [pow_succ]; ring
    rw [this, Int.mul_ediv_cancel_left _ (by positivity)]

/-! ## Lemmas: the bits allocated of a summary -/

theorem Dicom.element_bits (d : Dicom) (n : Nat) : (d.element n).2._bits = d._bits := by
  unfold Dicom.element
  split <;> rfl

theorem Dicom.parse_summary_px_spacing_bits (host_le : Bool) (ext : Ext) (d : Dicom) :
    (Dicom.parse_summary_px_spacing host_le ext d).2._bits = d._bits := by
  unfold Dicom.parse_summary_px_spacing
  simp only
  repeat' split
  all_goals simp only [Dicom.element_bits]

theorem Dicom.parse_summary_image_pos_bits (host_le : Bool) (ext : Ext) (d : Dicom) :
    (Dicom.parse_summary_image_pos host_le ext d).2._bits = d._bits := by
  unfold Dicom.parse_summary_image_pos
  simp only
  repeat' split
  all_goals simp only [Dicom.element_bits]

/-- When `parse_summary` ends without an exception, `_bits` holds the value of
the BitsAllocated element of the store. -/
theorem Dicom.parse_summary_bits {host_le : Bool} {ext : Ext} {d d1 : Dicom}
    (h : Dicom.parse_summary host_le ext d = (none, d1)) :
    ∃ e, map_find d._element (TAG_BIT_ALLOC.number host_le) = some e ∧
      e._value = .scalar .uint16 d1._bits := by
  unfold Dicom.parse_summary at h
  split at h
  · simp only [Prod.mk.injEq] at h
    exact Option.noConfusion h.1
  · rename_i dA hA
    obtain ⟨e1, e2, e3, e4, e5, s, v2, v3, v4, v5, -, -, -, -, -, m3, hv3, -, -, -, -, hdA⟩ :=
      Dicom.parse_summary_required_inv hA
    have hbA : dA._bits = v3 := by rw [hdA]
    split at h
    · simp only [Prod.mk.injEq] at h
      exact Option.noConfusion h.1
    · rename_i dB hB
      have hbB := Dicom.parse_summary_px_spacing_bits host_le ext dA
      rw [hB] at hbB
      have hbC := Dicom.parse_summary_image_pos_bits host_le ext dB
      rw [h] at hbC
      simp only at hbB hbC
      refine ⟨e3, m3, ?_⟩
      rw [hv3, hbC, hbB, hbA]

/-! ## Lemmas: a stream that ends with the meta group -/

/-- The call of `parse_tag` at the end of the input: the `StreamError`. -/
theorem Element.parse_tag_at_end (host_le : Bool) (d : Dicom) (e : Element) (data : List Byte) :
    Element.parse_tag host_le d e ⟨data, data.length, false, false⟩ =
      (.error (.StreamError ""), ⟨data, data.length, true, true⟩) := by
  simp [Element.parse_tag, IStream.read, IStream.good, IStream.rest]

/-- The first loop of `parse` on a stream from which the elements `es`, all of
group 0x0002, are decoded one after the other up to the end of the input: the
loop stores them and leaves with the `StreamError` of the call of `parse_tag`
that finds no byte. -/
theorem Dicom.parse_meta_loop_of_decodes (host_le : Bool) (data : List Byte) :
    ∀ (es : List (Element × Nat)) (fuel : Nat) (d : Dicom) (p : Nat) (o : Outcome),
      Dicom.decodes_from host_le d data p es →
      (∀ x ∈ es, x.1._tag.id0 = TAG_GROUP_META) →
      end_offset p es = data.length →
      Dicom.parse_meta_loop host_le fuel d ⟨data, p, false, false⟩ = some o →
      o = ⟨some (.StreamError ""), { d with _element := store_all host_le d._element es },
        ⟨data, data.length, true, true⟩⟩ := by
  intro es
  induction es with
  | nil =>
    intro fuel d p o _ _ hend h
    cases fuel with
    | zero => simp [Dicom.parse_meta_loop] at h
    | succ fuel =>
      simp only [end_offset] at hend
      subst hend
      simp only [Dicom.parse_meta_loop, Element.parse_tag_at_end, Option.some.injEq] at h
      rw [← h]
      rfl
  | cons x es ih =>
    intro fuel d p o hdec hgrp hend h
    obtain ⟨e, q⟩ := x
    cases fuel with
    | zero => simp [Dicom.parse_meta_loop] at h
    | succ fuel =>
      have hp := hdec.1
      unfold Element.parse at hp
      split at hp
      · simp only [Prod.mk.injEq] at hp
        exact Except.noConfusion hp.1
      · rename_i e1 ist1 ht
        have htag := (Element.parse_value_tag hp).1
        have hg : e1._tag.id0 = TAG_GROUP_META := by
          rw [← htag]
          exact hgrp (e, q) (List.mem_cons_self _ _)
        simp only [Dicom.parse_meta_loop, ht, hg, ne_eq, not_true_eq_false, ↓reduceIte, hp] at h
        exact ih fuel { d with _element := map_assign d._element (e._tag.number host_le) e } q o
          (Dicom.decodes_from_flags host_le d
            { d with _element := map_assign d._element (e._tag.number host_le) e } data rfl rfl
            rfl es q hdec.2)
          (fun x hx => hgrp x (List.mem_cons_of_mem _ hx)) hend h

/-! ## Lemmas: the store during parse_image -/

/-- The call `element(number)` for a key the store holds leaves the store as it
is. -/
theorem Dicom.element_store (d : Dicom) (n : Nat) (h : d.has_element n = true) :
    (d.element n).2._element = d._element := by
  unfold Dicom.has_element at h
  unfold Dicom.element
  split
  · rfl
  · rename_i hn
    rw [hn] at h
    exact absurd h (by simp)

theorem Dicom.parse_summary_px_spacing_store (host_le : Bool) (ext : Ext) (d : Dicom) :
    (Dicom.parse_summary_px_spacing host_le ext d).2._element = d._element := by
  unfold Dicom.parse_summary_px_spacing
  split
  · rename_i hh
    have := Dicom.element_store d _ hh
    simp only
    repeat' split
    all_goals exact this
  · rfl

theorem Dicom.parse_summary_image_pos_store (host_le : Bool) (ext : Ext) (d : Dicom) :
    (Dicom.parse_summary_image_pos host_le ext d).2._element = d._element := by
  unfold Dicom.parse_summary_image_pos
  split
  · rename_i hh
    have := Dicom.element_store d _ hh
    simp only
    repeat' split
    all_goals exact this
  · rfl

/-- The member function `parse_summary`, when it ends without an exception,
leaves the store as it found it. -/
theorem Dicom.parse_summary_store {host_le : Bool} {ext : Ext} {d d1 : Dicom}
    (h : Dicom.parse_summary host_le ext d = (none, d1)) : d1._element = d._element := by
  unfold Dicom.parse_summary at h
  split at h
  · exact absurd h (by simp)
  · rename_i d2 h2
    obtain ⟨e1, e2, e3, e4, e5, s, v2, v3, v4, v5, -, -, -, -, -, -, -, -, -, -, -, hd2⟩ :=
      Dicom.parse_summary_required_inv h2
    have r2 : d2._element = d._element := by rw [hd2]
    split at h
    · exact absurd h (by simp)
    · rename_i d3 h3
      have r3 := Dicom.parse_summary_px_spacing_store host_le ext d2
      rw [h3] at r3
      have r4 := Dicom.parse_summary_image_pos_store host_le ext d3
      rw [h] at r4
      exact r4.trans (r3.trans r2)

/-- The `switch(this->_bits)` of `parse_image` leaves the store as it found
it. -/
theorem Dicom.parse_image_frame_store (host_le : Bool) (ext : Ext) (d : Dicom) :
    (Dicom.parse_image_frame host_le ext d).2._element = d._element := by
  unfold Dicom.parse_image_frame
  cases h1 : map_find d._element (TAG_FRAME_DATA.number host_le) with
  | none => simp [Dicom.has_element, h1]
  | some e =>
    simp only [Dicom.has_element, Dicom.element, h1, Option.isSome_some, Bool.not_true,
      Bool.false_eq_true, ↓reduceIte]
    repeat' split
    all_goals rfl

/-- The block "unpadding for each pixel" leaves the store as it found it. -/
theorem Dicom.parse_image_unpad_store (host_le : Bool) (ext : Ext) (d : Dicom) :
    (Dicom.parse_image_unpad host_le ext d).2._element = d._element := by
  unfold Dicom.parse_image_unpad
  cases h1 : map_find d._element (TAG_BIT_STORED.number host_le) with
  | none => simp [Dicom.has_element, h1]
  | some e1 =>
    cases h2 : map_find d._element (TAG_HI_BIT.number host_le) with
    | none =>
      simp only [Dicom.has_element, Dicom.element, h1, h2, Option.isSome_some, Bool.not_true,
        Bool.false_eq_true, ↓reduceIte, Option.isSome_none, Bool.not_false]
      repeat' split
      all_goals rfl
    | some e2 =>
      simp only [Dicom.has_element, Dicom.element, h1, h2, Option.isSome_some, Bool.not_true,
        Bool.false_eq_true, ↓reduceIte]
      repeat' split
      all_goals rfl

/-- The member function `parse_image` without rescale, when it ends without an
exception, leaves the store as it found it. -/
theorem Dicom.parse_image_store {host_le : Bool} {ext : Ext} {d d3 : Dicom}
    (h : Dicom.parse_image host_le ext d false = (none, d3)) : d3._element = d._element := by
  unfold Dicom.parse_image at h
  split at h
  · exact absurd h (by simp)
  · rename_i d1 hs
    have r1 : d1._element = d._element := by
      split at hs
      · exact Dicom.parse_summary_store hs
      · simp only [Prod.mk.injEq, true_and] at hs
        rw [hs]
    split at h
    · exact absurd h (by simp)
    · rename_i d2 hf
      have r2 := Dicom.parse_image_frame_store host_le ext d1
      rw [hf] at r2
      split at h
      · exact absurd h (by simp)
      · rename_i m hm
        split at h
        · exact absurd h (by simp)
        · rename_i d4 hu
          have r4 := Dicom.parse_image_unpad_store host_le ext { d2 with _image := m }
          rw [hu] at r4
          rw [Dicom.parse_image_rescale_off] at h
          simp only [Prod.mk.injEq, true_and] at h
          rw [← h]
          exact r4.trans (r2.trans r1)

/-! ## Lemmas: the block rescale -/

/-- The statements of `parse_image` before the block "rescale" do not read
`need_rescale`: when `parse_image` without rescale ends without an exception
and leaves the object `d3`, `parse_image` does to `d3` what the block "rescale"
does. -/
theorem Dicom.parse_image_then_rescale {host_le : Bool} {ext : Ext} {d d3 : Dicom}
    (need_rescale : Bool)
    (h : Dicom.parse_image host_le ext d false = (none, d3)) :
    Dicom.parse_image host_le ext d need_rescale =
      Dicom.parse_image_rescale host_le ext d3 need_rescale := by
  unfold Dicom.parse_image at h ⊢
  split at h
  · exact absurd h (by simp)
  · split at h
    · exact absurd h (by simp)
    · split at h
      · exact absurd h (by simp)
      · split at h
        · exact absurd h (by simp)
        · rename_i d4 hu
          rw [Dicom.parse_image_rescale_off] at h
          simp only [Prod.mk.injEq, true_and] at h
          rw [h]

/-- The block "rescale" when rescaling is asked for and the store holds both
elements as strings: the statement `_image *= rescale_slope` and then the
statement `_image += rescale_interception`, with the numbers `lexical_cast`
returns for the trimmed strings, or 1.0 and 0.0 in place of a
`bad_lexical_cast`. -/
theorem Dicom.parse_image_rescale_on {host_le : Bool} {ext : Ext} {d : Dicom}
    {e1 e2 : Element} {s1 s2 : List Byte}
    (h1 : map_find d._element (TAG_RESCALE_INT.number host_le) = some e1)
    (hv1 : e1._value = .string s1)
    (h2 : map_find d._element (TAG_RESCALE_SLP.number host_le) = some e2)
    (hv2 : e2._value = .string s2) :
    Dicom.parse_image_rescale host_le ext d true =
      (none,
        { d with
          _image :=
            ext.mat_add
              (ext.mat_mul d._image ((ext.lexical_cast_float (trim s2)).getD (.val 1)))
              ((ext.lexical_cast_float (trim s1)).getD (.val 0)) }) := by
  simp [Dicom.parse_image_rescale, Dicom.has_element, Dicom.element, h1, h2,
    Element.as_string, hv1, hv2]

/-- The member function `parse_image` up to the block "rescale", when the summary
step leaves the object `d1` without an exception, the store holds the frame data
as a vector of the type the `switch(this->_bits)` asks for, `reshape` returns
the matrix `m`, and the store holds BitsStored and HighBit as `uint16_t`: what
is left to do is the block "rescale", on the matrix `m` divided by 2 as often
as the unpadding asks for. -/
theorem Dicom.parse_image_built (host_le : Bool) (ext : Ext) (d d1 : Dicom)
    (e e1 e2 : Element) (T : DType) (vs : List Int) (m : Mat) (bit_stored hi_bit : Int)
    (need_rescale : Bool)
    (hs : (if d._cols = 0 ∨ d._rows = 0 ∨ d._bits = 0 ∨ d._chs = 0 then
            Dicom.parse_summary host_le ext d else (none, d)) = (none, d1))
    (hf : map_find d1._element (TAG_FRAME_DATA.number host_le) = some e)
    (hT : image_dtype d1._bits d1._is_signed = some T)
    (hv : e._value = .vector T vs)
    (hm : ext.mat_reshape (ext.mat_of_vector T vs) 1 d1._rows = .ok m)
    (h1 : map_find d1._element (TAG_BIT_STORED.number host_le) = some e1)
    (hv1 : e1._value = .scalar .uint16 bit_stored)
    (h2 : map_find d1._element (TAG_HI_BIT.number host_le) = some e2)
    (hv2 : e2._value = .scalar .uint16 hi_bit) :
    Dicom.parse_image host_le ext d need_rescale =
      Dicom.parse_image_rescale host_le ext
        { d1 with
          _image :=
            if d1._bits ≠ bit_stored then
              Dicom.parse_image_halve ext (hi_bit - bit_stored + 1).toNat m
            else m }
        need_rescale := by
  have hav : e.as_vector T = .ok vs := by simp [Element.as_vector, hv]
  rw [Dicom.parse_image_after_summary need_rescale hs, Dicom.parse_image_frame_of hf hT, hav]
  simp only
  rw [hm]
  simp only
  rw [Dicom.parse_image_unpad_ok (d := { d1 with _image := m }) h1 hv1 h2 hv2]
  simp only
  split <;> rfl

/-! ## Lemmas: the long form of an element -/

/-- `Element::parse` on the header of an Explicit-VR element in long form (tag,
VR, two reserved bytes, 32-bit length): what is left to do is the second
`switch` of `_parse_value_explicit`, twelve bytes further on. -/
theorem Element.parse_long_header (host_le le : Bool) (d : Dicom) (ist : IStream)
    (tag : TypeTag) (v0 v1 r0 r1 : Byte) (L : Nat) (tail : List Byte)
    (ha : d._architecture_as_little_endian = host_le) (hl : d._format_as_little_endian = le)
    (hx : d._format_as_explicit = true)
    (hlong : beNat [v0, v1] ∈ vr_long)
    (h0 : tag.id0 < 65536) (h1 : tag.id1 < 65536) (hz : tag ≠ ⟨0, 0⟩) (hL : L < 4294967296)
    (hg : ist.good = true)
    (hr : ist.rest = encode_u16 le tag.id0 ++ encode_u16 le tag.id1 ++ [v0, v1, r0, r1]
      ++ encode_u32 le L ++ tail) :
    Element.parse host_le d Element.ofParent ist =
      Element._parse_body_explicit host_le d
        { Element.ofParent with _tag := tag, _vr := some (beNat [v0, v1]) }
        (beNat [v0, v1]) { ist with pos := ist.pos + 12 } L := by
  have hnz := TypeTag.number_ne_zero host_le tag hz
  obtain ⟨t0, t1⟩ := tag
  simp only at h0 h1
  obtain ⟨a0, a1, hA⟩ := encode_u16_eq le t0
  obtain ⟨a2, a3, hB⟩ := encode_u16_eq le t1
  obtain ⟨b0, b1, b2, b3, hC⟩ := encode_u32_eq le L
  have hlA : load le [a0, a1] = t0 := by rw [← hA]; exact load_encode_u16 le _ h0
  have hlB : load le [a2, a3] = t1 := by rw [← hB]; exact load_encode_u16 le _ h1
  have hlC : load le [b0, b1, b2, b3] = L := by rw [← hC]; exact load_encode_u32 le _ hL
  have hr0 : ist.rest =
      a0 :: a1 :: a2 :: a3 :: (v0 :: v1 :: r0 :: r1 :: b0 :: b1 :: b2 :: b3 :: tail) := by
    rw [hr]; simp only [hA, hB, hC]; simp
  have hg4 := IStream.good_advance ist 4 hg
  have e1 : Element.parse_tag host_le d Element.ofParent ist =
      (.ok { Element.ofParent with _tag := ⟨t0, t1⟩ }, { ist with pos := ist.pos + 4 }) := by
    rw [Element.parse_tag_ok host_le d _ ist a0 a1 a2 a3 _ rfl ha hg hr0, hl, hlA, hlB]
  have e2 := Element.parse_value_explicit_of host_le d { Element.ofParent with _tag := ⟨t0, t1⟩ }
    { ist with pos := ist.pos + 4 } hnz (by simp [Element._format_as_explicit, hx])
  have e3 := Element.explicit_long host_le d { Element.ofParent with _tag := ⟨t0, t1⟩ }
    { ist with pos := ist.pos + 4 } v0 v1 r0 r1 b0 b1 b2 b3 tail rfl ha hg4
    (by rw [IStream.rest_advance, hr0]; rfl) hlong
  rw [hl, hlC] at e3
  unfold Element.parse
  rw [e1]
  simp only
  rw [e2, e3]

/-- `Element::parse` on a PixelData element (7FE0,0010) in Explicit-VR long
form with VR OB or OW, on a good stream that holds the `L` payload bytes. The
element type `T` of the value is `char` for OB and `uint16_t` for OW; the value
is a `T` when `L / sizeof(T)` is 1 and else the vector of the `L / sizeof(T)`
values read one after the other in the payload. -/
theorem Element.parse_pixel_data (host_le le : Bool) (d : Dicom) (ist : IStream)
    (v0 v1 r0 r1 : Byte) (T : DType) (L : Nat) (tail : List Byte)
    (ha : d._architecture_as_little_endian = host_le) (hl : d._format_as_little_endian = le)
    (hx : d._format_as_explicit = true)
    (hT : (beNat [v0, v1], T) ∈ [(0x4f42, DType.char), (0x4f57, DType.uint16)])
    (hL : L < 4294967296) (hn : L / T.sizeof < 2147483648)
    (hg : ist.good = true)
    (hr : ist.rest = encode_u16 le TAG_FRAME_DATA.id0 ++ encode_u16 le TAG_FRAME_DATA.id1
      ++ [v0, v1, r0, r1] ++ encode_u32 le L ++ tail)
    (ht : L ≤ tail.length) :
    Element.parse host_le d Element.ofParent ist =
      if L / T.sizeof = 1 then
        (.ok { Element.ofParent with
               _tag := TAG_FRAME_DATA
               _vr := some (beNat [v0, v1])
               _value := .scalar T (T.ofMem le (tail.take T.sizeof))
               _is_vector := false },
         { ist with pos := ist.pos + 12 + T.sizeof })
      else
        (.ok { Element.ofParent with
               _tag := TAG_FRAME_DATA
               _vr := some (beNat [v0, v1])
               _value := .vector T ((List.range (L / T.sizeof)).map (fun i =>
                 T.ofMem le ((tail.drop (i * T.sizeof)).take T.sizeof)))
               _is_vector := true },
         { ist with pos := ist.pos + 12 + L / T.sizeof * T.sizeof }) := by
  have hvr : beNat [v0, v1] ∈ vr_long ∧
      ((beNat [v0, v1], T) ∈ vr_typed ∨ (beNat [v0, v1], T) ∈ vr_bytes) := by
    simp only [List.mem_cons, Prod.mk.injEq, List.mem_singleton, List.not_mem_nil,
      or_false] at hT
    rcases hT with ⟨h1, h2⟩ | ⟨h1, h2⟩
    · rw [h1, h2]; exact ⟨by decide, Or.inr (by decide)⟩
    · rw [h1, h2]; exact ⟨by decide, Or.inl (by decide)⟩
  have hrest : ({ ist with pos := ist.pos + 12 } : IStream).rest = tail := by
    rw [IStream.rest_advance, hr]
    obtain ⟨a0, a1, hA⟩ := encode_u16_eq le TAG_FRAME_DATA.id0
    obtain ⟨a2, a3, hB⟩ := encode_u16_eq le TAG_FRAME_DATA.id1
    obtain ⟨b0, b1, b2, b3, hC⟩ := encode_u32_eq le L
    rw [hA, hB, hC]
    rfl
  rw [Element.parse_long_header host_le le d ist TAG_FRAME_DATA v0 v1 r0 r1 L tail ha hl hx
      hvr.1 (by decide) (by decide) (by decide) hL hg hr,
    Element.body_typed host_le d _ _ T _ _ hvr.2,
    Element.data_ok host_le d _ T _ L rfl ha (IStream.good_advance ist 12 hg) hL
      (by rw [hrest]; exact ht),
    hrest, hl, toInt32_of_lt hn, Int.toNat_ofNat]

/-! ## The claims -/

set_option maxRecDepth 100000

/-- C1. For every input byte sequence `bs` (and every prior state of the
object, host and flags) `Dicom::parse` ends. If `bs` has at least 132 bytes
and the four bytes at offsets 128..131 are "DICM", it does not leave with
`ParseError("not DICOM format")`; otherwise it leaves with exactly that error
and the store is empty. The 128 preamble bytes never influence the outcome:
two inputs that differ in them only give the same exception, the same object
and the same stream state. -/
theorem C1_not_dicom_format (host_le : Bool) (ext : Ext) (d : Dicom) (bs : List Byte)
    (parse_all need_rescale : Bool) :
    (if 132 ≤ bs.length ∧ (bs.drop 128).take 4 = bytesOf "DICM" then
      ∃ o, Dicom.parse host_le ext d (IStream.ofBytes bs) parse_all need_rescale = some o
        ∧ o.error ≠ some (.ParseError "not DICOM format")
    else
      ∃ o, Dicom.parse host_le ext d (IStream.ofBytes bs) parse_all need_rescale = some o
        ∧ o.error = some (.ParseError "not DICOM format") ∧ o.dicom._element = [])
    ∧ ∀ (pre1 pre2 : Fin 128 → Byte) (rest : List Byte),
        (Dicom.parse host_le ext d (IStream.ofBytes (List.ofFn pre1 ++ rest))
            parse_all need_rescale).map (fun o => (o.error, o.dicom, o.ist.state)) =
        (Dicom.parse host_le ext d (IStream.ofBytes (List.ofFn pre2 ++ rest))
            parse_all need_rescale).map (fun o => (o.error, o.dicom, o.ist.state)) := by
  refine ⟨?_, Dicom.parse_preamble host_le ext d parse_all need_rescale⟩
  split
  · rename_i h
    exact Dicom.parse_magic host_le ext d bs parse_all need_rescale h
  · rename_i h
    exact Dicom.parse_bad_magic host_le ext d bs parse_all need_rescale h

/-- C2. With the Transfer Syntax UID element in the store holding the string
`s`, the block "get format info." of `Dicom::parse` tries the substrings
"1.2.840.10008.1.2.2", "1.2.840.10008.1.2.1.99", "1.2.840.10008.1.2.1",
"1.2.840.10008.1.2" in this order and the first one found decides. So for each
of the four UIDs `u` and every padding `p` of NULs and spaces the value
`u ++ p` selects the mode of `u` itself: BEE (false, true, false), Deflated
LEE (true, true, true), LEE (true, true, false), LEI (true, false, false). -/
theorem C2_transfer_syntax_priority (host_le : Bool) (d : Dicom) (e : Element)
    (s p : List Byte)
    (he : map_find d._element (TAG_TRANSFER_SYNTAX_UID.number host_le) = some e)
    (hs : e._value = .string s)
    (hp : ∀ c ∈ p, c = 0x00 ∨ c = 0x20) :
    (string_find UID_BEE s 0 ≠ none →
      Dicom.parse_format_info host_le d =
        (none, { d with _format_as_little_endian := false, _format_as_explicit := true,
                        _format_as_deflate := false }))
    ∧ (string_find UID_BEE s 0 = none → string_find UID_DEFLATED_LEE s 0 ≠ none →
      Dicom.parse_format_info host_le d =
        (none, { d with _format_as_little_endian := true, _format_as_explicit := true,
                        _format_as_deflate := true }))
    ∧ (string_find UID_BEE s 0 = none → string_find UID_DEFLATED_LEE s 0 = none →
        string_find UID_LEE s 0 ≠ none →
      Dicom.parse_format_info host_le d =
        (none, { d with _format_as_little_endian := true, _format_as_explicit := true,
                        _format_as_deflate := false }))
    ∧ (string_find UID_BEE s 0 = none → string_find UID_DEFLATED_LEE s 0 = none →
        string_find UID_LEE s 0 = none → string_find UID_LEI s 0 ≠ none →
      Dicom.parse_format_info host_le d =
        (none, { d with _format_as_little_endian := true, _format_as_explicit := false,
                        _format_as_deflate := false }))
    ∧ (s = UID_BEE ++ p →
      Dicom.parse_format_info host_le d =
        (none, { d with _format_as_little_endian := false, _format_as_explicit := true,
                        _format_as_deflate := false }))
    ∧ (s = UID_DEFLATED_LEE ++ p →
      Dicom.parse_format_info host_le d =
        (none, { d with _format_as_little_endian := true, _format_as_explicit := true,
                        _format_as_deflate := true }))
    ∧ (s = UID_LEE ++ p →
      Dicom.parse_format_info host_le d =
        (none, { d with _format_as_little_endian := true, _format_as_explicit := true,
                        _format_as_deflate := false }))
    ∧ (s = UID_LEI ++ p →
      Dicom.parse_format_info host_le d =
        (none, { d with _format_as_little_endian := true, _format_as_explicit := false,
                        _format_as_deflate := false })) := by
  rw [Dicom.parse_format_info_string host_le d e s he hs]
  refine ⟨?_, ?_, ?_, ?_, ?_, ?_, ?_, ?_⟩
  · intro h1
    simp only [Dicom.select_format, if_pos h1]
  · intro h1 h2
    simp only [Dicom.select_format, h1, h2, ne_eq, not_true_eq_false, if_false,
      not_false_eq_true, if_true]
  · intro h1 h2 h3
    simp only [Dicom.select_format, h1, h2, h3, ne_eq, not_true_eq_false, if_false,
      not_false_eq_true, if_true]
  · intro h1 h2 h3 h4
    simp only [Dicom.select_format, h1, h2, h3, h4, ne_eq, not_true_eq_false, if_false,
      not_false_eq_true, if_true]
  · intro h
    rw [h, Dicom.select_format_pad d _ p hp, Dicom.select_format_BEE]
  · intro h
    rw [h, Dicom.select_format_pad d _ p hp, Dicom.select_format_DEFLATED_LEE]
  · intro h
    rw [h, Dicom.select_format_pad d _ p hp, Dicom.select_format_LEE]
  · intro h
    rw [h, Dicom.select_format_pad d _ p hp, Dicom.select_format_LEI]

/-- C2 at a store holding the UID "1.2.840.10008.1.2.1" with the padding NUL,
space: the mode selected is LEE, not Deflated LEE and not LEI. -/
theorem C2_transfer_syntax_priority_witness :
    Dicom.parse_format_info true
        { Dicom.default with
          _element := [(TAG_TRANSFER_SYNTAX_UID.number true,
            { Element.ofParent with _value := .string (UID_LEE ++ [0x00, 0x20]) })] } =
      (none,
        { Dicom.default with
          _element := [(TAG_TRANSFER_SYNTAX_UID.number true,
            { Element.ofParent with _value := .string (UID_LEE ++ [0x00, 0x20]) })],
          _format_as_little_endian := true,
          _format_as_explicit := true,
          _format_as_deflate := false }) :=
  (C2_transfer_syntax_priority true
    { Dicom.default with
      _element := [(TAG_TRANSFER_SYNTAX_UID.number true,
        { Element.ofParent with _value := .string (UID_LEE ++ [0x00, 0x20]) })] }
    { Element.ofParent with _value := .string (UID_LEE ++ [0x00, 0x20]) }
    (UID_LEE ++ [0x00, 0x20]) [0x00, 0x20] rfl rfl (by decide)).2.2.2.2.2.2.1 rfl

/-- C3 as stated fails: the UID "1.2.840.10008.1.2.4.50" is none of the four
recognized UIDs, yet it contains "1.2.840.10008.1.2", so the main body of
`file_jpeg_uid` is read as Little-Endian Implicit-VR (explicit_vr = false):
the element (0008,0005) is stored as opaque bytes without a VR. -/
theorem C3_other_uid_keeps_LEE_counterexample :
    (Dicom.parse_file true Dicom.default (IStream.ofBytes file_jpeg_uid)).map
        (fun o => (o.error, o.dicom._format_as_little_endian, o.dicom._format_as_explicit,
          o.dicom._format_as_deflate,
          map_find o.dicom._element ((⟨0x0008, 0x0005⟩ : TypeTag).number true))) =
      some (none, true, false, false,
        some { Element.ofParent with _tag := ⟨0x0008, 0x0005⟩,
                                     _value := .vector .uchar [0x41, 0x42],
                                     _is_vector := true })
    ∧ bytesOf "1.2.840.10008.1.2.4.50" ∉ [UID_BEE, UID_DEFLATED_LEE, UID_LEE, UID_LEI] :=
  ⟨by rfl, by decide⟩

/-- C3, amended. When the first loop of `Dicom::parse` has ended without an
exception and the store either lacks the (0002,0010) element or holds it as a
string that contains none of the four recognized UIDs as a substring, the
second loop (the main body) runs in the meta-group default mode LEE
(little_endian = true, explicit_vr = true, deflated = false). -/
theorem C3_default_mode_LEE (host_le : Bool) (d : Dicom) (ist : IStream) (d1 : Dicom)
    (ist1 : IStream)
    (hf : ist.failbit = false)
    (hm : Dicom.parse_meta host_le d ist = some ⟨none, d1, ist1⟩)
    (hu : map_find d1._element (TAG_TRANSFER_SYNTAX_UID.number host_le) = none
      ∨ ∃ e s, map_find d1._element (TAG_TRANSFER_SYNTAX_UID.number host_le) = some e
          ∧ e._value = .string s
          ∧ string_find UID_BEE s 0 = none ∧ string_find UID_DEFLATED_LEE s 0 = none
          ∧ string_find UID_LEE s 0 = none ∧ string_find UID_LEI s 0 = none) :
    Dicom.parse_file host_le d ist =
      Dicom.parse_main_loop host_le (ist1.data.length + 1) d1 ist1
    ∧ d1._format_as_little_endian = true ∧ d1._format_as_explicit = true
    ∧ d1._format_as_deflate = false := by
  obtain ⟨o, ho, -, hflags, -⟩ := Dicom.parse_meta_spec host_le d ist hf
  rw [hm] at ho
  simp only [Option.some.injEq] at ho
  subst ho
  obtain ⟨-, h1, h2, h3, -⟩ := hflags rfl
  simp only at h1 h2 h3
  refine ⟨?_, h1, h2, h3⟩
  have hinfo : Dicom.parse_format_info host_le d1 = (none, d1) := by
    rcases hu with hu | ⟨e, s, he, hs, n1, n2, n3, n4⟩
    · exact Dicom.parse_format_info_absent host_le d1 hu
    · rw [Dicom.parse_format_info_string host_le d1 e s he hs]
      simp [Dicom.select_format, n1, n2, n3, n4]
  simp only [Dicom.parse_file, hm, hinfo, h3, Bool.false_eq_true, if_false]

/-- C3, amended, at `file_other_uid`, whose UID "1.2.3" contains none of the
four: the main body is read by the second loop in mode LEE. -/
theorem C3_default_mode_LEE_witness :
    Dicom.parse_file true Dicom.default (IStream.ofBytes file_other_uid) =
      Dicom.parse_main_loop true ((⟨file_other_uid, 146, false, false⟩ : IStream).data.length + 1)
        { Dicom.default with
          _element := [(TAG_TRANSFER_SYNTAX_UID.number true,
            { Element.ofParent with _tag := TAG_TRANSFER_SYNTAX_UID, _vr := some 0x5549,
                                    _value := .string (bytesOf "1.2.3" ++ [0x00]) })] }
        ⟨file_other_uid, 146, false, false⟩ :=
  (C3_default_mode_LEE true Dicom.default (IStream.ofBytes file_other_uid)
    { Dicom.default with
      _element := [(TAG_TRANSFER_SYNTAX_UID.number true,
        { Element.ofParent with _tag := TAG_TRANSFER_SYNTAX_UID, _vr := some 0x5549,
                                _value := .string (bytesOf "1.2.3" ++ [0x00]) })] }
    ⟨file_other_uid, 146, false, false⟩ rfl (by rfl)
    (Or.inr ⟨_, _, rfl, rfl, by decide, by decide, by decide, by decide⟩)).1

/-- C5 as stated fails: in `file_meta_in_body`, a Little-Endian Implicit-VR
file, the element (0002,0003) comes after a main-body element; `parse` stores
it under its group-0x0002 tag as opaque bytes without a VR, which no decoding
in Explicit-VR mode returns. -/
theorem C5_meta_group_LEE_counterexample :
    (Dicom.parse_file true Dicom.default (IStream.ofBytes file_meta_in_body)).map
        (fun o => (o.error,
          map_find o.dicom._element ((⟨0x0002, 0x0003⟩ : TypeTag).number true))) =
      some (none,
        some { Element.ofParent with _tag := ⟨0x0002, 0x0003⟩,
                                     _value := .vector .uchar [0x58, 0x59],
                                     _is_vector := true })
    ∧ ¬ ∃ (d1 : Dicom) (ist ist1 : IStream), d1._format_as_explicit = true
        ∧ Element.parse true d1 Element.ofParent ist =
            (.ok { Element.ofParent with _tag := ⟨0x0002, 0x0003⟩,
                                         _value := .vector .uchar [0x58, 0x59],
                                         _is_vector := true }, ist1) :=
  ⟨by rfl, fun ⟨_, _, _, hx, h⟩ => Element.parse_explicit_vr hx h rfl⟩

/-- C5, amended. For every input (whatever the host, the prior state of the
object and the Transfer Syntax UID the file declares) the reading part of
`Dicom::parse` ends, and every element its first loop stores (the leading run
of group-0x0002 elements, kept in the store when the mode for the main body
is chosen) has group 0x0002 and was decoded as Little-Endian Explicit-VR: it
is what `Element::parse` returns at some offset of the input for an object in
mode (little_endian = true, explicit_vr = true). Every element of the final
store is one of those or was decoded by the second loop in the mode in force
for the main body. -/
theorem C5_meta_run_LEE (host_le : Bool) (d : Dicom) (bs : List Byte) :
    ∃ o1 o, Dicom.parse_meta host_le d (IStream.ofBytes bs) = some o1
      ∧ Dicom.parse_file host_le d (IStream.ofBytes bs) = some o
      ∧ (∀ p ∈ o1.dicom._element,
          p.2._tag.id0 = 0x0002 ∧ p.1 = p.2._tag.number host_le ∧
            ∃ (d1 : Dicom) (pos : Nat) (ist1 : IStream),
              d1._architecture_as_little_endian = host_le
              ∧ d1._format_as_little_endian = true ∧ d1._format_as_explicit = true
              ∧ Element.parse host_le d1 Element.ofParent ⟨bs, pos, false, false⟩
                  = (.ok p.2, ist1))
      ∧ (∀ p ∈ o.dicom._element, p ∈ o1.dicom._element ∨
          (p.1 = p.2._tag.number host_le ∧
            ∃ (d1 : Dicom) (pos : Nat) (ist1 : IStream),
              d1._architecture_as_little_endian = o.dicom._architecture_as_little_endian
              ∧ d1._format_as_little_endian = o.dicom._format_as_little_endian
              ∧ d1._format_as_explicit = o.dicom._format_as_explicit
              ∧ Element.parse host_le d1 Element.ofParent ⟨bs, pos, false, false⟩
                  = (.ok p.2, ist1))) := by
  obtain ⟨o1, o, h1, h2, h3⟩ := Dicom.parse_file_store host_le d (IStream.ofBytes bs) rfl
  obtain ⟨o1b, h1b, -, -, hmem⟩ := Dicom.parse_meta_spec host_le d (IStream.ofBytes bs) rfl
  rw [h1] at h1b
  simp only [Option.some.injEq] at h1b
  subst h1b
  refine ⟨o1, o, h1, h2, ?_, h3⟩
  intro p hp
  obtain ⟨g, k, -, d1, pos, ist1, a1, a2, a3, a4⟩ := hmem p hp
  exact ⟨g, k, d1, pos, ist1, a1, a2, a3, a4⟩

/-- C6. In Explicit-VR mode (an element of a `Dicom` whose recorded host order
is the host's) the value length is taken from the header as follows. For a VR
code in {OB, OW, OF, SQ, UT, UN} the two bytes `r0 r1` after the VR are skipped,
whatever they are, and the next four bytes are the length; for any other VR
code the two bytes after the VR are the length. Either integer is the one a
machine of the stream's byte order reads in those bytes, which is the host's
reading byte-swapped exactly when `_need_byte_swap` holds. -/
theorem C6_explicit_length_header (host_le : Bool) (d : Dicom) (e : Element) (ist : IStream)
    (v0 v1 : Byte)
    (hp : e._parent = true) (ha : d._architecture_as_little_endian = host_le)
    (hg : ist.good = true) :
    (∀ (r0 r1 b0 b1 b2 b3 : Byte) (tail : List Byte),
      ist.rest = v0 :: v1 :: r0 :: r1 :: b0 :: b1 :: b2 :: b3 :: tail →
      beNat [v0, v1] ∈ vr_long →
      Element._parse_value_explicit host_le d e ist =
        Element._parse_body_explicit host_le d { e with _vr := some (beNat [v0, v1]) }
          (beNat [v0, v1]) { ist with pos := ist.pos + 8 }
          (load d._format_as_little_endian [b0, b1, b2, b3])
      ∧ load d._format_as_little_endian [b0, b1, b2, b3] =
          (if d._need_byte_swap = true then bswap_32 (load host_le [b0, b1, b2, b3])
            else load host_le [b0, b1, b2, b3]))
    ∧ (∀ (b0 b1 : Byte) (tail : List Byte),
      ist.rest = v0 :: v1 :: b0 :: b1 :: tail →
      beNat [v0, v1] ∉ vr_long →
      Element._parse_value_explicit host_le d e ist =
        Element._parse_body_explicit host_le d { e with _vr := some (beNat [v0, v1]) }
          (beNat [v0, v1]) { ist with pos := ist.pos + 4 }
          (load d._format_as_little_endian [b0, b1])
      ∧ load d._format_as_little_endian [b0, b1] =
          (if d._need_byte_swap = true then bswap_16 (load host_le [b0, b1])
            else load host_le [b0, b1])) := by
  have hsw : d._need_byte_swap = (host_le != d._format_as_little_endian) := by
    simp [Dicom._need_byte_swap, ha]
  refine ⟨?_, ?_⟩
  · intro r0 r1 b0 b1 b2 b3 tail hr hv
    refine ⟨Element.explicit_long host_le d e ist v0 v1 r0 r1 b0 b1 b2 b3 tail hp ha hg hr hv, ?_⟩
    rw [hsw, swap32_eq_load]
  · intro b0 b1 tail hr hv
    refine ⟨Element.explicit_short host_le d e ist v0 v1 b0 b1 tail hp ha hg hr hv, ?_⟩
    rw [hsw, swap16_eq_load]

/-- C6 at an OB header `4F 42 AA BB 02 00 00 00` on a little-endian host and
stream: the reserved bytes `AA BB` are skipped and the length is 2. -/
theorem C6_explicit_length_header_witness :
    Element._parse_value_explicit true Dicom.default Element.ofParent
        (IStream.ofBytes [0x4f, 0x42, 0xAA, 0xBB, 0x02, 0x00, 0x00, 0x00, 0x07, 0x09]) =
      Element._parse_body_explicit true Dicom.default
        { Element.ofParent with _vr := some (beNat [0x4f, 0x42]) } (beNat [0x4f, 0x42])
        { IStream.ofBytes [0x4f, 0x42, 0xAA, 0xBB, 0x02, 0x00, 0x00, 0x00, 0x07, 0x09] with
          pos := (IStream.ofBytes
            [0x4f, 0x42, 0xAA, 0xBB, 0x02, 0x00, 0x00, 0x00, 0x07, 0x09]).pos + 8 }
        (load Dicom.default._format_as_little_endian [0x02, 0x00, 0x00, 0x00]) :=
  ((C6_explicit_length_header true Dicom.default Element.ofParent
      (IStream.ofBytes [0x4f, 0x42, 0xAA, 0xBB, 0x02, 0x00, 0x00, 0x00, 0x07, 0x09])
      0x4f 0x42 rfl rfl rfl).1 0xAA 0xBB 0x02 0x00 0x00 0x00 [0x07, 0x09] rfl (by decide)).1

/-- C7. For a typed fixed-width VR (SS, SL, US, AT, OW, UL, FL, OF, FD) with
element type `T` of size `s`, on a good stream that holds the `k*s` payload
bytes: for `k = 1` the element decoded is the scalar (`_is_vector = false`)
that a machine of the stream's byte order reads in the `s` payload bytes; for
`k > 1` it is the vector (`_is_vector = true`) of exactly `k` values, the i-th
one read in bytes `[i*s, (i+1)*s)` of the payload. Each value on its own is the
host's reading of its bytes, reversed exactly when `_need_byte_swap` holds. -/
theorem C7_typed_scalar_or_vector (host_le : Bool) (d : Dicom) (e : Element) (ist : IStream)
    (vr : Nat) (T : DType) (k : Nat)
    (hp : e._parent = true) (ha : d._architecture_as_little_endian = host_le)
    (hT : (vr, T) ∈ vr_typed) (hg : ist.good = true)
    (h32 : k * T.sizeof < 4294967296) (hn : k * T.sizeof ≤ ist.rest.length) :
    (k = 1 →
      Element._parse_body_explicit host_le d e vr ist (k * T.sizeof) =
        (.ok { e with _value := .scalar T
                        (T.ofMem d._format_as_little_endian (ist.rest.take (k * T.sizeof))),
                      _is_vector := false },
         { ist with pos := ist.pos + k * T.sizeof }))
    ∧ (1 < k →
      Element._parse_body_explicit host_le d e vr ist (k * T.sizeof) =
        (.ok { e with _value := .vector T
                        ((List.range k).map (fun i => T.ofMem d._format_as_little_endian
                          (((ist.rest.take (k * T.sizeof)).drop (i * T.sizeof)).take T.sizeof))),
                      _is_vector := true },
         { ist with pos := ist.pos + k * T.sizeof }))
    ∧ (∀ chunk : List Byte, chunk.length = T.sizeof →
        T.ofMem d._format_as_little_endian chunk =
          (if d._need_byte_swap = true then T.ofMem host_le chunk.reverse
            else T.ofMem host_le chunk)) := by
  have hs := vr_typed_sizeof hT
  have hdiv : k * T.sizeof / T.sizeof = k := Nat.mul_div_cancel _ (by omega)
  have hk : k < 2147483648 := by
    by_contra hc
    have : 2147483648 * 2 ≤ k * T.sizeof := Nat.mul_le_mul (by omega) hs
    omega
  have hdata := Element.data_ok host_le d e T ist (k * T.sizeof) hp ha hg h32 hn
  rw [hdiv, toInt32_of_lt hk] at hdata
  rw [Element.body_typed host_le d e vr T ist _ (Or.inl hT), hdata]
  refine ⟨?_, ?_, ?_⟩
  · intro h1
    subst h1
    simp
  · intro h1
    have hne : k ≠ 1 := by omega
    simp only [hne, if_false, Int.toNat_ofNat]
    congr 4
    apply List.map_congr_left
    intro i hi
    rw [chunk_of_take _ _ _ _ (List.mem_range.mp hi)]
  · intro chunk hc
    have hsw : d._need_byte_swap = (host_le != d._format_as_little_endian) := by
      simp [Dicom._need_byte_swap, ha]
    have := DType.ofMem_swap host_le d._format_as_little_endian T chunk hc
    rw [← this, hsw]
    have h1 : decide (T.sizeof > 1) = true := by simp; omega
    simp [h1]

/-- C7 at VR US on the payload `01 02 03 04` of a big-endian stream read on a
little-endian host: the two values are 0x0102 and 0x0304. -/
theorem C7_typed_scalar_or_vector_witness :
    Element._parse_body_explicit true { Dicom.default with _format_as_little_endian := false }
        Element.ofParent 0x5553 (IStream.ofBytes [0x01, 0x02, 0x03, 0x04, 0xFF]) 4 =
      (.ok { Element.ofParent with _value := .vector .uint16 [0x0102, 0x0304],
                                   _is_vector := true },
       { IStream.ofBytes [0x01, 0x02, 0x03, 0x04, 0xFF] with pos := 4 }) :=
  (C7_typed_scalar_or_vector true { Dicom.default with _format_as_little_endian := false }
    Element.ofParent (IStream.ofBytes [0x01, 0x02, 0x03, 0x04, 0xFF]) 0x5553 .uint16 2
    rfl rfl (by decide) rfl (by decide) (by decide)).2.1 (by decide)

/-- C8 as stated fails: VR US (element size 2) with payload length 3 decodes to
a scalar (`_is_vector = false`) although 3 differs from the element size. -/
theorem C8_scalar_iff_length_counterexample :
    Element._parse_body_explicit true Dicom.default Element.ofParent 0x5553
        (IStream.ofBytes [0x01, 0x00, 0x09]) 3 =
      (.ok { Element.ofParent with _value := .scalar .uint16 1, _is_vector := false },
       { IStream.ofBytes [0x01, 0x00, 0x09] with pos := 2 })
    ∧ (3 : Nat) ≠ DType.uint16.sizeof :=
  ⟨rfl, by decide⟩

/-- C8, amended. For every typed VR (SS, SL, US, AT, OW, UL, FL, OF, FD, and OB,
UN with `T = char`) with element type `T` of size `s` and every payload length
`L` (a `uint32_t`) on a good stream holding `L` bytes, decoding returns an
element; it is a scalar of `T` with `_is_vector = false` exactly when
`floor(L/s) = 1`, that is when `s ≤ L < 2*s`, and otherwise a vector of `T`
with `_is_vector = true`. -/
theorem C8_scalar_iff_one_element (host_le : Bool) (d : Dicom) (e : Element) (ist : IStream)
    (vr : Nat) (T : DType) (L : Nat)
    (hp : e._parent = true) (ha : d._architecture_as_little_endian = host_le)
    (hT : (vr, T) ∈ vr_typed ∨ (vr, T) ∈ vr_bytes) (hg : ist.good = true)
    (h32 : L < 4294967296) (hn : L ≤ ist.rest.length) :
    ∃ e1 ist1, Element._parse_body_explicit host_le d e vr ist L = (.ok e1, ist1)
      ∧ (e1._is_vector = false ↔ (T.sizeof ≤ L ∧ L < 2 * T.sizeof))
      ∧ ((T.sizeof ≤ L ∧ L < 2 * T.sizeof) → ∃ v, e1._value = .scalar T v)
      ∧ (¬ (T.sizeof ≤ L ∧ L < 2 * T.sizeof) →
          e1._is_vector = true ∧ ∃ vs, e1._value = .vector T vs) := by
  have hs := T.sizeof_pos
  have hiff : L / T.sizeof = 1 ↔ (T.sizeof ≤ L ∧ L < 2 * T.sizeof) := by
    constructor
    · intro h
      have h1 := Nat.div_mul_le_self L T.sizeof
      have h2 := Nat.lt_div_mul_add (a := L) hs
      rw [h] at h1 h2
      omega
    · intro h
      exact Nat.div_eq_of_lt_le (by omega) (by omega)
  rw [Element.body_typed host_le d e vr T ist L hT,
    Element.data_ok host_le d e T ist L hp ha hg h32 hn]
  by_cases h1 : L / T.sizeof = 1
  · rw [if_pos h1]
    exact ⟨_, _, rfl, by simpa using hiff.mp h1, fun _ => ⟨_, rfl⟩,
      fun hc => absurd (hiff.mp h1) hc⟩
  · rw [if_neg h1]
    have h2 : ¬ (T.sizeof ≤ L ∧ L < 2 * T.sizeof) := fun hc => h1 (hiff.mpr hc)
    exact ⟨_, _, rfl, by simpa using h2, fun hc => absurd hc h2, fun _ => ⟨rfl, _, rfl⟩⟩

/-- C8, amended, at VR US with payload length 3 on a stream of three bytes: the
element is a scalar, as 2 ≤ 3 < 4. -/
theorem C8_scalar_iff_one_element_witness :
    ∃ e1 ist1, Element._parse_body_explicit true Dicom.default Element.ofParent 0x5553
        (IStream.ofBytes [0x01, 0x00, 0x09]) 3 = (.ok e1, ist1)
      ∧ (e1._is_vector = false ↔ (DType.uint16.sizeof ≤ 3 ∧ 3 < 2 * DType.uint16.sizeof))
      ∧ ((DType.uint16.sizeof ≤ 3 ∧ 3 < 2 * DType.uint16.sizeof) →
          ∃ v, e1._value = .scalar .uint16 v)
      ∧ (¬ (DType.uint16.sizeof ≤ 3 ∧ 3 < 2 * DType.uint16.sizeof) →
          e1._is_vector = true ∧ ∃ vs, e1._value = .vector .uint16 vs) :=
  C8_scalar_iff_one_element true Dicom.default Element.ofParent
    (IStream.ofBytes [0x01, 0x00, 0x09]) 0x5553 .uint16 3 rfl rfl (Or.inl (by decide)) rfl
    (by decide) (by decide)

/-- C9. For each of the string VRs CS, DA, DS, DT, IS, LO, LT, PN, SH, ST, TM,
UI, UT and every payload of `L` bytes held by a good stream, the value decoded
is the string of exactly those `L` bytes in order (nothing trimmed, every NUL
kept) with `_is_vector = false`, and the stream is left behind the payload. -/
theorem C9_string_payload_verbatim (host_le : Bool) (d : Dicom) (e : Element) (ist : IStream)
    (vr : Nat) (L : Nat)
    (hv : vr ∈ vr_string) (hg : ist.good = true) (hn : L ≤ ist.rest.length) :
    Element._parse_body_explicit host_le d e vr ist L =
      (.ok { e with _value := .string (ist.rest.take L), _is_vector := false },
       { ist with pos := ist.pos + L }) := by
  simp only [Element._parse_body_explicit, if_pos hv, Element._read_element_data_string,
    IStream.read_ok ist L hg hn]

/-- C9 at VR CS on the payload `"A", NUL, "B", space, NUL`: all five bytes are
kept. -/
theorem C9_string_payload_verbatim_witness :
    Element._parse_body_explicit true Dicom.default Element.ofParent 0x4353
        (IStream.ofBytes [0x41, 0x00, 0x42, 0x20, 0x00, 0x7F]) 5 =
      (.ok { Element.ofParent with _value := .string [0x41, 0x00, 0x42, 0x20, 0x00],
                                   _is_vector := false },
       { IStream.ofBytes [0x41, 0x00, 0x42, 0x20, 0x00, 0x7F] with pos := 5 }) :=
  C9_string_payload_verbatim true Dicom.default Element.ofParent
    (IStream.ofBytes [0x41, 0x00, 0x42, 0x20, 0x00, 0x7F]) 0x4353 5 (by decide) rfl (by decide)

/-- C10 as stated fails at `L = 1`: an Implicit-VR element of length 1 (length
bytes `01 00 00 00`, payload `07`) is decoded to the scalar byte 7 with
`_is_vector = false`, not to a byte vector. -/
theorem C10_sequence_defined_length_counterexample :
    Element._parse_value_implicit true { Dicom.default with _format_as_explicit := false }
        Element.ofParent (IStream.ofBytes [0x01, 0x00, 0x00, 0x00, 0x07]) =
      (.ok { Element.ofParent with _value := .scalar .uchar 7, _is_vector := false },
       { IStream.ofBytes [0x01, 0x00, 0x00, 0x00, 0x07] with pos := 5 })
    ∧ Value.scalar .uchar 7 ≠ Value.vector .uchar [7] :=
  ⟨rfl, by decide⟩

/-- C10, amended. Sequence decoding is what VR SQ gets in Explicit mode and
what every element gets in Implicit mode (there with the four length bytes
read in the stream's byte order). For every length `L` below 2^31 on a good
stream holding `L` bytes: if `L` is not 1 it yields the vector of
`unsigned char` (`_is_vector = true`) holding exactly the next `L` bytes of
the stream; if `L` is 1 it yields the next byte as a scalar `unsigned char`
(`_is_vector = false`). In both cases the stream is left `L` bytes on. -/
theorem C10_sequence_defined_length (host_le : Bool) (d : Dicom) (e : Element) (ist : IStream)
    (L : Nat)
    (hp : e._parent = true) (ha : d._architecture_as_little_endian = host_le)
    (hg : ist.good = true) (h31 : L < 2147483648) (hn : L ≤ ist.rest.length) :
    (L ≠ 1 →
      Element._read_element_data_sequence host_le d e ist L =
        (.ok { e with _value := .vector .uchar ((ist.rest.take L).map (fun b => (b.toNat : Int))),
                      _is_vector := true },
         { ist with pos := ist.pos + L }))
    ∧ (∀ (b : Byte) (tail : List Byte), ist.rest = b :: tail → L = 1 →
      Element._read_element_data_sequence host_le d e ist L =
        (.ok { e with _value := .scalar .uchar (b.toNat : Int), _is_vector := false },
         { ist with pos := ist.pos + L }))
    ∧ Element._parse_body_explicit host_le d e 0x5351 ist L =
        Element._read_element_data_sequence host_le d e ist L
    ∧ (∀ (b0 b1 b2 b3 : Byte) (tail : List Byte), ist.rest = b0 :: b1 :: b2 :: b3 :: tail →
        Element._parse_value_implicit host_le d e ist =
          Element._read_element_data_sequence host_le d e { ist with pos := ist.pos + 4 }
            (load d._format_as_little_endian [b0, b1, b2, b3])) := by
  have hne : L ≠ 0xFFFFFFFF := by omega
  have hdata := Element.data_ok host_le d e .uchar ist L hp ha hg (by omega) hn
  have hsz : DType.uchar.sizeof = 1 := rfl
  rw [hsz, Nat.div_one, toInt32_of_lt h31, Int.toNat_ofNat] at hdata
  refine ⟨?_, ?_, ?_, ?_⟩
  · intro h1
    simp only [Element._read_element_data_sequence, if_pos hne, hdata, if_neg h1]
    rw [range_map_bytes _ L ist.rest hn]
    simp [uchar_ofMem_single]
  · intro b tail hr h1
    subst h1
    simp [Element._read_element_data_sequence, hdata, hr, uchar_ofMem_single]
  · simp [Element._parse_body_explicit, vr_string]
  · intro b0 b1 b2 b3 tail hr
    have h4 : 4 ≤ ist.rest.length := by simp [hr]
    simp only [Element._parse_value_implicit, IStream.read_ok ist 4 hg h4,
      Element.need_swap_of_parent host_le d e hp ha, hr, List.take_succ_cons, List.take_zero,
      swap32_eq_load]

/-- C10, amended, at `L = 3` in Implicit mode: the three bytes behind the
length `03 00 00 00` are the vector decoded. -/
theorem C10_sequence_defined_length_witness :
    Element._read_element_data_sequence true Dicom.default Element.ofParent
        (IStream.ofBytes [0x0A, 0x0B, 0x0C, 0x0D]) 3 =
      (.ok { Element.ofParent with _value := .vector .uchar [0x0A, 0x0B, 0x0C],
                                   _is_vector := true },
       { IStream.ofBytes [0x0A, 0x0B, 0x0C, 0x0D] with pos := 3 }) :=
  (C10_sequence_defined_length true Dicom.default Element.ofParent
    (IStream.ofBytes [0x0A, 0x0B, 0x0C, 0x0D]) 3 rfl rfl rfl (by decide) (by decide)).1
    (by decide)

/-- C11. Undefined-length decoding (`len = 0xFFFFFFFF`) on a good stream whose
unread bytes are `B ++ end_of_sequence ++ rest`, where `B` does not contain the
mark `FF FE E0 DD 00 00 00 00`: the scan stops at the end of the mark, so that
exactly `rest` is left unread, and the value is the vector of the bytes of `B`,
without its first four bytes when these are `FE FF E0 00`. -/
theorem C11_undefined_length_sequence (host_le : Bool) (d : Dicom) (e : Element)
    (ist : IStream) (B rest : List Byte)
    (hg : ist.good = true) (hr : ist.rest = B ++ end_of_sequence ++ rest)
    (hB : ¬ List.IsInfix end_of_sequence B) :
    Element._read_element_data_sequence host_le d e ist 0xFFFFFFFF =
      (.ok { e with
             _value := .vector .uchar
               ((if B.take 4 = [0xFE, 0xFF, 0xE0, 0x00] then B.drop 4 else B).map
                 (fun b => (b.toNat : Int)))
             _is_vector := true },
       { ist with pos := ist.pos + (B.length + 8) })
    ∧ ({ ist with pos := ist.pos + (B.length + 8) } : IStream).rest = rest := by
  have hlen : end_of_sequence.length = 8 := rfl
  have hloop : Element._read_sequence_loop ist.rest [0, 0, 0, 0, 0, 0, 0, 0] [] =
      some (B ++ end_of_sequence, rest) := by
    rw [hr]
    have := Element.sequence_loop_first_match (B ++ end_of_sequence) rest
      [0, 0, 0, 0, 0, 0, 0, 0] [] rfl (by simp [end_of_sequence])
      (end_of_sequence_first B hB) (by
        rw [← List.append_assoc, List.drop_append_of_le_length (by simp [hlen]),
          List.length_append, hlen]
        have : ([0, 0, 0, 0, 0, 0, 0, 0] ++ B : List Byte).length = B.length + 8 := by
          simp
        rw [List.drop_eq_nil_of_le (by omega), List.nil_append])
    simpa using this
  refine ⟨?_, ?_⟩
  · unfold Element._read_element_data_sequence
    rw [if_neg (by decide), if_pos hg, hloop]
    have h1 : (B ++ end_of_sequence).length ≥ 8 := by simp [hlen]
    have h2 : (B ++ end_of_sequence).take ((B ++ end_of_sequence).length - 8) = B := by
      simp [hlen]
    have h3 : ist.rest.length - rest.length = B.length + 8 := by
      rw [hr]; simp [hlen]; omega
    simp only [h1, h2, h3, if_true]
    have h4 : (decide (B.length ≥ 4) && decide (B.take 4 = [0xFE, 0xFF, 0xE0, 0x00])) =
        decide (B.take 4 = [0xFE, 0xFF, 0xE0, 0x00]) := by
      by_cases hb : B.take 4 = [0xFE, 0xFF, 0xE0, 0x00]
      · have : (B.take 4).length = 4 := by rw [hb]; rfl
        rw [List.length_take] at this
        simp [hb]
        omega
      · simp [hb]
    simp only [h4, decide_eq_true_eq]
  · rw [IStream.rest_advance, hr]
    simp [hlen]

/-- C11 at `B = FE FF E0 00 41 42`, followed by the mark and one more byte
`99`: the value is `41 42` and the stream is left at offset 14, before `99`. -/
theorem C11_undefined_length_sequence_witness :
    Element._read_element_data_sequence true Dicom.default Element.ofParent
        (IStream.ofBytes ([0xFE, 0xFF, 0xE0, 0x00, 0x41, 0x42] ++ end_of_sequence ++ [0x99]))
        0xFFFFFFFF =
      (.ok { Element.ofParent with _value := .vector .uchar [0x41, 0x42], _is_vector := true },
       ⟨[0xFE, 0xFF, 0xE0, 0x00, 0x41, 0x42] ++ end_of_sequence ++ [0x99], 14, false, false⟩)
    ∧ (⟨[0xFE, 0xFF, 0xE0, 0x00, 0x41, 0x42] ++ end_of_sequence ++ [0x99], 14, false, false⟩ :
        IStream).rest = [0x99] :=
  C11_undefined_length_sequence true Dicom.default Element.ofParent
    (IStream.ofBytes ([0xFE, 0xFF, 0xE0, 0x00, 0x41, 0x42] ++ end_of_sequence ++ [0x99]))
    [0xFE, 0xFF, 0xE0, 0x00, 0x41, 0x42] [0x99] rfl rfl (by decide)

/-- C12. Take a tag, a numeric VR (SS, SL, US, AT, OW, UL, FL, OF, FD) with
element type `T`, and a list `vs` of values, each given by its `sizeof(T)` bytes
in little-endian order. For either byte order `le`, `Element::parse` in
Explicit-VR mode of that byte order, on a stream that holds the encoding of the
element in that byte order, returns one and the same element: the tag, the VR
code, the scalar for a single value and else the vector of the values, each the
number its little-endian bytes denote. Neither `le` nor the host's byte order
`host_le` occurs in the element returned, so the little-endian encoding read as
LEE and the big-endian encoding read as BEE agree on a host of either order. -/
theorem C12_endianness_transparency (host_le le : Bool) (d : Dicom) (ist : IStream)
    (tag : TypeTag) (v0 v1 : Byte) (T : DType) (vs : List (List Byte)) (tail : List Byte)
    (hT : (beNat [v0, v1], T) ∈ vr_typed)
    (h0 : tag.id0 < 65536) (h1 : tag.id1 < 65536) (hz : tag ≠ ⟨0, 0⟩)
    (hc : ∀ v ∈ vs, v.length = T.sizeof)
    (hL : vs.length * T.sizeof < (if beNat [v0, v1] ∈ vr_long then 4294967296 else 65536))
    (hg : ist.good = true) (hr : ist.rest = encode_explicit le tag v0 v1 vs ++ tail) :
    Element.parse host_le
        { d with _architecture_as_little_endian := host_le, _format_as_little_endian := le,
                 _format_as_explicit := true }
        Element.ofParent ist =
      (.ok { Element.ofParent with
             _tag := tag
             _vr := some (beNat [v0, v1])
             _value := if vs.length = 1 then .scalar T (T.ofMem true (vs.headD []))
                       else .vector T (vs.map (T.ofMem true))
             _is_vector := decide (vs.length ≠ 1) },
       { ist with pos := ist.pos + (encode_explicit le tag v0 v1 vs).length }) := by
  have hs := vr_typed_sizeof hT
  have hsum := sum_length_chunks T.sizeof vs hc
  obtain ⟨D, hD⟩ : ∃ D : Dicom, D =
      { d with _architecture_as_little_endian := host_le
               _format_as_little_endian := le
               _format_as_explicit := true } := ⟨_, rfl⟩
  have hDa : D._architecture_as_little_endian = host_le := by rw [hD]
  have hDf : D._format_as_little_endian = le := by rw [hD]
  have hDx : D._format_as_explicit = true := by rw [hD]
  rw [← hD]
  have hnz := TypeTag.number_ne_zero host_le tag hz
  obtain ⟨t0, t1⟩ := tag
  simp only at h0 h1
  obtain ⟨a0, a1, hA⟩ := encode_u16_eq le t0
  obtain ⟨a2, a3, hB⟩ := encode_u16_eq le t1
  have hlA : load le [a0, a1] = t0 := by rw [← hA]; exact load_encode_u16 le _ h0
  have hlB : load le [a2, a3] = t1 := by rw [← hB]; exact load_encode_u16 le _ h1
  have hvl : ((vs.map (encode_value le)).flatten).length = vs.length * T.sizeof := by
    rw [List.length_flatten, List.map_map, ← hsum]
    congr 1
    apply List.map_congr_left
    intro v _
    simp [encode_value_length]
  have hk32 : vs.length * T.sizeof < 4294967296 := by
    split at hL <;> omega
  have hdiv : vs.length * T.sizeof / T.sizeof = vs.length := Nat.mul_div_cancel _ (by omega)
  have hk : vs.length < 2147483648 := by
    by_contra hcon
    have : 2147483648 * 2 ≤ vs.length * T.sizeof := Nat.mul_le_mul (by omega) hs
    omega
  have hvals := join_chunks (T.ofMem le) T.sizeof tail (vs.map (encode_value le))
    (by
      intro c hcm
      obtain ⟨v, hv, rfl⟩ := List.mem_map.mp hcm
      rw [encode_value_length, hc v hv])
  have hcomp : (T.ofMem le ∘ encode_value le) = T.ofMem true := by
    funext v
    exact DType.ofMem_encode_value le T v
  rw [List.length_map, List.map_map, hcomp] at hvals
  -- the value part, on a stream whose unread bytes are the values and the tail
  have hbody : ∀ (e : Element) (ist2 : IStream), e._parent = true → ist2.good = true →
      ist2.rest = (vs.map (encode_value le)).flatten ++ tail →
      Element._parse_body_explicit host_le D e (beNat [v0, v1]) ist2 (vs.length * T.sizeof) =
      (.ok { e with
             _value := if vs.length = 1 then .scalar T (T.ofMem true (vs.headD []))
                       else .vector T (vs.map (T.ofMem true))
             _is_vector := decide (vs.length ≠ 1) },
       { ist2 with pos := ist2.pos + vs.length * T.sizeof }) := by
    intro e ist2 hp hg2 hr2
    rw [Element.body_typed host_le D e _ T ist2 _ (Or.inl hT),
      Element.data_ok host_le D e T ist2 _ hp hDa hg2 hk32 (by rw [hr2]; simp [hvl]),
      hdiv, toInt32_of_lt hk, hDf, hr2]
    simp only [Int.toNat_ofNat]
    by_cases h1 : vs.length = 1
    · obtain ⟨v, rfl⟩ := List.length_eq_one.mp h1
      have hr1 : List.range 1 = [0] := rfl
      rw [List.length_singleton, hr1] at hvals
      simp only [List.map_cons, List.map_nil, Nat.zero_mul, List.drop_zero, List.cons.injEq,
        and_true] at hvals
      simp only [List.length_singleton, if_true, Nat.one_mul, List.map_cons, List.map_nil, hvals,
        List.headD_cons, ne_eq, not_true_eq_false, decide_False]
    · simp only [h1, if_false, hvals, ne_eq, not_false_eq_true, decide_True]
  have hlen : (encode_explicit le ⟨t0, t1⟩ v0 v1 vs).length =
      (if beNat [v0, v1] ∈ vr_long then 12 else 8) + vs.length * T.sizeof := by
    unfold encode_explicit
    simp only [hA, hB]
    split
    · obtain ⟨b0, b1, b2, b3, hC⟩ := encode_u32_eq le (vs.map List.length).sum
      rw [hC]; simp [hvl]; omega
    · obtain ⟨b0, b1, hC⟩ := encode_u16_eq le (vs.map List.length).sum
      rw [hC]; simp [hvl]; omega
  have hg4 := IStream.good_advance ist 4 hg
  by_cases hlong : beNat [v0, v1] ∈ vr_long
  · obtain ⟨b0, b1, b2, b3, hC⟩ := encode_u32_eq le (vs.map List.length).sum
    have hlC : load le [b0, b1, b2, b3] = vs.length * T.sizeof := by
      rw [← hC, load_encode_u32 le _ (by rw [hsum]; exact hk32), hsum]
    have hr0 : ist.rest = a0 :: a1 :: a2 :: a3 :: (v0 :: v1 :: 0 :: 0 :: b0 :: b1 :: b2 :: b3 ::
        ((vs.map (encode_value le)).flatten ++ tail)) := by
      rw [hr]; unfold encode_explicit; simp only [hA, hB, if_pos hlong, hC]; simp
    have e1 : Element.parse_tag host_le D Element.ofParent ist =
        (.ok { Element.ofParent with _tag := ⟨t0, t1⟩ }, { ist with pos := ist.pos + 4 }) := by
      rw [Element.parse_tag_ok host_le D _ ist a0 a1 a2 a3 _ rfl hDa hg hr0, hDf, hlA, hlB]
    have e2 := Element.parse_value_explicit_of host_le D { Element.ofParent with _tag := ⟨t0, t1⟩ }
      { ist with pos := ist.pos + 4 } hnz (by simp [Element._format_as_explicit, hDx])
    have e3 := Element.explicit_long host_le D { Element.ofParent with _tag := ⟨t0, t1⟩ }
      { ist with pos := ist.pos + 4 } v0 v1 0 0 b0 b1 b2 b3
      ((vs.map (encode_value le)).flatten ++ tail) rfl hDa hg4
      (by rw [IStream.rest_advance, hr0]; rfl) hlong
    have e4 := hbody
      { ({ Element.ofParent with _tag := ⟨t0, t1⟩ } : Element) with _vr := some (beNat [v0, v1]) }
      { ({ ist with pos := ist.pos + 4 } : IStream) with pos := ist.pos + 4 + 8 } rfl
      (IStream.good_advance _ 8 hg4)
      (by rw [IStream.rest_advance, IStream.rest_advance, hr0]; rfl)
    rw [hDf, hlC] at e3
    unfold Element.parse
    rw [e1]
    simp only
    rw [e2, e3, e4, hlen, if_pos hlong]
    simp only [Nat.add_assoc]
    congr 2
    omega
  · obtain ⟨b0, b1, hC⟩ := encode_u16_eq le (vs.map List.length).sum
    have hk16 : vs.length * T.sizeof < 65536 := by rw [if_neg hlong] at hL; exact hL
    have hlC : load le [b0, b1] = vs.length * T.sizeof := by
      rw [← hC, load_encode_u16 le _ (by rw [hsum]; exact hk16), hsum]
    have hr0 : ist.rest = a0 :: a1 :: a2 :: a3 :: (v0 :: v1 :: b0 :: b1 ::
        ((vs.map (encode_value le)).flatten ++ tail)) := by
      rw [hr]; unfold encode_explicit; simp only [hA, hB, if_neg hlong, hC]; simp
    have e1 : Element.parse_tag host_le D Element.ofParent ist =
        (.ok { Element.ofParent with _tag := ⟨t0, t1⟩ }, { ist with pos := ist.pos + 4 }) := by
      rw [Element.parse_tag_ok host_le D _ ist a0 a1 a2 a3 _ rfl hDa hg hr0, hDf, hlA, hlB]
    have e2 := Element.parse_value_explicit_of host_le D { Element.ofParent with _tag := ⟨t0, t1⟩ }
      { ist with pos := ist.pos + 4 } hnz (by simp [Element._format_as_explicit, hDx])
    have e3 := Element.explicit_short host_le D { Element.ofParent with _tag := ⟨t0, t1⟩ }
      { ist with pos := ist.pos + 4 } v0 v1 b0 b1
      ((vs.map (encode_value le)).flatten ++ tail) rfl hDa hg4
      (by rw [IStream.rest_advance, hr0]; rfl) hlong
    have e4 := hbody
      { ({ Element.ofParent with _tag := ⟨t0, t1⟩ } : Element) with _vr := some (beNat [v0, v1]) }
      { ({ ist with pos := ist.pos + 4 } : IStream) with pos := ist.pos + 4 + 4 } rfl
      (IStream.good_advance _ 4 hg4)
      (by rw [IStream.rest_advance, IStream.rest_advance, hr0]; rfl)
    rw [hDf, hlC] at e3
    unfold Element.parse
    rw [e1]
    simp only
    rw [e2, e3, e4, hlen, if_neg hlong]
    simp only [Nat.add_assoc]
    congr 2
    omega

/-- C12 at PixelData (7FE0,0010) OW with the two values 0x0001 and 0x0102, in
the big-endian encoding `7F E0 00 10 "OW" 00 00 00 00 00 04 00 01 01 02` read
in BEE mode on a little-endian host: the vector [1, 258], as from the
little-endian encoding. -/
theorem C12_endianness_transparency_witness :
    Element.parse true
        { Dicom.default with _architecture_as_little_endian := true,
                             _format_as_little_endian := false,
                             _format_as_explicit := true }
        Element.ofParent
        (IStream.ofBytes [0x7F, 0xE0, 0x00, 0x10, 0x4F, 0x57, 0, 0, 0, 0, 0, 4, 0, 1, 1, 2]) =
      (.ok { Element.ofParent with
             _tag := ⟨0x7FE0, 0x0010⟩
             _vr := some 0x4F57
             _value := .vector .uint16 [1, 258]
             _is_vector := true },
       ⟨[0x7F, 0xE0, 0x00, 0x10, 0x4F, 0x57, 0, 0, 0, 0, 0, 4, 0, 1, 1, 2], 16, false, false⟩) :=
  C12_endianness_transparency true false Dicom.default
    (IStream.ofBytes [0x7F, 0xE0, 0x00, 0x10, 0x4F, 0x57, 0, 0, 0, 0, 0, 4, 0, 1, 1, 2])
    ⟨0x7FE0, 0x0010⟩ 0x4F 0x57 .uint16 [[1, 0], [2, 1]] [] (by decide) (by decide) (by decide)
    (by decide) (by decide) (by decide) rfl rfl

/-- C13. In Explicit-VR mode, for an element of a nonzero tag and two VR bytes
`v0 v1` whose code has no `case` in the second `switch`, followed by two
further bytes: `Element::parse_value` reads these four bytes and leaves with
`ParseError` "Unknown VR found". When the element is the one the main loop of
`Dicom::parse` is reading, the loop leaves with this exception (it catches
`StreamError` only), and `parse` passes it on to the caller. -/
theorem C13_unknown_vr_error (host_le : Bool) (d : Dicom) (e : Element) (ist : IStream)
    (v0 v1 b0 b1 : Byte) (tail : List Byte)
    (hp : e._parent = true) (ha : d._architecture_as_little_endian = host_le)
    (hx : d._format_as_explicit = true) (ht : e._tag.number host_le ≠ 0)
    (hg : ist.good = true) (hr : ist.rest = v0 :: v1 :: b0 :: b1 :: tail)
    (hv : beNat [v0, v1] ∉ vr_known) :
    Element.parse_value host_le d e ist =
      (.error (.ParseError "Unknown VR found"), { ist with pos := ist.pos + 4 })
    ∧ (∀ (fuel : Nat) (ist0 : IStream),
        Element.parse_tag host_le d Element.ofParent ist0 = (.ok e, ist) →
        Dicom.parse_main_loop host_le (fuel + 1) d ist0 =
          some ⟨some (.ParseError "Unknown VR found"), d, { ist with pos := ist.pos + 4 }⟩)
    ∧ (∀ (ext : Ext) (d0 : Dicom) (ist0 : IStream) (o : Outcome) (parse_all need_rescale : Bool),
        Dicom.parse_file host_le d0 ist0 = some o →
        o.error = some (.ParseError "Unknown VR found") →
        Dicom.parse host_le ext d0 ist0 parse_all need_rescale = some o) := by
  have hval : Element.parse_value host_le d e ist =
      (.error (.ParseError "Unknown VR found"), { ist with pos := ist.pos + 4 }) := by
    unfold Element.parse_value
    rw [if_neg ht]
    have : e._format_as_explicit d = true := by simp [Element._format_as_explicit, hp, hx]
    rw [if_pos this, Element.explicit_short host_le d e ist v0 v1 b0 b1 tail hp ha hg hr
      (vr_long_known hv), Element.body_unknown host_le d _ _ _ _ hv]
  refine ⟨hval, ?_, ?_⟩
  · intro fuel ist0 htag
    have : Element.parse host_le d Element.ofParent ist0 =
        (.error (.ParseError "Unknown VR found"), { ist with pos := ist.pos + 4 }) := by
      unfold Element.parse
      rw [htag]
      exact hval
    unfold Dicom.parse_main_loop
    rw [this]
  · intro ext d0 ist0 o parse_all need_rescale hf he
    obtain ⟨err, d1, ist1⟩ := o
    simp only at he
    subst he
    unfold Dicom.parse
    rw [hf]

/-- C13 at `file_unknown_vr`: the second element of the main body has the VR
bytes "ZZ". The main loop is at offset 166 with (0008,0005) stored; it leaves
with the `ParseError` at offset 178, and so does `parse`. -/
theorem C13_unknown_vr_error_witness :
    Element.parse_value true
        { Dicom.default with _element := [(0x00050008, stored_element ⟨0x0008, 0x0005⟩ 0x4353 (.string (bytesOf "AB"))),
       (TAG_TRANSFER_SYNTAX_UID.number true,
        stored_element TAG_TRANSFER_SYNTAX_UID 0x5549 (.string (UID_LEE ++ [0x00])))] }
        { Element.ofParent with _tag := ⟨0x0008, 0x0010⟩ } ⟨file_unknown_vr, 174, false, false⟩ =
      (.error (.ParseError "Unknown VR found"), ⟨file_unknown_vr, 178, false, false⟩)
    ∧ (∀ (ext : Ext) (parse_all need_rescale : Bool),
        Dicom.parse true ext Dicom.default (IStream.ofBytes file_unknown_vr) parse_all
          need_rescale =
        some ⟨some (.ParseError "Unknown VR found"),
              { Dicom.default with _element := [(0x00050008, stored_element ⟨0x0008, 0x0005⟩ 0x4353 (.string (bytesOf "AB"))),
       (TAG_TRANSFER_SYNTAX_UID.number true,
        stored_element TAG_TRANSFER_SYNTAX_UID 0x5549 (.string (UID_LEE ++ [0x00])))] },
              ⟨file_unknown_vr, 178, false, false⟩⟩) :=
  have h := C13_unknown_vr_error true
    { Dicom.default with _element := [(0x00050008, stored_element ⟨0x0008, 0x0005⟩ 0x4353 (.string (bytesOf "AB"))),
       (TAG_TRANSFER_SYNTAX_UID.number true,
        stored_element TAG_TRANSFER_SYNTAX_UID 0x5549 (.string (UID_LEE ++ [0x00])))] }
    { Element.ofParent with _tag := ⟨0x0008, 0x0010⟩ } ⟨file_unknown_vr, 174, false, false⟩
    0x5a 0x5a 0x02 0x00 (bytesOf "XY") rfl rfl rfl (by decide) rfl (by rfl) (by decide)
  ⟨h.1, fun ext parse_all need_rescale =>
    h.2.2 ext Dicom.default (IStream.ofBytes file_unknown_vr) _ parse_all need_rescale
      (by rfl) rfl⟩

/-- C14, the claim refuted: `file_S1` cut after 162 bytes, two bytes into the
tag of the first main-body element (the meta group ends at offset 160). That
tag is read by the first loop of `parse`, outside the handler of the second
loop: the reading part leaves with `StreamError`. -/
theorem C14_truncated_first_tag_counterexample :
    Dicom.parse_meta true Dicom.default (IStream.ofBytes file_S1) =
      some ⟨none,
        { Dicom.default with
          _element := [(TAG_TRANSFER_SYNTAX_UID.number true,
            stored_element TAG_TRANSFER_SYNTAX_UID 0x5549 (.string (UID_LEE ++ [0x00])))] },
        ⟨file_S1, 160, false, false⟩⟩ ∧
    (Dicom.parse_file true Dicom.default (IStream.ofBytes (file_S1.take 162))).map
        (fun o => o.error) = some (some (.StreamError "")) :=
  ⟨by rfl, by rfl⟩

/-- C14. Let the first loop of `Dicom::parse` end without an exception on the
input `bs`, at offset `p0` (the end of the meta group), let the format not be
Deflated, and let the main body of `bs` hold the elements `es` followed by the
element `e`, which ends at offset `q`. For a cut at `t` strictly inside `e`
(behind the end of `es`, before `q`) that leaves at least the four bytes of the
first main-body tag (`p0 + 4 ≤ t`), the reading part of `parse` on the first
`t` bytes of `bs` ends without an exception, and its store is the store of the
meta group with exactly the elements `es` stored in order, as they are decoded
from the whole of `bs`; `e` is not stored. -/
theorem C14_truncated_main_body (host_le : Bool) (d : Dicom) (bs : List Byte) (d1 : Dicom)
    (p0 : Nat) (d2 : Dicom) (es : List (Element × Nat)) (e : Element) (q t : Nat)
    (hm : Dicom.parse_meta host_le d (IStream.ofBytes bs) =
      some ⟨none, d1, ⟨bs, p0, false, false⟩⟩)
    (hfi : Dicom.parse_format_info host_le d1 = (none, d2))
    (hdef : d2._format_as_deflate = false)
    (hes : Dicom.decodes_from host_le d2 bs p0 (es ++ [(e, q)]))
    (h4 : p0 + 4 ≤ t) (hcut : end_offset p0 es < t ∧ t < q) :
    ∃ ist1, Dicom.parse_file host_le d (IStream.ofBytes (bs.take t)) =
      some ⟨none, { d2 with _element := store_all host_le d2._element es }, ist1⟩ := by
  obtain ⟨hes1, hes2⟩ := (Dicom.decodes_from_append host_le d2 bs [(e, q)] es p0).mp hes
  have hpre := Dicom.decodes_from_take host_le d2 bs t es p0 hes1 (by omega)
  obtain ⟨q1, hq1, -, -, hfail⟩ := Element.parse_trunc t hes2.1
  have hq : q = q1 := by injection hq1
  subst hq
  obtain ⟨b1, hb1⟩ := hfail hcut.2
  obtain ⟨o, ho, -⟩ := Dicom.parse_main_loop_spec host_le ((bs.take t).length + 1) d2
    ⟨bs.take t, p0, false, false⟩ (IStream.rest_length_lt _)
  obtain ⟨hoe, hod⟩ := Dicom.parse_main_loop_of_decodes host_le (bs.take t) es _ d2 p0 o hpre
    ⟨"", b1, hb1⟩ ho
  refine ⟨o.ist, ?_⟩
  unfold Dicom.parse_file
  rw [Dicom.parse_meta_trunc host_le d bs d1 p0 t hm h4]
  simp only [hfi]
  rw [if_neg (by rw [hdef]; decide), ho]
  obtain ⟨oe, od, oi⟩ := o
  simp only at hoe hod
  subst hoe hod
  rfl

/-- C14 at `file_S1` cut after 185 bytes, inside the value of BitsAllocated
(offsets 180 to 190): the reading part ends without an exception and the store
holds the Transfer Syntax UID, Rows and Cols. -/
theorem C14_truncated_main_body_witness :
    ∃ ist1, Dicom.parse_file true Dicom.default (IStream.ofBytes (file_S1.take 185)) =
      some ⟨none,
        { Dicom.default with
          _element := [(TAG_TRANSFER_SYNTAX_UID.number true,
              stored_element TAG_TRANSFER_SYNTAX_UID 0x5549 (.string (UID_LEE ++ [0x00]))),
            (TAG_ROWS.number true, stored_element TAG_ROWS 0x5553 (.scalar .uint16 4)),
            (TAG_COLS.number true, stored_element TAG_COLS 0x5553 (.scalar .uint16 4))] },
        ist1⟩ :=
  C14_truncated_main_body true Dicom.default file_S1
    { Dicom.default with
      _element := [(TAG_TRANSFER_SYNTAX_UID.number true,
        stored_element TAG_TRANSFER_SYNTAX_UID 0x5549 (.string (UID_LEE ++ [0x00])))] }
    160
    { Dicom.default with
      _element := [(TAG_TRANSFER_SYNTAX_UID.number true,
        stored_element TAG_TRANSFER_SYNTAX_UID 0x5549 (.string (UID_LEE ++ [0x00])))] }
    [(stored_element TAG_ROWS 0x5553 (.scalar .uint16 4), 170),
     (stored_element TAG_COLS 0x5553 (.scalar .uint16 4), 180)]
    (stored_element TAG_BIT_ALLOC 0x5553 (.scalar .uint16 8)) 190 185
    (by rfl) (by rfl) rfl ⟨by rfl, by rfl, by rfl, trivial⟩ (by decide) ⟨by decide, by decide⟩

/-- C15. When the reading part of `Dicom::parse` ends without an exception
(the input has been read to the end), the input has been decoded as a run `es1`
of elements of group 0x0002 from offset 132 on, in Little-Endian Explicit VR,
and behind it a run `es2` of elements in the mode of the main body, each
element starting where the one before ended, up to the call of
`Element::parse` that threw `StreamError`. The store is the result of storing
all these elements in stream order in an empty store: its keys are strictly
increasing (one entry per tag), a number is a key exactly when it is the tag of
one of the elements, and the element found under a key is the last element of
the stream with that tag, be it of `es1` or of `es2`. -/
theorem C15_last_occurrence_wins (host_le : Bool) (d : Dicom) (bs : List Byte) (o : Outcome)
    (h : Dicom.parse_file host_le d (IStream.ofBytes bs) = some o) (hn : o.error = none) :
    ∃ es1 es2 : List (Element × Nat),
      Dicom.decodes_from host_le
        { o.dicom with _format_as_little_endian := true, _format_as_explicit := true }
        bs 132 es1 ∧
      (∀ x ∈ es1, x.1._tag.id0 = TAG_GROUP_META) ∧
      Dicom.decodes_from host_le o.dicom bs (end_offset 132 es1) es2 ∧
      (∃ msg b1, Element.parse host_le o.dicom Element.ofParent
          ⟨bs, end_offset 132 (es1 ++ es2), false, false⟩ = (.error (.StreamError msg), b1)) ∧
      o.dicom._architecture_as_little_endian = host_le ∧
      o.dicom._element = store_all host_le [] (es1 ++ es2) ∧
      List.Pairwise (· < ·) (o.dicom._element.map Prod.fst) ∧
      (∀ k, k ∈ o.dicom._element.map Prod.fst ↔
        ∃ x ∈ es1 ++ es2, x.1._tag.number host_le = k) ∧
      (∀ k, map_find o.dicom._element k =
        ((es1 ++ es2).reverse.find? (fun x => decide (x.1._tag.number host_le = k))).map
          Prod.fst) := by
  unfold Dicom.parse_file at h
  split at h
  · simp at h
  · simp only [Option.some.injEq] at h
    subst h
    simp at hn
  · rename_i d1 ist1 hm
    obtain ⟨es1, hdec1, hall, hst1, ha1, hf1, hx1, hist⟩ :=
      Dicom.decodes_of_parse_meta host_le d bs d1 ist1 hm
    subst hist
    have hfs := Dicom.parse_format_info_store host_le d1
    split at h
    · simp only [Option.some.injEq] at h
      subst h
      simp at hn
    · rename_i d2 hfi
      rw [hfi] at hfs
      simp only at hfs
      split at h
      · simp only [Option.some.injEq] at h
        subst h
        simp at hn
      · obtain ⟨es2, hdec2, ⟨msg, b1, hend⟩, hod⟩ :=
          Dicom.decodes_of_parse_main_loop host_le bs _ d2 _ o h hn
        have hstore : o.dicom._element = store_all host_le [] (es1 ++ es2) := by
          rw [hod, store_all_append, ← hst1, ← hfs.1]
        have hfind : ∀ k, map_find o.dicom._element k =
            ((es1 ++ es2).reverse.find?
              (fun x => decide (x.1._tag.number host_le = k))).map Prod.fst := by
          intro k
          rw [hstore, map_find_store_all]
          cases (es1 ++ es2).reverse.find? (fun x => decide (x.1._tag.number host_le = k)) <;>
            rfl
        refine ⟨es1, es2, ?_, hall, ?_, ⟨msg, b1, ?_⟩, ?_, hstore, ?_, ?_, hfind⟩
        · refine Dicom.decodes_from_flags host_le d1 _ bs ?_ ?_ ?_ es1 _ hdec1
          · rw [hod, ← hfs.2]
          · rw [hf1]
          · rw [hx1]
        · exact Dicom.decodes_from_flags host_le d2 _ bs (by rw [hod]) (by rw [hod])
            (by rw [hod]) es2 _ hdec2
        · rw [end_offset_append, ← hend]
          exact Element.parse_flags host_le _ _ (by rw [hod]) (by rw [hod]) (by rw [hod])
        · rw [hod]
          show d2._architecture_as_little_endian = host_le
          rw [hfs.2, ha1]
        · rw [hstore]
          exact store_all_sorted host_le _ [] List.Pairwise.nil
        · intro k
          rw [mem_keys_iff_find, hfind]
          cases hf : (es1 ++ es2).reverse.find?
              (fun x => decide (x.1._tag.number host_le = k)) with
          | none =>
            simp only [Option.map_none', Option.isSome_none, Bool.false_eq_true, false_iff,
              not_exists, not_and]
            intro x hx
            have := List.find?_eq_none.mp hf x (List.mem_reverse.mpr hx)
            simpa using this
          | some y =>
            simp only [Option.map_some', Option.isSome_some, true_iff]
            have hy := List.find?_some hf
            exact ⟨y, List.mem_reverse.mp (List.mem_of_find?_eq_some hf), by simpa using hy⟩

/-- C15 at `file_repeated_tag`: (0008,0005) occurs twice in the main body and
(0002,0010) once in the meta group and once in the main body; the store holds
one entry for each of the two tags. -/
theorem C15_last_occurrence_wins_witness :
    ∃ es1 es2 : List (Element × Nat),
      Dicom.decodes_from true
        { dicom_repeated_tag with _format_as_little_endian := true, _format_as_explicit := true }
        file_repeated_tag 132 es1 ∧
      (∀ x ∈ es1, x.1._tag.id0 = TAG_GROUP_META) ∧
      Dicom.decodes_from true dicom_repeated_tag file_repeated_tag (end_offset 132 es1) es2 ∧
      (∃ msg b1, Element.parse true dicom_repeated_tag Element.ofParent
          ⟨file_repeated_tag, end_offset 132 (es1 ++ es2), false, false⟩ =
            (.error (.StreamError msg), b1)) ∧
      dicom_repeated_tag._architecture_as_little_endian = true ∧
      dicom_repeated_tag._element = store_all true [] (es1 ++ es2) ∧
      List.Pairwise (· < ·) (dicom_repeated_tag._element.map Prod.fst) ∧
      (∀ k, k ∈ dicom_repeated_tag._element.map Prod.fst ↔
        ∃ x ∈ es1 ++ es2, x.1._tag.number true = k) ∧
      (∀ k, map_find dicom_repeated_tag._element k =
        ((es1 ++ es2).reverse.find? (fun x => decide (x.1._tag.number true = k))).map
          Prod.fst) :=
  C15_last_occurrence_wins true Dicom.default file_repeated_tag
    ⟨none, dicom_repeated_tag, ⟨file_repeated_tag, 190, true, true⟩⟩ (by rfl) rfl

/-- C16. After `Dicom::parse` every stored element has a tag other than zero
(first part), but a call of `element(number)`, which is `operator[]`, for a tag
the store lacks inserts an `Element()` whose tag is zero: on the object parsed
from `file_S3`, which has no PixelSpacing, `element(TAG_PX_SPACING)` returns
the empty element and leaves it in the store under that key. -/
theorem C16_element_inserts_zero_tag :
    (∀ (host_le : Bool) (d : Dicom) (ist : IStream) (o : Outcome), ist.failbit = false →
      Dicom.parse_file host_le d ist = some o →
      ∀ p ∈ o.dicom._element, p.2._tag.number host_le ≠ 0) ∧
    Dicom.parse_file true Dicom.default (IStream.ofBytes file_S3) =
      some ⟨none, dicom_S3, ⟨file_S3, 262, true, true⟩⟩ ∧
    dicom_S3.has_element (TAG_PX_SPACING.number true) = false ∧
    (dicom_S3.element (TAG_PX_SPACING.number true)).1 = Element.default ∧
    (TAG_PX_SPACING.number true, Element.default) ∈
      (dicom_S3.element (TAG_PX_SPACING.number true)).2._element ∧
    Element.default._tag.number true = 0 :=
  ⟨fun host_le d ist o hf h => Dicom.parse_file_tag_ne_zero host_le d ist o hf h,
   by rfl, by decide, by decide, by decide, by decide⟩

/-- C17, the claim refuted: a store that holds PhotometricInterpretation "RGB "
and lacks the four other required tags. `parse_summary` leaves with the
`std::runtime_error` of the photometric test, not with a `MissingTagError`. -/
theorem C17_missing_tag_error_counterexample :
    map_find [(TAG_PHOTO_INTERPRET.number true,
        stored_element TAG_PHOTO_INTERPRET 0x4353 (.string (bytesOf "RGB ")))]
      (TAG_PX_REP.number true) = none ∧
    ∀ ext : Ext, (Dicom.parse_summary true ext
      { Dicom.default with _element := [(TAG_PHOTO_INTERPRET.number true,
          stored_element TAG_PHOTO_INTERPRET 0x4353 (.string (bytesOf "RGB ")))] }).1 =
      some (.runtime_error "Unsupported Photometric Interpretation") :=
  ⟨by decide, fun _ => Dicom.parse_summary_of_required (by rfl)⟩

/-- C17. On a store that lacks one of the five required tags `parse_summary`
leaves with an exception. The checks run in the order (0028,0004), (0028,0103),
(0028,0100), then (0028,0010) with (0028,0011); when the required elements that
are present have the content asked of them (PhotometricInterpretation a string
containing `MONOCHROME2`, PixelRepresentation and BitsAllocated `uint16_t`
scalars) the exception is a `MissingTagError` whose message names a tag that the
store lacks. -/
theorem C17_missing_required_tag (host_le : Bool) (d : Dicom)
    (hmiss : ∃ t ∈ [TAG_PHOTO_INTERPRET, TAG_PX_REP, TAG_BIT_ALLOC, TAG_ROWS, TAG_COLS],
      map_find d._element (t.number host_le) = none) :
    (∀ ext : Ext, (Dicom.parse_summary host_le ext d).1 ≠ none) ∧
    ((∀ e, map_find d._element (TAG_PHOTO_INTERPRET.number host_le) = some e →
        ∃ s, e._value = .string s ∧ string_find (bytesOf "MONOCHROME2") s 0 ≠ none) →
      (∀ e, map_find d._element (TAG_PX_REP.number host_le) = some e →
        ∃ v, e._value = .scalar .uint16 v) →
      (∀ e, map_find d._element (TAG_BIT_ALLOC.number host_le) = some e →
        ∃ v, e._value = .scalar .uint16 v) →
      ∃ w t, (∀ ext : Ext, (Dicom.parse_summary host_le ext d).1 = some (.MissingTagError w)) ∧
        (w, t) ∈ [("Could not found Photometric Interpretation Tag", TAG_PHOTO_INTERPRET),
                  ("Could not found Pixel Representation Tag", TAG_PX_REP),
                  ("Could not found Bit Allocation Tag", TAG_BIT_ALLOC),
                  ("Could not found Cols and/or Rows Tag", TAG_ROWS),
                  ("Could not found Cols and/or Rows Tag", TAG_COLS)] ∧
        map_find d._element (t.number host_le) = none) := by
  have fails : ∀ err, (Dicom.parse_summary_required host_le d).1 = some err →
      ∀ ext : Ext, (Dicom.parse_summary host_le ext d).1 ≠ none := by
    intro err h ext
    rw [Dicom.parse_summary_of_required h]
    simp
  have st := Dicom.parse_summary_required_stages host_le d
  have ph := Dicom.parse_summary_required_photo host_le d
  cases h1 : map_find d._element (TAG_PHOTO_INTERPRET.number host_le) with
  | none =>
    exact ⟨fails _ (st.1 h1), fun _ _ _ => ⟨_, TAG_PHOTO_INTERPRET,
      fun _ => Dicom.parse_summary_of_required (st.1 h1), by simp, h1⟩⟩
  | some e1 =>
    rcases Element.as_string_cases e1 with ⟨s, hs, -⟩ | ⟨hns, -⟩
    swap
    · refine ⟨fails _ (ph.2.1 e1 h1 hns), fun hp _ _ => ?_⟩
      obtain ⟨s, hs, -⟩ := hp e1 rfl
      exact absurd hs (hns s)
    by_cases hf : string_find (bytesOf "MONOCHROME2") s 0 = none
    · refine ⟨fails _ (ph.2.2 e1 s h1 hs hf), fun hp _ _ => ?_⟩
      obtain ⟨s1, hs1, hf1⟩ := hp e1 rfl
      rw [hs] at hs1
      injection hs1 with hs1
      subst hs1
      exact absurd hf hf1
    have st2 := st.2 e1 s h1 hs hf
    cases h2 : map_find d._element (TAG_PX_REP.number host_le) with
    | none =>
      exact ⟨fails _ (st2.1 h2), fun _ _ _ => ⟨_, TAG_PX_REP,
        fun _ => Dicom.parse_summary_of_required (st2.1 h2), by simp, h2⟩⟩
    | some e2 =>
      rcases Element.as_scalar_cases e2 .uint16 with ⟨v2, hv2, -⟩ | ⟨hn2, -⟩
      swap
      · refine ⟨fails _ ((st2.2 e2 h2).1 hn2), fun _ hr _ => ?_⟩
        obtain ⟨v, hv⟩ := hr e2 rfl
        exact absurd hv (hn2 v)
      have st3 := (st2.2 e2 h2).2 v2 hv2
      cases h3 : map_find d._element (TAG_BIT_ALLOC.number host_le) with
      | none =>
        exact ⟨fails _ (st3.1 h3), fun _ _ _ => ⟨_, TAG_BIT_ALLOC,
          fun _ => Dicom.parse_summary_of_required (st3.1 h3), by simp, h3⟩⟩
      | some e3 =>
        rcases Element.as_scalar_cases e3 .uint16 with ⟨v3, hv3, -⟩ | ⟨hn3, -⟩
        swap
        · refine ⟨fails _ ((st3.2 e3 h3).1 hn3), fun _ _ hb => ?_⟩
          obtain ⟨v, hv⟩ := hb e3 rfl
          exact absurd hv (hn3 v)
        have st4 := (st3.2 e3 h3).2 v3 hv3
        obtain ⟨t, ht, hnone⟩ := hmiss
        simp only [List.mem_cons, List.mem_singleton, List.not_mem_nil, or_false] at ht
        rcases ht with rfl | rfl | rfl | rfl | rfl
        · rw [h1] at hnone; simp at hnone
        · rw [h2] at hnone; simp at hnone
        · rw [h3] at hnone; simp at hnone
        · exact ⟨fails _ (st4 (Or.inl hnone)), fun _ _ _ => ⟨_, TAG_ROWS,
            fun _ => Dicom.parse_summary_of_required (st4 (Or.inl hnone)), by simp, hnone⟩⟩
        · exact ⟨fails _ (st4 (Or.inr hnone)), fun _ _ _ => ⟨_, TAG_COLS,
            fun _ => Dicom.parse_summary_of_required (st4 (Or.inr hnone)), by simp, hnone⟩⟩

/-- C17 at the store of scenario S1 without Cols: the message is the one of
"Cols and/or Rows", and Cols is missing. -/
theorem C17_missing_required_tag_witness :
    ∃ w t, (∀ ext : Ext, (Dicom.parse_summary true ext
        { Dicom.default with
          _element := store_S1_summary.filter (fun q => q.1 ≠ TAG_COLS.number true) }).1 =
          some (.MissingTagError w)) ∧
      (w, t) ∈ [("Could not found Photometric Interpretation Tag", TAG_PHOTO_INTERPRET),
                ("Could not found Pixel Representation Tag", TAG_PX_REP),
                ("Could not found Bit Allocation Tag", TAG_BIT_ALLOC),
                ("Could not found Cols and/or Rows Tag", TAG_ROWS),
                ("Could not found Cols and/or Rows Tag", TAG_COLS)] ∧
      map_find (store_S1_summary.filter (fun q => q.1 ≠ TAG_COLS.number true))
        (t.number true) = none :=
  (C17_missing_required_tag true
    { Dicom.default with
      _element := store_S1_summary.filter (fun q => q.1 ≠ TAG_COLS.number true) }
    ⟨TAG_COLS, by decide, by decide⟩).2
    (fun e h => ⟨bytesOf "MONOCHROME2 ", by
      have : e = stored_element TAG_PHOTO_INTERPRET 0x4353 (.string (bytesOf "MONOCHROME2 ")) :=
        (Option.some.inj h).symm
      rw [this]
      exact ⟨rfl, by decide⟩⟩)
    (fun e h => ⟨0, by
      have : e = stored_element TAG_PX_REP 0x5553 (.scalar .uint16 0) := (Option.some.inj h).symm
      rw [this]
      rfl⟩)
    (fun e h => ⟨8, by
      have : e = stored_element TAG_BIT_ALLOC 0x5553 (.scalar .uint16 8) :=
        (Option.some.inj h).symm
      rw [this]
      rfl⟩)

/-- C18, the claim refuted: the store of scenario S1 with a PixelSpacing element
of VR US added. The five required elements are as the claim asks, and
`parse_summary` leaves with `boost::bad_any_cast`, raised by
`as<std::string>()` on PixelSpacing. -/
theorem C18_summary_succeeds_counterexample :
    (map_find (map_assign store_S1_summary (TAG_PX_SPACING.number true)
        (stored_element TAG_PX_SPACING 0x5553 (.scalar .uint16 1)))
      (TAG_PHOTO_INTERPRET.number true) =
      some (stored_element TAG_PHOTO_INTERPRET 0x4353 (.string (bytesOf "MONOCHROME2 "))) ∧
     string_find (bytesOf "MONOCHROME2") (bytesOf "MONOCHROME2 ") 0 = some 0 ∧
     [TAG_PX_REP, TAG_BIT_ALLOC, TAG_ROWS, TAG_COLS].map (fun t =>
        (map_find (map_assign store_S1_summary (TAG_PX_SPACING.number true)
          (stored_element TAG_PX_SPACING 0x5553 (.scalar .uint16 1)))
          (t.number true)).map (fun e => e._value)) =
      [some (.scalar .uint16 0), some (.scalar .uint16 8), some (.scalar .uint16 4),
       some (.scalar .uint16 4)]) ∧
    ∀ ext : Ext, (Dicom.parse_summary true ext
      { Dicom.default with
        _element := map_assign store_S1_summary (TAG_PX_SPACING.number true)
          (stored_element TAG_PX_SPACING 0x5553 (.scalar .uint16 1)) }).1 =
      some .bad_any_cast :=
  ⟨⟨by decide, by decide, by decide⟩, fun _ => by rfl⟩

/-- C18. On a store in which PhotometricInterpretation is a string containing
`MONOCHROME2`, PixelRepresentation, BitsAllocated, Rows and Cols are `uint16_t`
scalars, and PixelSpacing and ImagePositionPatient, where present, are strings,
`parse_summary` returns without an exception, with `_chs = 1`,
`_is_signed = (PixelRepresentation != 0)`, `_bits`, `_rows` and `_cols` the
values of the three elements, and the store, the image and the format flags as
they were. -/
theorem C18_summary_of_required_tags (host_le : Bool) (d : Dicom)
    (e1 e2 e3 e4 e5 : Element) (s : List Byte) (v2 v3 v4 v5 : Int)
    (h1 : map_find d._element (TAG_PHOTO_INTERPRET.number host_le) = some e1)
    (hs : e1._value = .string s) (hf : string_find (bytesOf "MONOCHROME2") s 0 ≠ none)
    (h2 : map_find d._element (TAG_PX_REP.number host_le) = some e2)
    (hv2 : e2._value = .scalar .uint16 v2)
    (h3 : map_find d._element (TAG_BIT_ALLOC.number host_le) = some e3)
    (hv3 : e3._value = .scalar .uint16 v3)
    (h4 : map_find d._element (TAG_ROWS.number host_le) = some e4)
    (hv4 : e4._value = .scalar .uint16 v4)
    (h5 : map_find d._element (TAG_COLS.number host_le) = some e5)
    (hv5 : e5._value = .scalar .uint16 v5)
    (hsp : ∀ e, map_find d._element (TAG_PX_SPACING.number host_le) = some e →
      ∃ t, e._value = .string t)
    (hip : ∀ e, map_find d._element (TAG_IMG_POSITION.number host_le) = some e →
      ∃ t, e._value = .string t) :
    ∀ ext : Ext, ∃ r c x y z, Dicom.parse_summary host_le ext d =
      (none, { d with _chs := 1, _is_signed := decide (v2 ≠ 0), _bits := v3, _rows := v4,
                      _cols := v5, _px_spacing_row := r, _px_spacing_col := c,
                      _image_pos_x := x, _image_pos_y := y, _image_pos_z := z }) := by
  intro ext
  unfold Dicom.parse_summary
  rw [Dicom.parse_summary_required_ok h1 hs hf h2 hv2 h3 hv3 h4 hv4 h5 hv5]
  simp only
  obtain ⟨r, c, hpx⟩ := Dicom.parse_summary_px_spacing_ok host_le ext
    ({ d with _cols := v5, _rows := v4, _bits := v3, _chs := 1,
                   _is_signed := if v2 = 0 then false else true,
                   _px_spacing_row := .val 0, _px_spacing_col := .val 0,
                   _image_pos_x := .nan, _image_pos_y := .nan, _image_pos_z := .nan }) hsp
  rw [hpx]
  simp only
  obtain ⟨x, y, z, hip2⟩ := Dicom.parse_summary_image_pos_ok host_le ext
    ({ d with _cols := v5, _rows := v4, _bits := v3, _chs := 1,
                   _is_signed := if v2 = 0 then false else true,
                   _px_spacing_row := r, _px_spacing_col := c,
                   _image_pos_x := .nan, _image_pos_y := .nan, _image_pos_z := .nan }) hip
  rw [hip2]
  refine ⟨r, c, x, y, z, ?_⟩
  by_cases hz : v2 = 0 <;> simp [hz]

/-- C18 at the store of scenario S1: channels 1, unsigned, 8 bits, 4 rows and
4 columns. -/
theorem C18_summary_of_required_tags_witness :
    map_find store_S1_summary (TAG_PHOTO_INTERPRET.number true) =
      some (stored_element TAG_PHOTO_INTERPRET 0x4353 (.string (bytesOf "MONOCHROME2 "))) ∧
    ∀ ext : Ext, ∃ r c x y z, Dicom.parse_summary true ext
        { Dicom.default with _element := store_S1_summary } =
      (none, { Dicom.default with
               _element := store_S1_summary
               _chs := 1
               _is_signed := decide ((0 : Int) ≠ 0)
               _bits := 8
               _rows := 4
               _cols := 4
               _px_spacing_row := r
               _px_spacing_col := c
               _image_pos_x := x
               _image_pos_y := y
               _image_pos_z := z }) :=
  ⟨by decide,
   C18_summary_of_required_tags true { Dicom.default with _element := store_S1_summary }
    (stored_element TAG_PHOTO_INTERPRET 0x4353 (.string (bytesOf "MONOCHROME2 ")))
    (stored_element TAG_PX_REP 0x5553 (.scalar .uint16 0))
    (stored_element TAG_BIT_ALLOC 0x5553 (.scalar .uint16 8))
    (stored_element TAG_ROWS 0x5553 (.scalar .uint16 4))
    (stored_element TAG_COLS 0x5553 (.scalar .uint16 4))
    (bytesOf "MONOCHROME2 ") 0 8 4 4
    (by decide) rfl (by decide) (by decide) rfl (by decide) rfl (by decide) rfl (by decide) rfl
    (fun e h => Option.noConfusion (show (none : Option Element) = some e from h))
    (fun e h => Option.noConfusion (show (none : Option Element) = some e from h))⟩

/-- C19. The `std::runtime_error` "Unsupported Photometric Interpretation"
leaves `parse_summary` exactly when the store holds the element of
PhotometricInterpretation as a string without the substring `MONOCHROME2`;
`parse_summary` raises no other `std::runtime_error`, and this one is neither a
`ParseError` nor a `MissingTagError`. -/
theorem C19_unsupported_photometric (host_le : Bool) (ext : Ext) (d : Dicom) :
    ((∃ e s, map_find d._element (TAG_PHOTO_INTERPRET.number host_le) = some e ∧
        e._value = .string s ∧ string_find (bytesOf "MONOCHROME2") s 0 = none) ↔
      (Dicom.parse_summary host_le ext d).1 =
        some (.runtime_error "Unsupported Photometric Interpretation")) ∧
    (∀ w, (Dicom.parse_summary host_le ext d).1 = some (.runtime_error w) →
      w = "Unsupported Photometric Interpretation") ∧
    (∀ w, Error.runtime_error "Unsupported Photometric Interpretation" ≠ .ParseError w ∧
      Error.runtime_error "Unsupported Photometric Interpretation" ≠ .MissingTagError w) := by
  have key : ∀ w, (Dicom.parse_summary host_le ext d).1 = some (.runtime_error w) →
      w = "Unsupported Photometric Interpretation" ∧
      ∃ e s, map_find d._element (TAG_PHOTO_INTERPRET.number host_le) = some e ∧
        e._value = .string s ∧ string_find (bytesOf "MONOCHROME2") s 0 = none := by
    intro w h
    unfold Dicom.parse_summary at h
    split at h
    · rename_i err d1 h1
      simp only [Option.some.injEq] at h
      rw [h] at h1
      exact Dicom.parse_summary_required_runtime h1
    · split at h
      · rename_i err d2 h2
        simp only [Option.some.injEq] at h
        rw [Dicom.parse_summary_px_spacing_cast h2] at h
        exact Error.noConfusion h
      · rename_i d1 _ d2 h2
        cases h3 : Dicom.parse_summary_image_pos host_le ext d2 with
        | mk o d3 =>
          rw [h3] at h
          simp only at h
          rw [h] at h3
          have := Dicom.parse_summary_image_pos_cast h3
          exact Error.noConfusion this
  refine ⟨⟨fun ⟨e, s, hm, hs, hf⟩ => ?_, fun h => (key _ h).2⟩, fun w h => (key w h).1,
    fun w => ⟨by simp, by simp⟩⟩
  have := (Dicom.parse_summary_required_photo host_le d).2.2 e s hm hs hf
  unfold Dicom.parse_summary
  split
  · rename_i err d1 h1
    rw [h1] at this
    exact this
  · rename_i d1 h1
    rw [h1] at this
    simp at this

/-- C20, the claim refuted: on the object built from `file_S3` the summary
extraction does not succeed, whatever the external libraries do. -/
theorem C20_implicit_summary_counterexample :
    Dicom.parse_file true Dicom.default (IStream.ofBytes file_S3) =
      some ⟨none, dicom_S3, ⟨file_S3, 262, true, true⟩⟩ ∧
    ¬ ∃ ext : Ext, (Dicom.parse_summary true ext dicom_S3).1 = none :=
  ⟨by rfl, fun ⟨_, h⟩ => by
    have h1 : (Dicom.parse_summary_required true dicom_S3).1 = some .bad_any_cast := by rfl
    rw [Dicom.parse_summary_of_required h1] at h
    exact Option.noConfusion h⟩

/-- C20. For the Little-Endian Implicit-VR file `file_S3` (scenario S3): the
reading part of `Dicom::parse` ends without an exception; every main-body
element is stored as the vector of its raw bytes, with no VR; the summary
extraction does not interpret such bytes: every call of `parse` leaves with
`boost::bad_any_cast`, raised by `as<std::string>()` on
PhotometricInterpretation, and `_rows`, `_cols`, `_bits` and `_chs` are 0. -/
theorem C20_implicit_summary_bad_cast :
    Dicom.parse_file true Dicom.default (IStream.ofBytes file_S3) =
      some ⟨none, dicom_S3, ⟨file_S3, 262, true, true⟩⟩ ∧
    (∀ q ∈ dicom_S3._element, q.2._tag.id0 ≠ TAG_GROUP_META →
      q.2._vr = none ∧ ∃ bytes, q.2._value = .vector .uchar bytes) ∧
    (∀ (ext : Ext) (parse_all need_rescale : Bool),
      Dicom.parse true ext Dicom.default (IStream.ofBytes file_S3) parse_all need_rescale =
        some ⟨some .bad_any_cast, dicom_S3, ⟨file_S3, 262, true, true⟩⟩) ∧
    (dicom_S3._rows, dicom_S3._cols, dicom_S3._bits, dicom_S3._chs) = (0, 0, 0, 0) := by
  have hf : Dicom.parse_file true Dicom.default (IStream.ofBytes file_S3) =
      some ⟨none, dicom_S3, ⟨file_S3, 262, true, true⟩⟩ := by rfl
  refine ⟨hf, ?_, ?_, rfl⟩
  · intro q hq
    simp only [dicom_S3, store_S3, List.mem_cons, List.mem_singleton, List.not_mem_nil,
      or_false] at hq
    rcases hq with rfl | rfl | rfl | rfl | rfl | rfl | rfl | rfl | rfl
    all_goals first
      | (intro h; exact absurd rfl h)
      | (intro _; exact ⟨rfl, _, rfl⟩)
  · intro ext parse_all need_rescale
    have hr : Dicom.parse_summary_required true dicom_S3 = (some .bad_any_cast, dicom_S3) := by
      rfl
    have hs : Dicom.parse_summary true ext dicom_S3 = (some .bad_any_cast, dicom_S3) := by
      unfold Dicom.parse_summary
      rw [hr]
    have h0 : dicom_S3._cols = 0 ∨ dicom_S3._rows = 0 ∨ dicom_S3._bits = 0 ∨ dicom_S3._chs = 0 :=
      Or.inl rfl
    unfold Dicom.parse
    rw [hf]
    cases parse_all
    · simp only [hs, Bool.false_eq_true, ↓reduceIte]
    · simp only [↓reduceIte]
      unfold Dicom.parse_image
      rw [if_pos h0, hs]

/-- C21, as the code has it: scenario S1 (4x4, 8 bits, unsigned, PixelData with
VR OW). The reading part of `Dicom::parse` ends without an exception and has
decoded the 16 bytes of PixelData as eight `uint16_t`; the image builder asks
for a vector of `unsigned char`, and `parse` with `parse_all = true` leaves with
`bad_any_cast` and an empty matrix, whatever the library does. -/
theorem C21_image_S1_counterexample :
    Dicom.parse_file true Dicom.default (IStream.ofBytes file_S1) =
      some ⟨none, dicom_S1, ⟨file_S1, 268, true, true⟩⟩ ∧
    map_find dicom_S1._element (TAG_FRAME_DATA.number true) =
      some (stored_vector TAG_FRAME_DATA 0x4f57 .uint16
        [256, 770, 1284, 1798, 2312, 2826, 3340, 3854]) ∧
    image_dtype 8 false = some .uchar ∧
    ∀ ext : Ext,
      Dicom.parse true ext Dicom.default (IStream.ofBytes file_S1) true false =
        some ⟨some .bad_any_cast,
          { dicom_S1 with _cols := 4, _rows := 4, _bits := 8, _chs := 1 },
          ⟨file_S1, 268, true, true⟩⟩ :=
  ⟨by rfl, by decide, by decide, fun _ => by rfl⟩

/-- C21. Let the summary step of `parse_image` leave the object `d1` without an
exception, with `_bits` 8 or 16, and let the store hold PixelData `e`, BitsStored
equal to `_bits`, and HighBit. The image builder asks for a vector of the type
`T` that `image_dtype` gives for `_bits` and `_is_signed` (`unsigned char`,
`char`, `uint16_t`, `int16_t`).
* When the value of PixelData is a vector of `T`, `parse_image` without rescale
  ends without an exception once `reshape` does, and the matrix is what
  `reshape(1, rows)` returns for the matrix constructed from the vector; when
  the value is anything else, `parse_image` leaves with `bad_any_cast` (first
  part).
* For a library whose constructor and `reshape` lay the vector out as `rows`
  rows of `cols` elements, the matrix has that shape and type `T`, and its entry
  `(r, c)` is the value number `r * cols + c` (second part).
* The decoder does not look at BitsAllocated or PixelRepresentation: on a PixelData
  element in Explicit-VR long form with `L` payload bytes, `Element::parse`
  returns for VR OB a value of type `char` and for VR OW one of type `uint16_t`,
  a single one when `L / sizeof` is 1 and else the vector of the `L / sizeof`
  values of the payload in order (third part).
* The builder asks for `char` only at 8 bits signed and for `uint16_t` only at
  16 bits unsigned (fourth part).
* When the value of PixelData is a single value, or a vector of another type
  than `T`, `parse_image` leaves with `bad_any_cast` (fifth part). So PixelData
  of VR OB or OW meets the builder only as a vector, and only at 8 bits signed
  for OB and at 16 bits unsigned for OW; scenario S1 is not among these. -/
theorem C21_image_needs_matching_dtype (host_le : Bool) (ext : Ext) (d d1 : Dicom)
    (e e1 e2 : Element) (T : DType) (hi_bit : Int)
    (hs : (if d._cols = 0 ∨ d._rows = 0 ∨ d._bits = 0 ∨ d._chs = 0 then
            Dicom.parse_summary host_le ext d else (none, d)) = (none, d1))
    (hf : map_find d1._element (TAG_FRAME_DATA.number host_le) = some e)
    (hT : image_dtype d1._bits d1._is_signed = some T)
    (h1 : map_find d1._element (TAG_BIT_STORED.number host_le) = some e1)
    (hv1 : e1._value = .scalar .uint16 d1._bits)
    (h2 : map_find d1._element (TAG_HI_BIT.number host_le) = some e2)
    (hv2 : e2._value = .scalar .uint16 hi_bit) :
    ((∀ (vs : List Int) (m : Mat), e._value = .vector T vs →
        ext.mat_reshape (ext.mat_of_vector T vs) 1 d1._rows = .ok m →
        Dicom.parse_image host_le ext d false = (none, { d1 with _image := m })) ∧
      ((∀ vs : List Int, e._value ≠ .vector T vs) →
        Dicom.parse_image host_le ext d false = (some .bad_any_cast, d1))) ∧
    (∀ (vs : List Int) (rows cols : Nat), e._value = .vector T vs →
      ext.mat_reshape (ext.mat_of_vector T vs) 1 d1._rows =
        .ok (Mat.of_pixels rows cols T vs) →
      Dicom.parse_image host_le ext d false =
        (none, { d1 with _image := Mat.of_pixels rows cols T vs }) ∧
      ∀ r c : Nat, r < rows → c < cols →
        (Mat.of_pixels rows cols T vs).entry r c =
          (vs[r * cols + c]?).map (fun p : Int => (p : ℚ))) ∧
    (∀ (le : Bool) (dx : Dicom) (ist : IStream) (v0 v1 r0 r1 : Byte) (V : DType) (L : Nat)
      (tail : List Byte),
      dx._architecture_as_little_endian = host_le → dx._format_as_little_endian = le →
      dx._format_as_explicit = true →
      (beNat [v0, v1], V) ∈ [(0x4f42, DType.char), (0x4f57, DType.uint16)] →
      L < 4294967296 → L / V.sizeof < 2147483648 → ist.good = true →
      ist.rest = encode_u16 le TAG_FRAME_DATA.id0 ++ encode_u16 le TAG_FRAME_DATA.id1
        ++ [v0, v1, r0, r1] ++ encode_u32 le L ++ tail →
      L ≤ tail.length →
      Element.parse host_le dx Element.ofParent ist =
        if L / V.sizeof = 1 then
          (.ok { Element.ofParent with
                 _tag := TAG_FRAME_DATA
                 _vr := some (beNat [v0, v1])
                 _value := .scalar V (V.ofMem le (tail.take V.sizeof))
                 _is_vector := false },
           { ist with pos := ist.pos + 12 + V.sizeof })
        else
          (.ok { Element.ofParent with
                 _tag := TAG_FRAME_DATA
                 _vr := some (beNat [v0, v1])
                 _value := .vector V ((List.range (L / V.sizeof)).map (fun i =>
                   V.ofMem le ((tail.drop (i * V.sizeof)).take V.sizeof)))
                 _is_vector := true },
           { ist with pos := ist.pos + 12 + L / V.sizeof * V.sizeof })) ∧
    ((T = .char ↔ d1._bits = 8 ∧ d1._is_signed = true) ∧
      (T = .uint16 ↔ d1._bits = 16 ∧ d1._is_signed = false)) ∧
    (∀ V : DType,
      ((∃ v : Int, e._value = .scalar V v) ∨ (∃ vs : List Int, e._value = .vector V vs ∧ V ≠ T)) →
      Dicom.parse_image host_le ext d false = (some .bad_any_cast, d1)) := by
  have hbad : (∀ vs : List Int, e._value ≠ .vector T vs) →
      Dicom.parse_image host_le ext d false = (some .bad_any_cast, d1) := by
    intro hn
    have hav : e.as_vector T = .error .bad_any_cast := by
      unfold Element.as_vector
      split
      · rename_i u vs hv
        split
        · rename_i hu
          subst hu
          exact absurd hv (hn vs)
        · rfl
      · rfl
    rw [Dicom.parse_image_after_summary false hs, Dicom.parse_image_frame_of hf hT, hav]
  have hok : ∀ (vs : List Int) (m : Mat), e._value = .vector T vs →
      ext.mat_reshape (ext.mat_of_vector T vs) 1 d1._rows = .ok m →
      Dicom.parse_image host_le ext d false = (none, { d1 with _image := m }) := by
    intro vs m hv hm
    rw [Dicom.parse_image_built host_le ext d d1 e e1 e2 T vs m d1._bits hi_bit false hs hf hT
      hv hm h1 hv1 h2 hv2, Dicom.parse_image_rescale_off]
    simp
  refine ⟨⟨hok, hbad⟩, fun vs rows cols hv hm => ⟨hok vs _ hv hm, fun r c hr hc => ?_⟩,
    fun le dx ist v0 v1 r0 r1 V L tail ha hl hx hV hL hn hg hr ht =>
      Element.parse_pixel_data host_le le dx ist v0 v1 r0 r1 V L tail ha hl hx hV hL hn hg hr ht,
    ?_, fun V hV => hbad fun vs hv => ?_⟩
  · simp [Mat.entry, Mat.of_pixels, hr, hc]
  · unfold image_dtype at hT
    split at hT
    · rename_i h8
      split at hT <;> rename_i hsg <;> simp only [Option.some.injEq] at hT <;> subst hT <;>
        simp [h8, hsg]
    · rename_i h8
      split at hT
      · rename_i h16
        split at hT <;> rename_i hsg <;> simp only [Option.some.injEq] at hT <;> subst hT <;>
          simp [h16, hsg]
      · exact Option.noConfusion hT
  · rcases hV with ⟨v, hv1⟩ | ⟨ws, hv1, hne⟩
    · rw [hv1] at hv
      exact Value.noConfusion hv
    · rw [hv1] at hv
      simp only [Value.vector.injEq] at hv
      exact hne hv.1

/-- C21, at an instance: the 2x2 image of 16 bits, unsigned, with PixelData OW,
of `file_16bit`. The reading part of `parse` leaves the object `dicom_16bit`,
whose PixelData is the vector of the four `uint16_t` 1, 2, 3, 4; for a library
that lays the vector out as two rows of two elements, `parse_image` builds the
matrix with the rows 1, 2 and 3, 4. -/
theorem C21_image_needs_matching_dtype_witness :
    (Dicom.parse_file true Dicom.default (IStream.ofBytes file_16bit) =
        some ⟨none, dicom_16bit, ⟨file_16bit, 260, true, true⟩⟩ ∧
      (Mat.of_pixels 2 2 .uint16 [1, 2, 3, 4]).entry 0 1 = some 2 ∧
      (Mat.of_pixels 2 2 .uint16 [1, 2, 3, 4]).entry 1 0 = some 3) ∧
    ∀ ext : Ext,
      ext.mat_reshape (ext.mat_of_vector .uint16 [1, 2, 3, 4]) 1 2 =
        .ok (Mat.of_pixels 2 2 .uint16 [1, 2, 3, 4]) →
      Dicom.parse_image true ext dicom_16bit false =
        (none,
          { dicom_16bit with
            _image := Mat.of_pixels 2 2 .uint16 [1, 2, 3, 4]
            _cols := 2
            _rows := 2
            _bits := 16
            _chs := 1 }) :=
  ⟨⟨by rfl, by decide, by decide⟩, fun ext hm =>
    ((C21_image_needs_matching_dtype true ext dicom_16bit
      { dicom_16bit with _cols := 2, _rows := 2, _bits := 16, _chs := 1 }
      (stored_vector TAG_FRAME_DATA 0x4f57 .uint16 [1, 2, 3, 4])
      (stored_element TAG_BIT_STORED 0x5553 (.scalar .uint16 16))
      (stored_element TAG_HI_BIT 0x5553 (.scalar .uint16 15))
      .uint16 15 (by rfl) (by decide) (by decide) (by decide) rfl (by decide) rfl).2.1
      [1, 2, 3, 4] 2 2 rfl hm).1⟩

/-- C22. Let the summary step of `parse_image` leave the object `d1` without an
exception (the store passes summary extraction) and let the store hold the
PixelData element (7FE0,0010). If the BitsAllocated recorded, `d1._bits`, is
neither 8 nor 16, `parse_image` leaves with the `std::runtime_error`
"Unsupported Bit Allocation", which is no `ParseError`, whatever the value of
the PixelData element is; if it is 8 or 16, `parse_image` does not leave with
that exception. When the summary step has run `parse_summary` (one of `_cols`,
`_rows`, `_bits`, `_chs` was 0, as after the reading part of `parse`), the
BitsAllocated recorded is the value of the element (0028,0100) of the store. -/
theorem C22_unsupported_bit_allocation (host_le : Bool) (ext : Ext) (d d1 : Dicom)
    (need_rescale : Bool)
    (hs : (if d._cols = 0 ∨ d._rows = 0 ∨ d._bits = 0 ∨ d._chs = 0 then
            Dicom.parse_summary host_le ext d else (none, d)) = (none, d1))
    (hf : d1.has_element (TAG_FRAME_DATA.number host_le) = true) :
    (d1._bits ≠ 8 → d1._bits ≠ 16 →
      Dicom.parse_image host_le ext d need_rescale =
        (some (.runtime_error "Unsupported Bit Allocation"), d1)) ∧
    (d1._bits = 8 ∨ d1._bits = 16 →
      (Dicom.parse_image host_le ext d need_rescale).1 ≠
        some (.runtime_error "Unsupported Bit Allocation")) ∧
    (∀ what, Error.runtime_error "Unsupported Bit Allocation" ≠ .ParseError what) ∧
    (d._cols = 0 ∨ d._rows = 0 ∨ d._bits = 0 ∨ d._chs = 0 →
      ∃ e, map_find d._element (TAG_BIT_ALLOC.number host_le) = some e ∧
        e._value = .scalar .uint16 d1._bits) := by
  refine ⟨fun h8 h16 => ?_, fun hb => ?_, fun what => by simp, fun hz => ?_⟩
  rotate_left 2
  · rw [if_pos hz] at hs
    exact Dicom.parse_summary_bits hs
  · rw [Dicom.parse_image_after_summary need_rescale hs,
      Dicom.parse_image_frame_default hf h8 h16]
  · rw [Dicom.parse_image_after_summary need_rescale hs]
    split
    · rename_i err d2 h1
      rw [Dicom.parse_image_frame_cast hf hb h1]
      simp
    · split
      · simp
      · split
        · rename_i err d3 h1
          rcases Dicom.parse_image_unpad_cases h1 with h | h | h <;> rw [h] <;> simp
        · intro h
          cases hr : Dicom.parse_image_rescale host_le ext _ need_rescale with
          | mk e1 d4 =>
            rw [hr] at h
            simp only at h
            rw [h] at hr
            have := Dicom.parse_image_rescale_cast hr
            exact Error.noConfusion this

/-- C22, at an instance: the store of scenario S1 with BitsAllocated 12. -/
theorem C22_unsupported_bit_allocation_witness :
    dicom_12bit.has_element (TAG_FRAME_DATA.number true) = true ∧
    ∀ (ext : Ext) (need_rescale : Bool),
      Dicom.parse_image true ext dicom_12bit need_rescale =
        (some (.runtime_error "Unsupported Bit Allocation"),
         { dicom_12bit with _cols := 4, _rows := 4, _bits := 12, _chs := 1 }) :=
  ⟨by decide, fun ext need_rescale =>
    (C22_unsupported_bit_allocation true ext dicom_12bit
      { dicom_12bit with _cols := 4, _rows := 4, _bits := 12, _chs := 1 } need_rescale
      (by rfl) (by decide)).1 (by decide) (by decide)⟩

/-- C23, as the code has it: the raw pixel 0xFFFF of an image with
BitsAllocated = 16, BitsStored = 8 and HighBit = 7 is still 0xFFFF after the
unpadding step, whatever the library does for `_image /= 2`: the step leaves the
object as it is. -/
theorem C23_unpadding_counterexample :
    dicom_16_8_7._image.data = [65535] ∧
    ∀ ext : Ext, Dicom.parse_image_unpad true ext dicom_16_8_7 = (none, dicom_16_8_7) :=
  ⟨by decide, fun _ => by rfl⟩

/-- C23. With BitsAllocated = 16, BitsStored = 8 and HighBit = 7 the unpadding
step of `parse_image` computes `d = 7 - 8 + 1 = 0` and makes the statement
`_image /= 2` zero times: it ends without an exception and leaves the object,
and with it every pixel, as it is. In general the statement is made
`hi_bit - bit_stored + 1` times. -/
theorem C23_unpadding_shift_count (host_le : Bool) (ext : Ext) (d : Dicom) (e1 e2 : Element)
    (h1 : map_find d._element (TAG_BIT_STORED.number host_le) = some e1)
    (h2 : map_find d._element (TAG_HI_BIT.number host_le) = some e2) :
    (d._bits = 16 → e1._value = .scalar .uint16 8 → e2._value = .scalar .uint16 7 →
      Dicom.parse_image_unpad host_le ext d = (none, d)) ∧
    (∀ bit_stored hi_bit : Int, e1._value = .scalar .uint16 bit_stored →
      e2._value = .scalar .uint16 hi_bit → d._bits ≠ bit_stored →
      Dicom.parse_image_unpad host_le ext d =
        (none, { d with _image :=
          Dicom.parse_image_halve ext (hi_bit - bit_stored + 1).toNat d._image })) := by
  refine ⟨fun hb hv1 hv2 => ?_, fun bit_stored hi_bit hv1 hv2 hne => ?_⟩
  · rw [Dicom.parse_image_unpad_ok h1 hv1 h2 hv2, if_pos (by rw [hb]; decide)]
    rfl
  · rw [Dicom.parse_image_unpad_ok h1 hv1 h2 hv2, if_pos hne]

/-- C23, at an instance: the object `dicom_16_8_7`. -/
theorem C23_unpadding_shift_count_witness :
    map_find dicom_16_8_7._element (TAG_BIT_STORED.number true) =
      some (stored_element TAG_BIT_STORED 0x5553 (.scalar .uint16 8)) ∧
    map_find dicom_16_8_7._element (TAG_HI_BIT.number true) =
      some (stored_element TAG_HI_BIT 0x5553 (.scalar .uint16 7)) ∧
    ∀ ext : Ext, (Dicom.parse_image_unpad true ext dicom_16_8_7).2._image.data = [65535] :=
  ⟨by decide, by decide, fun ext => by
    rw [(C23_unpadding_shift_count true ext dicom_16_8_7
      (stored_element TAG_BIT_STORED 0x5553 (.scalar .uint16 8))
      (stored_element TAG_HI_BIT 0x5553 (.scalar .uint16 7)) (by decide) (by decide)).1
      (by decide) (by decide) (by decide)]
    decide⟩

/-- C24. Let `parse_image` without rescale end without an exception and leave
the object `d3`, whose matrix holds the unpadded pixels, and let the store hold
RescaleIntercept and RescaleSlope as strings. Let `a` be the number
`lexical_cast<float>` returns for the trimmed slope, or 1.0 in place of a
`bad_lexical_cast`, and `b` the number for the trimmed intercept, or 0.0. Then
`parse_image` with rescale ends without an exception, and its matrix is the
unpadded one after the statement `_image *= a` and then the statement
`_image += b` (first part). For a library whose `*=` multiplies and whose `+=`
adds element by element, in a matrix promoted to float, every pixel `p` of the
unpadded matrix has become `p * a + b`, the shape is kept and the element type
is float (second part). -/
theorem C24_rescale_linear (host_le : Bool) (ext : Ext) (d d3 : Dicom) (e1 e2 : Element)
    (s1 s2 : List Byte) (a b : ℚ)
    (h0 : Dicom.parse_image host_le ext d false = (none, d3))
    (h1 : map_find d._element (TAG_RESCALE_INT.number host_le) = some e1)
    (hv1 : e1._value = .string s1)
    (h2 : map_find d._element (TAG_RESCALE_SLP.number host_le) = some e2)
    (hv2 : e2._value = .string s2)
    (ha : (ext.lexical_cast_float (trim s2)).getD (.val 1) = .val a)
    (hb : (ext.lexical_cast_float (trim s1)).getD (.val 0) = .val b) :
    Dicom.parse_image host_le ext d true =
      (none, { d3 with _image := ext.mat_add (ext.mat_mul d3._image (.val a)) (.val b) }) ∧
    ((∀ (m : Mat) (q : ℚ), ext.mat_mul m (.val q) = m.mul_float q) →
      (∀ (m : Mat) (q : ℚ), ext.mat_add m (.val q) = m.add_float q) →
      Dicom.parse_image host_le ext d true =
        (none,
          { d3 with
            _image :=
              { rows := d3._image.rows, cols := d3._image.cols, depth := .float,
                data := d3._image.data.map (fun p => p * a + b) } })) := by
  have hst := Dicom.parse_image_store h0
  have hon : Dicom.parse_image host_le ext d true =
      (none, { d3 with _image := ext.mat_add (ext.mat_mul d3._image (.val a)) (.val b) }) := by
    rw [Dicom.parse_image_then_rescale true h0,
      Dicom.parse_image_rescale_on (hst ▸ h1) hv1 (hst ▸ h2) hv2, ha, hb]
  refine ⟨hon, fun hmul hadd => ?_⟩
  rw [hon, hmul, hadd]
  simp [Mat.mul_float, Mat.add_float]

/-- C24, at scenario S6: the file `file_rescale` (16 bits allocated, 12 stored,
high bit 11, two raw pixels 0x0FFF, slope "2.0 " and intercept "-1.5"), for
every library that builds the one-by-two matrix of the two pixels, reads the
two numbers and rescales element by element. The reading part of `parse` leaves
the object `dicom_rescale`; the shift count 11 - 12 + 1 is 0, so the pixels stay
4095; and `parse` with rescale leaves the float matrix of 8188.5 and 8188.5.
Some library is such. -/
theorem C24_rescale_linear_witness :
    (Dicom.parse_file true Dicom.default (IStream.ofBytes file_rescale) =
        some ⟨none, dicom_rescale, ⟨file_rescale, 280, true, true⟩⟩ ∧
      ((11 : Int) - 12 + 1).toNat = 0 ∧ trim (bytesOf "2.0 ") = bytesOf "2.0" ∧
      trim (bytesOf "-1.5") = bytesOf "-1.5") ∧
    (∃ ext : Ext,
      ext.mat_reshape (ext.mat_of_vector .uint16 [4095, 4095]) 1 1 =
        .ok (Mat.of_pixels 1 2 .uint16 [4095, 4095]) ∧
      ext.lexical_cast_float (bytesOf "2.0") = some (.val 2) ∧
      ext.lexical_cast_float (bytesOf "-1.5") = some (.val (-1.5)) ∧
      (∀ (m : Mat) (q : ℚ), ext.mat_mul m (.val q) = m.mul_float q) ∧
      (∀ (m : Mat) (q : ℚ), ext.mat_add m (.val q) = m.add_float q)) ∧
    ∀ ext : Ext,
      ext.mat_reshape (ext.mat_of_vector .uint16 [4095, 4095]) 1 1 =
        .ok (Mat.of_pixels 1 2 .uint16 [4095, 4095]) →
      ext.lexical_cast_float (bytesOf "2.0") = some (.val 2) →
      ext.lexical_cast_float (bytesOf "-1.5") = some (.val (-1.5)) →
      (∀ (m : Mat) (q : ℚ), ext.mat_mul m (.val q) = m.mul_float q) →
      (∀ (m : Mat) (q : ℚ), ext.mat_add m (.val q) = m.add_float q) →
      Dicom.parse true ext Dicom.default (IStream.ofBytes file_rescale) true false =
        some ⟨none,
          { dicom_rescale with
            _image := Mat.of_pixels 1 2 .uint16 [4095, 4095]
            _cols := 2
            _rows := 1
            _bits := 16
            _chs := 1 },
          ⟨file_rescale, 280, true, true⟩⟩ ∧
      Dicom.parse true ext Dicom.default (IStream.ofBytes file_rescale) true true =
        some ⟨none,
          { dicom_rescale with
            _image := { rows := 1, cols := 2, depth := .float, data := [8188.5, 8188.5] }
            _cols := 2
            _rows := 1
            _bits := 16
            _chs := 1 },
          ⟨file_rescale, 280, true, true⟩⟩ := by
  have hfile : Dicom.parse_file true Dicom.default (IStream.ofBytes file_rescale) =
      some ⟨none, dicom_rescale, ⟨file_rescale, 280, true, true⟩⟩ := by rfl
  refine ⟨⟨hfile, by decide, by decide, by decide⟩, ?_, ?_⟩
  · refine ⟨⟨fun s => if s = bytesOf "2.0" then some (.val 2)
        else if s = bytesOf "-1.5" then some (.val (-1.5)) else none,
      fun T vs => Mat.of_pixels vs.length 1 T vs,
      fun m _ rows => .ok { m with rows := rows.toNat, cols := m.data.length / rows.toNat },
      fun m _ => m,
      fun m x => match x with
        | .val q => m.mul_float q
        | .nan => m,
      fun m x => match x with
        | .val q => m.add_float q
        | .nan => m⟩, by rfl, ?_, ?_, fun _ _ => rfl, fun _ _ => rfl⟩
    · show (if bytesOf "2.0" = bytesOf "2.0" then some (CFloat.val 2)
        else if bytesOf "2.0" = bytesOf "-1.5" then some (CFloat.val (-1.5)) else none) = _
      rw [if_pos rfl]
    · show (if bytesOf "-1.5" = bytesOf "2.0" then some (CFloat.val 2)
        else if bytesOf "-1.5" = bytesOf "-1.5" then some (CFloat.val (-1.5)) else none) = _
      rw [if_neg (by decide), if_pos rfl]
  · intro ext hmat hc2 hc1 hmul hadd
    have h0 : Dicom.parse_image true ext dicom_rescale false =
        (none,
          { dicom_rescale with
            _image := Mat.of_pixels 1 2 .uint16 [4095, 4095]
            _cols := 2
            _rows := 1
            _bits := 16
            _chs := 1 }) := by
      rw [Dicom.parse_image_built true ext dicom_rescale
          { dicom_rescale with _cols := 2, _rows := 1, _bits := 16, _chs := 1 }
          (stored_vector TAG_FRAME_DATA 0x4f57 .uint16 [4095, 4095])
          (stored_element TAG_BIT_STORED 0x5553 (.scalar .uint16 12))
          (stored_element TAG_HI_BIT 0x5553 (.scalar .uint16 11))
          .uint16 [4095, 4095] (Mat.of_pixels 1 2 .uint16 [4095, 4095]) 12 11
          false (by rfl) (by decide) (by decide) rfl hmat (by decide) rfl (by decide) rfl,
        Dicom.parse_image_rescale_off]
      rfl
    have h1 := (C24_rescale_linear true ext dicom_rescale _
      (stored_element TAG_RESCALE_INT 0x4453 (.string (bytesOf "-1.5")))
      (stored_element TAG_RESCALE_SLP 0x4453 (.string (bytesOf "2.0 ")))
      (bytesOf "-1.5") (bytesOf "2.0 ") 2 (-1.5) h0 (by decide) rfl (by decide) rfl
      (by
        have : trim (bytesOf "2.0 ") = bytesOf "2.0" := by decide
        rw [this, hc2]
        rfl)
      (by
        have : trim (bytesOf "-1.5") = bytesOf "-1.5" := by decide
        rw [this, hc1]
        rfl)).2 hmul hadd
    constructor
    · unfold Dicom.parse
      rw [hfile]
      simp only [↓reduceIte, h0]
    · unfold Dicom.parse
      rw [hfile]
      simp only [↓reduceIte, h1]
      simp only [Mat.of_pixels, List.map_cons, List.map_nil]
      norm_num

/-- C25. A call `parse(stream, false, need_rescale)` leaves the member `_image`
as it found it, whether it ends with an exception or not: the statements that
reset the object at the start of `parse` do not write `_image`, and with
`parse_all = false` nothing after them does. When the matrix found was not
empty, `image()` called afterwards returns it, for either value of its flag, and
so returns a matrix built from an earlier stream. -/
theorem C25_parse_keeps_image (host_le : Bool) (ext : Ext) (d : Dicom) (ist : IStream)
    (need_rescale : Bool) (o : Outcome)
    (h : Dicom.parse host_le ext d ist false need_rescale = some o) :
    o.dicom._image = d._image ∧
    (d._image.empty = false → ∀ b : Bool,
      Dicom.image host_le ext o.dicom b = (none, o.dicom) ∧
      (Dicom.image host_le ext o.dicom b).2._image = d._image) := by
  have key : o.dicom._image = d._image := by
    unfold Dicom.parse at h
    split at h
    · exact Option.noConfusion h
    · rename_i err d1 ist1 hf
      simp only [Option.some.injEq] at h
      rw [← h]
      exact Dicom.parse_file_image hf
    · rename_i d1 ist1 hf
      have h1 := Dicom.parse_file_image hf
      simp only [Bool.false_eq_true, ↓reduceIte, Option.some.injEq] at h
      rw [← h]
      simp only at h1 ⊢
      rw [Dicom.parse_summary_image]
      exact h1
  refine ⟨key, fun hne b => ?_⟩
  have : Dicom.image host_le ext o.dicom b = (none, o.dicom) := by
    simp [Dicom.image, key, hne]
  rw [this]
  exact ⟨rfl, key⟩

/-- C25, at an instance: an object whose `_image` holds a one-by-one matrix,
left by an earlier parse, parses `file_S1` with `parse_all = false`. The call
ends without an exception and `image()` returns the matrix found. -/
theorem C25_parse_keeps_image_witness :
    mat_single.empty = false ∧
    ∀ ext : Ext,
      Dicom.parse true ext { Dicom.default with _image := mat_single }
          (IStream.ofBytes file_S1) false true =
        some ⟨none, { dicom_S1 with _image := mat_single, _cols := 4, _rows := 4, _bits := 8,
                                    _chs := 1 },
          ⟨file_S1, 268, true, true⟩⟩ ∧
      ∀ b : Bool,
        (Dicom.image true ext
          { dicom_S1 with _image := mat_single, _cols := 4, _rows := 4, _bits := 8, _chs := 1 }
          b).2._image = mat_single :=
  ⟨by decide, fun ext => ⟨by rfl, fun b =>
    ((C25_parse_keeps_image true ext { Dicom.default with _image := mat_single }
      (IStream.ofBytes file_S1) true
      ⟨none, { dicom_S1 with _image := mat_single, _cols := 4, _rows := 4, _bits := 8,
                             _chs := 1 },
        ⟨file_S1, 268, true, true⟩⟩ (by rfl)).2 (by decide) b).2⟩⟩

/-- C26, as the code has it: on a store with the required elements of S1 and
the PixelSpacing string "0.5\x", whose second token is no number, `parse_summary`
ends without an exception and `_px_spacing_row` holds 0.5, not its default 0.0,
for every conversion that reads "0.5" as one half and rejects "x". -/
theorem C26_soft_parse_counterexample :
    split_backslash (trim (bytesOf "0.5" ++ [0x5c] ++ bytesOf "x")) =
      [bytesOf "0.5", bytesOf "x"] ∧
    (∃ ext : Ext, ext.lexical_cast_float (bytesOf "0.5") = some (.val (1 / 2)) ∧
      ext.lexical_cast_float (bytesOf "x") = none) ∧
    ∀ ext : Ext, ext.lexical_cast_float (bytesOf "0.5") = some (.val (1 / 2)) →
      ext.lexical_cast_float (bytesOf "x") = none →
      (Dicom.parse_summary true ext dicom_spacing).1 = none ∧
      (Dicom.parse_summary true ext dicom_spacing).2._px_spacing_row = .val (1 / 2) ∧
      (Dicom.parse_summary true ext dicom_spacing).2._px_spacing_col = .val 0 := by
  refine ⟨by decide,
    ⟨⟨fun s => if s = bytesOf "0.5" then some (.val (1 / 2)) else none,
      fun T vs => ⟨vs.length, 1, T, vs.map (fun p : Int => (p : ℚ))⟩, fun m _ _ => .ok m,
      fun m _ => m, fun m _ => m, fun m _ => m⟩, by simp, by
        show (if bytesOf "x" = bytesOf "0.5" then some (CFloat.val (1 / 2)) else none) = none
        exact if_neg (by decide)⟩,
    fun ext h0 h1 => ?_⟩
  have hr : Dicom.parse_summary_required true dicom_spacing =
      (none, { dicom_spacing with _cols := 4, _rows := 4, _bits := 8, _chs := 1 }) := by rfl
  have hp := @Dicom.parse_summary_px_spacing_tokens true ext
    { dicom_spacing with _cols := 4, _rows := 4, _bits := 8, _chs := 1 }
    (stored_element TAG_PX_SPACING 0x4453 (.string (bytesOf "0.5" ++ [0x5c] ++ bytesOf "x")))
    (bytesOf "0.5" ++ [0x5c] ++ bytesOf "x") (bytesOf "0.5") (bytesOf "x") []
    (by decide) rfl (by decide)
  rw [h0, h1] at hp
  simp only at hp
  unfold Dicom.parse_summary
  rw [hr]
  simp only
  rw [hp]
  simp only
  exact ⟨by rfl, by rfl, by rfl⟩

/-- C26. Let the store hold the five required elements with the types
`parse_summary` asks for, and let PixelSpacing and ImagePositionPatient, where
present, be strings. Then `parse_summary` ends without an exception. The tokens
of PixelSpacing (at least two) are converted in order, each value being assigned
before the next token is tried: `_px_spacing_row` holds the first value, or its
default 0.0 when the first token is no number; `_px_spacing_col` holds the second
value when both tokens are numbers and else its default 0.0. In the same way
`_image_pos_x`, `_image_pos_y`, `_image_pos_z` hold the values of the tokens of
ImagePositionPatient (at least three) that come before the first token that is
no number, and the members from that token on keep their default NaN. -/
theorem C26_soft_parse_in_order (host_le : Bool) (ext : Ext) (d d1 : Dicom)
    (hreq : Dicom.parse_summary_required host_le d = (none, d1))
    (hpx : ∀ e, map_find d._element (TAG_PX_SPACING.number host_le) = some e →
      ∃ s, e._value = .string s)
    (hip : ∀ e, map_find d._element (TAG_IMG_POSITION.number host_le) = some e →
      ∃ s, e._value = .string s) :
    (Dicom.parse_summary host_le ext d).1 = none ∧
    (∀ (e : Element) (s t0 t1 : List Byte) (ts : List (List Byte)),
      map_find d._element (TAG_PX_SPACING.number host_le) = some e → e._value = .string s →
      split_backslash (trim s) = t0 :: t1 :: ts →
      (Dicom.parse_summary host_le ext d).2._px_spacing_row =
        (ext.lexical_cast_float t0).getD (.val 0) ∧
      (Dicom.parse_summary host_le ext d).2._px_spacing_col =
        if (ext.lexical_cast_float t0).isSome then (ext.lexical_cast_float t1).getD (.val 0)
        else .val 0) ∧
    (∀ (e : Element) (s t0 t1 t2 : List Byte) (ts : List (List Byte)),
      map_find d._element (TAG_IMG_POSITION.number host_le) = some e → e._value = .string s →
      split_backslash (trim s) = t0 :: t1 :: t2 :: ts →
      (Dicom.parse_summary host_le ext d).2._image_pos_x =
        (ext.lexical_cast_float t0).getD .nan ∧
      (Dicom.parse_summary host_le ext d).2._image_pos_y =
        (if (ext.lexical_cast_float t0).isSome then (ext.lexical_cast_float t1).getD .nan
         else .nan) ∧
      (Dicom.parse_summary host_le ext d).2._image_pos_z =
        (if (ext.lexical_cast_float t0).isSome ∧ (ext.lexical_cast_float t1).isSome then
          (ext.lexical_cast_float t2).getD .nan
         else .nan)) := by
  obtain ⟨e1, e2, e3, e4, e5, s0, v2, v3, v4, v5, -, -, -, -, -, -, -, -, -, -, -, hd1⟩ :=
    Dicom.parse_summary_required_inv hreq
  have hst : d1._element = d._element := by rw [hd1]
  have hr0 : d1._px_spacing_row = .val 0 := by rw [hd1]
  have hc0 : d1._px_spacing_col = .val 0 := by rw [hd1]
  have hx0 : d1._image_pos_x = .nan := by rw [hd1]
  have hy0 : d1._image_pos_y = .nan := by rw [hd1]
  have hz0 : d1._image_pos_z = .nan := by rw [hd1]
  obtain ⟨r, c, hpxr⟩ := Dicom.parse_summary_px_spacing_ok host_le ext d1 (by rw [hst]; exact hpx)
  obtain ⟨x, y, z, hipr⟩ := Dicom.parse_summary_image_pos_ok host_le ext
    { d1 with _px_spacing_row := r, _px_spacing_col := c } (by
      show ∀ e, map_find d1._element _ = some e → _
      rw [hst]; exact hip)
  have hfin : Dicom.parse_summary host_le ext d =
      (none, { d1 with _px_spacing_row := r, _px_spacing_col := c, _image_pos_x := x,
                       _image_pos_y := y, _image_pos_z := z }) := by
    unfold Dicom.parse_summary
    rw [hreq]
    simp only
    rw [hpxr]
    simp only
    rw [hipr]
  refine ⟨by rw [hfin], ?_, ?_⟩
  · intro e s t0 t1 ts hm hs ht
    have hb := @Dicom.parse_summary_px_spacing_tokens host_le ext d1 e s t0 t1 ts
      (by rw [hst]; exact hm) hs ht
    rw [hpxr] at hb
    simp only [Prod.mk.injEq, true_and] at hb
    rw [hfin]
    simp only
    have hrow := congrArg Dicom._px_spacing_row hb
    have hcol := congrArg Dicom._px_spacing_col hb
    simp only at hrow hcol
    rw [hrow, hcol]
    cases ext.lexical_cast_float t0 with
    | none => exact ⟨hr0, hc0⟩
    | some row =>
      cases ext.lexical_cast_float t1 with
      | none => exact ⟨rfl, hc0⟩
      | some col => exact ⟨rfl, rfl⟩
  · intro e s t0 t1 t2 ts hm hs ht
    have hb := @Dicom.parse_summary_image_pos_tokens host_le ext
      { d1 with _px_spacing_row := r, _px_spacing_col := c } e s t0 t1 t2 ts
      (by show map_find d1._element _ = some e; rw [hst]; exact hm) hs ht
    rw [hipr] at hb
    simp only [Prod.mk.injEq, true_and] at hb
    rw [hfin]
    simp only
    have hx := congrArg Dicom._image_pos_x hb
    have hy := congrArg Dicom._image_pos_y hb
    have hz := congrArg Dicom._image_pos_z hb
    simp only at hx hy hz
    rw [hx, hy, hz]
    cases ext.lexical_cast_float t0 with
    | none => exact ⟨hx0, hy0, hz0⟩
    | some vx =>
      cases ext.lexical_cast_float t1 with
      | none => exact ⟨rfl, hy0, hz0⟩
      | some vy =>
        cases ext.lexical_cast_float t2 with
        | none => exact ⟨rfl, rfl, hz0⟩
        | some vz => exact ⟨rfl, rfl, rfl⟩

/-- C26, at an instance: the object `dicom_spacing`, whose PixelSpacing is
"0.5\x". -/
theorem C26_soft_parse_in_order_witness :
    map_find dicom_spacing._element (TAG_IMG_POSITION.number true) = none ∧
    ∀ ext : Ext,
      (Dicom.parse_summary true ext dicom_spacing).2._px_spacing_row =
        (ext.lexical_cast_float (bytesOf "0.5")).getD (.val 0) :=
  ⟨by decide, fun ext =>
    ((C26_soft_parse_in_order true ext dicom_spacing
      { dicom_spacing with _cols := 4, _rows := 4, _bits := 8, _chs := 1 } (by rfl)
      (fun e h => ⟨bytesOf "0.5" ++ [0x5c] ++ bytesOf "x", by
        have h1 : map_find dicom_spacing._element (TAG_PX_SPACING.number true) =
          some (stored_element TAG_PX_SPACING 0x4453
            (.string (bytesOf "0.5" ++ [0x5c] ++ bytesOf "x"))) := by decide
        rw [h1] at h
        rw [← Option.some.inj h]
        rfl⟩)
      (fun e h => by
        have h1 : map_find dicom_spacing._element (TAG_IMG_POSITION.number true) = none := by
          decide
        rw [h1] at h
        exact Option.noConfusion h)).2.1
      (stored_element TAG_PX_SPACING 0x4453 (.string (bytesOf "0.5" ++ [0x5c] ++ bytesOf "x")))
      (bytesOf "0.5" ++ [0x5c] ++ bytesOf "x") (bytesOf "0.5") (bytesOf "x") []
      (by decide) rfl (by decide)).1⟩

/-- C27, as the code has it: the element (0028,0010) US with the declared
length 3, at the start of a stream of 21 bytes. `Element::parse` reads one
`uint16_t` and ends at offset 10, not at offset 8 + 3 = 11: the third value
byte is left for the next tag. -/
theorem C27_short_form_counterexample :
    stream_odd_length.length = 21 ∧
    Element.parse true Dicom.default Element.ofParent (IStream.ofBytes stream_odd_length) =
      (.ok (stored_element TAG_ROWS 0x5553 (.scalar .uint16 4)),
       ⟨stream_odd_length, 10, false, false⟩) :=
  ⟨by decide, by rfl⟩

/-- C27. Take an Explicit-VR element in short form: a tag other than zero, two
VR bytes that are none of OB, OW, OF, SQ, UT, UN, a 16-bit length `L`, and then
at least `L` further bytes on a good stream. For an object in Explicit-VR mode
of the stream's byte order, `Element::parse`
* for a string VR (CS, DA, DS, DT, IS, LO, LT, PN, SH, ST, TM, UI) returns the
  `L` bytes as the value and ends `8 + L` bytes further on;
* for a numeric VR (SS, SL, US, AT, UL, FL, FD) with element size `s` ends
  `8 + floor(L / s) * s` bytes further on, which is `8 + L` when `s` divides `L`;
* for any other VR code ends `8` bytes further on with the `ParseError`
  "Unknown VR found". -/
theorem C27_short_form_consumes (host_le le : Bool) (d : Dicom) (ist : IStream)
    (tag : TypeTag) (v0 v1 : Byte) (L : Nat) (body tail : List Byte)
    (ha : d._architecture_as_little_endian = host_le) (hl : d._format_as_little_endian = le)
    (hx : d._format_as_explicit = true)
    (hshort : beNat [v0, v1] ∉ vr_long)
    (h0 : tag.id0 < 65536) (h1 : tag.id1 < 65536) (hz : tag ≠ ⟨0, 0⟩) (hL : L < 65536)
    (hlen : body.length = L) (hg : ist.good = true)
    (hr : ist.rest = encode_u16 le tag.id0 ++ encode_u16 le tag.id1 ++ [v0, v1]
      ++ encode_u16 le L ++ (body ++ tail)) :
    (beNat [v0, v1] ∈ vr_string →
      Element.parse host_le d Element.ofParent ist =
        (.ok { Element.ofParent with
               _tag := tag
               _vr := some (beNat [v0, v1])
               _value := .string body
               _is_vector := false },
         { ist with pos := ist.pos + 8 + L })) ∧
    (∀ T : DType, (beNat [v0, v1], T) ∈ vr_typed →
      (∃ e, Element.parse host_le d Element.ofParent ist =
        (.ok e, { ist with pos := ist.pos + 8 + L / T.sizeof * T.sizeof })) ∧
      (T.sizeof ∣ L → ∃ e, Element.parse host_le d Element.ofParent ist =
        (.ok e, { ist with pos := ist.pos + 8 + L }))) ∧
    (beNat [v0, v1] ∉ vr_known →
      Element.parse host_le d Element.ofParent ist =
        (.error (.ParseError "Unknown VR found"), { ist with pos := ist.pos + 8 })) := by
  have hdr := Element.parse_short_header host_le le d ist tag v0 v1 L (body ++ tail) ha hl hx
    hshort h0 h1 hz hL hg hr
  obtain ⟨a0, a1, hA⟩ := encode_u16_eq le tag.id0
  obtain ⟨a2, a3, hB⟩ := encode_u16_eq le tag.id1
  obtain ⟨b0, b1, hC⟩ := encode_u16_eq le L
  have hg8 := IStream.good_advance ist 8 hg
  have hr8 : ({ ist with pos := ist.pos + 8 } : IStream).rest = body ++ tail := by
    rw [IStream.rest_advance, hr, hA, hB, hC]
    simp
  have hn8 : L ≤ ({ ist with pos := ist.pos + 8 } : IStream).rest.length := by
    rw [hr8, List.length_append, hlen]; omega
  have htyped : ∀ T : DType, (beNat [v0, v1], T) ∈ vr_typed →
      ∃ e, Element.parse host_le d Element.ofParent ist =
        (.ok e, { ist with pos := ist.pos + 8 + L / T.sizeof * T.sizeof }) := by
    intro T hT
    have hq : L / T.sizeof < 2147483648 :=
      lt_of_le_of_lt (Nat.div_le_self _ _) (by omega)
    rw [hdr, Element.body_typed host_le d _ _ T _ _ (Or.inl hT),
      Element.data_ok host_le d _ T _ L rfl ha hg8 (by omega) hn8, toInt32_of_lt hq]
    split
    · rename_i h1
      rw [h1, Nat.one_mul]
      exact ⟨_, rfl⟩
    · simp only [Int.toNat_ofNat]
      exact ⟨_, rfl⟩
  refine ⟨fun hs => ?_, fun T hT => ⟨htyped T hT, fun hdvd => ?_⟩, fun hk => ?_⟩
  · rw [hdr]
    unfold Element._parse_body_explicit
    rw [if_pos hs]
    unfold Element._read_element_data_string
    rw [IStream.read_ok _ L hg8 hn8, hr8, ← hlen, List.take_left]
  · obtain ⟨e, he⟩ := htyped T hT
    rw [Nat.div_mul_cancel hdvd] at he
    exact ⟨e, he⟩
  · rw [hdr, Element.body_unknown host_le d _ _ _ _ hk]

/-- C27, at an instance: the element (0028,0010) US 4 of length 2, followed by
two more bytes, read by a new object on a little-endian host. -/
theorem C27_short_form_consumes_witness :
    (beNat [0x55, 0x53], DType.uint16) ∈ vr_typed ∧
    ∃ e, Element.parse true Dicom.default Element.ofParent
        (IStream.ofBytes ([0x28, 0x00, 0x10, 0x00, 0x55, 0x53, 0x02, 0x00, 0x04, 0x00, 0x28,
          0x00])) =
      (.ok e, ⟨[0x28, 0x00, 0x10, 0x00, 0x55, 0x53, 0x02, 0x00, 0x04, 0x00, 0x28, 0x00], 10,
        false, false⟩) :=
  ⟨by decide,
    ((C27_short_form_consumes true true Dicom.default
      (IStream.ofBytes [0x28, 0x00, 0x10, 0x00, 0x55, 0x53, 0x02, 0x00, 0x04, 0x00, 0x28, 0x00])
      TAG_ROWS 0x55 0x53 2 [0x04, 0x00] [0x28, 0x00] rfl rfl rfl (by decide) (by decide)
      (by decide) (by decide) (by decide) rfl (by decide) (by decide)).2.1
      DType.uint16 (by decide)).2 (by decide)⟩

/-- C28, as the code has it when `_image /= 2` is an integer division: the
signed pixel -1 divided once by 2 is 0, while -1 shifted right by one bit,
arithmetically, is -1. For every library that divides the pixel -1 so, the loop
of the unpadding with `d = 1` turns the one-pixel matrix of -1 into that of 0. -/
theorem C28_unpadding_counterexample :
    pixel_unpad pixel_halve 1 (-1) = 0 ∧ pixel_shift_right (-1) 1 = -1 ∧
    ∀ ext : Ext,
      ext.mat_div (Mat.of_pixels 1 1 .char [-1]) 2 = Mat.of_pixels 1 1 .char [pixel_halve (-1)] →
      Dicom.parse_image_halve ext 1 (Mat.of_pixels 1 1 .char [-1]) =
        Mat.of_pixels 1 1 .char [0] ∧
      Mat.of_pixels 1 1 .char [0] ≠ Mat.of_pixels 1 1 .char [pixel_shift_right (-1) 1] :=
  ⟨by decide, by decide, fun ext h => ⟨by
    rw [Dicom.parse_image_halve, Dicom.parse_image_halve, h]
    rfl, by decide⟩⟩

/-- C28. Let the store hold BitsStored and HighBit as `uint16_t`, with `_bits`
other than BitsStored, let `d` be `hi_bit - bit_stored + 1`, or 0 when that is
negative, and let the matrix hold the integer pixels `ps`. For a library whose `_image /= 2` replaces
every pixel `q` by `halve q`, the unpadding ends without an exception and
replaces every pixel `p` by `halve` applied `d` times (first part). When `halve`
is exact on even numbers, a pixel whose `d` low bits are zero becomes `p`
shifted right by `d` bits (second part). When `halve` is the integer division by
2, which rounds toward zero, the pixel becomes `p` shifted right by `d` bits,
logically for an unsigned pixel and arithmetically for a signed one, if and only
if `p` is not negative or its `d` low bits are zero (third part); so the two
agree on every pixel of the unsigned types and on the signed pixels that are not
negative (fourth part), and differ on the other negative ones. -/
theorem C28_unpadding_division_and_shift (host_le : Bool) (ext : Ext) (d : Dicom)
    (e1 e2 : Element) (bit_stored hi_bit : Int) (halve : Int → Int) (ps : List Int)
    (h1 : map_find d._element (TAG_BIT_STORED.number host_le) = some e1)
    (hv1 : e1._value = .scalar .uint16 bit_stored)
    (h2 : map_find d._element (TAG_HI_BIT.number host_le) = some e2)
    (hv2 : e2._value = .scalar .uint16 hi_bit)
    (hne : d._bits ≠ bit_stored)
    (hps : d._image = Mat.of_pixels d._image.rows d._image.cols d._image.depth ps)
    (hdiv : ∀ qs : List Int,
      ext.mat_div (Mat.of_pixels d._image.rows d._image.cols d._image.depth qs) 2 =
        Mat.of_pixels d._image.rows d._image.cols d._image.depth (qs.map halve)) :
    Dicom.parse_image_unpad host_le ext d =
      (none,
        { d with
          _image :=
            Mat.of_pixels d._image.rows d._image.cols d._image.depth
              (ps.map (pixel_unpad halve (hi_bit - bit_stored + 1).toNat)) }) ∧
    ((∀ q : Int, halve (2 * q) = q) → ∀ p : Int,
      (2 : Int) ^ (hi_bit - bit_stored + 1).toNat ∣ p →
      pixel_unpad halve (hi_bit - bit_stored + 1).toNat p =
        pixel_shift_right p (hi_bit - bit_stored + 1).toNat) ∧
    (halve = pixel_halve → ∀ p : Int,
      (pixel_unpad halve (hi_bit - bit_stored + 1).toNat p =
        pixel_shift_right p (hi_bit - bit_stored + 1).toNat ↔
      (0 ≤ p ∨ (2 : Int) ^ (hi_bit - bit_stored + 1).toNat ∣ p))) ∧
    (halve = pixel_halve → ∀ p : Int, 0 ≤ p →
      pixel_unpad halve (hi_bit - bit_stored + 1).toNat p =
        pixel_shift_right p (hi_bit - bit_stored + 1).toNat) := by
  have hiff : ∀ (k : Nat) (p : Int),
      pixel_unpad pixel_halve k p = pixel_shift_right p k ↔ (0 ≤ p ∨ (2 : Int) ^ k ∣ p) := by
    intro k p
    rw [pixel_unpad_halve, pixel_shift_right, Int.shiftRight_eq_div_pow]
    have := tdiv_eq_ediv_iff p ((2 ^ k : Nat) : Int) (by positivity)
    simpa using this
  refine ⟨?_, fun hex p hp => pixel_unpad_of_dvd halve hex _ p hp, fun hh p => ?_,
    fun hh p hp => ?_⟩
  · rw [Dicom.parse_image_unpad_ok h1 hv1 h2 hv2, if_pos hne]
    congr 2
    rw [hps]
    exact Dicom.parse_image_halve_pixels ext halve _ _ _ hdiv _ ps
  · rw [hh]
    exact hiff _ p
  · rw [hh]
    exact (hiff _ p).mpr (Or.inl hp)

/-- C28, at an instance: the object `dicom_16_12_15`, for which `d = 4`, and
every library that divides the pixels of a one-by-two matrix of type `CV_16S`
as the integer division does. The pixel -4096, whose four low bits are zero,
becomes -256, which is -4096 shifted right by four bits; the pixel -1 becomes 0,
while -1 shifted right by four bits is -1. -/
theorem C28_unpadding_division_and_shift_witness :
    (pixel_shift_right (-4096) 4 = -256 ∧ pixel_shift_right (-1) 4 = -1) ∧
    (∃ ext : Ext, ∀ qs : List Int,
      ext.mat_div (Mat.of_pixels 1 2 .int16 qs) 2 =
        Mat.of_pixels 1 2 .int16 (qs.map pixel_halve)) ∧
    ∀ ext : Ext,
      (∀ qs : List Int, ext.mat_div (Mat.of_pixels 1 2 .int16 qs) 2 =
        Mat.of_pixels 1 2 .int16 (qs.map pixel_halve)) →
      Dicom.parse_image_unpad true ext dicom_16_12_15 =
        (none, { dicom_16_12_15 with _image := Mat.of_pixels 1 2 .int16 [-256, 0] }) :=
  ⟨by decide,
   ⟨⟨fun _ => none, fun T vs => Mat.of_pixels vs.length 1 T vs, fun m _ _ => .ok m,
      fun m k => { m with data := m.data.map (fun q => ((Int.tdiv ⌊q⌋ k : Int) : ℚ)) },
      fun m _ => m, fun m _ => m⟩, fun qs => by
      simp only [Mat.of_pixels, List.map_map, Mat.mk.injEq, true_and]
      apply List.map_congr_left
      intro q _
      simp [pixel_halve]⟩,
   fun ext hdiv =>
    (C28_unpadding_division_and_shift true ext dicom_16_12_15
      (stored_element TAG_BIT_STORED 0x5553 (.scalar .uint16 12))
      (stored_element TAG_HI_BIT 0x5553 (.scalar .uint16 15)) 12 15 pixel_halve [-4096, -1]
      (by decide) rfl (by decide) rfl (by decide) (by rfl) hdiv).1.trans (by rfl)⟩

/-- C29, as the code has it: on the header of a PixelData element with VR OB
and the undefined length 0xFFFFFFFF, `len / sizeof(char)` is 4294967295, the
`int` it converts to is -1, and the value loop makes no turn: `Element::parse`
returns an empty vector and ends at offset 12, behind the header. -/
theorem C29_typed_loop_counterexample :
    (0xFFFFFFFF / DType.char.sizeof = 4294967295 ∧ toInt32 (0xFFFFFFFF / DType.char.sizeof) = -1) ∧
    Element.parse true Dicom.default Element.ofParent (IStream.ofBytes stream_undefined_ob) =
      (.ok (stored_vector TAG_FRAME_DATA 0x4f42 .char []), ⟨stream_undefined_ob, 12, false, false⟩) :=
  ⟨by decide, by rfl⟩

/-- C29. `Dicom::parse` ends on every stream: with the turns the model gives
its two loops, one more than the input has bytes, it always returns. The
reasons are these.
* A call of `parse_tag` that returns (a turn of the first loop that goes on)
  has read four bytes, and so has a call of `Element::parse` that returns (a
  turn of the second loop that goes on); every other turn leaves its loop.
* When `_read_element_data<T>` returns a vector, its loop has made as many
  turns as the `int` holds that `len / sizeof(T)` converts to: at most
  `floor(len / sizeof(T))`, exactly that many when `floor(len / sizeof(T))` is
  below 2^31, and none when it is 2^31 or more (then the `int` is negative).
* The scan for the end-of-sequence mark appends one byte to the value for each
  byte it reads, and on a good stream whose unread bytes do not contain the mark
  it ends with `StreamError` at the end of the input. -/
theorem C29_parse_terminates (host_le : Bool) (ext : Ext) (d : Dicom) (ist : IStream)
    (parse_all need_rescale : Bool) :
    (∃ o, Dicom.parse host_le ext d ist parse_all need_rescale = some o) ∧
    (∀ (e : Element) (ist1 : IStream),
      Element.parse_tag host_le d Element.ofParent ist = (.ok e, ist1) →
      ist1.rest.length + 4 = ist.rest.length) ∧
    (∀ (e : Element) (ist1 : IStream),
      Element.parse host_le d Element.ofParent ist = (.ok e, ist1) →
      ist1.rest.length + 4 ≤ ist.rest.length) ∧
    (∀ (e e1 : Element) (T : DType) (len : Nat) (ist1 : IStream) (vs : List Int),
      len < 4294967296 →
      Element._read_element_data host_le d e T ist len = (.ok e1, ist1) →
      e1._value = .vector T vs →
      vs.length = (toInt32 (len / T.sizeof)).toNat ∧
      vs.length ≤ len / T.sizeof ∧
      (len / T.sizeof < 2147483648 → vs.length = len / T.sizeof) ∧
      (2147483648 ≤ len / T.sizeof → vs.length = 0)) ∧
    (∀ (unread eos value value1 unread1 : List Byte),
      Element._read_sequence_loop unread eos value = some (value1, unread1) →
      value1.length + unread1.length = value.length + unread.length) ∧
    (∀ e : Element, ist.good = true → ¬ List.IsInfix end_of_sequence ist.rest →
      Element._read_element_data_sequence host_le d e ist 0xFFFFFFFF =
        (.error (.StreamError ""),
         { ist with pos := ist.pos + ist.rest.length, eofbit := true, failbit := true })) := by
  refine ⟨Dicom.parse_total host_le ext d ist parse_all need_rescale, ?_, ?_, ?_, ?_, ?_⟩
  · intro e ist1 h
    exact (Element.parse_tag_spec h).2.2 e rfl
  · intro e ist1 h
    exact (Element.parse_spec h).2.2 e rfl
  · intro e e1 T len ist1 vs h32 h hv
    have hq : len / T.sizeof < 4294967296 := lt_of_le_of_lt (Nat.div_le_self _ _) h32
    have hl := Element.data_length h hv
    refine ⟨hl, by rw [hl]; exact toInt32_toNat_le hq, fun h31 => ?_, fun h31 => ?_⟩
    · rw [hl, toInt32_of_lt h31, Int.toNat_ofNat]
    · rw [hl]
      have : len / T.sizeof % 4294967296 = len / T.sizeof := Nat.mod_eq_of_lt hq
      simp only [toInt32, this]
      rw [if_neg (by omega)]
      omega
  · intro unread
    induction unread with
    | nil => intro eos value value1 unread1 h; simp [Element._read_sequence_loop] at h
    | cons c unread ih =>
      intro eos value value1 unread1 h
      unfold Element._read_sequence_loop at h
      split at h
      · simp only [Option.some.injEq, Prod.mk.injEq] at h
        rw [← h.1, ← h.2]
        simp
        omega
      · have := ih _ _ _ _ h
        simp only [List.length_append, List.length_cons, List.length_nil] at this ⊢
        omega
  · intro e hg hno
    unfold Element._read_element_data_sequence
    rw [if_neg (by decide), if_pos hg,
      Element.sequence_loop_none ist.rest [0, 0, 0, 0, 0, 0, 0, 0] [] rfl
        (end_of_sequence_absent ist.rest hno)]

/-- C30. `Dicom::image(need_rescale)` calls `parse_image(need_rescale)` when the
cached matrix `_image` is empty, and only then: when the cached matrix is not
empty it returns that matrix and leaves the object as it is, so that `image(true)`
and `image(false)` return the same. This holds in particular for the matrix a
call of `parse` with `parse_all = true`, a call of `parse_image` or an earlier
call of `image` has built. -/
theorem C30_image_returns_cache (host_le : Bool) (ext : Ext) (d : Dicom) (b : Bool) :
    (d._image.empty = true →
      Dicom.image host_le ext d b = Dicom.parse_image host_le ext d b) ∧
    (d._image.empty = false →
      Dicom.image host_le ext d b = (none, d) ∧
      Dicom.image host_le ext d true = Dicom.image host_le ext d false) ∧
    (∀ (d0 : Dicom) (ist : IStream) (nr : Bool) (o : Outcome),
      Dicom.parse host_le ext d0 ist true nr = some o → o.dicom._image.empty = false →
      Dicom.image host_le ext o.dicom b = (none, o.dicom)) ∧
    (∀ (d0 : Dicom) (nr : Bool),
      (Dicom.parse_image host_le ext d0 nr).2._image.empty = false →
      Dicom.image host_le ext (Dicom.parse_image host_le ext d0 nr).2 b =
        (none, (Dicom.parse_image host_le ext d0 nr).2)) ∧
    (∀ (d0 : Dicom) (nr : Bool),
      (Dicom.image host_le ext d0 nr).2._image.empty = false →
      Dicom.image host_le ext (Dicom.image host_le ext d0 nr).2 b =
        (none, (Dicom.image host_le ext d0 nr).2)) := by
  have key : ∀ (x : Dicom) (c : Bool), x._image.empty = false →
      Dicom.image host_le ext x c = (none, x) := by
    intro x c hx
    simp [Dicom.image, hx]
  refine ⟨fun h => ?_, fun h => ⟨key d b h, ?_⟩, fun d0 ist nr o _ h => key _ b h,
    fun d0 nr h => key _ b h, fun d0 nr h => key _ b h⟩
  · simp [Dicom.image, h]
  · rw [key d true h, key d false h]

/-- C31, as the code has it, on two inputs with the magic and one element of
group 0x0002 that ends at the end of the input. For the element (0002,0016) with
VR AE, which has no `case` in the decoder, `parse` leaves with the `ParseError`
"Unknown VR found". For the element (0002,0001) with VR FD and the declared
length 12 the decoder reads one `double`; the four bytes left are read as the
tag (0008,0005), which ends the first loop; the second loop ends on its
`StreamError`, and `parse` reaches the summary extraction and leaves with
`MissingTagError`. -/
theorem C31_meta_only_counterexample :
    (file_meta_ae.length = 142 ∧ file_meta_fd.length = 152) ∧
    ∀ (ext : Ext) (parse_all need_rescale : Bool),
      (Dicom.parse true ext Dicom.default (IStream.ofBytes file_meta_ae) parse_all
          need_rescale).map (fun o => o.error) =
        some (some (.ParseError "Unknown VR found")) ∧
      (Dicom.parse true ext Dicom.default (IStream.ofBytes file_meta_fd) parse_all
          need_rescale).map (fun o => o.error) =
        some (some (.MissingTagError "Could not found Photometric Interpretation Tag")) :=
  ⟨by decide, fun ext parse_all need_rescale => by
    cases parse_all
    · exact ⟨by rfl, by rfl⟩
    · exact ⟨by rfl, by rfl⟩⟩

/-- C31. Let the input hold the magic at offset 128, and let the bytes behind
it be a run of elements `es`, all of group 0x0002, that `Element::parse`, for an
object in mode Little-Endian Explicit-VR, returns one after the other, each
starting where the one before ends and the last ending at the end of the input
(`es` may be empty). Then the statements of `parse` up to the end of its first
loop leave with the `StreamError` of the call of `parse_tag` that finds no byte
at the end of the input; this call is not inside the `try` of the second loop.
So `parse` leaves with that `StreamError`, for either value of its flags, with
the elements stored and the metadata still at the values of the reset: the
summary extraction is not reached, and the exception is no `MissingTagError`. -/
theorem C31_meta_only_stream_error (host_le : Bool) (ext : Ext) (d : Dicom)
    (bs : List Byte) (es : List (Element × Nat)) (parse_all need_rescale : Bool)
    (hlen : 132 ≤ bs.length) (hmagic : (bs.drop 128).take 4 = bytesOf "DICM")
    (hdec : Dicom.decodes_from host_le
      { Dicom.default with _architecture_as_little_endian := host_le } bs 132 es)
    (hgrp : ∀ x ∈ es, x.1._tag.id0 = TAG_GROUP_META)
    (hend : end_offset 132 es = bs.length) :
    Dicom.parse_meta host_le d (IStream.ofBytes bs) =
      some ⟨some (.StreamError ""),
        { d with _architecture_as_little_endian := host_le,
                 _cols := 0, _rows := 0, _bits := 0, _chs := 0, _is_signed := false,
                 _px_spacing_row := .val 0, _px_spacing_col := .val 0,
                 _image_pos_x := .nan, _image_pos_y := .nan, _image_pos_z := .nan,
                 _element := store_all host_le [] es,
                 _format_as_little_endian := true, _format_as_explicit := true,
                 _format_as_deflate := false },
        ⟨bs, bs.length, true, true⟩⟩ ∧
    Dicom.parse host_le ext d (IStream.ofBytes bs) parse_all need_rescale =
      some ⟨some (.StreamError ""),
        { d with _architecture_as_little_endian := host_le,
                 _cols := 0, _rows := 0, _bits := 0, _chs := 0, _is_signed := false,
                 _px_spacing_row := .val 0, _px_spacing_col := .val 0,
                 _image_pos_x := .nan, _image_pos_y := .nan, _image_pos_z := .nan,
                 _element := store_all host_le [] es,
                 _format_as_little_endian := true, _format_as_explicit := true,
                 _format_as_deflate := false },
        ⟨bs, bs.length, true, true⟩⟩ ∧
    (∀ (dx : Dicom) (e : Element),
      Element.parse_tag host_le dx e ⟨bs, end_offset 132 es, false, false⟩ =
        (.error (.StreamError ""), ⟨bs, bs.length, true, true⟩)) ∧
    (∀ w : String,
      (Dicom.parse host_le ext d (IStream.ofBytes bs) parse_all need_rescale).map
          (fun o => o.error) ≠ some (some (.MissingTagError w))) := by
  have hm : Dicom.parse_meta host_le d (IStream.ofBytes bs) =
      some ⟨some (.StreamError ""),
        { d with _architecture_as_little_endian := host_le,
                 _cols := 0, _rows := 0, _bits := 0, _chs := 0, _is_signed := false,
                 _px_spacing_row := .val 0, _px_spacing_col := .val 0,
                 _image_pos_x := .nan, _image_pos_y := .nan, _image_pos_z := .nan,
                 _element := store_all host_le [] es,
                 _format_as_little_endian := true, _format_as_explicit := true,
                 _format_as_deflate := false },
        ⟨bs, bs.length, true, true⟩⟩ := by
    rw [Dicom.parse_meta_magic host_le d bs ⟨hlen, hmagic⟩]
    obtain ⟨o, ho, -⟩ := Dicom.parse_meta_loop_spec host_le (bs.length + 1)
      { d with _architecture_as_little_endian := host_le,
               _cols := 0, _rows := 0, _bits := 0, _chs := 0, _is_signed := false,
               _px_spacing_row := .val 0, _px_spacing_col := .val 0,
               _image_pos_x := .nan, _image_pos_y := .nan, _image_pos_z := .nan,
               _element := [],
               _format_as_little_endian := true, _format_as_explicit := true,
               _format_as_deflate := false }
      ⟨bs, 132, false, false⟩
      (by simp only [IStream.rest, List.length_drop]; omega)
    rw [ho]
    have key := fun hd =>
      Dicom.parse_meta_loop_of_decodes host_le bs es _ _ 132 o hd hgrp hend ho
    rw [key (by
      refine Dicom.decodes_from_flags host_le
        { Dicom.default with _architecture_as_little_endian := host_le } _ bs ?_ ?_ ?_
        es 132 hdec <;> rfl)]
  have hp : Dicom.parse host_le ext d (IStream.ofBytes bs) parse_all need_rescale =
      some ⟨some (.StreamError ""),
        { d with _architecture_as_little_endian := host_le,
                 _cols := 0, _rows := 0, _bits := 0, _chs := 0, _is_signed := false,
                 _px_spacing_row := .val 0, _px_spacing_col := .val 0,
                 _image_pos_x := .nan, _image_pos_y := .nan, _image_pos_z := .nan,
                 _element := store_all host_le [] es,
                 _format_as_little_endian := true, _format_as_explicit := true,
                 _format_as_deflate := false },
        ⟨bs, bs.length, true, true⟩⟩ := by
    unfold Dicom.parse Dicom.parse_file
    rw [hm]
  refine ⟨hm, hp, fun dx e => ?_, fun w => ?_⟩
  · rw [hend]
    exact Element.parse_tag_at_end host_le dx e bs
  · rw [hp]
    simp

/-- C31, at two instances: the input of 132 bytes that holds nothing but the
magic, with no element, and the input that holds the magic and the Transfer
Syntax UID element of scenario S1. -/
theorem C31_meta_only_stream_error_witness :
    (file_magic_only.length = 132 ∧ file_meta_uid.length = 160) ∧
    ∀ (ext : Ext) (parse_all need_rescale : Bool),
      (Dicom.parse true ext Dicom.default (IStream.ofBytes file_magic_only) parse_all
          need_rescale).map (fun o => (o.error, o.dicom._element)) =
        some (some (.StreamError ""), []) ∧
      (Dicom.parse true ext Dicom.default (IStream.ofBytes file_meta_uid) parse_all
          need_rescale).map (fun o => (o.error, o.dicom._element)) =
        some (some (.StreamError ""),
          [(TAG_TRANSFER_SYNTAX_UID.number true,
            stored_element TAG_TRANSFER_SYNTAX_UID 0x5549 (.string (UID_LEE ++ [0x00])))]) :=
  ⟨by decide, fun ext parse_all need_rescale =>
    ⟨by
      rw [(C31_meta_only_stream_error true ext Dicom.default file_magic_only [] parse_all
        need_rescale (by decide) (by decide) trivial (fun x hx => absurd hx (List.not_mem_nil x))
        (by decide)).2.1]
      rfl,
     by
      rw [(C31_meta_only_stream_error true ext Dicom.default file_meta_uid
        [(stored_element TAG_TRANSFER_SYNTAX_UID 0x5549 (.string (UID_LEE ++ [0x00])), 160)]
        parse_all need_rescale (by decide) (by decide) ⟨by rfl, trivial⟩
        (fun x hx => by
          rw [List.mem_singleton] at hx
          rw [hx]
          rfl)
        (by decide)).2.1]
      rfl⟩⟩

end VVV
